import Mathlib

/-!
# gollection: binary search tree and priority queue

A shallow embedding of `tree/tree.go` and `queue/pq.go` together with the
properties stated for them.  Go pointers to nodes are modelled by an inductive
tree (`nil` is the nil pointer); the in-place mutation of a node is modelled by
rebuilding the node, which is faithful because every node is owned by exactly
one parent.  Go `int` indices are modelled by `Nat`: every index the code
computes is bounded by twice the length of a slice, far below the overflow
range of a 64-bit `int`.
-/

set_option autoImplicit false

/-! ## tree/tree.go -/

namespace tree

/-- A value of type `*node[K, V]`: the nil pointer or a node record. -/
inductive node (K V : Type) where
  | nil : node K V
  | mk (key : K) (val : V) (left right : node K V) : node K V
  deriving DecidableEq, Repr

/-- The `BinaryTree[K, V]` struct: a root and the comparator. -/
structure BinaryTree (K V : Type) where
  root : node K V
  cmp : K → K → Int

/-- `NewBinaryTree(cmp)`: the empty tree with the given comparator. -/
def NewBinaryTree {K V : Type} (cmp : K → K → Int) : BinaryTree K V :=
  { root := node.nil, cmp := cmp }

/-- The recursive `put(n, k, v, cmp)`. -/
def put {K V : Type} (n : node K V) (k : K) (v : V) (cmp : K → K → Int) : node K V :=
  match n with
  | node.nil => node.mk k v node.nil node.nil
  | node.mk key val left right =>
    let s := cmp k key
    if s < 0 then node.mk key val (put left k v cmp) right
    else if s > 0 then node.mk key val left (put right k v cmp)
    else node.mk key v left right

/-- `t.Put(k, v)`. -/
def BinaryTree.Put {K V : Type} (t : BinaryTree K V) (k : K) (v : V) : BinaryTree K V :=
  { t with root := put t.root k v t.cmp }

/-- The loop of `Get`, started at `cur`; the result is the pair `(value, ok)`
and `default` plays the role of Go's zero value. -/
def getLoop {K V : Type} [Inhabited V] (cmp : K → K → Int) (cur : node K V) (k : K) : V × Bool :=
  match cur with
  | node.nil => (default, false)
  | node.mk key val left right =>
    let s := cmp k key
    if s = 0 then (val, true)
    else if s < 0 then getLoop cmp left k
    else getLoop cmp right k

/-- `t.Get(k)`. -/
def BinaryTree.Get {K V : Type} [Inhabited V] (t : BinaryTree K V) (k : K) : V × Bool :=
  getLoop t.cmp t.root k

/-- `t.Contains(k)`. -/
def BinaryTree.Contains {K V : Type} [Inhabited V] (t : BinaryTree K V) (k : K) : Bool :=
  (t.Get k).2

/-- `findMin(n)`: the leftmost node below `n`.  Go dereferences `n`, so the
call on a nil pointer does not return; `deleteNode` only calls it on a non-nil
right child, and the nil case here is never reached from there. -/
def findMin {K V : Type} (n : node K V) : node K V :=
  match n with
  | node.nil => node.nil
  | node.mk key val node.nil right => node.mk key val node.nil right
  | node.mk _ _ (node.mk lk lv ll lr) _ => findMin (node.mk lk lv ll lr)

/-- Whether a node pointer is nil. -/
def node.isNil {K V : Type} : node K V → Bool
  | node.nil => true
  | node.mk _ _ _ _ => false

/-- The recursive `deleteNode(n, k, cmp)`. -/
def deleteNode {K V : Type} (n : node K V) (k : K) (cmp : K → K → Int) : node K V :=
  match n with
  | node.nil => node.nil
  | node.mk key val left right =>
    let s := cmp k key
    if s < 0 then node.mk key val (deleteNode left k cmp) right
    else if s > 0 then node.mk key val left (deleteNode right k cmp)
    else if left.isNil then right
    else if right.isNil then left
    else
      match findMin right with
      | node.mk skey sval _ _ => node.mk skey sval left (deleteNode right skey cmp)
      | node.nil => node.mk key val left right

/-- `t.Delete(k)`: the returned flag and the tree afterwards. -/
def BinaryTree.Delete {K V : Type} [Inhabited V] (t : BinaryTree K V) (k : K) :
    Bool × BinaryTree K V :=
  if !t.Contains k then (false, t)
  else (true, { t with root := deleteNode t.root k t.cmp })

/-! ### Specification vocabulary for the tree -/

/-- In-order list of the `(key, value)` entries below a node. -/
def inorder {K V : Type} : node K V → List (K × V)
  | node.nil => []
  | node.mk key val left right => inorder left ++ (key, val) :: inorder right

/-- In-order list of the keys below a node. -/
def keys {K V : Type} (n : node K V) : List K := (inorder n).map Prod.fst

/-- Number of nodes below a node. -/
def size {K V : Type} : node K V → Nat
  | node.nil => 0
  | node.mk _ _ left right => size left + 1 + size right

/-- The shape of a tree together with the key stored in every node (values
forgotten). -/
def skeleton {K V : Type} : node K V → node K Unit
  | node.nil => node.nil
  | node.mk key _ left right => node.mk key () (skeleton left) (skeleton right)

/-- The BST invariant: at every node all keys of the left subtree compare
LESS and all keys of the right subtree compare GREATER than the node's key. -/
def IsBST {K V : Type} (cmp : K → K → Int) : node K V → Prop
  | node.nil => True
  | node.mk key _ left right =>
    (∀ x ∈ keys left, cmp x key < 0) ∧ (∀ x ∈ keys right, 0 < cmp x key) ∧
      IsBST cmp left ∧ IsBST cmp right

/-- A comparator that is a consistent total (pre)order: its sign is
antisymmetric, LESS is transitive, and keys that compare EQUAL compare alike
against every third key.  Distinct keys are allowed to compare EQUAL. -/
structure TotalCmp {K : Type} (cmp : K → K → Int) : Prop where
  refl : ∀ a, cmp a a = 0
  antisymm : ∀ a b, cmp a b < 0 ↔ 0 < cmp b a
  trans : ∀ a b c, cmp a b < 0 → cmp b c < 0 → cmp a c < 0
  eq_congr : ∀ a b c, cmp a b = 0 → (cmp a c < 0 ↔ cmp b c < 0)

/-- The comparator `intCmp` of the tests. -/
def intCmp (a b : Int) : Int :=
  if a < b then -1 else if a > b then 1 else 0

/-- Looks a key up in a list of entries: the value of the first entry whose
key compares EQUAL to `k`, with the found flag. -/
def lookupEntry {K V : Type} [Inhabited V] (cmp : K → K → Int) (es : List (K × V)) (k : K) :
    V × Bool :=
  match es.find? (fun e => decide (cmp k e.1 = 0)) with
  | some e => (e.2, true)
  | none => (default, false)

/-- Removes from a list of entries those whose key compares EQUAL to `k`. -/
def removeKey {K V : Type} (cmp : K → K → Int) (es : List (K × V)) (k : K) : List (K × V) :=
  es.filter (fun e => decide (cmp k e.1 ≠ 0))

/-- Applies a sequence of `Put` calls, in order. -/
def putAll {K V : Type} (t : BinaryTree K V) (ops : List (K × V)) : BinaryTree K V :=
  ops.foldl (fun t kv => t.Put kv.1 kv.2) t

/-- A mutating call on a tree: `Put(k, v)` or `Delete(k)`. -/
inductive Op (K V : Type) where
  | put (k : K) (v : V) : Op K V
  | delete (k : K) : Op K V

/-- The tree after one mutating call. -/
def BinaryTree.step {K V : Type} [Inhabited V] (t : BinaryTree K V) : Op K V → BinaryTree K V
  | Op.put k v => t.Put k v
  | Op.delete k => (t.Delete k).2

/-- The tree obtained from `NewBinaryTree(cmp)` by a sequence of mutating calls. -/
def run {K V : Type} [Inhabited V] (cmp : K → K → Int) (ops : List (Op K V)) : BinaryTree K V :=
  ops.foldl BinaryTree.step (NewBinaryTree cmp)

/-- The tree of the tests: keys 5, 3, 7, 1, 4, 6, 9 put in this order. -/
def sampleTree : BinaryTree Int String :=
  putAll (NewBinaryTree intCmp)
    [(5, "five"), (3, "three"), (7, "seven"), (1, "one"), (4, "four"), (6, "six"), (9, "nine")]

end tree

/-! ## queue/pq.go -/

namespace queue

/-- The `genericHeap[T]` struct: the backing slice and the ordering function. -/
structure genericHeap (T : Type) where
  data : List T
  less : T → T → Bool

/-- `h.Len()`. -/
def genericHeap.Len {T : Type} (h : genericHeap T) : Nat := h.data.length

/-- `h.Less(i, j)`: `h.less(h.data[i], h.data[j])`.  An index out of range
makes Go panic; the heap algorithms only pass indices below the length, and
the value returned here for the other case is never used by them. -/
def genericHeap.Less {T : Type} (h : genericHeap T) (i j : Nat) : Bool :=
  match h.data[i]?, h.data[j]? with
  | some a, some b => h.less a b
  | _, _ => false

/-- `h.Swap(i, j)`: exchanges the elements at `i` and `j` (out of range: Go
panics, never reached by the heap algorithms). -/
def genericHeap.Swap {T : Type} (h : genericHeap T) (i j : Nat) : genericHeap T :=
  match h.data[i]?, h.data[j]? with
  | some a, some b => { data := (h.data.set i b).set j a, less := h.less }
  | _, _ => h

/-- `h.Push(x)`: appends to the backing slice. -/
def genericHeap.Push {T : Type} (h : genericHeap T) (x : T) : genericHeap T :=
  { data := h.data ++ [x], less := h.less }

/-- `h.Pop()`: returns the last element and shrinks the slice by one; `none`
stands for the panic of indexing an empty slice. -/
def genericHeap.Pop {T : Type} (h : genericHeap T) : Option T × genericHeap T :=
  (h.data[h.data.length - 1]?, { data := h.data.take (h.data.length - 1), less := h.less })

end queue

/-! ## container/heap

`queue/pq.go` delegates to the Go standard library package `container/heap`,
whose source is not part of the repository.  Its functions `up`, `down`,
`Init`, `Push` and `Pop` are given here as sections 3 and 4.2 of the
specification describe them (append and sift up; swap root and last, sift the
new root down, shrink), written over the `genericHeap` methods above. -/

namespace heap

open queue

/-- Modelled from the spec: the sift-up loop of `container/heap` (not in the
repository): while `j` is not the root and `Less(j, parent)`, swap with the
parent `(j - 1) / 2` and continue there.  The first argument bounds the
number of iterations. -/
def upLoop {T : Type} : Nat → genericHeap T → Nat → genericHeap T
  | 0, h, _ => h
  | fuel + 1, h, j =>
    let i := (j - 1) / 2
    if i = j ∨ !h.Less j i then h
    else upLoop fuel (h.Swap i j) i

/-- Modelled from the spec: `up(h, j)` of `container/heap`.  The index strictly
decreases, so `j + 1` iterations are enough. -/
def up {T : Type} (h : genericHeap T) (j : Nat) : genericHeap T := upLoop (j + 1) h j

/-- Modelled from the spec: the sift-down loop of `container/heap` (not in the
repository) on the first `n` elements: the candidate is the left child
`2 * i + 1`, or the right child when it exists and `Less(right, left)`; stop
when there is no child or the candidate is not `Less` than the element, else
swap and continue at the candidate.  Returns the heap and the final index. -/
def downLoop {T : Type} : Nat → genericHeap T → Nat → Nat → genericHeap T × Nat
  | 0, h, i, _ => (h, i)
  | fuel + 1, h, i, n =>
    let j1 := 2 * i + 1
    if j1 ≥ n then (h, i)
    else
      let j := if j1 + 1 < n ∧ h.Less (j1 + 1) j1 then j1 + 1 else j1
      if !h.Less j i then (h, i)
      else downLoop fuel (h.Swap i j) j n

/-- Modelled from the spec: `down(h, i0, n)` of `container/heap`; the flag
tells whether the element moved.  The index strictly increases and stays
below `n`, so `n` iterations are enough. -/
def down {T : Type} (h : genericHeap T) (i0 n : Nat) : genericHeap T × Bool :=
  let r := downLoop n h i0 n
  (r.1, decide (r.2 > i0))

/-- Modelled from the spec: `heap.Init(h)` of `container/heap`: sifts down
every index from `n / 2 - 1` to `0`. -/
def Init {T : Type} (h : genericHeap T) : genericHeap T :=
  let n := h.Len
  (List.range (n / 2)).reverse.foldl (fun h i => (down h i n).1) h

/-- Modelled from the spec: `heap.Push(h, x)` of `container/heap`: append,
then sift the new last element up. -/
def Push {T : Type} (h : genericHeap T) (x : T) : genericHeap T :=
  let h1 := h.Push x
  up h1 (h1.Len - 1)

/-- Modelled from the spec: `heap.Pop(h)` of `container/heap`: swap the root
with the last element, sift the new root down within the first `n` elements,
then remove and return the last element. -/
def Pop {T : Type} (h : genericHeap T) : Option T × genericHeap T :=
  let n := h.Len - 1
  let h1 := h.Swap 0 n
  let h2 := (down h1 0 n).1
  h2.Pop

end heap

namespace queue

/-- The `PriorityQueue[T]` struct. -/
structure PriorityQueue (T : Type) where
  h : genericHeap T

/-- `NewPriorityQueue(less)`. -/
def NewPriorityQueue {T : Type} (less : T → T → Bool) : PriorityQueue T :=
  { h := heap.Init { data := [], less := less } }

/-- `pq.Push(v)`. -/
def PriorityQueue.Push {T : Type} (pq : PriorityQueue T) (v : T) : PriorityQueue T :=
  { h := heap.Push pq.h v }

/-- `pq.Pop()`: the pair `(value, ok)` and the queue afterwards; `default`
plays the role of Go's zero value. -/
def PriorityQueue.Pop {T : Type} [Inhabited T] (pq : PriorityQueue T) :
    (T × Bool) × PriorityQueue T :=
  if pq.h.Len = 0 then ((default, false), pq)
  else
    match heap.Pop pq.h with
    | (some v, h') => ((v, true), { h := h' })
    | (none, h') => ((default, false), { h := h' })

/-- `pq.Peek()`. -/
def PriorityQueue.Peek {T : Type} [Inhabited T] (pq : PriorityQueue T) : T × Bool :=
  if pq.h.Len = 0 then (default, false)
  else
    match pq.h.data[0]? with
    | some v => (v, true)
    | none => (default, false)

/-- `pq.Len()`. -/
def PriorityQueue.Len {T : Type} (pq : PriorityQueue T) : Nat := pq.h.Len

/-- `pq.IsEmpty()`. -/
def PriorityQueue.IsEmpty {T : Type} (pq : PriorityQueue T) : Bool := decide (pq.h.Len = 0)

/-- `pq.Clear()`. -/
def PriorityQueue.Clear {T : Type} (pq : PriorityQueue T) : PriorityQueue T :=
  { h := { data := [], less := pq.h.less } }

/-- `PriorityQueueFromSlice(items, less)`: pushes the items one by one. -/
def PriorityQueueFromSlice {T : Type} (items : List T) (less : T → T → Bool) :
    PriorityQueue T :=
  items.foldl (fun pq item => pq.Push item) (NewPriorityQueue less)

/-- `pq.Clone()`: a new heap with a copy of the data and the same ordering. -/
def PriorityQueue.Clone {T : Type} (pq : PriorityQueue T) : PriorityQueue T :=
  { h := { data := pq.h.data, less := pq.h.less } }

/-! ### Specification vocabulary for the priority queue -/

/-- A mutating call on a priority queue: `Push(v)` or `Pop()`. -/
inductive PQOp (T : Type) where
  | push (v : T) : PQOp T
  | pop : PQOp T

/-- The queue after one mutating call. -/
def PriorityQueue.step {T : Type} [Inhabited T] (pq : PriorityQueue T) :
    PQOp T → PriorityQueue T
  | PQOp.push v => pq.Push v
  | PQOp.pop => pq.Pop.2

/-- The queue obtained from `NewPriorityQueue(less)` by a sequence of calls. -/
def runOps {T : Type} [Inhabited T] (less : T → T → Bool) (ops : List (PQOp T)) :
    PriorityQueue T :=
  ops.foldl PriorityQueue.step (NewPriorityQueue less)

/-- The loop `for pq.Len() > 0 { v, _ := pq.Pop(); ... }` of the tests: pops
until a pop reports not-found, collecting the values; the first argument
bounds the number of iterations.  Returns the values and the final queue. -/
def popAll {T : Type} [Inhabited T] : Nat → PriorityQueue T → List T × PriorityQueue T
  | 0, pq => ([], pq)
  | fuel + 1, pq =>
    match pq.Pop with
    | ((v, true), pq') => ((popAll fuel pq').1.cons v, (popAll fuel pq').2)
    | ((_, false), pq') => ([], pq')

/-- A strict weak ordering: irreflexive, transitive, and with a transitive
incomparability relation. -/
structure StrictWeakOrder {T : Type} (less : T → T → Bool) : Prop where
  irrefl : ∀ a, less a a = false
  trans : ∀ a b c, less a b = true → less b c = true → less a c = true
  incomp_trans : ∀ a b c, less a b = false → less b a = false → less b c = false →
    less c b = false → less a c = false ∧ less c a = false

/-- The heap invariant on the first `n` elements of a slice: no element at a
non-root index `c < n` is `less` than its parent at `(c - 1) / 2`. -/
def HeapOrdered {T : Type} (less : T → T → Bool) (xs : List T) (n : Nat) : Prop :=
  ∀ c a b, 0 < c → c < n → xs[c]? = some a → xs[(c - 1) / 2]? = some b → less a b = false

/-- The ordering `a < b` on integers used by the tests. -/
def intLess (a b : Int) : Bool := decide (a < b)

/-- The ordering function applied to two slice reads, false when a read is
out of range; `h.Less i j` is `lessOpt h.less h.data[i]? h.data[j]?`. -/
def lessOpt {T : Type} (less : T → T → Bool) : Option T → Option T → Bool
  | some a, some b => less a b
  | _, _ => false

/-- The index map of `Swap(i, j)`: position `k` afterwards holds what was at
`swapIdx i j k`. -/
def swapIdx (i j k : Nat) : Nat := if k = i then j else if k = j then i else k

/-- Loop invariant of sift-up at index `j`, on the slice seen as a map from
indices: the heap order holds at every index but `j`, and the children of `j`
are in order with the parent of `j`. -/
def UpInv {T : Type} (less : T → T → Bool) (f : Nat → Option T) (j : Nat) : Prop :=
  (∀ c, 0 < c → c ≠ j → lessOpt less (f c) (f ((c - 1) / 2)) = false) ∧
    (∀ c, 0 < j → 0 < c → (c - 1) / 2 = j → lessOpt less (f c) (f ((j - 1) / 2)) = false)

/-- Loop invariant of sift-down at index `i` within the first `n` elements:
the heap order holds at every index whose parent is not `i`, and the children
of `i` are in order with the parent of `i`. -/
def DownInv {T : Type} (less : T → T → Bool) (f : Nat → Option T) (n i : Nat) : Prop :=
  (∀ c, 0 < c → c < n → (c - 1) / 2 ≠ i → lessOpt less (f c) (f ((c - 1) / 2)) = false) ∧
    (∀ c, 0 < i → 0 < c → c < n → (c - 1) / 2 = i →
      lessOpt less (f c) (f ((i - 1) / 2)) = false)

/-- The heap order on the first `n` indices of a map from indices. -/
def HeapUpTo {T : Type} (less : T → T → Bool) (f : Nat → Option T) (n : Nat) : Prop :=
  ∀ c, 0 < c → c < n → lessOpt less (f c) (f ((c - 1) / 2)) = false

end queue

namespace queue

/-- The heap invariant in its children form: an element at index `2 * i + 1`
or `2 * i + 2` is never `less` than the element at index `i`. -/
def HeapChildren {T : Type} (less : T → T → Bool) (xs : List T) : Prop :=
  ∀ i c a b, c = 2 * i + 1 ∨ c = 2 * i + 2 → xs[c]? = some a → xs[i]? = some b →
    less a b = false

/-- One mutating call on a queue together with two counters: the `Push`
calls so far and the `Pop` calls so far that returned found = true. -/
def PriorityQueue.stepCount {T : Type} [Inhabited T] (s : PriorityQueue T × Nat × Nat) :
    PQOp T → PriorityQueue T × Nat × Nat
  | PQOp.push v => (s.1.Push v, s.2.1 + 1, s.2.2)
  | PQOp.pop => (s.1.Pop.2, s.2.1, if s.1.Pop.1.2 then s.2.2 + 1 else s.2.2)

/-- Runs a sequence of calls on a new queue, counting pushes and successful pops. -/
def runCount {T : Type} [Inhabited T] (less : T → T → Bool) (ops : List (PQOp T)) :
    PriorityQueue T × Nat × Nat :=
  ops.foldl PriorityQueue.stepCount (NewPriorityQueue less, 0, 0)

end queue

/-! ## algorithms/sort.go and algorithms/search.go

Slice indices are Go `int`s and are kept as `Int` here; a read or write at an
index outside the slice makes Go panic, which is `none` in the embedding. -/

namespace algorithms

/-- The read `a[i]`: `none` when `i` is out of range. -/
def getAt {T : Type} (a : List T) (i : Int) : Option T :=
  if i < 0 then none else a[i.toNat]?

/-- The exchange `a[i], a[j] = a[j], a[i]`: `none` when an index is out of range. -/
def swapAt {T : Type} (a : List T) (i j : Int) : Option (List T) :=
  match getAt a i, getAt a j with
  | some x, some y => some ((a.set i.toNat y).set j.toNat x)
  | _, _ => none

/-- The loop `for j := lo; j < hi; j++` of `partition`, with the number of
iterations left as first argument; the state is the slice, `i` and `j`. -/
def partitionLoop {T : Type} (less : T → T → Bool) (pivot : T) (hi : Int) :
    Nat → List T → Int → Int → Option (List T × Int)
  | 0, a, i, j => if j < hi then none else some (a, i)
  | n + 1, a, i, j =>
    if j < hi then
      match getAt a j with
      | none => none
      | some x =>
        if less x pivot then
          match swapAt a i j with
          | none => none
          | some a1 => partitionLoop less pivot hi n a1 (i + 1) (j + 1)
        else partitionLoop less pivot hi n a i (j + 1)
    else some (a, i)

/-- `partition(a, lo, hi, less)`: the slice afterwards and the returned index. -/
def partition {T : Type} (a : List T) (lo hi : Int) (less : T → T → Bool) :
    Option (List T × Int) :=
  match getAt a hi with
  | none => none
  | some pivot =>
    match partitionLoop less pivot hi (hi - lo).toNat a lo lo with
    | none => none
    | some (a1, i) =>
      match swapAt a1 i hi with
      | none => none
      | some a2 => some (a2, i)

/-- `quickSort(a, lo, hi, less)`.  One unfolding is one iteration of
`for lo < hi`: partition, recurse on the smaller side, then go on with the
other side (`lo = p + 1` or `hi = p - 1`).  The first argument bounds the
nesting of iterations and calls; `none` when it runs out or an index is out
of range. -/
def quickSort {T : Type} (less : T → T → Bool) : Nat → List T → Int → Int → Option (List T)
  | 0, a, lo, hi => if lo < hi then none else some a
  | fuel + 1, a, lo, hi =>
    if lo < hi then
      match partition a lo hi less with
      | none => none
      | some (a1, p) =>
        if p - lo < hi - p then
          match quickSort less fuel a1 lo (p - 1) with
          | none => none
          | some a2 => quickSort less fuel a2 (p + 1) hi
        else
          match quickSort less fuel a1 (p + 1) hi with
          | none => none
          | some a2 => quickSort less fuel a2 lo (p - 1)
    else some a

/-- `QuickSort(arr, less)`: the slice afterwards.  A range of `n` elements
needs at most `n` nested iterations. -/
def QuickSort {T : Type} (arr : List T) (less : T → T → Bool) : Option (List T) :=
  if arr.length < 2 then some arr
  else quickSort less arr.length arr 0 ((arr.length : Int) - 1)

/-- The loop `for lo <= hi` of `BinarySearch`, with the number of iterations
left as first argument; `Int.tdiv` is Go's truncating division. -/
def searchLoop {T : Type} (arr : List T) (target : T) (cmp : T → T → Int) :
    Nat → Int → Int → Option Int
  | 0, lo, hi => if lo ≤ hi then none else some (-1)
  | fuel + 1, lo, hi =>
    if lo ≤ hi then
      let mid := lo + (hi - lo).tdiv 2
      match getAt arr mid with
      | none => none
      | some x =>
        let c := cmp x target
        if c = 0 then some mid
        else if c < 0 then searchLoop arr target cmp fuel (mid + 1) hi
        else searchLoop arr target cmp fuel lo (mid - 1)
    else some (-1)

/-- `BinarySearch(arr, target, cmp)`.  The range shrinks in every iteration,
so `len(arr)` iterations are enough. -/
def BinarySearch {T : Type} (arr : List T) (target : T) (cmp : T → T → Int) : Option Int :=
  searchLoop arr target cmp arr.length 0 ((arr.length : Int) - 1)

end algorithms

/-! ## queue/pq.go over an explicit memory

The definitions above treat a queue as a value.  To speak about two queues
that might share storage, the same code is given here over a memory of
`genericHeap` objects and slice backing arrays: a `*genericHeap` is the index
of an object, a slice is a backing array (by index) with a length, and its
capacity is the size of that array (pq.go only reslices as `data[:n-1]`, so
every slice starts at the first cell of its array). -/

namespace store

/-- A slice header: the backing array (`none` for the nil slice) and the length. -/
structure Slice where
  arr : Option Nat
  len : Nat

/-- A `genericHeap[T]` object in memory. -/
structure Obj (T : Type) where
  data : Slice
  less : T → T → Bool

/-- The memory: backing arrays, `genericHeap` objects, and the allocator's
policy for `append` (how many spare cells a grown array of a given length
gets; Go leaves it to the implementation). -/
structure Mem (T : Type) where
  arrays : List (List T)
  objs : List (Obj T)
  spare : Nat → Nat

/-- The `PriorityQueue[T]` struct: it holds the pointer `h` and is never
assigned to after construction. -/
structure PQ where
  h : Nat

/-- The cells of the backing array of a slice (none for the nil slice). -/
def Mem.cells {T : Type} (m : Mem T) (s : Slice) : List T :=
  match s.arr with
  | none => []
  | some a => (m.arrays[a]?).getD []

/-- The memory with the slice header of object `p` replaced (`h.data = s`). -/
def Mem.setData {T : Type} (m : Mem T) (p : Nat) (s : Slice) : Mem T :=
  match m.objs[p]? with
  | none => m
  | some o => { arrays := m.arrays, objs := m.objs.set p { data := s, less := o.less },
                spare := m.spare }

/-- The memory with the cells of backing array `a` replaced. -/
def Mem.setArray {T : Type} (m : Mem T) (a : Nat) (cs : List T) : Mem T :=
  { arrays := m.arrays.set a cs, objs := m.objs, spare := m.spare }

/-- The memory with one more backing array; its index is `m.arrays.length`. -/
def Mem.alloc {T : Type} (m : Mem T) (cs : List T) : Mem T :=
  { arrays := m.arrays ++ [cs], objs := m.objs, spare := m.spare }

/-- The memory with one more `genericHeap` object; its index is `m.objs.length`. -/
def Mem.allocObj {T : Type} (m : Mem T) (o : Obj T) : Mem T :=
  { arrays := m.arrays, objs := m.objs ++ [o], spare := m.spare }

/-- The object at `p` read as a value: the first `len` cells of its backing
array and its ordering function. -/
def Mem.view {T : Type} (m : Mem T) (p : Nat) : queue.genericHeap T :=
  match m.objs[p]? with
  | none => { data := [], less := fun _ _ => false }
  | some o => { data := (m.cells o.data).take o.data.len, less := o.less }

/-- `h.Len()`. -/
def gLen {T : Type} (m : Mem T) (p : Nat) : Nat := (m.view p).Len

/-- `h.Less(i, j)`: reads two elements through the slice. -/
def gLess {T : Type} (m : Mem T) (p i j : Nat) : Bool := (m.view p).Less i j

/-- `h.Swap(i, j)`: writes the two cells of the backing array (an index not
below the length makes Go panic; nothing is written then). -/
def gSwap {T : Type} (m : Mem T) (p i j : Nat) : Mem T :=
  match m.objs[p]? with
  | none => m
  | some o =>
    match o.data.arr with
    | none => m
    | some a =>
      match ((m.cells o.data).take o.data.len)[i]?, ((m.cells o.data).take o.data.len)[j]? with
      | some x, some y => m.setArray a (((m.cells o.data).set i y).set j x)
      | _, _ => m

/-- `h.Push(x)`, that is `h.data = append(h.data, x)`: when the length is
below the capacity the next cell of the same backing array is written;
otherwise a new array is allocated, the elements are copied, `x` is added
and the spare cells hold the zero value. -/
def gPush {T : Type} [Inhabited T] (m : Mem T) (p : Nat) (x : T) : Mem T :=
  match m.objs[p]? with
  | none => m
  | some o =>
    if o.data.len < (m.cells o.data).length then
      match o.data.arr with
      | none => m
      | some a =>
        (m.setArray a ((m.cells o.data).set o.data.len x)).setData p
          { arr := some a, len := o.data.len + 1 }
    else
      (m.alloc ((m.cells o.data).take o.data.len ++
          x :: List.replicate (m.spare (o.data.len + 1)) default)).setData p
        { arr := some m.arrays.length, len := o.data.len + 1 }

/-- `h.Pop()`: reads the last element and reslices to `data[:n-1]`; the
backing array is not written. -/
def gPop {T : Type} (m : Mem T) (p : Nat) : Option T × Mem T :=
  match m.objs[p]? with
  | none => (none, m)
  | some o =>
    (((m.cells o.data).take o.data.len)[o.data.len - 1]?,
      m.setData p { arr := o.data.arr, len := o.data.len - 1 })

/-- Modelled from the spec: the sift-up loop of `container/heap`, as
`heap.upLoop`, over an object in memory. -/
def upLoop {T : Type} : Nat → Mem T → Nat → Nat → Mem T
  | 0, m, _, _ => m
  | fuel + 1, m, p, j =>
    let i := (j - 1) / 2
    if i = j ∨ !gLess m p j i then m
    else upLoop fuel (gSwap m p i j) p i

/-- Modelled from the spec: the sift-down loop of `container/heap`, as
`heap.downLoop`, over an object in memory. -/
def downLoop {T : Type} : Nat → Mem T → Nat → Nat → Nat → Mem T × Nat
  | 0, m, _, i, _ => (m, i)
  | fuel + 1, m, p, i, n =>
    let j1 := 2 * i + 1
    if j1 ≥ n then (m, i)
    else
      let j := if j1 + 1 < n ∧ gLess m p (j1 + 1) j1 then j1 + 1 else j1
      if !gLess m p j i then (m, i)
      else downLoop fuel (gSwap m p i j) p j n

/-- Modelled from the spec: `heap.Push(h, x)` over an object in memory. -/
def hPush {T : Type} [Inhabited T] (m : Mem T) (p : Nat) (x : T) : Mem T :=
  let m1 := gPush m p x
  upLoop (gLen m1 p - 1 + 1) m1 p (gLen m1 p - 1)

/-- Modelled from the spec: `heap.Pop(h)` over an object in memory. -/
def hPop {T : Type} (m : Mem T) (p : Nat) : Option T × Mem T :=
  let n := gLen m p - 1
  let m1 := gSwap m p 0 n
  let m2 := (downLoop n m1 p 0 n).1
  gPop m2 p

/-- `NewPriorityQueue(less)`: allocates a `genericHeap` with nil data
(`heap.Init` on it has nothing to sift). -/
def NewPriorityQueue {T : Type} (m : Mem T) (less : T → T → Bool) : Mem T × PQ :=
  (m.allocObj { data := { arr := none, len := 0 }, less := less }, { h := m.objs.length })

/-- `pq.Push(v)`. -/
def PQ.Push {T : Type} [Inhabited T] (m : Mem T) (pq : PQ) (v : T) : Mem T := hPush m pq.h v

/-- `pq.Pop()`. -/
def PQ.Pop {T : Type} [Inhabited T] (m : Mem T) (pq : PQ) : (T × Bool) × Mem T :=
  if gLen m pq.h = 0 then ((default, false), m)
  else
    match hPop m pq.h with
    | (some v, m1) => ((v, true), m1)
    | (none, m1) => ((default, false), m1)

/-- `pq.Peek()`: reads `pq.h.data[0]`, writes nothing. -/
def PQ.Peek {T : Type} [Inhabited T] (m : Mem T) (pq : PQ) : T × Bool :=
  queue.PriorityQueue.Peek { h := m.view pq.h }

/-- `pq.Len()`. -/
def PQ.Len {T : Type} (m : Mem T) (pq : PQ) : Nat := gLen m pq.h

/-- `pq.Clear()`: `pq.h.data = nil`. -/
def PQ.Clear {T : Type} (m : Mem T) (pq : PQ) : Mem T :=
  m.setData pq.h { arr := none, len := 0 }

/-- `pq.Clone()`: `make` allocates a new backing array of `len(pq.h.data)`
zero values, a new `genericHeap` object with the same `less` is created over
it, and `copy` fills it from `pq.h.data`. -/
def PQ.Clone {T : Type} [Inhabited T] (m : Mem T) (pq : PQ) : Mem T × PQ :=
  match m.objs[pq.h]? with
  | none => (m, pq)
  | some o =>
    let dst : List T := List.replicate o.data.len default
    let src : List T := (m.cells o.data).take o.data.len
    let n := min dst.length src.length
    ((m.alloc (src.take n ++ dst.drop n)).allocObj
        { data := { arr := some m.arrays.length, len := o.data.len }, less := o.less },
      { h := m.objs.length })

/-- A mutating call on a queue: `Push(v)`, `Pop()` or `Clear()`. -/
inductive Call (T : Type) where
  | push (v : T) : Call T
  | pop : Call T
  | clear : Call T

/-- The memory after one mutating call on the queue `pq`. -/
def PQ.step {T : Type} [Inhabited T] (pq : PQ) (m : Mem T) : Call T → Mem T
  | Call.push v => pq.Push m v
  | Call.pop => (pq.Pop m).2
  | Call.clear => pq.Clear m

/-- The memory after a sequence of mutating calls on the queue `pq`. -/
def PQ.run {T : Type} [Inhabited T] (pq : PQ) (m : Mem T) (calls : List (Call T)) : Mem T :=
  calls.foldl pq.step m

/-- The same call on a queue value. -/
def stepValue {T : Type} [Inhabited T] (q : queue.PriorityQueue T) :
    Call T → queue.PriorityQueue T
  | Call.push v => q.Push v
  | Call.pop => q.Pop.2
  | Call.clear => q.Clear

/-- Pops until not-found, as `queue.popAll`, on a queue in memory. -/
def PQ.popAll {T : Type} [Inhabited T] (pq : PQ) : Nat → Mem T → List T × Mem T
  | 0, m => ([], m)
  | fuel + 1, m =>
    match pq.Pop m with
    | ((v, true), m1) => ((pq.popAll fuel m1).1.cons v, (pq.popAll fuel m1).2)
    | ((_, false), m1) => ([], m1)

/-- Well-formed memory: every slice lies within an allocated backing array,
and no two `genericHeap` objects use the same backing array. -/
def Inv {T : Type} (m : Mem T) : Prop :=
  (∀ (p : Nat) (o : Obj T), m.objs[p]? = some o → o.data.len ≤ (m.cells o.data).length) ∧
    (∀ (p : Nat) (o : Obj T) (a : Nat), m.objs[p]? = some o → o.data.arr = some a →
      a < m.arrays.length) ∧
    (∀ (p q : Nat) (o1 o2 : Obj T) (a : Nat), p ≠ q → m.objs[p]? = some o1 → m.objs[q]? = some o2 →
      o1.data.arr = some a → o2.data.arr ≠ some a)

/-- The effect of an operation on object `p`: the memory stays well formed,
no object is created, object `p` reads as the value `h1` afterwards, and
every other object reads as before. -/
def Step {T : Type} (m m1 : Mem T) (p : Nat) (h1 : queue.genericHeap T) : Prop :=
  Inv m1 ∧ m1.objs.length = m.objs.length ∧ m1.view p = h1 ∧
    ∀ q, q ≠ p → m1.view q = m.view q

/-- The memory with nothing allocated. -/
def emptyMem (T : Type) : Mem T := { arrays := [], objs := [], spare := fun n => n }

/-- `PriorityQueueFromSlice(items, less)` in memory. -/
def PriorityQueueFromSlice {T : Type} [Inhabited T] (m : Mem T) (items : List T)
    (less : T → T → Bool) : Mem T × PQ :=
  (items.foldl (fun m1 item => (NewPriorityQueue m less).2.Push m1 item)
    (NewPriorityQueue m less).1, (NewPriorityQueue m less).2)

end store

/-! ## algorithms/search.go: the indices read -/

namespace algorithms

/-- The indices `mid` at which the loop of `BinarySearch` evaluates `arr[mid]`,
in the order of the reads.  The control flow is that of `searchLoop`; a read
that is out of range is recorded and ends the list. -/
def searchReads {T : Type} (arr : List T) (target : T) (cmp : T → T → Int) :
    Nat → Int → Int → List Int
  | 0, _, _ => []
  | fuel + 1, lo, hi =>
    if lo ≤ hi then
      let mid := lo + (hi - lo).tdiv 2
      mid :: (match getAt arr mid with
        | none => []
        | some x =>
          let c := cmp x target
          if c = 0 then []
          else if c < 0 then searchReads arr target cmp fuel (mid + 1) hi
          else searchReads arr target cmp fuel lo (mid - 1))
    else []

/-- The reads of `BinarySearch(arr, target, cmp)`. -/
def BinarySearchReads {T : Type} (arr : List T) (target : T) (cmp : T → T → Int) : List Int :=
  searchReads arr target cmp arr.length 0 ((arr.length : Int) - 1)

end algorithms

/-! ## stack/stack.go

A stack owns its slice: `FromSlice` and `ToSlice` copy, so the slice is a
list value and `append` and reslicing are list operations. -/

namespace stack

/-- The struct `Stack[T]`: the slice `data`, bottom first.  The zero value
has the nil slice, which has length 0 like the empty one. -/
structure Stack (T : Type) where
  data : List T
deriving DecidableEq, Repr

/-- `New[T]()`. -/
def New {T : Type} : Stack T := { data := [] }

/-- `FromSlice(items)`: `dup` is a copy of `items`. -/
def FromSlice {T : Type} (items : List T) : Stack T := { data := items }

/-- `s.Push(v)`: `s.data = append(s.data, v)`. -/
def Stack.Push {T : Type} (s : Stack T) (v : T) : Stack T := { data := s.data ++ [v] }

/-- `s.Pop()`: the pair returned and the stack afterwards.  The read
`s.data[idx]` is at `len(s.data) - 1`, inside the slice since it is not
empty; `s.data[:idx]` keeps the first `idx` elements. -/
def Stack.Pop {T : Type} [Inhabited T] (s : Stack T) : (T × Bool) × Stack T :=
  if h : s.data.length = 0 then ((default, false), s)
  else
    let idx := s.data.length - 1
    let val := s.data.get ⟨idx, by omega⟩
    ((val, true), { data := s.data.take idx })

/-- `s.Peek()`. -/
def Stack.Peek {T : Type} [Inhabited T] (s : Stack T) : T × Bool :=
  if h : s.data.length = 0 then (default, false)
  else (s.data.get ⟨s.data.length - 1, by omega⟩, true)

/-- `s.Len()`. -/
def Stack.Len {T : Type} (s : Stack T) : Nat := s.data.length

/-- `s.IsEmpty()`. -/
def Stack.IsEmpty {T : Type} (s : Stack T) : Bool := decide (s.data.length = 0)

/-- `s.Clear()`: `s.data = s.data[:0]`. -/
def Stack.Clear {T : Type} (s : Stack T) : Stack T := { data := s.data.take 0 }

/-- `s.ToSlice()`: a copy of `data`. -/
def Stack.ToSlice {T : Type} (s : Stack T) : List T := s.data

/-- Popping until `Pop` reports false, at most `fuel` times: the values in
the order they came out, and the stack left. -/
def popAll {T : Type} [Inhabited T] : Nat → Stack T → List T × Stack T
  | 0, s => ([], s)
  | fuel + 1, s =>
    match s.Pop with
    | ((v, true), s') => ((popAll fuel s').1.cons v, (popAll fuel s').2)
    | ((_, false), s') => ([], s')

end stack

/-! ## Go maps

A value of a Go map type `map[K]V` is given by its entries, listed in one of
the orders in which `range` may visit them.  Keys are compared with Go's
`==` on the key type, and a key is hashed before the map is read or written.
`==` need not be reflexive: a floating-point NaN differs from itself, so an
assignment with a NaN key adds an entry every time, and no read or `delete`
finds it.  Hashing panics for an interface value whose dynamic type is not
comparable, also when the map is nil or empty.  A map that is nil reads like
the empty map. -/

namespace gomap

/-- What a map uses of its key type, a `comparable` type: `eq a b` is Go's
`a == b`, and `hashable a` is false for a value whose hashing panics.  On
every comparable type `==` is symmetric and transitive. -/
class Key (K : Type) where
  eq : K → K → Bool
  hashable : K → Bool
  symm : ∀ a b : K, eq a b = true → eq b a = true
  trans : ∀ a b c : K, eq a b = true → eq b c = true → eq a c = true

/-- Go's `int`: `==` is equality and every value can be hashed. -/
instance : Key Int where
  eq a b := decide (a = b)
  hashable _ := true
  symm a b h := by
    rw [decide_eq_true_eq] at h
    rw [decide_eq_true_eq]
    exact h.symm
  trans a b c h1 h2 := by
    rw [decide_eq_true_eq] at h1 h2
    rw [decide_eq_true_eq]
    exact h1.trans h2

/-- The values of Go's `float64` that occur as keys here: a NaN, and the
numbers with an integral value. -/
inductive float64 where
  | NaN : float64
  | num : Int → float64
deriving DecidableEq, Repr

/-- `a == b` on `float64`: false as soon as an operand is NaN. -/
def float64.eq : float64 → float64 → Bool
  | .num a, .num b => decide (a = b)
  | _, _ => false

/-- Go's `float64`: every value can be hashed, NaN included. -/
instance : Key float64 where
  eq := float64.eq
  hashable _ := true
  symm a b h := by
    cases a <;> cases b <;> simp_all [float64.eq, eq_comm]
  trans a b c h1 h2 := by
    cases a <;> cases b <;> cases c <;> simp_all [float64.eq]

/-- The values of the interface type `any` that occur as keys here: an `int`,
or a slice `[]int`. -/
inductive any where
  | int : Int → any
  | slice : List Int → any
deriving DecidableEq, Repr

/-- `a == b` on `any` for the values a map compares, which are hashable: two
`int`s are compared by value. -/
def any.eq : any → any → Bool
  | .int a, .int b => decide (a = b)
  | _, _ => false

/-- Hashing an interface value: it panics when the dynamic type is a slice. -/
def any.hashable : any → Bool
  | .int _ => true
  | .slice _ => false

/-- Go's `any` as a key type. -/
instance : Key any where
  eq := any.eq
  hashable := any.hashable
  symm a b h := by
    cases a <;> cases b <;> simp_all [any.eq, eq_comm]
  trans a b c h1 h2 := by
    cases a <;> cases b <;> cases c <;> simp_all [any.eq]

/-- The entry that the read `v, ok := m[k]` finds for a key that was hashed:
`some v` when an entry has a key `==` to `k`, `none` when `ok` is false. -/
def get {K V : Type} [Key K] : List (K × V) → K → Option V
  | [], _ => none
  | (k', v) :: t, k => if Key.eq k' k then some v else get t k

/-- The entries after the assignment `m[k] = v` with a key that was hashed:
the entry whose key is `==` to `k` is replaced, or a new entry is added. -/
def put {K V : Type} [Key K] : List (K × V) → K → V → List (K × V)
  | [], k, v => [(k, v)]
  | (k', v') :: t, k, v => if Key.eq k' k then (k, v) :: t else (k', v') :: put t k v

/-- The entries after `delete(m, k)` with a key that was hashed: the entry
whose key is `==` to `k` goes. -/
def delete {K V : Type} [Key K] : List (K × V) → K → List (K × V)
  | [], _ => []
  | (k', v') :: t, k => if Key.eq k' k then delete t k else (k', v') :: delete t k

/-- The entries after a write through `m[k]` to the value found there (the
value is itself a map, which is a reference): the entry keeps its key. -/
def update {K V : Type} [Key K] : List (K × V) → K → (V → V) → List (K × V)
  | [], _, _ => []
  | (k', v') :: t, k, f => if Key.eq k' k then (k', f v') :: t else (k', v') :: update t k f

/-- The keys in the order `for k := range m` visits them. -/
def keys {K V : Type} (m : List (K × V)) : List K := m.map Prod.fst

/-- The entries read from a map that may be nil. -/
def entries {K V : Type} (m : Option (List (K × V))) : List (K × V) :=
  match m with
  | none => []
  | some l => l

/-- The read `v, ok := m[k]`: `none` when hashing `k` panics, else what `get`
finds. -/
def load {K V : Type} [Key K] (m : List (K × V)) (k : K) : Option (Option V) :=
  if Key.hashable k then some (get m k) else none

/-- The assignment `m[k] = v` on a map that is not nil: `none` when hashing
`k` panics. -/
def store {K V : Type} [Key K] (m : List (K × V)) (k : K) (v : V) : Option (List (K × V)) :=
  if Key.hashable k then some (put m k v) else none

/-- The call `delete(m, k)`: `none` when hashing `k` panics. -/
def drop {K V : Type} [Key K] (m : List (K × V)) (k : K) : Option (List (K × V)) :=
  if Key.hashable k then some (delete m k) else none

/-- What holds of the entries of every map: the keys were hashed when they
were stored, and no two of them are `==`, so `len(m)` is the number of
entries. -/
def WF {K V : Type} [Key K] (m : List (K × V)) : Prop :=
  (∀ k ∈ keys m, Key.hashable k = true) ∧ (keys m).Pairwise (fun a b => Key.eq a b = false)

instance {K V : Type} [Key K] (m : List (K × V)) : Decidable (WF m) :=
  inferInstanceAs (Decidable (_ ∧ _))

end gomap

/-! ## set/set.go

A call returns `none` when it panics.  A loop over a map visits the entries
in the order of the list; the statements about sets are made for every list
of entries, hence for every order in which `range` may visit them. -/

namespace set

/-- The struct `HashSet[T]`: the field `m` of type `map[T]struct{}`, `none`
when it is nil (the zero value). -/
structure HashSet (T : Type) where
  m : Option (List (T × Unit))
deriving DecidableEq, Repr

/-- `New[T]()`: the map is made, not nil. -/
def New {T : Type} : HashSet T := { m := some [] }

/-- `s.Add(v)`: the result and the set afterwards.  A nil map is replaced by
a made one first. -/
def HashSet.Add {T : Type} [gomap.Key T] (s : HashSet T) (v : T) : Option (Bool × HashSet T) :=
  let m := match s.m with
    | none => []
    | some m => m
  match gomap.load m v with
  | none => none
  | some existed =>
    match gomap.store m v () with
    | none => none
    | some m' => some (!existed.isSome, { m := some m' })

/-- `s.Remove(v)`: the result and the set afterwards. -/
def HashSet.Remove {T : Type} [gomap.Key T] (s : HashSet T) (v : T) :
    Option (Bool × HashSet T) :=
  match s.m with
  | none => some (false, s)
  | some m =>
    match gomap.load m v with
    | none => none
    | some existed =>
      match gomap.drop m v with
      | none => none
      | some m' => some (existed.isSome, { m := some m' })

/-- `s.Contains(v)`. -/
def HashSet.Contains {T : Type} [gomap.Key T] (s : HashSet T) (v : T) : Option Bool :=
  match s.m with
  | none => some false
  | some m =>
    match gomap.load m v with
    | none => none
    | some ok => some ok.isSome

/-- `s.Len()`: `len(s.m)`, which is 0 for a nil map. -/
def HashSet.Len {T : Type} (s : HashSet T) : Nat := (gomap.entries s.m).length

/-- `s.IsEmpty()`. -/
def HashSet.IsEmpty {T : Type} (s : HashSet T) : Bool := decide ((gomap.entries s.m).length = 0)

/-- `s.Clear()`. -/
def HashSet.Clear {T : Type} (_s : HashSet T) : HashSet T := { m := some [] }

/-- `s.ToSlice()`: the values of the set, in an order that is not fixed. -/
def HashSet.ToSlice {T : Type} (s : HashSet T) : Multiset T :=
  Multiset.ofList (gomap.keys (gomap.entries s.m))

/-- The loop of `FromSlice` over the items still to add. -/
def fromSliceLoop {T : Type} [gomap.Key T] : List T → HashSet T → Option (HashSet T)
  | [], hs => some hs
  | v :: rest, hs =>
    match hs.Add v with
    | none => none
    | some r => fromSliceLoop rest r.2

/-- `FromSlice(items)`. -/
def FromSlice {T : Type} [gomap.Key T] (items : List T) : Option (HashSet T) :=
  fromSliceLoop items New

/-- The loop `for v := range src { dst[v] = struct{}{} }` of `Clone` and
`Union` over the values still to visit; `dst` is a made map. -/
def copyLoop {T : Type} [gomap.Key T] : List T → List (T × Unit) → Option (List (T × Unit))
  | [], dst => some dst
  | v :: rest, dst =>
    match gomap.store dst v () with
    | none => none
    | some dst' => copyLoop rest dst'

/-- `s.Clone()`: the loop writes every value of `s.m` into the map of the
set made by `New`. -/
def HashSet.Clone {T : Type} [gomap.Key T] (s : HashSet T) : Option (HashSet T) :=
  match copyLoop (gomap.keys (gomap.entries s.m)) (gomap.entries (New : HashSet T).m) with
  | none => none
  | some cm => some { m := some cm }

/-- `Union(a, b)`: the loop writes every value of `b.m` into `res.m`, the
map of `a.Clone()`. -/
def Union {T : Type} [gomap.Key T] (a b : HashSet T) : Option (HashSet T) :=
  match a.Clone with
  | none => none
  | some res =>
    match copyLoop (gomap.keys (gomap.entries b.m)) (gomap.entries res.m) with
    | none => none
    | some rm => some { m := some rm }

/-- The loop `for v := range src { if _, ok := other[v]; ok == want { res[v] =
struct{}{} } }` over the values still to visit: `Intersection` keeps the
values found in the other map (`want` is true), `Difference` those not found
(`want` is false).  `other` may be nil, `res` is a made map. -/
def selectLoop {T : Type} [gomap.Key T] (other : Option (List (T × Unit))) (want : Bool) :
    List T → List (T × Unit) → Option (List (T × Unit))
  | [], res => some res
  | v :: rest, res =>
    match gomap.load (gomap.entries other) v with
    | none => none
    | some ok =>
      if ok.isSome = want then
        match gomap.store res v () with
        | none => none
        | some res' => selectLoop other want rest res'
      else selectLoop other want rest res

/-- `Intersection(a, b)`: iterates over the set with fewer elements (over
`b` when they have the same number) and keeps the values found in the other. -/
def Intersection {T : Type} [gomap.Key T] (a b : HashSet T) : Option (HashSet T) :=
  let small := if a.Len < b.Len then a else b
  let large := if a.Len < b.Len then b else a
  match selectLoop large.m true (gomap.keys (gomap.entries small.m))
      (gomap.entries (New : HashSet T).m) with
  | none => none
  | some rm => some { m := some rm }

/-- `Difference(a, b)`. -/
def Difference {T : Type} [gomap.Key T] (a b : HashSet T) : Option (HashSet T) :=
  match selectLoop b.m false (gomap.keys (gomap.entries a.m))
      (gomap.entries (New : HashSet T).m) with
  | none => none
  | some rm => some { m := some rm }

/-- The loop of `IsSubset` over the values still to visit: false at the first
one that is not found in `b.m`. -/
def isSubsetLoop {T : Type} [gomap.Key T] (b : HashSet T) : List T → Option Bool
  | [] => some true
  | v :: rest =>
    match gomap.load (gomap.entries b.m) v with
    | none => none
    | some ok => if !ok.isSome then some false else isSubsetLoop b rest

/-- `IsSubset(a, b)`. -/
def IsSubset {T : Type} [gomap.Key T] (a b : HashSet T) : Option Bool :=
  isSubsetLoop b (gomap.keys (gomap.entries a.m))

/-- What holds of every set a program can build: its entries are those of a
map. -/
def HashSet.WF {T : Type} [gomap.Key T] (s : HashSet T) : Prop := gomap.WF (gomap.entries s.m)

instance {T : Type} [gomap.Key T] (s : HashSet T) : Decidable s.WF :=
  inferInstanceAs (Decidable (gomap.WF (gomap.entries s.m)))

end set

/-! ## collections/dictionary.go and collections/funcs.go -/

namespace collections

/-- The struct `Dictionary[K, V]`: the field `m`, `none` when it is nil. -/
structure Dictionary (K V : Type) where
  m : Option (List (K × V))
deriving DecidableEq, Repr

/-- `New[K, V]()`. -/
def New {K V : Type} : Dictionary K V := { m := some [] }

/-- `NewDictionary[K, V]()`. -/
def NewDictionary {K V : Type} : Dictionary K V := New

/-- `d.Get(key)`, `none` for a panic. -/
def Dictionary.Get {K V : Type} [gomap.Key K] [Inhabited V] (d : Dictionary K V) (key : K) :
    Option (V × Bool) :=
  match d.m with
  | none => some (default, false)
  | some m =>
    match gomap.load m key with
    | none => none
    | some (some v) => some (v, true)
    | some none => some (default, false)

/-- `d.Put(key, value)`: the pair returned and the dictionary afterwards,
`none` for a panic. -/
def Dictionary.Put {K V : Type} [gomap.Key K] [Inhabited V] (d : Dictionary K V) (key : K)
    (value : V) : Option ((V × Bool) × Dictionary K V) :=
  let m := match d.m with
    | none => []
    | some m => m
  match gomap.load m key with
  | none => none
  | some old =>
    let r := match old with
      | some o => (o, true)
      | none => (default, false)
    match gomap.store m key value with
    | none => none
    | some m' => some (r, { m := some m' })

/-- `d.Delete(key)`: the pair returned and the dictionary afterwards, `none`
for a panic. -/
def Dictionary.Delete {K V : Type} [gomap.Key K] [Inhabited V] (d : Dictionary K V)
    (key : K) : Option ((V × Bool) × Dictionary K V) :=
  match d.m with
  | none => some ((default, false), d)
  | some m =>
    match gomap.load m key with
    | none => none
    | some old =>
      let r := match old with
        | some o => (o, true)
        | none => (default, false)
      match gomap.drop m key with
      | none => none
      | some m' => some (r, { m := some m' })

/-- `d.Len()`. -/
def Dictionary.Len {K V : Type} (d : Dictionary K V) : Nat := (gomap.entries d.m).length

/-- `Map(in, fn)`: cell `i` of the made slice receives `fn(in[i])`. -/
def Map {A B : Type} (input : List A) (fn : A → B) : List B :=
  input.foldl (fun out v => out ++ [fn v]) []

/-- `Filter(in, pred)`: the loop appends the elements that satisfy `pred`
to `out`, which starts empty. -/
def Filter {T : Type} (input : List T) (pred : T → Bool) : List T :=
  input.foldl (fun out v => if pred v then out ++ [v] else out) []

/-- `Reduce(in, init, fn)`. -/
def Reduce {T R : Type} (input : List T) (init : R) (fn : R → T → R) : R :=
  input.foldl (fun acc v => fn acc v) init

end collections

/-! ## graph/graph.go

The weights are stored and handed back, never computed with, so the type
`W` of weights is left open (`float64` in the source).  Every inner map is
made by `AddVertex` for one vertex and is reachable from `adj` under that
vertex only, so the map of maps is a value: the entries of `adj` carry the
entries of their neighbor maps.  `adj` is the map made by `New`.  A call
returns `none` when it panics. -/

namespace graph

/-- The struct `Graph[T]`. -/
structure Graph (T W : Type) where
  directed : Bool
  adj : List (T × List (T × W))
deriving DecidableEq, Repr

/-- `New[T](directed)`. -/
def New {T W : Type} (directed : Bool) : Graph T W := { directed := directed, adj := [] }

/-- `g.AddVertex(v)`. -/
def Graph.AddVertex {T W : Type} [gomap.Key T] (g : Graph T W) (v : T) : Option (Graph T W) :=
  match gomap.load g.adj v with
  | none => none
  | some ok =>
    if !ok.isSome then
      match gomap.store g.adj v [] with
      | none => none
      | some adj' => some { directed := g.directed, adj := adj' }
    else some g

/-- The assignment `g.adj[u][v] = w`: `g.adj[u]` is read, and the map it
yields is written at `v`, which panics when that map is nil because no key
of `adj` is `==` to `u`. -/
def Graph.setWeight {T W : Type} [gomap.Key T] (g : Graph T W) (u v : T) (w : W) :
    Option (Graph T W) :=
  match gomap.load g.adj u with
  | none => none
  | some none => none
  | some (some nb) =>
    match gomap.store nb v w with
    | none => none
    | some nb' => some { directed := g.directed, adj := gomap.update g.adj u (fun _ => nb') }

/-- `g.AddEdge(u, v, w)`: the graph afterwards. -/
def Graph.AddEdge {T W : Type} [gomap.Key T] (g : Graph T W) (u v : T) (w : W) :
    Option (Graph T W) :=
  match g.AddVertex u with
  | none => none
  | some g1 =>
    match g1.AddVertex v with
    | none => none
    | some g2 =>
      match g2.setWeight u v w with
      | none => none
      | some g3 => if !g3.directed then g3.setWeight v u w else some g3

/-- `g.Neighbors(v)`: the neighbor map `g.adj[v]`, which is nil (the inner
`none`) when no key of `adj` is `==` to `v`. -/
def Graph.Neighbors {T W : Type} [gomap.Key T] (g : Graph T W) (v : T) :
    Option (Option (List (T × W))) :=
  gomap.load g.adj v

/-- `g.Vertices()`: the keys of `adj`, in an order that is not fixed. -/
def Graph.Vertices {T W : Type} (g : Graph T W) : Multiset T :=
  Multiset.ofList (gomap.keys g.adj)

/-- The statement `delete(g.adj[vertex], v)` in the loop of `RemoveVertex`:
`g.adj[vertex]` is read, and `v` is deleted from the map it yields, which may
be nil. -/
def Graph.forget {T W : Type} [gomap.Key T] (g : Graph T W) (vertex v : T) :
    Option (Graph T W) :=
  match gomap.load g.adj vertex with
  | none => none
  | some nbs =>
    match gomap.drop (gomap.entries nbs) v with
    | none => none
    | some nb' =>
      match nbs with
      | none => some g
      | some _ => some { directed := g.directed, adj := gomap.update g.adj vertex (fun _ => nb') }

/-- The loop `for vertex := range g.adj { delete(g.adj[vertex], v) }` over
the keys still to visit. -/
def Graph.forgetLoop {T W : Type} [gomap.Key T] (v : T) : List T → Graph T W → Option (Graph T W)
  | [], g => some g
  | vertex :: rest, g =>
    match g.forget vertex v with
    | none => none
    | some g' => Graph.forgetLoop v rest g'

/-- `g.RemoveVertex(v)`: `v` is deleted from the neighbor map read for every
key of `adj`, then from `adj`. -/
def Graph.RemoveVertex {T W : Type} [gomap.Key T] (g : Graph T W) (v : T) : Option (Graph T W) :=
  match Graph.forgetLoop v (gomap.keys g.adj) g with
  | none => none
  | some g' =>
    match gomap.drop g'.adj v with
    | none => none
    | some adj' => some { directed := g'.directed, adj := adj' }

/-- The statement `if neighbors, ok := g.adj[u]; ok { delete(neighbors, v) }`. -/
def Graph.dropWeight {T W : Type} [gomap.Key T] (g : Graph T W) (u v : T) : Option (Graph T W) :=
  match gomap.load g.adj u with
  | none => none
  | some none => some g
  | some (some nb) =>
    match gomap.drop nb v with
    | none => none
    | some nb' => some { directed := g.directed, adj := gomap.update g.adj u (fun _ => nb') }

/-- `g.RemoveEdge(u, v)`. -/
def Graph.RemoveEdge {T W : Type} [gomap.Key T] (g : Graph T W) (u v : T) : Option (Graph T W) :=
  match g.dropWeight u v with
  | none => none
  | some g1 => if !g1.directed then g1.dropWeight v u else some g1

/-- The read `w, ok := g.Neighbors(u)[v]`: `some (some w)` for an edge from
`u` to `v` of weight `w`, `some none` when `ok` is false, `none` for a panic. -/
def Graph.edge {T W : Type} [gomap.Key T] (g : Graph T W) (u v : T) : Option (Option W) :=
  match g.Neighbors u with
  | none => none
  | some nbs => gomap.load (gomap.entries nbs) v

end graph

/-! ## set/set.go over a memory of maps

A Go map is a reference to a map object.  To speak about a set operation
leaving its arguments alone, `New`, `Clone` and `Union` are given here over a
memory of map objects: a map value is the address of an object, and a
`HashSet` is its field `m`. -/

namespace set

/-- The field `m` of a `HashSet` in memory: nil or the address of a map object. -/
structure Ref where
  m : Option Nat
deriving DecidableEq, Repr

/-- The set at `s` read as a value. -/
def Ref.read {T : Type} (mem : List (List (T × Unit))) (s : Ref) : HashSet T :=
  match s.m with
  | none => { m := none }
  | some p => { m := mem[p]? }

/-- `New[T]()` in memory: `make` allocates a map object at a new address. -/
def NewAt {T : Type} (mem : List (List (T × Unit))) : List (List (T × Unit)) × Ref :=
  (mem ++ [[]], { m := some mem.length })

/-- The assignment `s.m[v] = struct{}{}` in memory: the object at the address
held by `s.m` is written; `none` when `s.m` is nil or hashing `v` panics. -/
def writeAt {T : Type} [gomap.Key T] (mem : List (List (T × Unit))) (s : Ref) (v : T) :
    Option (List (List (T × Unit))) :=
  match s.m with
  | none => none
  | some p =>
    match mem[p]? with
    | none => none
    | some es =>
      match gomap.store es v () with
      | none => none
      | some es' => some (mem.set p es')

/-- The loop `for v := range src { dst.m[v] = struct{}{} }` in memory, over
the values still to visit. -/
def copyLoopAt {T : Type} [gomap.Key T] (dst : Ref) :
    List T → List (List (T × Unit)) → Option (List (List (T × Unit)))
  | [], mem => some mem
  | v :: rest, mem =>
    match writeAt mem dst v with
    | none => none
    | some mem' => copyLoopAt dst rest mem'

/-- `s.Clone()` in memory: the values of `s.m`, read when the loop starts,
are written to the map of the new set. -/
def CloneAt {T : Type} [gomap.Key T] (mem : List (List (T × Unit))) (s : Ref) :
    Option (List (List (T × Unit)) × Ref) :=
  let r := NewAt mem
  match copyLoopAt r.2 (gomap.keys (gomap.entries (s.read r.1).m)) r.1 with
  | none => none
  | some mem' => some (mem', r.2)

/-- `Union(a, b)` in memory. -/
def UnionAt {T : Type} [gomap.Key T] (mem : List (List (T × Unit))) (a b : Ref) :
    Option (List (List (T × Unit)) × Ref) :=
  match CloneAt mem a with
  | none => none
  | some r =>
    match copyLoopAt r.2 (gomap.keys (gomap.entries (b.read r.1).m)) r.1 with
    | none => none
    | some mem' => some (mem', r.2)

/-- A reference is valid in a memory when it is nil or the address of an object. -/
def Ref.Valid {T : Type} (mem : List (List (T × Unit))) (s : Ref) : Prop :=
  ∀ p, s.m = some p → p < mem.length

end set

/-! ## collections/funcs.go over a memory of backing arrays

`Filter` once more with slices as headers over backing arrays, to speak
about the input slice after the call. -/

namespace collections

/-- A slice header: the address of the backing array (`none` for the nil
slice), the offset of the first element in it, the length and the capacity. -/
structure Slice where
  arr : Option Nat
  off : Nat
  len : Nat
  cap : Nat
deriving DecidableEq, Repr

/-- The elements of a slice. -/
def Slice.read {T : Type} (mem : List (List T)) (s : Slice) : List T :=
  match s.arr with
  | none => []
  | some a => (((mem[a]?).getD []).drop s.off).take s.len

/-- `make([]T, 0, n)`: a new backing array of `n` zero values. -/
def makeAt {T : Type} [Inhabited T] (mem : List (List T)) (n : Nat) : List (List T) × Slice :=
  (mem ++ [List.replicate n default], { arr := some mem.length, off := 0, len := 0, cap := n })

/-- `append(s, v)`: within the capacity the next cell of the backing array
is written; otherwise the elements move to a new array, with as many spare
cells as the allocator (`spare`) decides. -/
def appendAt {T : Type} [Inhabited T] (spare : Nat → Nat) (mem : List (List T)) (s : Slice)
    (v : T) : List (List T) × Slice :=
  if s.len < s.cap then
    match s.arr with
    | none => (mem, s)
    | some a =>
      (mem.set a (((mem[a]?).getD []).set (s.off + s.len) v),
        { arr := some a, off := s.off, len := s.len + 1, cap := s.cap })
  else
    (mem ++ [s.read mem ++ v :: List.replicate (spare (s.len + 1)) default],
      { arr := some mem.length, off := 0, len := s.len + 1,
        cap := s.len + 1 + spare (s.len + 1) })

/-- Iteration `i` of the loop of `Filter` in memory, on the memory and the
slice `out`: it reads `in[i]` and appends it to `out` when it satisfies `pred`. -/
def filterStep {T : Type} [Inhabited T] (spare : Nat → Nat) (input : Slice) (pred : T → Bool)
    (st : List (List T) × Slice) (i : Nat) : List (List T) × Slice :=
  match (input.read st.1)[i]? with
  | none => st
  | some v => if pred v then appendAt spare st.1 st.2 v else st

/-- `Filter(in, pred)` in memory: the memory afterwards and the slice returned.
The loop runs for `i` below the length `in` had at the start. -/
def FilterAt {T : Type} [Inhabited T] (spare : Nat → Nat) (mem : List (List T))
    (input : Slice) (pred : T → Bool) : List (List T) × Slice :=
  (List.range input.len).foldl (filterStep spare input pred) (makeAt mem input.len)

/-- A slice header is valid in a memory when its cells lie in an array of it. -/
def Slice.Valid {T : Type} (mem : List (List T)) (s : Slice) : Prop :=
  match s.arr with
  | none => s.len = 0
  | some a => s.off + s.len ≤ ((mem[a]?).getD []).length ∧ a < mem.length

end collections

/-! ## queue/deque.go and queue/queue.go

Both are ring buffers over a slice `buf` with `int` fields.  Every operation
returns `none` when the code would panic: an index outside the slice, a
remainder modulo zero, or `make` with a negative length. -/

namespace queue

/-- Go's `a % b` on `int`: the remainder of the truncated division, `none`
for a zero divisor. -/
def goMod (a b : Int) : Option Int := if b = 0 then none else some (a.tmod b)

/-- The assignment `a[i] = x`: `none` when `i` is out of range. -/
def setAt {T : Type} (a : List T) (i : Int) (x : T) : Option (List T) :=
  if i < 0 ∨ (a.length : Int) ≤ i then none else some (a.set i.toNat x)

/-- `make([]T, n)`: `n` zero values, `none` for a negative `n`. -/
def makeSlice {T : Type} [Inhabited T] (n : Int) : Option (List T) :=
  if n < 0 then none else some (List.replicate n.toNat default)

/-- The loop `for i := 0; i < size; i++ { dst[i] = buf[(head+i)%len(buf)] }`
of `growIfNeeded` and `ToSlice`, from the current `i` and `dst`, with the
number of iterations left as first argument. -/
def ringCopy {T : Type} (buf : List T) (head size : Int) : Nat → Int → List T → Option (List T)
  | 0, i, dst => if i < size then none else some dst
  | fuel + 1, i, dst =>
    if i < size then
      match goMod (head + i) buf.length with
      | none => none
      | some j =>
        match algorithms.getAt buf j with
        | none => none
        | some x =>
          match setAt dst i x with
          | none => none
          | some dst' => ringCopy buf head size fuel (i + 1) dst'
    else some dst

/-- The struct `Deque[T]`. -/
structure Deque (T : Type) where
  buf : List T
  head : Int
  tail : Int
  size : Int
deriving DecidableEq, Repr

/-- `NewDeque[T]()`: the zero value. -/
def NewDeque {T : Type} : Deque T := { buf := [], head := 0, tail := 0, size := 0 }

/-- `d.growIfNeeded()`. -/
def Deque.growIfNeeded {T : Type} [Inhabited T] (d : Deque T) : Option (Deque T) :=
  if d.buf.length = 0 then
    some { buf := [default], head := d.head, tail := d.tail, size := d.size }
  else if d.size < d.buf.length then some d
  else
    match makeSlice (d.size * 2) with
    | none => none
    | some newBuf =>
      match ringCopy d.buf d.head d.size d.size.toNat 0 newBuf with
      | none => none
      | some newBuf' => some { buf := newBuf', head := 0, tail := d.size, size := d.size }

/-- `d.Len()`. -/
def Deque.Len {T : Type} (d : Deque T) : Int := d.size

/-- `d.IsEmpty()`. -/
def Deque.IsEmpty {T : Type} (d : Deque T) : Bool := decide (d.size = 0)

/-- `d.Clear()`. -/
def Deque.Clear {T : Type} (_d : Deque T) : Deque T :=
  { buf := [], head := 0, tail := 0, size := 0 }

/-- `d.PushFront(v)`. -/
def Deque.PushFront {T : Type} [Inhabited T] (d : Deque T) (v : T) : Option (Deque T) :=
  match d.growIfNeeded with
  | none => none
  | some d1 =>
    match goMod (d1.head - 1 + d1.buf.length) d1.buf.length with
    | none => none
    | some h =>
      match setAt d1.buf h v with
      | none => none
      | some b => some { buf := b, head := h, tail := d1.tail, size := d1.size + 1 }

/-- `d.PushBack(v)`. -/
def Deque.PushBack {T : Type} [Inhabited T] (d : Deque T) (v : T) : Option (Deque T) :=
  match d.growIfNeeded with
  | none => none
  | some d1 =>
    match setAt d1.buf d1.tail v with
    | none => none
    | some b =>
      match goMod (d1.tail + 1) b.length with
      | none => none
      | some t => some { buf := b, head := d1.head, tail := t, size := d1.size + 1 }

/-- `d.PopFront()`: the pair returned and the deque afterwards. -/
def Deque.PopFront {T : Type} [Inhabited T] (d : Deque T) : Option ((T × Bool) × Deque T) :=
  if d.size = 0 then some ((default, false), d)
  else
    match algorithms.getAt d.buf d.head with
    | none => none
    | some v =>
      match setAt d.buf d.head default with
      | none => none
      | some b =>
        match goMod (d.head + 1) b.length with
        | none => none
        | some h => some ((v, true), { buf := b, head := h, tail := d.tail, size := d.size - 1 })

/-- `d.PopBack()`: the pair returned and the deque afterwards. -/
def Deque.PopBack {T : Type} [Inhabited T] (d : Deque T) : Option ((T × Bool) × Deque T) :=
  if d.size = 0 then some ((default, false), d)
  else
    match goMod (d.tail - 1 + d.buf.length) d.buf.length with
    | none => none
    | some t =>
      match algorithms.getAt d.buf t with
      | none => none
      | some v =>
        match setAt d.buf t default with
        | none => none
        | some b => some ((v, true), { buf := b, head := d.head, tail := t, size := d.size - 1 })

/-- `d.PeekFront()`. -/
def Deque.PeekFront {T : Type} [Inhabited T] (d : Deque T) : Option (T × Bool) :=
  if d.size = 0 then some (default, false)
  else
    match algorithms.getAt d.buf d.head with
    | none => none
    | some v => some (v, true)

/-- `d.PeekBack()`. -/
def Deque.PeekBack {T : Type} [Inhabited T] (d : Deque T) : Option (T × Bool) :=
  if d.size = 0 then some (default, false)
  else
    match goMod (d.tail - 1 + d.buf.length) d.buf.length with
    | none => none
    | some idx =>
      match algorithms.getAt d.buf idx with
      | none => none
      | some v => some (v, true)

/-- `d.ToSlice()`. -/
def Deque.ToSlice {T : Type} [Inhabited T] (d : Deque T) : Option (List T) :=
  match makeSlice d.size with
  | none => none
  | some out => ringCopy d.buf d.head d.size d.size.toNat 0 out

/-- The struct `Queue[T]`. -/
structure Queue (T : Type) where
  buf : List T
  head : Int
  tail : Int
  size : Int
deriving DecidableEq, Repr

/-- `NewQueue[T]()`: the zero value. -/
def NewQueue {T : Type} : Queue T := { buf := [], head := 0, tail := 0, size := 0 }

/-- `q.Len()`. -/
def Queue.Len {T : Type} (q : Queue T) : Int := q.size

/-- `q.IsEmpty()`. -/
def Queue.IsEmpty {T : Type} (q : Queue T) : Bool := decide (q.size = 0)

/-- `q.Clear()`. -/
def Queue.Clear {T : Type} (_q : Queue T) : Queue T :=
  { buf := [], head := 0, tail := 0, size := 0 }

/-- `q.growIfNeeded()`. -/
def Queue.growIfNeeded {T : Type} [Inhabited T] (q : Queue T) : Option (Queue T) :=
  if q.buf.length = 0 then
    some { buf := [default], head := q.head, tail := q.tail, size := q.size }
  else if q.size < q.buf.length then some q
  else
    match makeSlice (q.size * 2) with
    | none => none
    | some newBuf =>
      match ringCopy q.buf q.head q.size q.size.toNat 0 newBuf with
      | none => none
      | some newBuf' => some { buf := newBuf', head := 0, tail := q.size, size := q.size }

/-- `q.Enqueue(v)`. -/
def Queue.Enqueue {T : Type} [Inhabited T] (q : Queue T) (v : T) : Option (Queue T) :=
  match q.growIfNeeded with
  | none => none
  | some q1 =>
    match setAt q1.buf q1.tail v with
    | none => none
    | some b =>
      match goMod (q1.tail + 1) b.length with
      | none => none
      | some t => some { buf := b, head := q1.head, tail := t, size := q1.size + 1 }

/-- `q.Dequeue()`: the pair returned and the queue afterwards. -/
def Queue.Dequeue {T : Type} [Inhabited T] (q : Queue T) : Option ((T × Bool) × Queue T) :=
  if q.size = 0 then some ((default, false), q)
  else
    match algorithms.getAt q.buf q.head with
    | none => none
    | some v =>
      match setAt q.buf q.head default with
      | none => none
      | some b =>
        match goMod (q.head + 1) b.length with
        | none => none
        | some h => some ((v, true), { buf := b, head := h, tail := q.tail, size := q.size - 1 })

/-- `q.Peek()`. -/
def Queue.Peek {T : Type} [Inhabited T] (q : Queue T) : Option (T × Bool) :=
  if q.size = 0 then some (default, false)
  else
    match algorithms.getAt q.buf q.head with
    | none => none
    | some v => some (v, true)

/-- `q.ToSlice()`. -/
def Queue.ToSlice {T : Type} [Inhabited T] (q : Queue T) : Option (List T) :=
  match makeSlice q.size with
  | none => none
  | some out => ringCopy q.buf q.head q.size q.size.toNat 0 out

/-! ### The list model of the deque and of the queue -/

/-- A call on a deque. -/
inductive DequeOp (T : Type) where
  | pushFront : T → DequeOp T
  | pushBack : T → DequeOp T
  | popFront : DequeOp T
  | popBack : DequeOp T
  | clear : DequeOp T
deriving DecidableEq, Repr

/-- One call on a deque: what a pop returned (`none` for the other calls) and
the deque afterwards; `none` for a panic. -/
def Deque.step {T : Type} [Inhabited T] (d : Deque T) :
    DequeOp T → Option (Option (T × Bool) × Deque T)
  | .pushFront v => (d.PushFront v).map (fun d' => (none, d'))
  | .pushBack v => (d.PushBack v).map (fun d' => (none, d'))
  | .popFront => (d.PopFront).map (fun r => (some r.1, r.2))
  | .popBack => (d.PopBack).map (fun r => (some r.1, r.2))
  | .clear => some (none, d.Clear)

/-- A sequence of calls on a deque: what the calls returned, in order, and
the deque at the end. -/
def Deque.run {T : Type} [Inhabited T] (d : Deque T) :
    List (DequeOp T) → Option (List (Option (T × Bool)) × Deque T)
  | [] => some ([], d)
  | op :: rest =>
    match d.step op with
    | none => none
    | some (r, d') =>
      match Deque.run d' rest with
      | none => none
      | some (rs, d'') => some (r :: rs, d'')

/-- The same call on the list model: prepend, append, remove the first,
remove the last, reset to the empty list. -/
def listStep {T : Type} [Inhabited T] (l : List T) : DequeOp T → Option (T × Bool) × List T
  | .pushFront v => (none, v :: l)
  | .pushBack v => (none, l ++ [v])
  | .popFront =>
    match l with
    | [] => (some (default, false), [])
    | x :: t => (some (x, true), t)
  | .popBack =>
    match l.getLast? with
    | none => (some (default, false), [])
    | some x => (some (x, true), l.dropLast)
  | .clear => (none, [])

/-- A sequence of calls on the list model. -/
def listRun {T : Type} [Inhabited T] (l : List T) :
    List (DequeOp T) → List (Option (T × Bool)) × List T
  | [] => ([], l)
  | op :: rest => ((listStep l op).1 :: (listRun (listStep l op).2 rest).1,
      (listRun (listStep l op).2 rest).2)

/-- A call on a queue. -/
inductive QueueOp (T : Type) where
  | enqueue : T → QueueOp T
  | dequeue : QueueOp T
  | clear : QueueOp T
deriving DecidableEq, Repr

/-- One call on a queue: what `Dequeue` returned (`none` for the other
calls) and the queue afterwards; `none` for a panic. -/
def Queue.step {T : Type} [Inhabited T] (q : Queue T) :
    QueueOp T → Option (Option (T × Bool) × Queue T)
  | .enqueue v => (q.Enqueue v).map (fun q' => (none, q'))
  | .dequeue => (q.Dequeue).map (fun r => (some r.1, r.2))
  | .clear => some (none, q.Clear)

/-- A sequence of calls on a queue. -/
def Queue.run {T : Type} [Inhabited T] (q : Queue T) :
    List (QueueOp T) → Option (List (Option (T × Bool)) × Queue T)
  | [] => some ([], q)
  | op :: rest =>
    match q.step op with
    | none => none
    | some (r, q') =>
      match Queue.run q' rest with
      | none => none
      | some (rs, q'') => some (r :: rs, q'')

/-- The same call on the list model: `Enqueue` appends, `Dequeue` removes
the first element. -/
def fifoStep {T : Type} [Inhabited T] (l : List T) : QueueOp T → Option (T × Bool) × List T
  | .enqueue v => (none, l ++ [v])
  | .dequeue =>
    match l with
    | [] => (some (default, false), [])
    | x :: t => (some (x, true), t)
  | .clear => (none, [])

/-- A sequence of calls on the list model of the queue. -/
def fifoRun {T : Type} [Inhabited T] (l : List T) :
    List (QueueOp T) → List (Option (T × Bool)) × List T
  | [] => ([], l)
  | op :: rest => ((fifoStep l op).1 :: (fifoRun (fifoStep l op).2 rest).1,
      (fifoRun (fifoStep l op).2 rest).2)

/-- The ring-buffer invariant of a deque that represents the list `l`: the
fields are in range, `tail` is `head + size` wrapped around, and the
elements of `l` sit from `head` on, wrapping around. -/
def Deque.Rep {T : Type} (d : Deque T) (l : List T) : Prop :=
  d.size = l.length ∧ d.size ≤ d.buf.length ∧
    (d.buf.length = 0 → d.head = 0 ∧ d.tail = 0) ∧
    (0 < d.buf.length →
      0 ≤ d.head ∧ d.head < d.buf.length ∧ 0 ≤ d.tail ∧ d.tail < d.buf.length ∧
        (d.tail = d.head + d.size ∨ d.tail = d.head + d.size - d.buf.length)) ∧
    ∀ (i : Nat), i < l.length →
      d.buf[(if d.head + i < d.buf.length then d.head + i
        else d.head + i - d.buf.length).toNat]? = l[i]?

/-- A queue read as a deque: the same fields. -/
def Queue.toDeque {T : Type} (q : Queue T) : Deque T :=
  { buf := q.buf, head := q.head, tail := q.tail, size := q.size }

/-- A queue call read as a deque call. -/
def QueueOp.toDequeOp {T : Type} : QueueOp T → DequeOp T
  | .enqueue v => .pushBack v
  | .dequeue => .popFront
  | .clear => .clear

end queue

/-! ### Sequences of calls on a graph -/

namespace graph

/-- A mutating call on a graph. -/
inductive GraphOp (T W : Type) where
  | addVertex : T → GraphOp T W
  | addEdge : T → T → W → GraphOp T W
  | removeEdge : T → T → GraphOp T W
  | removeVertex : T → GraphOp T W

/-- The graph after one mutating call, `none` for a panic. -/
def Graph.step {T W : Type} [gomap.Key T] (g : Graph T W) : GraphOp T W → Option (Graph T W)
  | .addVertex v => g.AddVertex v
  | .addEdge u v w => g.AddEdge u v w
  | .removeEdge u v => g.RemoveEdge u v
  | .removeVertex v => g.RemoveVertex v

/-- The graph after a sequence of mutating calls, `none` when one of them
panics. -/
def Graph.run {T W : Type} [gomap.Key T] (g : Graph T W) : List (GraphOp T W) → Option (Graph T W)
  | [] => some g
  | op :: rest =>
    match g.step op with
    | none => none
    | some g' => Graph.run g' rest

/-- The arguments of a call can be hashed, and the endpoints of an added edge
are `==` to themselves. -/
def GraphOp.plain {T W : Type} [gomap.Key T] : GraphOp T W → Bool
  | .addVertex v => gomap.Key.hashable v
  | .addEdge u v _ =>
    gomap.Key.hashable u && gomap.Key.hashable v && gomap.Key.eq u u && gomap.Key.eq v v
  | .removeEdge u v => gomap.Key.hashable u && gomap.Key.hashable v
  | .removeVertex v => gomap.Key.hashable v

/-- The weight that a read of `g.adj[u][v]` finds for keys that were hashed. -/
def Graph.weight {T W : Type} [gomap.Key T] (g : Graph T W) (u v : T) : Option W :=
  match gomap.get g.adj u with
  | none => none
  | some nb => gomap.get nb v

end graph

/-! ### The ring-buffer invariant of the deque -/

namespace queue

/-- The invariant on the fields of a deque: `0 <= size <= len(buf)`, and when
`len(buf) > 0` also `0 <= head < len(buf)`, `0 <= tail < len(buf)` and
`tail = (head + size) mod len(buf)`. -/
def Deque.RingInv {T : Type} (d : Deque T) : Prop :=
  0 ≤ d.size ∧ d.size ≤ d.buf.length ∧
    (0 < d.buf.length →
      0 ≤ d.head ∧ d.head < d.buf.length ∧ 0 ≤ d.tail ∧ d.tail < d.buf.length ∧
        d.tail = (d.head + d.size) % (d.buf.length : Int))

instance {T : Type} (d : Deque T) : Decidable d.RingInv :=
  inferInstanceAs (Decidable (0 ≤ d.size ∧ d.size ≤ d.buf.length ∧
    (0 < d.buf.length →
      0 ≤ d.head ∧ d.head < d.buf.length ∧ 0 ≤ d.tail ∧ d.tail < d.buf.length ∧
        d.tail = (d.head + d.size) % (d.buf.length : Int))))

/-- No operation of the deque panics in state `d`: each of them returns
(`Clear`, `Len` and `IsEmpty` index nothing). -/
def Deque.NoPanic {T : Type} [Inhabited T] (d : Deque T) (v : T) : Prop :=
  (d.PushFront v).isSome = true ∧ (d.PushBack v).isSome = true ∧
    d.PopFront.isSome = true ∧ d.PopBack.isSome = true ∧
    d.PeekFront.isSome = true ∧ d.PeekBack.isSome = true ∧ d.ToSlice.isSome = true

end queue

/-! ### More vocabulary for the tree: positions and shapes -/

namespace tree

/-- The node at which the descent for `k` stops: the first node on the
search path whose key compares EQUAL to `k`, or nil when the path runs out. -/
def target {K V : Type} (cmp : K → K → Int) : node K V → K → node K V
  | node.nil, _ => node.nil
  | node.mk key val left right, k =>
    let s := cmp k key
    if s < 0 then target cmp left k
    else if s > 0 then target cmp right k
    else node.mk key val left right

/-- The tree with the subtree at which the descent for `k` stops replaced by
`new`; every node off that position is as it was. -/
def graft {K V : Type} (cmp : K → K → Int) : node K V → K → node K V → node K V
  | node.nil, _, new => new
  | node.mk key val left right, k, new =>
    let s := cmp k key
    if s < 0 then node.mk key val (graft cmp left k new) right
    else if s > 0 then node.mk key val left (graft cmp right k new)
    else new

/-- The tree without its leftmost node: that node is replaced by its right child. -/
def removeMin {K V : Type} : node K V → node K V
  | node.nil => node.nil
  | node.mk _ _ node.nil right => right
  | node.mk key val (node.mk lk lv ll lr) right =>
    node.mk key val (removeMin (node.mk lk lv ll lr)) right

/-- The number of nodes on the longest path from a node down to a leaf. -/
def height {K V : Type} : node K V → Nat
  | node.nil => 0
  | node.mk _ _ left right => max (height left) (height right) + 1

/-- No node below has a left child. -/
def noLeftChild {K V : Type} : node K V → Bool
  | node.nil => true
  | node.mk _ _ left right => left.isNil && noLeftChild left && noLeftChild right

/-- The right-leaning chain holding the given entries from the top down. -/
def chain {K V : Type} : List (K × V) → node K V
  | [] => node.nil
  | (k, v) :: rest => node.mk k v node.nil (chain rest)

end tree

/-! ### Sift-down in the words of the spec -/

namespace queue

/-- In the words of the spec: the child that sift-down considers at index `i`
among the first `n` elements.  With two children present it is the right
child exactly when `less(right, left)` holds and the left child otherwise;
with only the left child present it is that one; `none` without children. -/
def specCandidate {T : Type} (h : genericHeap T) (i n : Nat) : Option Nat :=
  if 2 * i + 2 < n then
    if h.Less (2 * i + 2) (2 * i + 1) then some (2 * i + 2) else some (2 * i + 1)
  else if 2 * i + 1 < n then some (2 * i + 1)
  else none

/-- In the words of the spec: one round of sift-down at index `i`.  The
element is swapped with the candidate exactly when `less(candidate, element)`
holds, and sifting goes on at the candidate's index; otherwise (`none`)
sifting stops. -/
def specSiftStep {T : Type} (h : genericHeap T) (i n : Nat) : Option Nat :=
  match specCandidate h i n with
  | none => none
  | some j => if h.Less j i then some j else none

end queue

/-! ### The ordering of the stability test -/

namespace algorithms

/-- The ordering of TestQuickSortStability: items are compared by their key,
the first component; the second component is the payload. -/
def keyLess (a b : Int × String) : Bool := decide (a.1 < b.1)

end algorithms

/-! ## Properties of the binary search tree -/

namespace tree

section cmpLemmas

variable {K : Type} {cmp : K → K → Int}

theorem TotalCmp.eq_symm (hc : TotalCmp cmp) {a b : K} (h : cmp a b = 0) : cmp b a = 0 := by
  have h1 := hc.antisymm a b
  have h2 := hc.antisymm b a
  omega

theorem TotalCmp.lt_congr_right (hc : TotalCmp cmp) {a b : K} (c : K) (h : cmp a b = 0) :
    cmp c a < 0 ↔ cmp c b < 0 := by
  have hba := hc.eq_symm h
  constructor
  · intro hca
    by_contra hcb
    rcases lt_trichotomy (cmp c b) 0 with h1 | h1 | h1
    · exact hcb h1
    · have := (hc.eq_congr c b a h1).1 hca
      omega
    · have h2 : cmp b c < 0 := (hc.antisymm b c).2 h1
      have := hc.trans b c a h2 hca
      omega
  · intro hcb
    by_contra hca
    rcases lt_trichotomy (cmp c a) 0 with h1 | h1 | h1
    · exact hca h1
    · have := (hc.eq_congr c a b h1).1 hcb
      omega
    · have h2 : cmp a c < 0 := (hc.antisymm a c).2 h1
      have := hc.trans a c b h2 hcb
      omega

theorem TotalCmp.eq_trans (hc : TotalCmp cmp) {a b c : K} (h1 : cmp a b = 0)
    (h2 : cmp b c = 0) : cmp a c = 0 := by
  have e1 := hc.eq_congr a b c h1
  have e2 := hc.lt_congr_right c (hc.eq_symm h1)
  have e3 := hc.antisymm c a
  have e4 := hc.antisymm c b
  omega

theorem TotalCmp.gt_trans (hc : TotalCmp cmp) {a b c : K} (h1 : 0 < cmp a b)
    (h2 : 0 < cmp b c) : 0 < cmp a c :=
  (hc.antisymm c a).1 (hc.trans c b a ((hc.antisymm c b).2 h2) ((hc.antisymm b a).2 h1))

theorem intCmp_total : TotalCmp intCmp := by
  constructor
  · intro a; simp [intCmp]
  · intro a b; unfold intCmp; split_ifs <;> omega
  · intro a b c; unfold intCmp; split_ifs <;> omega
  · intro a b c; unfold intCmp; intro h; split_ifs at h ⊢ <;> omega

end cmpLemmas

section putLemmas

variable {K V : Type} {cmp : K → K → Int}

theorem getLoop_put_self [Inhabited V] (n : node K V) (k : K) (v : V)
    (hk : cmp k k = 0) : getLoop cmp (put n k v cmp) k = (v, true) := by
  induction n with
  | nil => simp [put, getLoop, hk]
  | mk key val left right ihl ihr =>
    simp only [put]
    split_ifs with h1 h2
    · have : cmp k key ≠ 0 := by omega
      simp [getLoop, this, h1, ihl]
    · have : cmp k key ≠ 0 := by omega
      simp [getLoop, this, h1, ihr]
    · have : cmp k key = 0 := by omega
      simp [getLoop, this]

theorem getLoop_put_other [Inhabited V] (hc : TotalCmp cmp) (n : node K V) (k k' : K) (v : V)
    (hne : cmp k' k ≠ 0) : getLoop cmp (put n k v cmp) k' = getLoop cmp n k' := by
  induction n with
  | nil =>
    simp only [put, getLoop, hne, if_false]
    split_ifs <;> rfl
  | mk key val left right ihl ihr =>
    simp only [put]
    split_ifs with h1 h2
    · simp only [getLoop, ihl]
    · simp only [getLoop, ihr]
    · have h0 : cmp k key = 0 := by omega
      have hk' : cmp k' key ≠ 0 := fun h => hne (hc.eq_trans h (hc.eq_symm h0))
      simp only [getLoop, hk', if_false]

theorem mem_keys_put (n : node K V) (k : K) (v : V) (x : K)
    (hx : x ∈ keys (put n k v cmp)) : x = k ∨ x ∈ keys n := by
  induction n with
  | nil => simpa [put, keys, inorder] using hx
  | mk key val left right ihl ihr =>
    simp only [put] at hx
    split_ifs at hx with h1 h2
    · simp only [keys, inorder, List.map_append, List.map_cons, List.mem_append,
        List.mem_cons] at hx ⊢
      rcases hx with hx | hx | hx
      · rcases ihl hx with h | h
        · exact Or.inl h
        · exact Or.inr (Or.inl h)
      · exact Or.inr (Or.inr (Or.inl hx))
      · exact Or.inr (Or.inr (Or.inr hx))
    · simp only [keys, inorder, List.map_append, List.map_cons, List.mem_append,
        List.mem_cons] at hx ⊢
      rcases hx with hx | hx | hx
      · exact Or.inr (Or.inl hx)
      · exact Or.inr (Or.inr (Or.inl hx))
      · rcases ihr hx with h | h
        · exact Or.inl h
        · exact Or.inr (Or.inr (Or.inr h))
    · right
      simpa [keys, inorder] using hx

theorem IsBST_put (n : node K V) (k : K) (v : V) (hn : IsBST cmp n) :
    IsBST cmp (put n k v cmp) := by
  induction n with
  | nil => simp [put, IsBST, keys, inorder]
  | mk key val left right ihl ihr =>
    obtain ⟨hl, hr, hbl, hbr⟩ := hn
    simp only [put]
    split_ifs with h1 h2
    · refine ⟨?_, hr, ihl hbl, hbr⟩
      intro x hx
      rcases mem_keys_put left k v x hx with h | h
      · rw [h]; exact h1
      · exact hl x h
    · refine ⟨hl, ?_, hbl, ihr hbr⟩
      intro x hx
      rcases mem_keys_put right k v x hx with h | h
      · rw [h]; exact h2
      · exact hr x h
    · exact ⟨hl, hr, hbl, hbr⟩

theorem IsBST_putAll (ops : List (K × V)) (t : BinaryTree K V)
    (ht : t.cmp = cmp) (hn : IsBST cmp t.root) :
    (putAll t ops).cmp = cmp ∧ IsBST cmp (putAll t ops).root := by
  induction ops generalizing t with
  | nil => exact ⟨ht, hn⟩
  | cons op ops ih =>
    simp only [putAll, List.foldl_cons]
    apply ih
    · exact ht
    · simp only [BinaryTree.Put, ht]
      exact IsBST_put _ _ _ hn

theorem IsBST_iff_pairwise (hc : TotalCmp cmp) (n : node K V) :
    IsBST cmp n ↔ (keys n).Pairwise (fun a b => cmp a b < 0) := by
  induction n with
  | nil => simp [IsBST, keys, inorder]
  | mk key val left right ihl ihr =>
    simp only [IsBST, keys, inorder, List.map_append, List.map_cons, List.pairwise_append,
      List.pairwise_cons, List.mem_cons, List.mem_map] at *
    constructor
    · rintro ⟨hl, hr, hbl, hbr⟩
      refine ⟨ihl.1 hbl, ⟨?_, ihr.1 hbr⟩, ?_⟩
      · intro b hb
        exact (hc.antisymm key b).2 (hr b hb)
      · intro a ha b hb
        rcases hb with hb | hb
        · rw [hb]; exact hl a ha
        · exact hc.trans a key b (hl a ha) ((hc.antisymm key b).2 (hr b hb))
    · rintro ⟨hpl, ⟨hkr, hpr⟩, hx⟩
      refine ⟨?_, ?_, ihl.2 hpl, ihr.2 hpr⟩
      · intro a ha
        exact hx a ha key (Or.inl rfl)
      · intro b hb
        exact (hc.antisymm key b).1 (hkr b hb)

end putLemmas

section deleteLemmas

variable {K V : Type} {cmp : K → K → Int}

theorem mem_keys_of_mem_inorder {n : node K V} {e : K × V} (h : e ∈ inorder n) :
    e.1 ∈ keys n :=
  List.mem_map_of_mem Prod.fst h

theorem findMin_spec (left : node K V) (key : K) (val : V) (right : node K V) :
    ∃ sk sv sr rest, findMin (node.mk key val left right) = node.mk sk sv node.nil sr ∧
      inorder (node.mk key val left right) = (sk, sv) :: rest := by
  induction left generalizing key val right with
  | nil => exact ⟨key, val, right, inorder right, by simp [findMin], by simp [inorder]⟩
  | mk lk lv ll lr ihl _ =>
    obtain ⟨sk, sv, sr, rest, h1, h2⟩ := ihl lk lv lr
    refine ⟨sk, sv, sr, rest ++ (key, val) :: inorder right, ?_, ?_⟩
    · rw [findMin]; exact h1
    · rw [inorder, h2]; simp

theorem removeKey_eq_self (es : List (K × V)) (k : K) (h : ∀ e ∈ es, cmp k e.1 ≠ 0) :
    removeKey cmp es k = es := by
  unfold removeKey
  rw [List.filter_eq_self]
  intro e he
  simpa using h e he

/-- A key below the left child of a node does not compare EQUAL to a key that
is not LESS than the node's key. -/
theorem ne_of_left (hc : TotalCmp cmp) {k key x : K} (hx : cmp x key < 0)
    (hk : ¬ cmp k key < 0) : cmp k x ≠ 0 := by
  intro h0
  exact hk ((hc.eq_congr k x key h0).2 hx)

/-- A key below the right child of a node does not compare EQUAL to a key that
is not GREATER than the node's key. -/
theorem ne_of_right (hc : TotalCmp cmp) {k key x : K} (hx : 0 < cmp x key)
    (hk : ¬ 0 < cmp k key) : cmp k x ≠ 0 := by
  intro h0
  have h1 : cmp key x < 0 := (hc.antisymm key x).2 hx
  have h2 : cmp key k < 0 := (hc.lt_congr_right key h0).2 h1
  exact hk ((hc.antisymm key k).1 h2)

theorem inorder_deleteNode (hc : TotalCmp cmp) (n : node K V) (k : K) (hn : IsBST cmp n) :
    inorder (deleteNode n k cmp) = removeKey cmp (inorder n) k := by
  induction n generalizing k with
  | nil => simp [deleteNode, inorder, removeKey]
  | mk key val left right ihl ihr =>
    obtain ⟨hl, hr, hbl, hbr⟩ := hn
    have hL : ∀ k0, ¬ cmp k0 key < 0 → removeKey cmp (inorder left) k0 = inorder left :=
      fun k0 h0 => removeKey_eq_self _ _ fun e he =>
        ne_of_left hc (hl _ (mem_keys_of_mem_inorder he)) h0
    have hR : ∀ k0, ¬ 0 < cmp k0 key → removeKey cmp (inorder right) k0 = inorder right :=
      fun k0 h0 => removeKey_eq_self _ _ fun e he =>
        ne_of_right hc (hr _ (mem_keys_of_mem_inorder he)) h0
    have hne : cmp k key ≠ 0 → removeKey cmp (inorder (node.mk key val left right)) k =
        removeKey cmp (inorder left) k ++ (key, val) :: removeKey cmp (inorder right) k := by
      intro h
      simp [removeKey, inorder, List.filter_cons, h]
    have heq : cmp k key = 0 → removeKey cmp (inorder (node.mk key val left right)) k =
        removeKey cmp (inorder left) k ++ removeKey cmp (inorder right) k := by
      intro h
      simp [removeKey, inorder, List.filter_cons, h]
    rcases lt_trichotomy (cmp k key) 0 with h1 | h1 | h1
    · have e : deleteNode (node.mk key val left right) k cmp =
          node.mk key val (deleteNode left k cmp) right := by
        simp [deleteNode, h1]
      rw [e, hne (by omega), inorder, ihl k hbl, hR k (by omega)]
    · rw [heq h1, hL k (by omega), hR k (by omega)]
      cases left with
      | nil => simp [deleteNode, h1, node.isNil, inorder]
      | mk lk lv ll lr =>
        cases right with
        | nil => simp [deleteNode, h1, node.isNil, inorder]
        | mk rk rv rl rr =>
          obtain ⟨sk, sv, sr, rest, hf, hin⟩ := findMin_spec rl rk rv rr
          have e : deleteNode (node.mk key val (node.mk lk lv ll lr) (node.mk rk rv rl rr)) k cmp
              = node.mk sk sv (node.mk lk lv ll lr)
                  (deleteNode (node.mk rk rv rl rr) sk cmp) := by
            simp [deleteNode, h1, node.isNil, hf]
          have hp := (IsBST_iff_pairwise hc _).1 hbr
          rw [keys, hin] at hp
          simp only [List.map_cons, List.pairwise_cons] at hp
          have hrest : removeKey cmp rest sk = rest :=
            removeKey_eq_self _ _ fun e he h0 => by
              have := hp.1 e.1 (List.mem_map_of_mem Prod.fst he)
              omega
          have hsk : removeKey cmp ((sk, sv) :: rest) sk = rest := by
            rw [← hrest]
            simp [removeKey, hc.refl sk]
          rw [e, inorder, ihr sk hbr, hin, hsk]
    · have e : deleteNode (node.mk key val left right) k cmp =
          node.mk key val left (deleteNode right k cmp) := by
        simp [deleteNode, h1, show ¬ cmp k key < 0 by omega]
      rw [e, hne (by omega), inorder, ihr k hbr, hL k (by omega)]

theorem keys_deleteNode_sublist (hc : TotalCmp cmp) (n : node K V) (k : K)
    (hn : IsBST cmp n) : (keys (deleteNode n k cmp)).Sublist (keys n) := by
  rw [keys, keys, inorder_deleteNode hc n k hn]
  exact List.Sublist.map _ (List.filter_sublist _)

theorem IsBST_deleteNode (hc : TotalCmp cmp) (n : node K V) (k : K) (hn : IsBST cmp n) :
    IsBST cmp (deleteNode n k cmp) :=
  (IsBST_iff_pairwise hc _).2
    (((IsBST_iff_pairwise hc _).1 hn).sublist (keys_deleteNode_sublist hc n k hn))

theorem getLoop_eq_lookupEntry [Inhabited V] (hc : TotalCmp cmp) (n : node K V) (k : K)
    (hn : IsBST cmp n) : getLoop cmp n k = lookupEntry cmp (inorder n) k := by
  induction n with
  | nil => simp [getLoop, lookupEntry, inorder]
  | mk key val left right ihl ihr =>
    obtain ⟨hl, hr, hbl, hbr⟩ := hn
    have hL : ¬ cmp k key < 0 →
        (inorder left).find? (fun e => decide (cmp k e.1 = 0)) = none := by
      intro h0
      rw [List.find?_eq_none]
      intro e he
      simpa using ne_of_left hc (hl _ (mem_keys_of_mem_inorder he)) h0
    have hR : ¬ 0 < cmp k key →
        (inorder right).find? (fun e => decide (cmp k e.1 = 0)) = none := by
      intro h0
      rw [List.find?_eq_none]
      intro e he
      simpa using ne_of_right hc (hr _ (mem_keys_of_mem_inorder he)) h0
    simp only [getLoop, lookupEntry, inorder, List.find?_append, List.find?_cons]
    split_ifs with h1 h2
    · rw [hL (by omega)]
      simp [h1]
    · rw [ihl hbl, lookupEntry, hR (by omega)]
      simp [h1]
    · rw [ihr hbr, lookupEntry, hL h2]
      simp [h1]

theorem lookupEntry_removeKey_self [Inhabited V] (es : List (K × V)) (k : K) :
    lookupEntry cmp (removeKey cmp es k) k = (default, false) := by
  have : (removeKey cmp es k).find? (fun e => decide (cmp k e.1 = 0)) = none := by
    rw [List.find?_eq_none]
    intro e he
    simp only [removeKey, List.mem_filter] at he
    simpa using he.2
  simp [lookupEntry, this]

theorem lookupEntry_removeKey_other [Inhabited V] (hc : TotalCmp cmp) (es : List (K × V))
    (k k' : K) (hne : cmp k' k ≠ 0) :
    lookupEntry cmp (removeKey cmp es k) k' = lookupEntry cmp es k' := by
  have : (removeKey cmp es k).find? (fun e => decide (cmp k' e.1 = 0)) =
      es.find? (fun e => decide (cmp k' e.1 = 0)) := by
    rw [removeKey, List.find?_filter]
    congr 1
    funext e
    by_cases h1 : cmp k' e.1 = 0
    · have h2 : cmp k e.1 ≠ 0 := fun h => hne (hc.eq_trans h1 (hc.eq_symm h))
      simp [h1, h2]
    · simp [h1]
  simp [lookupEntry, this]

theorem entries_split (hc : TotalCmp cmp) (es : List (K × V)) (k : K) (e : K × V)
    (hp : (es.map Prod.fst).Pairwise (fun a b => cmp a b < 0))
    (hfind : es.find? (fun e => decide (cmp k e.1 = 0)) = some e) :
    cmp k e.1 = 0 ∧ es.filter (fun e => decide (cmp k e.1 = 0)) = [e] ∧
      ∃ pre post, es = pre ++ e :: post ∧ removeKey cmp es k = pre ++ post := by
  obtain ⟨he, pre, post, hes, hpre⟩ := List.find?_eq_some.1 hfind
  have he0 : cmp k e.1 = 0 := by simpa using he
  have hpre' : ∀ a ∈ pre, cmp k a.1 ≠ 0 := fun a ha => by simpa using hpre a ha
  have hpost : ∀ a ∈ post, cmp k a.1 ≠ 0 := by
    intro a ha h0
    rw [hes] at hp
    simp only [List.map_append, List.map_cons, List.pairwise_append, List.pairwise_cons] at hp
    have h1 := hp.2.1.1 a.1 (List.mem_map_of_mem Prod.fst ha)
    have h2 := (hc.eq_congr k e.1 a.1 he0).2 h1
    omega
  refine ⟨he0, ?_, pre, post, hes, ?_⟩
  · have h1 : pre.filter (fun e => decide (cmp k e.1 = 0)) = [] := by
      rw [List.filter_eq_nil_iff]
      intro a ha
      simpa using hpre' a ha
    have h2 : post.filter (fun e => decide (cmp k e.1 = 0)) = [] := by
      rw [List.filter_eq_nil_iff]
      intro a ha
      simpa using hpost a ha
    rw [hes, List.filter_append, List.filter_cons, h1, h2]
    simp [he0]
  · have h1 : removeKey cmp pre k = pre := removeKey_eq_self _ _ hpre'
    have h2 : removeKey cmp post k = post := removeKey_eq_self _ _ hpost
    rw [hes]
    unfold removeKey at h1 h2 ⊢
    rw [List.filter_append, List.filter_cons, h1, h2]
    simp [he0]

theorem lookupEntry_found [Inhabited V] (es : List (K × V)) (k : K)
    (h : (lookupEntry cmp es k).2 = true) :
    ∃ e, es.find? (fun e => decide (cmp k e.1 = 0)) = some e ∧
      lookupEntry cmp es k = (e.2, true) := by
  unfold lookupEntry at h ⊢
  cases hf : es.find? (fun e => decide (cmp k e.1 = 0)) with
  | none => simp [hf] at h
  | some e => exact ⟨e, rfl, rfl⟩

theorem skeleton_put_of_found [Inhabited V] (n : node K V) (k : K) (v : V)
    (h : (getLoop cmp n k).2 = true) : skeleton (put n k v cmp) = skeleton n := by
  induction n with
  | nil => simp [getLoop] at h
  | mk key val left right ihl ihr =>
    simp only [getLoop] at h
    simp only [put]
    split_ifs at h ⊢ with h1 h2 h3 h4
    all_goals first
      | omega
      | rfl
      | simp only [skeleton, ihl h]
      | simp only [skeleton, ihr h]

theorem size_skeleton (n : node K V) : size (skeleton n) = size n := by
  induction n with
  | nil => rfl
  | mk key val left right ihl ihr => simp [skeleton, size, ihl, ihr]

theorem IsBST_step [Inhabited V] (t : BinaryTree K V) (op : Op K V) (hc : TotalCmp t.cmp)
    (hb : IsBST t.cmp t.root) : (t.step op).cmp = t.cmp ∧ IsBST t.cmp (t.step op).root := by
  cases op with
  | put k v => exact ⟨rfl, IsBST_put _ _ _ hb⟩
  | delete k =>
    simp only [BinaryTree.step, BinaryTree.Delete]
    split_ifs
    · exact ⟨rfl, hb⟩
    · exact ⟨rfl, IsBST_deleteNode hc _ _ hb⟩

theorem IsBST_run [Inhabited V] (hc : TotalCmp cmp) (ops : List (Op K V)) :
    (run cmp ops).cmp = cmp ∧ IsBST cmp (run cmp ops).root := by
  unfold run
  induction ops using List.reverseRecOn with
  | nil => exact ⟨rfl, trivial⟩
  | append_singleton ops op ih =>
    rw [List.foldl_append]
    simp only [List.foldl_cons, List.foldl_nil]
    obtain ⟨h1, h2⟩ := ih
    have h := IsBST_step (List.foldl BinaryTree.step (NewBinaryTree cmp) ops) op
      (by rw [h1]; exact hc) (by rw [h1]; exact h2)
    rw [h1] at h
    exact h

theorem sampleTree_isBST : IsBST intCmp sampleTree.root := by
  simp [sampleTree, putAll, BinaryTree.Put, NewBinaryTree, put, intCmp, IsBST, keys, inorder]

end deleteLemmas

end tree

/-! ## Statements about the binary search tree -/

namespace tree

/-- C1: BST invariant under Put.  For a comparator that is a consistent total
order and any finite sequence of `Put` calls on an empty tree, the in-order
keys of the result are strictly ascending per `cmp`, the result satisfies the
node-wise invariant (left keys LESS, right keys GREATER), and the two
formulations are equivalent on every tree. -/
theorem put_sequence_bst_invariant {K V : Type} (cmp : K → K → Int) (hc : TotalCmp cmp)
    (ops : List (K × V)) :
    (keys (putAll (NewBinaryTree cmp) ops).root).Pairwise (fun a b => cmp a b < 0) ∧
      IsBST cmp (putAll (NewBinaryTree cmp) ops).root ∧
      ∀ n : node K V, IsBST cmp n ↔ (keys n).Pairwise (fun a b => cmp a b < 0) := by
  have h : IsBST cmp (putAll (NewBinaryTree cmp) ops).root :=
    (IsBST_putAll ops (NewBinaryTree cmp) rfl trivial).2
  exact ⟨(IsBST_iff_pairwise hc _).1 h, h, fun n => IsBST_iff_pairwise hc n⟩

/-- Witness for C1: the seven keys of the tests come out as 1, 3, 4, 5, 6, 7, 9. -/
theorem put_sequence_bst_invariant_witness :
    keys sampleTree.root = [1, 3, 4, 5, 6, 7, 9] ∧
      (keys sampleTree.root).Pairwise (fun a b => intCmp a b < 0) :=
  ⟨by decide, (put_sequence_bst_invariant intCmp intCmp_total
    [(5, "five"), (3, "three"), (7, "seven"), (1, "one"), (4, "four"), (6, "six"),
      (9, "nine")]).1⟩

/-- C2: Delete correctness.  On a tree satisfying the BST invariant under a
total-order comparator, deleting a present key `k` returns true, afterwards
`Contains(k)` is false, and every other key (one that does not compare EQUAL
to `k`) that was present is still present with its original value. -/
theorem delete_present_correct {K V : Type} [Inhabited V] (t : BinaryTree K V) (k : K)
    (hc : TotalCmp t.cmp) (hb : IsBST t.cmp t.root) (hk : t.Contains k = true) :
    (t.Delete k).1 = true ∧ (t.Delete k).2.Contains k = false ∧
      ∀ (k' : K) (v : V), t.cmp k' k ≠ 0 → t.Get k' = (v, true) →
        (t.Delete k).2.Get k' = (v, true) := by
  have hd : t.Delete k = (true, { t with root := deleteNode t.root k t.cmp }) := by
    simp [BinaryTree.Delete, hk]
  have hb' := IsBST_deleteNode hc t.root k hb
  rw [hd]
  refine ⟨rfl, ?_, ?_⟩
  · simp only [BinaryTree.Contains, BinaryTree.Get]
    rw [getLoop_eq_lookupEntry hc _ _ hb', inorder_deleteNode hc _ _ hb,
      lookupEntry_removeKey_self]
  · intro k' v hne hget
    simp only [BinaryTree.Get] at hget ⊢
    rw [getLoop_eq_lookupEntry hc _ _ hb', inorder_deleteNode hc _ _ hb,
      lookupEntry_removeKey_other hc _ _ _ hne, ← getLoop_eq_lookupEntry hc _ _ hb]
    exact hget

/-- Witness for C2: deleting the two-child root 5 of the sample tree. -/
theorem delete_present_correct_witness :
    sampleTree.Contains 5 = true ∧ (sampleTree.Delete 5).1 = true ∧
      (sampleTree.Delete 5).2.Contains 5 = false ∧
      (sampleTree.Delete 5).2.Get 6 = ("six", true) :=
  have h := delete_present_correct sampleTree 5 intCmp_total sampleTree_isBST (by decide)
  ⟨by decide, h.1, h.2.1, h.2.2 6 "six" (by decide) (by decide)⟩

/-- C3: Delete preserves the BST invariant.  For a tree satisfying the
invariant under a total-order comparator and any key, the tree after
`Delete` (and the result of `deleteNode` itself, in each of its cases)
satisfies the invariant again. -/
theorem delete_preserves_bst {K V : Type} [Inhabited V] (t : BinaryTree K V) (k : K)
    (hc : TotalCmp t.cmp) (hb : IsBST t.cmp t.root) :
    IsBST t.cmp (t.Delete k).2.root ∧ (t.Delete k).2.cmp = t.cmp ∧
      IsBST t.cmp (deleteNode t.root k t.cmp) := by
  have h := IsBST_step t (Op.delete k) hc hb
  exact ⟨h.2, h.1, IsBST_deleteNode hc _ _ hb⟩

/-- Witness for C3: the sample tree after deleting its two-child root. -/
theorem delete_preserves_bst_witness :
    IsBST intCmp sampleTree.root ∧ IsBST intCmp (sampleTree.Delete 5).2.root :=
  ⟨sampleTree_isBST, (delete_preserves_bst sampleTree 5 intCmp_total sampleTree_isBST).1⟩

/-- C4: Put/Get round-trip.  For every tree, key and value, with a comparator
that is reflexive at the key, `Put(k, v)` followed by `Get(k)` returns
`(v, true)`. -/
theorem put_get_roundtrip {K V : Type} [Inhabited V] (t : BinaryTree K V) (k : K) (v : V)
    (hrefl : t.cmp k k = 0) : (t.Put k v).Get k = (v, true) :=
  getLoop_put_self t.root k v hrefl

/-- Witness for C4: putting a fresh key 8 into the sample tree. -/
theorem put_get_roundtrip_witness :
    intCmp 8 8 = 0 ∧ (sampleTree.Put 8 "eight").Get 8 = ("eight", true) :=
  ⟨by decide, put_get_roundtrip sampleTree 8 "eight" (by decide)⟩

/-- C5: Overwrite semantics.  For every tree built from the empty tree by
`Put` and `Delete` calls under a total-order comparator, after `Put(k, v1)`
then `Put(k, v2)` the lookup `Get(k)` returns `(v2, true)`, exactly one entry
has a key comparing EQUAL to `k` (and it carries `v2`), and the second `Put`
creates no node: node count, shape and stored keys are those after the first. -/
theorem put_overwrite {K V : Type} [Inhabited V] (cmp : K → K → Int) (hc : TotalCmp cmp)
    (ops : List (Op K V)) (k : K) (v1 v2 : V) :
    (((run cmp ops).Put k v1).Put k v2).Get k = (v2, true) ∧
      (∃ k0, (inorder (((run cmp ops).Put k v1).Put k v2).root).filter
        (fun e => decide (cmp k e.1 = 0)) = [(k0, v2)]) ∧
      size (((run cmp ops).Put k v1).Put k v2).root = size ((run cmp ops).Put k v1).root ∧
      skeleton (((run cmp ops).Put k v1).Put k v2).root =
        skeleton ((run cmp ops).Put k v1).root := by
  obtain ⟨hcmp, hb⟩ := IsBST_run hc ops
  generalize run cmp ops = t at hcmp hb
  obtain ⟨root, c⟩ := t
  simp only at hcmp hb
  subst hcmp
  simp only [BinaryTree.Put, BinaryTree.Get]
  have hb2 : IsBST c (put (put root k v1 c) k v2 c) := IsBST_put _ _ _ (IsBST_put _ _ _ hb)
  have hget : getLoop c (put (put root k v1 c) k v2 c) k = (v2, true) :=
    getLoop_put_self _ k v2 (hc.refl k)
  have hsk : skeleton (put (put root k v1 c) k v2 c) = skeleton (put root k v1 c) :=
    skeleton_put_of_found _ k v2 (by rw [getLoop_put_self root k v1 (hc.refl k)])
  refine ⟨hget, ?_, ?_, hsk⟩
  · have hl := hget
    rw [getLoop_eq_lookupEntry hc _ _ hb2] at hl
    obtain ⟨e, hfind, he⟩ := lookupEntry_found _ k (by rw [hl])
    have hsplit := entries_split hc _ k e ((IsBST_iff_pairwise hc _).1 hb2) hfind
    rw [hl] at he
    have hv : e.2 = v2 := (congrArg Prod.fst he).symm
    refine ⟨e.1, ?_⟩
    rw [hsplit.2.1, ← hv]
  · rw [← size_skeleton, hsk, size_skeleton]

/-- Witness for C5: two puts of key 5 into a tree built by two puts and a delete. -/
theorem put_overwrite_witness :
    TotalCmp intCmp ∧
      (((run intCmp [Op.put 5 "five", Op.put 3 "three", Op.delete 5]).Put 5 "first").Put 5
        "second").Get 5 = ("second", true) :=
  ⟨intCmp_total, (put_overwrite intCmp intCmp_total
    [Op.put 5 "five", Op.put 3 "three", Op.delete 5] 5 "first" "second").1⟩

/-- C6: In-order content after Delete.  On a tree satisfying the BST invariant
under a total-order comparator, deleting a present key `k` leaves the in-order
entry list equal to the list before with exactly the one entry for `k` taken
out: nothing else is added, dropped or reordered. -/
theorem delete_inorder {K V : Type} [Inhabited V] (t : BinaryTree K V) (k : K)
    (hc : TotalCmp t.cmp) (hb : IsBST t.cmp t.root) (hk : t.Contains k = true) :
    ∃ (pre post : List (K × V)) (e : K × V),
      inorder t.root = pre ++ e :: post ∧ t.cmp k e.1 = 0 ∧ t.Get k = (e.2, true) ∧
        inorder (t.Delete k).2.root = pre ++ post ∧
        inorder (t.Delete k).2.root = removeKey t.cmp (inorder t.root) k := by
  have hd : t.Delete k = (true, { t with root := deleteNode t.root k t.cmp }) := by
    simp [BinaryTree.Delete, hk]
  rw [hd]
  simp only [BinaryTree.Contains, BinaryTree.Get] at hk ⊢
  rw [getLoop_eq_lookupEntry hc _ _ hb] at hk ⊢
  obtain ⟨e, hfind, he⟩ := lookupEntry_found _ k hk
  obtain ⟨he0, _, pre, post, hes, hrem⟩ :=
    entries_split hc _ k e ((IsBST_iff_pairwise hc _).1 hb) hfind
  refine ⟨pre, post, e, hes, he0, he, ?_, ?_⟩
  · rw [inorder_deleteNode hc _ _ hb, hrem]
  · rw [inorder_deleteNode hc _ _ hb]

/-- Witness for C6: inserting 5, 3, 7, 1, 4, 6, 9 and deleting 5 gives the
in-order keys 1, 3, 4, 6, 7, 9. -/
theorem delete_inorder_witness :
    keys (sampleTree.Delete 5).2.root = [1, 3, 4, 6, 7, 9] ∧
      ∃ (pre post : List (Int × String)) (e : Int × String),
        inorder sampleTree.root = pre ++ e :: post ∧ intCmp 5 e.1 = 0 ∧
          sampleTree.Get 5 = (e.2, true) ∧
          inorder (sampleTree.Delete 5).2.root = pre ++ post ∧
          inorder (sampleTree.Delete 5).2.root = removeKey intCmp (inorder sampleTree.root) 5 :=
  ⟨by decide, delete_inorder sampleTree 5 intCmp_total sampleTree_isBST (by decide)⟩

/-- C7: Delete of an absent key.  For every tree and key with `Contains(k)`
false, `Delete(k)` returns false and the tree afterwards is the very same
tree (same shape, keys and values). -/
theorem delete_absent {K V : Type} [Inhabited V] (t : BinaryTree K V) (k : K)
    (hk : t.Contains k = false) : (t.Delete k).1 = false ∧ (t.Delete k).2 = t := by
  simp [BinaryTree.Delete, hk]

/-- Witness for C7: key 8 is not in the sample tree. -/
theorem delete_absent_witness :
    sampleTree.Contains 8 = false ∧ (sampleTree.Delete 8).1 = false ∧
      (sampleTree.Delete 8).2 = sampleTree :=
  ⟨by decide, delete_absent sampleTree 8 (by decide)⟩

/-- C8: Put leaves other keys alone.  For every tree, total-order comparator,
keys `k`, `k'` with `cmp(k', k) != 0` and value `v`, `Get(k')` returns the
same pair after `Put(k, v)` as before. -/
theorem put_frame {K V : Type} [Inhabited V] (t : BinaryTree K V) (k k' : K) (v : V)
    (hc : TotalCmp t.cmp) (hne : t.cmp k' k ≠ 0) : (t.Put k v).Get k' = t.Get k' :=
  getLoop_put_other hc t.root k k' v hne

/-- Witness for C8: overwriting key 3 and inserting key 8 leave key 4 and the
absent key 2 as they were. -/
theorem put_frame_witness :
    (sampleTree.Put 3 "x").Get 4 = ("four", true) ∧ (sampleTree.Put 8 "y").Get 2 = ("", false) :=
  ⟨(put_frame sampleTree 3 4 "x" intCmp_total (by decide)).trans (by decide),
    (put_frame sampleTree 8 2 "y" intCmp_total (by decide)).trans (by decide)⟩

end tree

/-! ## Properties of the priority queue -/

namespace queue

section swapLemmas

variable {T : Type}

theorem Less_eq (h : genericHeap T) (i j : Nat) :
    h.Less i j = lessOpt h.less h.data[i]? h.data[j]? := by
  unfold genericHeap.Less lessOpt
  rfl

theorem Swap_less (h : genericHeap T) (i j : Nat) : (h.Swap i j).less = h.less := by
  unfold genericHeap.Swap
  split <;> rfl

theorem Swap_length (h : genericHeap T) (i j : Nat) :
    (h.Swap i j).data.length = h.data.length := by
  unfold genericHeap.Swap
  split <;> simp

theorem Swap_getElem? (h : genericHeap T) (i j k : Nat) (hi : i < h.data.length)
    (hj : j < h.data.length) : (h.Swap i j).data[k]? = h.data[swapIdx i j k]? := by
  unfold genericHeap.Swap swapIdx
  rw [List.getElem?_eq_getElem hi, List.getElem?_eq_getElem hj]
  simp only [List.getElem?_set, List.length_set]
  by_cases h1 : k = i
  · subst h1
    by_cases h2 : j = k
    · subst h2; simp [hi]
    · simp [h2, hi, hj]
  · by_cases h2 : k = j
    · subst h2; simp [h1, hj, hi]
    · have h3 : ¬ j = k := fun h => h2 h.symm
      have h4 : ¬ i = k := fun h => h1 h.symm
      simp [h1, h2, h3, h4]

theorem set_perm_cons (t : List T) (j : Nat) (a b : T) (h : t[j]? = some b) :
    (b :: t.set j a).Perm (a :: t) := by
  induction t generalizing j with
  | nil => simp at h
  | cons x t ih =>
    cases j with
    | zero =>
      simp only [List.getElem?_cons_zero, Option.some.injEq] at h
      subst h
      exact List.Perm.swap a x t
    | succ j =>
      simp only [List.getElem?_cons_succ] at h
      simp only [List.set_cons_succ]
      exact (List.Perm.swap x b _).trans (((ih j h).cons x).trans (List.Perm.swap a x t))

theorem set_set_perm (xs : List T) (i j : Nat) (a b : T) (hi : xs[i]? = some a)
    (hj : xs[j]? = some b) : ((xs.set i b).set j a).Perm xs := by
  induction xs generalizing i j with
  | nil => simp at hi
  | cons x t ih =>
    cases i with
    | zero =>
      simp only [List.getElem?_cons_zero, Option.some.injEq] at hi
      subst hi
      cases j with
      | zero =>
        simp only [List.getElem?_cons_zero, Option.some.injEq] at hj
        simp
      | succ j =>
        simp only [List.getElem?_cons_succ] at hj
        simp only [List.set_cons_zero, List.set_cons_succ]
        exact set_perm_cons t j x b hj
    | succ i =>
      simp only [List.getElem?_cons_succ] at hi
      cases j with
      | zero =>
        simp only [List.getElem?_cons_zero, Option.some.injEq] at hj
        subst hj
        simp only [List.set_cons_zero, List.set_cons_succ]
        exact set_perm_cons t i x a hi
      | succ j =>
        simp only [List.getElem?_cons_succ] at hj
        simp only [List.set_cons_succ]
        exact (ih i j hi hj).cons x

theorem Swap_perm (h : genericHeap T) (i j : Nat) : (h.Swap i j).data.Perm h.data := by
  unfold genericHeap.Swap
  split
  · next a b hi hj => exact set_set_perm h.data i j a b hi hj
  · exact List.Perm.refl _

end swapLemmas

end queue

namespace queue

section orderLemmas

variable {T : Type} {less : T → T → Bool}

theorem StrictWeakOrder.asymm (hs : StrictWeakOrder less) {a b : T} (h : less a b = true) :
    less b a = false := by
  by_contra h1
  have h2 : less b a = true := by simpa using h1
  have h3 := hs.trans a b a h h2
  rw [hs.irrefl a] at h3
  exact Bool.noConfusion h3

theorem StrictWeakOrder.neg_trans (hs : StrictWeakOrder less) {a b c : T}
    (h1 : less a b = false) (h2 : less b c = false) : less a c = false := by
  by_contra h
  have hac : less a c = true := by simpa using h
  cases hba : less b a with
  | true =>
    have := hs.trans b a c hba hac
    rw [h2] at this
    exact Bool.noConfusion this
  | false =>
    cases hcb : less c b with
    | true =>
      have := hs.trans a c b hac hcb
      rw [h1] at this
      exact Bool.noConfusion this
    | false =>
      have := (hs.incomp_trans a b c h1 hba h2 hcb).1
      rw [hac] at this
      exact Bool.noConfusion this

theorem lessOpt_asymm (hs : StrictWeakOrder less) {x y : Option T}
    (h : lessOpt less x y = true) : lessOpt less y x = false := by
  cases x <;> cases y <;> simp_all [lessOpt]
  exact hs.asymm h

theorem lessOpt_trans (hs : StrictWeakOrder less) {x y z : Option T}
    (h1 : lessOpt less x y = true) (h2 : lessOpt less y z = true) :
    lessOpt less x z = true := by
  cases x <;> cases y <;> cases z <;> simp_all [lessOpt]
  exact hs.trans _ _ _ h1 h2

theorem lessOpt_neg_trans (hs : StrictWeakOrder less) {x y z : Option T}
    (hy : y.isSome = true) (h1 : lessOpt less x y = false) (h2 : lessOpt less y z = false) :
    lessOpt less x z = false := by
  cases x <;> cases y <;> cases z <;> simp_all [lessOpt]
  exact hs.neg_trans h1 h2

/-- From `x < y` and `¬ z < y` one gets `¬ z < x`. -/
theorem lessOpt_not_of_lt (hs : StrictWeakOrder less) {x y z : Option T}
    (h1 : lessOpt less x y = true) (h2 : lessOpt less z y = false) :
    lessOpt less z x = false := by
  by_contra h
  have h3 : lessOpt less z x = true := by simpa using h
  have := lessOpt_trans hs h3 h1
  rw [h2] at this
  exact Bool.noConfusion this

theorem upInv_step (hs : StrictWeakOrder less) (f : Nat → Option T) (j : Nat) (hj : 0 < j)
    (hp : (f ((j - 1) / 2)).isSome = true)
    (hlt : lessOpt less (f j) (f ((j - 1) / 2)) = true) (hinv : UpInv less f j) :
    UpInv less (fun k => f (swapIdx ((j - 1) / 2) j k)) ((j - 1) / 2) := by
  obtain ⟨h1, h2⟩ := hinv
  have hpj : (j - 1) / 2 < j := by omega
  refine ⟨fun c hc hcp => ?_, fun c hp0 hc hcp => ?_⟩
  · simp only [swapIdx, if_neg hcp]
    by_cases e1 : c = j
    · subst e1
      simp only [if_true]
      exact lessOpt_asymm hs hlt
    · simp only [if_neg e1]
      by_cases e2 : (c - 1) / 2 = (j - 1) / 2
      · simp only [e2, if_true]
        have := h1 c hc e1
        rw [e2] at this
        exact lessOpt_not_of_lt hs hlt this
      · simp only [if_neg e2]
        by_cases e3 : (c - 1) / 2 = j
        · simp only [e3, if_true]
          exact h2 c hj hc e3
        · simp only [if_neg e3]
          exact h1 c hc e1
  · have e0 : ¬ ((j - 1) / 2 - 1) / 2 = (j - 1) / 2 := by omega
    have e0' : ¬ ((j - 1) / 2 - 1) / 2 = j := by omega
    have e4 : ¬ c = (j - 1) / 2 := by omega
    simp only [swapIdx, if_neg e0, if_neg e0', if_neg e4]
    have hpg := h1 ((j - 1) / 2) hp0 (by omega)
    by_cases e1 : c = j
    · simp only [e1, if_true]
      exact hpg
    · simp only [if_neg e1]
      have := h1 c hc e1
      rw [hcp] at this
      exact lessOpt_neg_trans hs hp this hpg

theorem heapUpTo_of_upInv_stop (f : Nat → Option T) (j n : Nat) (hinv : UpInv less f j)
    (hstop : (j - 1) / 2 = j ∨ lessOpt less (f j) (f ((j - 1) / 2)) = false) :
    HeapUpTo less f n := by
  intro c hc _
  by_cases e : c = j
  · subst e
    rcases hstop with h | h
    · omega
    · exact h
  · exact hinv.1 c hc e

theorem downInv_stop (hs : StrictWeakOrder less) (f : Nat → Option T) (n i : Nat)
    (hsome : ∀ k, k < n → (f k).isSome = true)
    (hinv : DownInv less f n i) (hc1 : 2 * i + 1 < n)
    (hstop : lessOpt less
      (f (if 2 * i + 1 + 1 < n ∧ lessOpt less (f (2 * i + 1 + 1)) (f (2 * i + 1)) = true
        then 2 * i + 1 + 1 else 2 * i + 1)) (f i) = false) :
    HeapUpTo less f n := by
  intro c hc hcn
  by_cases e : (c - 1) / 2 = i
  · rw [e]
    have hcc : c = 2 * i + 1 ∨ c = 2 * i + 1 + 1 := by omega
    split_ifs at hstop with hsel
    · rcases hcc with h | h
      · subst h
        by_contra hh
        have h3 : lessOpt less (f (2 * i + 1)) (f i) = true := by simpa using hh
        have := lessOpt_trans hs hsel.2 h3
        rw [hstop] at this
        exact Bool.noConfusion this
      · subst h
        exact hstop
    · rcases hcc with h | h
      · subst h
        exact hstop
      · subst h
        have h2 : lessOpt less (f (2 * i + 1 + 1)) (f (2 * i + 1)) = false := by
          by_contra hh
          exact hsel ⟨hcn, by simpa using hh⟩
        exact lessOpt_neg_trans hs (hsome _ hc1) h2 hstop
  · exact hinv.1 c hc hcn e

theorem downInv_step (hs : StrictWeakOrder less) (f : Nat → Option T) (n i j : Nat)
    (hinv : DownInv less f n i) (hjn : j < n)
    (hj : j = (if 2 * i + 1 + 1 < n ∧ lessOpt less (f (2 * i + 1 + 1)) (f (2 * i + 1)) = true
        then 2 * i + 1 + 1 else 2 * i + 1))
    (hlt : lessOpt less (f j) (f i) = true) :
    DownInv less (fun k => f (swapIdx i j k)) n j := by
  obtain ⟨h1, h2⟩ := hinv
  have hpar : (j - 1) / 2 = i := by split_ifs at hj <;> omega
  have hij : i < j := by split_ifs at hj <;> omega
  refine ⟨fun c hc hcn hcp => ?_, fun c hj0 hc hcn hcp => ?_⟩
  · simp only [swapIdx]
    by_cases e1 : c = j
    · subst e1
      have e2 : ¬ c = i := by omega
      simp only [if_neg e2, if_true, hpar]
      exact lessOpt_asymm hs hlt
    · by_cases e2 : c = i
      · subst e2
        have e3 : ¬ (c - 1) / 2 = c := by omega
        have e4 : ¬ (c - 1) / 2 = j := by omega
        simp only [if_true, if_neg e3, if_neg e4]
        exact h2 j (by omega) (by omega) hjn hpar
      · simp only [if_neg e1, if_neg e2, if_neg hcp]
        by_cases e3 : (c - 1) / 2 = i
        · simp only [e3, if_true]
          split_ifs at hj with hsel
          · have e5 : c = 2 * i + 1 := by omega
            subst e5
            rw [hj]
            exact lessOpt_asymm hs hsel.2
          · have e5 : c = 2 * i + 1 + 1 := by omega
            subst e5
            rw [hj]
            by_contra hh
            exact hsel ⟨hcn, by simpa using hh⟩
        · simp only [if_neg e3]
          exact h1 c hc hcn e3
  · have e1 : ¬ c = i := by omega
    have e2 : ¬ c = j := by omega
    have e3 : ¬ (j - 1) / 2 = j := by omega
    simp only [swapIdx, if_neg e1, if_neg e2, hpar, if_true]
    have := h1 c hc hcn (by omega)
    rw [hcp] at this
    exact this

end orderLemmas

end queue

namespace queue

section loopLemmas

variable {T : Type}

theorem upLoop_struct (fuel : Nat) (h : genericHeap T) (j : Nat) :
    (heap.upLoop fuel h j).less = h.less ∧ (heap.upLoop fuel h j).data.Perm h.data := by
  induction fuel generalizing h j with
  | zero => exact ⟨rfl, List.Perm.refl _⟩
  | succ fuel ih =>
    unfold heap.upLoop
    simp only []
    split_ifs with hstop
    · exact ⟨rfl, List.Perm.refl _⟩
    · obtain ⟨h1, h2⟩ := ih (h.Swap ((j - 1) / 2) j) ((j - 1) / 2)
      exact ⟨h1.trans (Swap_less _ _ _), h2.trans (Swap_perm _ _ _)⟩

theorem downLoop_struct (fuel : Nat) (h : genericHeap T) (i n : Nat)
    (hn : n ≤ h.data.length) :
    (heap.downLoop fuel h i n).1.less = h.less ∧
      (heap.downLoop fuel h i n).1.data.Perm h.data ∧
      ∀ k, n ≤ k → (heap.downLoop fuel h i n).1.data[k]? = h.data[k]? := by
  induction fuel generalizing h i with
  | zero => exact ⟨rfl, List.Perm.refl _, fun _ _ => rfl⟩
  | succ fuel ih =>
    unfold heap.downLoop
    simp only []
    split_ifs with hc hsel hstop hstop
    · exact ⟨rfl, List.Perm.refl _, fun _ _ => rfl⟩
    · exact ⟨rfl, List.Perm.refl _, fun _ _ => rfl⟩
    · obtain ⟨h1, h2, h3⟩ := ih (h.Swap i (2 * i + 1 + 1)) (2 * i + 1 + 1)
        (by rw [Swap_length]; exact hn)
      refine ⟨h1.trans (Swap_less _ _ _), h2.trans (Swap_perm _ _ _), fun k hk => ?_⟩
      rw [h3 k hk, Swap_getElem? h _ _ k (by omega) (by omega)]
      have e1 : ¬ k = i := by omega
      have e2 : ¬ k = 2 * i + 1 + 1 := by omega
      simp only [swapIdx, if_neg e1, if_neg e2]
    · exact ⟨rfl, List.Perm.refl _, fun _ _ => rfl⟩
    · obtain ⟨h1, h2, h3⟩ := ih (h.Swap i (2 * i + 1)) (2 * i + 1)
        (by rw [Swap_length]; exact hn)
      refine ⟨h1.trans (Swap_less _ _ _), h2.trans (Swap_perm _ _ _), fun k hk => ?_⟩
      rw [h3 k hk, Swap_getElem? h _ _ k (by omega) (by omega)]
      have e1 : ¬ k = i := by omega
      have e2 : ¬ k = 2 * i + 1 := by omega
      simp only [swapIdx, if_neg e1, if_neg e2]

/-- The bound on the iterations of sift-up is never the reason the loop stops:
any two bounds above `j` give the same result. -/
theorem upLoop_fuel (f1 f2 : Nat) (h : genericHeap T) (j : Nat) (h1 : j < f1) (h2 : j < f2) :
    heap.upLoop f1 h j = heap.upLoop f2 h j := by
  induction f1 generalizing f2 h j with
  | zero => omega
  | succ f1 ih =>
    cases f2 with
    | zero => omega
    | succ f2 =>
      unfold heap.upLoop
      simp only []
      split_ifs with hstop
      · rfl
      · have e1 : ¬ (j - 1) / 2 = j := fun e => hstop (Or.inl e)
        exact ih f2 _ _ (by omega) (by omega)

/-- The loop equation of `up`: one iteration, then `up` again at the parent. -/
theorem up_unfold (h : genericHeap T) (j : Nat) :
    heap.up h j =
      if (j - 1) / 2 = j ∨ !h.Less j ((j - 1) / 2) then h
      else heap.up (h.Swap ((j - 1) / 2) j) ((j - 1) / 2) := by
  unfold heap.up
  rw [heap.upLoop]
  split_ifs with hstop
  · rfl
  · have e1 : ¬ (j - 1) / 2 = j := fun e => hstop (Or.inl e)
    exact upLoop_fuel _ _ _ _ (by omega) (by omega)

/-- The bound on the iterations of sift-down is never the reason the loop
stops: any two bounds of at least `n - i` give the same result. -/
theorem downLoop_fuel (f1 f2 : Nat) (h : genericHeap T) (i n : Nat) (h1 : n ≤ i + f1)
    (h2 : n ≤ i + f2) : heap.downLoop f1 h i n = heap.downLoop f2 h i n := by
  induction f1 generalizing f2 h i with
  | zero =>
    cases f2 with
    | zero => rfl
    | succ f2 =>
      unfold heap.downLoop
      simp only []
      rw [if_pos (by omega)]
  | succ f1 ih =>
    cases f2 with
    | zero =>
      unfold heap.downLoop
      simp only []
      rw [if_pos (by omega)]
    | succ f2 =>
      unfold heap.downLoop
      simp only []
      split_ifs with hc hsel hstop hstop
      · rfl
      · rfl
      · exact ih f2 _ _ (by omega) (by omega)
      · rfl
      · exact ih f2 _ _ (by omega) (by omega)

theorem upLoop_heap (less : T → T → Bool)
    (hsw : StrictWeakOrder less) (n fuel : Nat) (h : genericHeap T) (j : Nat)
    (hless : h.less = less) (hf : j < fuel) (hj : j < h.data.length)
    (hinv : UpInv less (fun k => h.data[k]?) j) :
    HeapUpTo less (fun k => (heap.upLoop fuel h j).data[k]?) n := by
  induction fuel generalizing h j with
  | zero => omega
  | succ fuel ih =>
    unfold heap.upLoop
    simp only []
    split_ifs with hstop
    · apply heapUpTo_of_upInv_stop _ j n hinv
      rcases hstop with e | e
      · exact Or.inl e
      · right
        simpa [Less_eq, hless] using e
    · have e1 : ¬ (j - 1) / 2 = j := fun e => hstop (Or.inl e)
      have e2 : lessOpt less h.data[j]? h.data[(j - 1) / 2]? = true := by
        by_contra e
        exact hstop (Or.inr (by simpa [Less_eq, hless] using e))
      have hpl : (j - 1) / 2 < h.data.length := by omega
      apply ih (h.Swap ((j - 1) / 2) j) ((j - 1) / 2)
      · rw [Swap_less]; exact hless
      · omega
      · rw [Swap_length]; exact hpl
      · have e3 : (fun k => (h.Swap ((j - 1) / 2) j).data[k]?) =
            fun k => h.data[swapIdx ((j - 1) / 2) j k]? :=
          funext fun k => Swap_getElem? h _ _ k hpl hj
        rw [e3]
        exact upInv_step hsw (fun k => h.data[k]?) j (by omega)
          (by simp [List.getElem?_eq_getElem hpl]) e2 hinv

theorem downLoop_heap (less : T → T → Bool) (hsw : StrictWeakOrder less) (n fuel : Nat)
    (h : genericHeap T) (i : Nat) (hless : h.less = less) (hf : n ≤ i + fuel)
    (hn : n ≤ h.data.length) (hinv : DownInv less (fun k => h.data[k]?) n i) :
    HeapUpTo less (fun k => (heap.downLoop fuel h i n).1.data[k]?) n := by
  induction fuel generalizing h i with
  | zero =>
    intro c hc hcn
    exact hinv.1 c hc hcn (by omega)
  | succ fuel ih =>
    unfold heap.downLoop
    simp only []
    by_cases hc1 : 2 * i + 1 ≥ n
    · rw [if_pos hc1]
      intro c hc hcn
      exact hinv.1 c hc hcn (by omega)
    · rw [if_neg hc1]
      have hc1' : 2 * i + 1 < n := by omega
      have hsome : ∀ k, k < n → (h.data[k]?).isSome = true := by
        intro k hk
        simp [List.getElem?_eq_getElem (show k < h.data.length by omega)]
      simp only [Less_eq, hless]
      generalize hjdef : (if 2 * i + 1 + 1 < n ∧
            lessOpt less h.data[2 * i + 1 + 1]? h.data[2 * i + 1]? = true
            then 2 * i + 1 + 1 else 2 * i + 1) = j
      have hjn : j < n := by rw [← hjdef]; split_ifs <;> omega
      have hij : i < j := by rw [← hjdef]; split_ifs <;> omega
      cases hlt : lessOpt less h.data[j]? h.data[i]? with
      | false =>
        simp only [Bool.not_false, if_true]
        apply downInv_stop hsw (fun k => h.data[k]?) n i hsome hinv hc1'
        simp only [hjdef]
        exact hlt
      | true =>
        simp only [Bool.not_true, Bool.false_eq_true, if_false]
        apply ih (h.Swap i j) j
        · rw [Swap_less]; exact hless
        · omega
        · rw [Swap_length]; exact hn
        · have e3 : (fun k => (h.Swap i j).data[k]?) = fun k => h.data[swapIdx i j k]? :=
            funext fun k => Swap_getElem? h _ _ k (by omega) (by omega)
          rw [e3]
          exact downInv_step hsw (fun k => h.data[k]?) n i j hinv hjn hjdef.symm hlt

end loopLemmas

end queue

namespace queue

section heapOps

variable {T : Type}

theorem lessOpt_none_left (less : T → T → Bool) (y : Option T) : lessOpt less none y = false := by
  cases y <;> rfl

theorem heapOrdered_iff (less : T → T → Bool) (xs : List T) (n : Nat) :
    HeapOrdered less xs n ↔ HeapUpTo less (fun k => xs[k]?) n := by
  constructor
  · intro h c hc hcn
    simp only []
    cases ha : xs[c]? with
    | none => exact lessOpt_none_left _ _
    | some a =>
      cases hb : xs[(c - 1) / 2]? with
      | none => rfl
      | some b => exact h c a b hc hcn ha hb
  · intro h c a b hc hcn ha hb
    have := h c hc hcn
    simp only [ha, hb] at this
    exact this

theorem heapPush_struct (h : genericHeap T) (x : T) :
    (heap.Push h x).less = h.less ∧ (heap.Push h x).data.Perm (x :: h.data) := by
  unfold heap.Push heap.up
  simp only []
  obtain ⟨h1, h2⟩ := upLoop_struct ((h.Push x).Len - 1 + 1) (h.Push x) ((h.Push x).Len - 1)
  refine ⟨h1, h2.trans ?_⟩
  simp only [genericHeap.Push]
  exact List.perm_append_singleton x h.data

theorem heapPush_heap (less : T → T → Bool) (hsw : StrictWeakOrder less) (h : genericHeap T)
    (x : T) (hless : h.less = less)
    (hh : HeapUpTo less (fun k => h.data[k]?) h.data.length) :
    HeapUpTo less (fun k => (heap.Push h x).data[k]?) (heap.Push h x).data.length := by
  unfold heap.Push heap.up
  simp only []
  have hlen : (h.Push x).Len - 1 = h.data.length := by
    simp [genericHeap.Push, genericHeap.Len]
  rw [hlen]
  apply upLoop_heap less hsw _ _ (h.Push x) h.data.length hless (by omega)
    (by simp [genericHeap.Push])
  simp only [genericHeap.Push]
  have hnone : ∀ c, h.data.length < c → (h.data ++ [x])[c]? = none := fun c hc =>
    List.getElem?_eq_none (by rw [List.length_append, List.length_singleton]; omega)
  refine ⟨fun c hc hcn => ?_, fun c hl hc hcp => ?_⟩
  · beta_reduce
    by_cases hlt : c < h.data.length
    · rw [List.getElem?_append_left hlt, List.getElem?_append_left (by omega)]
      exact hh c hc hlt
    · rw [hnone c (by omega)]
      exact lessOpt_none_left _ _
  · beta_reduce
    rw [hnone c (by omega)]
    exact lessOpt_none_left _ _

theorem heapPop_struct (h : genericHeap T) (hne : 0 < h.data.length) :
    ∃ v, (heap.Pop h).1 = some v ∧ h.data[0]? = some v ∧ (heap.Pop h).2.less = h.less ∧
      h.data.Perm (v :: (heap.Pop h).2.data) ∧
      (heap.Pop h).2.data.length = h.data.length - 1 := by
  unfold heap.Pop heap.down
  simp only [genericHeap.Len]
  have hsl : (h.Swap 0 (h.data.length - 1)).data.length = h.data.length := Swap_length _ _ _
  obtain ⟨h1, h2, h3⟩ := downLoop_struct (h.data.length - 1) (h.Swap 0 (h.data.length - 1)) 0
    (h.data.length - 1) (by omega)
  generalize heap.downLoop (h.data.length - 1) (h.Swap 0 (h.data.length - 1)) 0
    (h.data.length - 1) = r at h1 h2 h3
  have hlen : r.1.data.length = h.data.length := by rw [h2.length_eq, hsl]
  have hroot : r.1.data[h.data.length - 1]? = h.data[0]? := by
    rw [h3 _ (le_refl _), Swap_getElem? h _ _ _ (by omega) (by omega)]
    unfold swapIdx
    split_ifs with e1 <;> simp_all
  obtain ⟨v, h0⟩ : ∃ v, h.data[0]? = some v := ⟨_, List.getElem?_eq_getElem hne⟩
  refine ⟨v, ?_, h0, ?_, ?_, ?_⟩
  · simp only [genericHeap.Pop, hlen, hroot, h0]
  · simp only [genericHeap.Pop]
    rw [h1, Swap_less]
  · simp only [genericHeap.Pop, hlen]
    have hsplit : r.1.data = r.1.data.take (h.data.length - 1) ++ [v] := by
      have hd : r.1.data.drop (h.data.length - 1) = [v] := by
        apply List.ext_getElem?
        intro k
        rw [List.getElem?_drop]
        cases k with
        | zero => simp [hroot, h0]
        | succ k =>
          rw [List.getElem?_eq_none (by omega)]
          simp
      conv_lhs => rw [← List.take_append_drop (h.data.length - 1) r.1.data, hd]
    have hp : h.data.Perm r.1.data := (h2.trans (Swap_perm _ _ _)).symm
    rw [hsplit] at hp
    exact hp.trans (List.perm_append_singleton _ _)
  · simp only [genericHeap.Pop, hlen, List.length_take]
    omega

theorem heapPop_heap (less : T → T → Bool) (hsw : StrictWeakOrder less) (h : genericHeap T)
    (hless : h.less = less) (hne : 0 < h.data.length)
    (hh : HeapUpTo less (fun k => h.data[k]?) h.data.length) :
    HeapUpTo less (fun k => (heap.Pop h).2.data[k]?) (heap.Pop h).2.data.length := by
  obtain ⟨v, _, _, _, _, hlen'⟩ := heapPop_struct h hne
  rw [hlen']
  unfold heap.Pop heap.down
  simp only [genericHeap.Len]
  have hsl : (h.Swap 0 (h.data.length - 1)).data.length = h.data.length := Swap_length _ _ _
  have hd := downLoop_heap less hsw (h.data.length - 1) (h.data.length - 1)
    (h.Swap 0 (h.data.length - 1)) 0 (by rw [Swap_less]; exact hless) (by omega) (by omega) (by
      refine ⟨fun c hc hcn hcp => ?_, fun c hi => absurd hi (lt_irrefl 0)⟩
      simp only []
      rw [Swap_getElem? h _ _ _ (by omega) (by omega),
        Swap_getElem? h _ _ _ (by omega) (by omega)]
      have e1 : ¬ c = 0 := by omega
      have e2 : ¬ c = h.data.length - 1 := by omega
      have e3 : ¬ (c - 1) / 2 = h.data.length - 1 := by omega
      simp only [swapIdx, if_neg e1, if_neg e2, if_neg e3, if_neg hcp]
      exact hh c hc (by omega))
  obtain ⟨_, h2, _⟩ := downLoop_struct (h.data.length - 1) (h.Swap 0 (h.data.length - 1)) 0
    (h.data.length - 1) (by omega)
  generalize heap.downLoop (h.data.length - 1) (h.Swap 0 (h.data.length - 1)) 0
    (h.data.length - 1) = r at hd h2
  have hlen : r.1.data.length = h.data.length := by rw [h2.length_eq, hsl]
  intro c hc hcn
  simp only [genericHeap.Pop, hlen]
  rw [List.getElem?_take_of_lt hcn, List.getElem?_take_of_lt (by omega)]
  exact hd c hc hcn

theorem root_min (less : T → T → Bool) (hsw : StrictWeakOrder less) (xs : List T)
    (hh : HeapUpTo less (fun k => xs[k]?) xs.length) (k : Nat) :
    lessOpt less xs[k]? xs[0]? = false := by
  induction k using Nat.strong_induction_on with
  | _ k ih =>
    by_cases hk : k < xs.length
    · by_cases h0 : k = 0
      · subst h0
        rw [List.getElem?_eq_getElem hk]
        exact hsw.irrefl _
      · have h1 := hh k (by omega) hk
        have h2 := ih ((k - 1) / 2) (by omega)
        exact lessOpt_neg_trans hsw
          (by simp [List.getElem?_eq_getElem (show (k - 1) / 2 < xs.length by omega)]) h1 h2
    · rw [List.getElem?_eq_none (by omega)]
      exact lessOpt_none_left _ _

theorem root_min_mem (less : T → T → Bool) (hsw : StrictWeakOrder less) (xs : List T)
    (hh : HeapUpTo less (fun k => xs[k]?) xs.length) (v x : T) (hv : xs[0]? = some v)
    (hx : x ∈ xs) : less x v = false := by
  obtain ⟨k, hk, rfl⟩ := List.getElem_of_mem hx
  have := root_min less hsw xs hh k
  rw [List.getElem?_eq_getElem hk, hv] at this
  exact this

end heapOps

end queue

namespace queue

section pqLemmas

variable {T : Type}

theorem newPriorityQueue_eq (less : T → T → Bool) :
    NewPriorityQueue less = { h := { data := [], less := less } } := by
  simp [NewPriorityQueue, heap.Init, genericHeap.Len]

theorem pq_pop_empty [Inhabited T] (pq : PriorityQueue T) (he : pq.h.data.length = 0) :
    pq.Pop = ((default, false), pq) := by
  simp [PriorityQueue.Pop, genericHeap.Len, he]

theorem pq_pop_nonempty [Inhabited T] (pq : PriorityQueue T) (hne : 0 < pq.h.data.length) :
    ∃ v, pq.Pop = ((v, true), { h := (heap.Pop pq.h).2 }) ∧ pq.h.data[0]? = some v ∧
      (heap.Pop pq.h).2.less = pq.h.less ∧ pq.h.data.Perm (v :: (heap.Pop pq.h).2.data) ∧
      (heap.Pop pq.h).2.data.length = pq.h.data.length - 1 := by
  obtain ⟨v, h1, h2, h3, h4, h5⟩ := heapPop_struct pq.h hne
  refine ⟨v, ?_, h2, h3, h4, h5⟩
  have hlen : ¬ pq.h.Len = 0 := by simp only [genericHeap.Len]; omega
  have hp : heap.Pop pq.h = (some v, (heap.Pop pq.h).2) := Prod.ext h1 rfl
  unfold PriorityQueue.Pop
  rw [if_neg hlen, hp]

theorem pq_step_heap [Inhabited T] (less : T → T → Bool) (hsw : StrictWeakOrder less)
    (pq : PriorityQueue T) (op : PQOp T) (hless : pq.h.less = less)
    (hh : HeapUpTo less (fun k => pq.h.data[k]?) pq.h.data.length) :
    (pq.step op).h.less = less ∧
      HeapUpTo less (fun k => (pq.step op).h.data[k]?) (pq.step op).h.data.length := by
  cases op with
  | push v =>
    exact ⟨(heapPush_struct pq.h v).1.trans hless, heapPush_heap less hsw pq.h v hless hh⟩
  | pop =>
    simp only [PriorityQueue.step]
    by_cases hne : 0 < pq.h.data.length
    · obtain ⟨v, h1, _, h3, _, _⟩ := pq_pop_nonempty pq hne
      rw [h1]
      exact ⟨h3.trans hless, heapPop_heap less hsw pq.h hless hne hh⟩
    · rw [pq_pop_empty pq (by omega)]
      exact ⟨hless, hh⟩

theorem runOps_heap [Inhabited T] (less : T → T → Bool) (hsw : StrictWeakOrder less)
    (ops : List (PQOp T)) :
    (runOps less ops).h.less = less ∧
      HeapUpTo less (fun k => (runOps less ops).h.data[k]?) (runOps less ops).h.data.length := by
  unfold runOps
  induction ops using List.reverseRecOn with
  | nil =>
    rw [List.foldl_nil, newPriorityQueue_eq]
    exact ⟨rfl, fun c _ hc => absurd hc (Nat.not_lt_zero c)⟩
  | append_singleton ops op ih =>
    rw [List.foldl_append]
    simp only [List.foldl_cons, List.foldl_nil]
    exact pq_step_heap less hsw _ op ih.1 ih.2

theorem fromSlice_eq_runOps [Inhabited T] (less : T → T → Bool) (items : List T) :
    PriorityQueueFromSlice items less = runOps less (items.map PQOp.push) := by
  unfold PriorityQueueFromSlice runOps
  rw [List.foldl_map]
  rfl

theorem fromSlice_struct (less : T → T → Bool) (items : List T) :
    (PriorityQueueFromSlice items less).h.less = less ∧
      (PriorityQueueFromSlice items less).h.data.Perm items := by
  unfold PriorityQueueFromSlice
  induction items using List.reverseRecOn with
  | nil =>
    rw [List.foldl_nil, newPriorityQueue_eq]
    exact ⟨rfl, List.Perm.refl _⟩
  | append_singleton items x ih =>
    rw [List.foldl_append]
    simp only [List.foldl_cons, List.foldl_nil, PriorityQueue.Push]
    obtain ⟨h1, h2⟩ := heapPush_struct
      (List.foldl (fun pq item => pq.Push item) (NewPriorityQueue less) items).h x
    refine ⟨h1.trans ih.1, h2.trans ?_⟩
    exact ((ih.2.cons x).trans (List.perm_append_singleton x items).symm)

theorem popAll_struct [Inhabited T] (fuel : Nat) (pq : PriorityQueue T)
    (hf : pq.h.data.length ≤ fuel) :
    (popAll fuel pq).1.Perm pq.h.data ∧ (popAll fuel pq).2.h.data = [] ∧
      (popAll fuel pq).2.h.less = pq.h.less := by
  induction fuel generalizing pq with
  | zero =>
    have : pq.h.data = [] := List.length_eq_zero.1 (by omega)
    simp [popAll, this]
  | succ fuel ih =>
    by_cases hne : 0 < pq.h.data.length
    · obtain ⟨v, h1, _, h3, h4, h5⟩ := pq_pop_nonempty pq hne
      simp only [popAll, h1]
      obtain ⟨i1, i2, i3⟩ := ih { h := (heap.Pop pq.h).2 } (by simp only [h5]; omega)
      exact ⟨((i1.cons v).trans h4.symm), i2, i3.trans h3⟩
    · have he : pq.h.data = [] := List.length_eq_zero.1 (by omega)
      simp only [popAll, pq_pop_empty pq (by omega)]
      simp [he]

theorem popAll_sorted [Inhabited T] (less : T → T → Bool) (hsw : StrictWeakOrder less)
    (fuel : Nat) (pq : PriorityQueue T) (hf : pq.h.data.length ≤ fuel)
    (hless : pq.h.less = less)
    (hh : HeapUpTo less (fun k => pq.h.data[k]?) pq.h.data.length) :
    (popAll fuel pq).1.Pairwise (fun a b => less b a = false) := by
  induction fuel generalizing pq with
  | zero => simp [popAll]
  | succ fuel ih =>
    by_cases hne : 0 < pq.h.data.length
    · obtain ⟨v, h1, h2, h3, h4, h5⟩ := pq_pop_nonempty pq hne
      simp only [popAll, h1]
      have hf' : (heap.Pop pq.h).2.data.length ≤ fuel := by rw [h5]; omega
      rw [List.pairwise_cons]
      refine ⟨fun y hy => ?_, ih { h := (heap.Pop pq.h).2 } hf' (h3.trans hless)
        (heapPop_heap less hsw pq.h hless hne hh)⟩
      have hy1 : y ∈ (heap.Pop pq.h).2.data :=
        (popAll_struct fuel { h := (heap.Pop pq.h).2 } hf').1.subset hy
      have hy2 : y ∈ pq.h.data := h4.symm.subset (List.mem_cons_of_mem v hy1)
      exact root_min_mem less hsw pq.h.data hh v y h2 hy2
    · simp only [popAll, pq_pop_empty pq (by omega)]
      exact List.Pairwise.nil

theorem intLess_swo : StrictWeakOrder intLess := by
  constructor
  · intro a; simp [intLess]
  · intro a b c; simp only [intLess, decide_eq_true_eq]; omega
  · intro a b c; simp only [intLess, decide_eq_false_iff_not]; omega

end pqLemmas

end queue

/-! ## Statements about the priority queue -/

namespace queue

/-- C9: Heap order property.  For a strict weak ordering `less` and any
sequence of `Push` and `Pop` calls on a new queue, popping all remaining
elements (the loop is given at least `Len()` iterations) yields every
element, in non-decreasing priority order: for consecutive popped values `a`
then `b`, `less b a` is false (and likewise for any earlier `a` and later
`b`); the queue is empty afterwards. -/
theorem pop_all_in_order {T : Type} [Inhabited T] (less : T → T → Bool)
    (hsw : StrictWeakOrder less) (ops : List (PQOp T)) (fuel : Nat)
    (hf : (runOps less ops).Len ≤ fuel) :
    (popAll fuel (runOps less ops)).1.Chain' (fun a b => less b a = false) ∧
      (popAll fuel (runOps less ops)).1.Pairwise (fun a b => less b a = false) ∧
      (popAll fuel (runOps less ops)).1.length = (runOps less ops).Len ∧
      (popAll fuel (runOps less ops)).2.Len = 0 := by
  obtain ⟨h1, h2⟩ := runOps_heap less hsw ops
  have hp := popAll_sorted less hsw fuel (runOps less ops) hf h1 h2
  obtain ⟨s1, s2, _⟩ := popAll_struct fuel (runOps less ops) hf
  refine ⟨hp.chain', hp, s1.length_eq, ?_⟩
  simp [PriorityQueue.Len, genericHeap.Len, s2]

/-- Witness for C9: the pushed values 5, 2, 8, 1, 9, 3 pop as 1, 2, 3, 5, 8, 9,
and the mixed sequence of the tests leaves 3, 5, 8. -/
theorem pop_all_in_order_witness :
    (popAll 6 (runOps intLess [PQOp.push 5, PQOp.push 2, PQOp.push 8, PQOp.push 1,
        PQOp.push 9, PQOp.push 3])).1 = [1, 2, 3, 5, 8, 9] ∧
      (popAll 3 (runOps intLess [PQOp.push 5, PQOp.push 2, PQOp.pop, PQOp.push 1,
        PQOp.push 8, PQOp.pop, PQOp.push 3])).1 = [3, 5, 8] ∧
      (popAll 3 (runOps intLess [PQOp.push 5, PQOp.push 2, PQOp.pop, PQOp.push 1,
        PQOp.push 8, PQOp.pop, PQOp.push 3])).1.Chain' (fun a b => intLess b a = false) :=
  ⟨by decide, by decide,
    (pop_all_in_order intLess intLess_swo [PQOp.push 5, PQOp.push 2, PQOp.pop, PQOp.push 1,
      PQOp.push 8, PQOp.pop, PQOp.push 3] 3 (by decide)).1⟩

/-- C10: Pop-all is a permutation of what was pushed.  For every function
`less` and every list of items, the queue built by `PriorityQueueFromSlice`
(which pushes the items one by one into a new queue) holds `len(items)`
elements, and popping until empty yields exactly `len(items)` values that
are a permutation of the items and leaves the queue empty; for `<` on
integers the popped sequence is the ascending sort of the input. -/
theorem pop_all_permutation {T : Type} [Inhabited T] (less : T → T → Bool) (items : List T) :
    PriorityQueueFromSlice items less =
        items.foldl (fun pq v => pq.Push v) (NewPriorityQueue less) ∧
      (PriorityQueueFromSlice items less).Len = items.length ∧
      (∀ fuel, items.length ≤ fuel →
        (popAll fuel (PriorityQueueFromSlice items less)).1.Perm items ∧
        (popAll fuel (PriorityQueueFromSlice items less)).1.length = items.length ∧
        (popAll fuel (PriorityQueueFromSlice items less)).2.IsEmpty = true ∧
        (popAll fuel (PriorityQueueFromSlice items less)).2.Pop.1 = (default, false)) ∧
      (∀ (xs : List Int) (fuel : Nat), xs.length ≤ fuel →
        (popAll fuel (PriorityQueueFromSlice xs intLess)).1 =
          xs.insertionSort (fun a b => a ≤ b)) := by
  obtain ⟨_, hperm⟩ := fromSlice_struct less items
  have hlen : (PriorityQueueFromSlice items less).h.data.length = items.length :=
    hperm.length_eq
  refine ⟨rfl, hlen, fun fuel hf => ?_, fun xs fuel hf => ?_⟩
  · obtain ⟨s1, s2, _⟩ := popAll_struct fuel (PriorityQueueFromSlice items less)
      (by rw [hlen]; exact hf)
    have hp := s1.trans hperm
    refine ⟨hp, hp.length_eq, ?_, ?_⟩
    · simp [PriorityQueue.IsEmpty, genericHeap.Len, s2]
    · rw [pq_pop_empty _ (by rw [s2]; rfl)]
  · obtain ⟨_, hpx⟩ := fromSlice_struct intLess xs
    have hfx : (PriorityQueueFromSlice xs intLess).h.data.length ≤ fuel := by
      rw [hpx.length_eq]; exact hf
    obtain ⟨s1, _, _⟩ := popAll_struct fuel (PriorityQueueFromSlice xs intLess) hfx
    have hro := runOps_heap intLess intLess_swo (xs.map PQOp.push)
    rw [← fromSlice_eq_runOps] at hro
    have hsorted := popAll_sorted intLess intLess_swo fuel _ hfx hro.1 hro.2
    have hs1 : List.Sorted (fun a b : Int => a ≤ b)
        (popAll fuel (PriorityQueueFromSlice xs intLess)).1 :=
      hsorted.imp (fun {a b} h => by simpa [intLess] using h)
    exact List.eq_of_perm_of_sorted ((s1.trans hpx).trans (List.perm_insertionSort _ xs).symm)
      hs1 (List.sorted_insertionSort _ xs)

/-- Witness for C10: pushing 15, 3, 17, 5, 25, 7, 19, 1, 9, 11 into a min-ordered
heap pops 1, 3, 5, 7, 9, 11, 15, 17, 19, 25; with duplicates 5, 3, 5, 1, 3, 5 all
six values come back. -/
theorem pop_all_permutation_witness :
    (popAll 10 (PriorityQueueFromSlice [15, 3, 17, 5, 25, 7, 19, 1, 9, 11] intLess)).1 =
        [1, 3, 5, 7, 9, 11, 15, 17, 19, 25] ∧
      (popAll 6 (PriorityQueueFromSlice [5, 3, 5, 1, 3, 5] intLess)).1 = [1, 3, 3, 5, 5, 5] ∧
      (popAll 6 (PriorityQueueFromSlice [5, 3, 5, 1, 3, 5] intLess)).1.Perm [5, 3, 5, 1, 3, 5] :=
  ⟨by decide, by decide,
    ((pop_all_permutation intLess [5, 3, 5, 1, 3, 5]).2.2.1 6 (by decide)).1⟩

end queue

namespace queue

section moreLemmas

variable {T : Type}

theorem heapOrdered_iff_children (less : T → T → Bool) (xs : List T) :
    HeapOrdered less xs xs.length ↔ HeapChildren less xs := by
  constructor
  · intro h i c a b hc ha hb
    have hlt : c < xs.length := (List.getElem?_eq_some.1 ha).1
    have hp : (c - 1) / 2 = i := by omega
    exact h c a b (by omega) hlt ha (by rw [hp]; exact hb)
  · intro h c a b hc _ ha hb
    exact h ((c - 1) / 2) c a b (by omega) ha hb

theorem pq_push_len (pq : PriorityQueue T) (v : T) :
    (pq.Push v).h.data.length = pq.h.data.length + 1 := by
  have := (heapPush_struct pq.h v).2.length_eq
  simpa [PriorityQueue.Push] using this

theorem pq_pop_len [Inhabited T] (pq : PriorityQueue T) :
    pq.Pop.2.h.data.length + (if pq.Pop.1.2 then 1 else 0) = pq.h.data.length := by
  by_cases hne : 0 < pq.h.data.length
  · obtain ⟨v, h1, _, _, _, h5⟩ := pq_pop_nonempty pq hne
    rw [h1]
    simp only [h5, if_true]
    omega
  · rw [pq_pop_empty pq (by omega)]
    simp

theorem runCount_spec [Inhabited T] (less : T → T → Bool) (ops : List (PQOp T)) :
    (runCount less ops).1 = runOps less ops ∧
      (runCount less ops).1.h.data.length + (runCount less ops).2.2 =
        (runCount less ops).2.1 := by
  unfold runCount runOps
  induction ops using List.reverseRecOn with
  | nil =>
    rw [List.foldl_nil, List.foldl_nil, newPriorityQueue_eq]
    exact ⟨rfl, rfl⟩
  | append_singleton ops op ih =>
    rw [List.foldl_append, List.foldl_append]
    simp only [List.foldl_cons, List.foldl_nil]
    obtain ⟨h1, h2⟩ := ih
    generalize List.foldl PriorityQueue.stepCount (NewPriorityQueue less, 0, 0) ops = s at h1 h2
    rw [← h1]
    cases op with
    | push v =>
      refine ⟨rfl, ?_⟩
      simp only [PriorityQueue.stepCount, pq_push_len]
      omega
    | pop =>
      refine ⟨rfl, ?_⟩
      simp only [PriorityQueue.stepCount]
      have := pq_pop_len s.1
      split_ifs at this ⊢ <;> omega

end moreLemmas

end queue

namespace queue

/-- C11: Heap invariant preserved.  For a strict weak ordering `less`, if no
element at a non-root index is `less` than its parent at `(i - 1) / 2`, the
same holds after `Push(v)` and after `Pop()`; hence every queue reachable
from a new queue by `Push`/`Pop` satisfies the invariant.  The parent form
is the same as the children form (children of `i` at `2i + 1` and `2i + 2`). -/
theorem heap_invariant_preserved {T : Type} [Inhabited T] (less : T → T → Bool)
    (hsw : StrictWeakOrder less) (pq : PriorityQueue T) (v : T) (hless : pq.h.less = less)
    (hh : HeapOrdered less pq.h.data pq.Len) :
    HeapOrdered less (pq.Push v).h.data (pq.Push v).Len ∧
      HeapOrdered less pq.Pop.2.h.data pq.Pop.2.Len ∧
      (∀ ops : List (PQOp T),
        HeapOrdered less (runOps less ops).h.data (runOps less ops).Len) ∧
      (∀ xs : List T, HeapOrdered less xs xs.length ↔ HeapChildren less xs) := by
  have hh1 := (heapOrdered_iff less _ _).1 hh
  refine ⟨?_, ?_, fun ops => ?_, heapOrdered_iff_children less⟩
  · exact (heapOrdered_iff less _ _).2 (heapPush_heap less hsw pq.h v hless hh1)
  · exact (heapOrdered_iff less _ _).2 (pq_step_heap less hsw pq PQOp.pop hless hh1).2
  · exact (heapOrdered_iff less _ _).2 (runOps_heap less hsw ops).2

/-- Witness for C11: the heap 1, 3, 2 under `<` on integers. -/
theorem heap_invariant_preserved_witness :
    HeapOrdered intLess [1, 3, 2] 3 ∧
      HeapOrdered intLess (PriorityQueue.Push ⟨⟨[1, 3, 2], intLess⟩⟩ 0).h.data 4 ∧
      (PriorityQueue.Push ⟨⟨[1, 3, 2], intLess⟩⟩ 0).h.data = [0, 1, 2, 3] ∧
      (PriorityQueue.Pop ⟨⟨[1, 3, 2], intLess⟩⟩).2.h.data = [2, 3] :=
  have hh : HeapOrdered intLess [1, 3, 2] 3 := by
    intro c a b hc hcn ha hb
    interval_cases c <;> simp_all [intLess] <;> omega
  ⟨hh, (heap_invariant_preserved intLess intLess_swo ⟨⟨[1, 3, 2], intLess⟩⟩ 0 rfl hh).1,
    by decide, by decide⟩

/-- C12: Pop returns the top-priority element.  For a non-empty queue
reachable by `Push`/`Pop` under a strict weak ordering, `Pop` returns
`(v, true)` where `v` was an element of the queue and no element `x` of the
queue before the call satisfies `less x v`; the other elements stay. -/
theorem pop_returns_top {T : Type} [Inhabited T] (less : T → T → Bool)
    (hsw : StrictWeakOrder less) (ops : List (PQOp T)) (hne : 0 < (runOps less ops).Len) :
    ∃ v, (runOps less ops).Pop.1 = (v, true) ∧ v ∈ (runOps less ops).h.data ∧
      (∀ x ∈ (runOps less ops).h.data, less x v = false) ∧
      (runOps less ops).h.data.Perm (v :: (runOps less ops).Pop.2.h.data) := by
  obtain ⟨_, h2⟩ := runOps_heap less hsw ops
  obtain ⟨v, p1, p2, _, p4, _⟩ := pq_pop_nonempty (runOps less ops) hne
  refine ⟨v, by rw [p1], List.mem_iff_getElem?.2 ⟨0, p2⟩, fun x hx => ?_,
    by rw [p1]; exact p4⟩
  exact root_min_mem less hsw _ h2 v x p2 hx

/-- Witness for C12: after pushing 5, 2, 8 the next pop returns 2. -/
theorem pop_returns_top_witness :
    (runOps intLess [PQOp.push 5, PQOp.push 2, PQOp.push 8]).Pop.1 = (2, true) ∧
      ∃ v, (runOps intLess [PQOp.push 5, PQOp.push 2, PQOp.push 8]).Pop.1 = (v, true) ∧
        v ∈ (runOps intLess [PQOp.push 5, PQOp.push 2, PQOp.push 8]).h.data ∧
        (∀ x ∈ (runOps intLess [PQOp.push 5, PQOp.push 2, PQOp.push 8]).h.data,
          intLess x v = false) ∧
        (runOps intLess [PQOp.push 5, PQOp.push 2, PQOp.push 8]).h.data.Perm
          (v :: (runOps intLess [PQOp.push 5, PQOp.push 2, PQOp.push 8]).Pop.2.h.data) :=
  ⟨by decide, pop_returns_top intLess intLess_swo [PQOp.push 5, PQOp.push 2, PQOp.push 8]
    (by decide)⟩

/-- C13: Heap size invariant.  After every sequence of `Push` and `Pop` calls
on a new queue (so at every point of a longer sequence), `Len()` equals the
number of `Push` calls so far minus the number of `Pop` calls so far that
returned found = true. -/
theorem len_is_pushes_minus_pops {T : Type} [Inhabited T] (less : T → T → Bool)
    (ops : List (PQOp T)) :
    (runCount less ops).1 = runOps less ops ∧
      ∀ k, ((runOps less (ops.take k)).Len : Int) =
        ((runCount less (ops.take k)).2.1 : Int) - ((runCount less (ops.take k)).2.2 : Int) := by
  refine ⟨(runCount_spec less ops).1, fun k => ?_⟩
  obtain ⟨h1, h2⟩ := runCount_spec less (ops.take k)
  rw [← h1]
  simp only [PriorityQueue.Len, genericHeap.Len]
  omega

/-- C14: Empty-structure contract.  On an empty tree `Get` returns the zero
value with false, `Contains` and `Delete` return false and the tree is still
empty; on an empty queue `Pop` and `Peek` return the zero value with false
and the queue is unchanged, hence still empty. -/
theorem empty_structure_contract {K V T : Type} [Inhabited V] [Inhabited T]
    (cmp : K → K → Int) (k : K) (pq : PriorityQueue T) (hempty : pq.Len = 0) :
    (tree.NewBinaryTree cmp : tree.BinaryTree K V).Get k = (default, false) ∧
      (tree.NewBinaryTree cmp : tree.BinaryTree K V).Contains k = false ∧
      ((tree.NewBinaryTree cmp : tree.BinaryTree K V).Delete k).1 = false ∧
      ((tree.NewBinaryTree cmp : tree.BinaryTree K V).Delete k).2.root = tree.node.nil ∧
      pq.Pop.1 = (default, false) ∧ pq.Pop.2 = pq ∧ pq.Pop.2.Len = 0 ∧
      pq.Peek = (default, false) ∧ pq.IsEmpty = true := by
  have hp := pq_pop_empty pq hempty
  refine ⟨rfl, rfl, rfl, rfl, by rw [hp], by rw [hp], by rw [hp]; exact hempty, ?_, ?_⟩
  · simp [PriorityQueue.Peek, show pq.h.Len = 0 from hempty]
  · simp [PriorityQueue.IsEmpty, show pq.h.Len = 0 from hempty]

/-- Witness for C14: a new integer tree and a new integer queue. -/
theorem empty_structure_contract_witness :
    (NewPriorityQueue intLess).Len = 0 ∧
      (tree.NewBinaryTree tree.intCmp : tree.BinaryTree Int String).Get 1 = ("", false) ∧
      (NewPriorityQueue intLess).Pop.1 = (0, false) ∧
      (NewPriorityQueue intLess).Peek = (0, false) :=
  have h := @empty_structure_contract Int String Int _ _ tree.intCmp 1 (NewPriorityQueue intLess)
    (by decide)
  ⟨by decide, h.1, h.2.2.2.2.1, h.2.2.2.2.2.2.2.1⟩

/-- C15: Peek agrees with Pop.  For every non-empty queue `Peek` returns
`(v, true)` with `v` the element at index 0, and `Pop` on the same queue
returns the same `v`.  `Peek` performs no assignment, so it has no output
state: the stored sequence and `Len()` are those of the queue it was called on. -/
theorem peek_agrees_with_pop {T : Type} [Inhabited T] (pq : PriorityQueue T)
    (hne : 0 < pq.Len) :
    ∃ v, pq.Peek = (v, true) ∧ pq.h.data[0]? = some v ∧ pq.Pop.1 = (v, true) ∧
      pq.Pop.2.Len + 1 = pq.Len := by
  obtain ⟨v, p1, p2, _, _, p5⟩ := pq_pop_nonempty pq hne
  have hlen : ¬ pq.h.Len = 0 := by
    have : 0 < pq.h.Len := hne
    omega
  refine ⟨v, ?_, p2, by rw [p1], ?_⟩
  · simp [PriorityQueue.Peek, hlen, p2]
  · rw [p1]
    simp only [PriorityQueue.Len, genericHeap.Len, p5]
    have : 0 < pq.h.data.length := hne
    omega

/-- Witness for C15: after pushing 5, 2, 8 both `Peek` and `Pop` give 2. -/
theorem peek_agrees_with_pop_witness :
    (PriorityQueueFromSlice [5, 2, 8] intLess).Peek = (2, true) ∧
      (PriorityQueueFromSlice [5, 2, 8] intLess).Len = 3 ∧
      ∃ v, (PriorityQueueFromSlice [5, 2, 8] intLess).Peek = (v, true) ∧
        (PriorityQueueFromSlice [5, 2, 8] intLess).h.data[0]? = some v ∧
        (PriorityQueueFromSlice [5, 2, 8] intLess).Pop.1 = (v, true) ∧
        (PriorityQueueFromSlice [5, 2, 8] intLess).Pop.2.Len + 1 =
          (PriorityQueueFromSlice [5, 2, 8] intLess).Len :=
  ⟨by decide, by decide, peek_agrees_with_pop (PriorityQueueFromSlice [5, 2, 8] intLess)
    (by decide)⟩

/-- C17: Clear.  For every queue, after `Clear()` the length is 0, `IsEmpty()`
is true, `Pop` and `Peek` report not-found, the ordering function is the one
the queue had, and a following `Push(v)` then `Pop()` returns `(v, true)`. -/
theorem clear_resets {T : Type} [Inhabited T] (pq : PriorityQueue T) (v : T) :
    pq.Clear.Len = 0 ∧ pq.Clear.IsEmpty = true ∧ pq.Clear.Pop.1 = (default, false) ∧
      pq.Clear.Peek = (default, false) ∧ pq.Clear.h.less = pq.h.less ∧
      (pq.Clear.Push v).h.less = pq.h.less ∧ (pq.Clear.Push v).Pop.1 = (v, true) := by
  have hd : (pq.Clear.Push v).h.data = [v] :=
    List.perm_singleton.1 (heapPush_struct pq.Clear.h v).2
  obtain ⟨w, p1, p2, _, _, _⟩ := pq_pop_nonempty (pq.Clear.Push v) (by rw [hd]; exact Nat.one_pos)
  rw [hd] at p2
  have hw : v = w := by simpa using p2
  refine ⟨rfl, rfl, ?_, rfl, rfl, (heapPush_struct pq.Clear.h v).1, by rw [p1, hw]⟩
  rw [pq_pop_empty pq.Clear rfl]

/-- Witness for C17: the scenario of the tests, clearing a queue of 1..5 and
then pushing and popping 10. -/
theorem clear_resets_witness :
    ((PriorityQueueFromSlice [1, 2, 3, 4, 5] intLess).Clear.Push 10).Pop.1 = (10, true) ∧
      (PriorityQueueFromSlice [1, 2, 3, 4, 5] intLess).Clear.Len = 0 :=
  ⟨(clear_resets (PriorityQueueFromSlice [1, 2, 3, 4, 5] intLess) 10).2.2.2.2.2.2, by decide⟩

end queue

/-! ## Properties of sorting and searching -/

namespace algorithms

section sliceLemmas

variable {T : Type}

theorem getAt_nat (a : List T) (n : Nat) : getAt a (n : Int) = a[n]? := by
  unfold getAt
  rw [if_neg (by omega)]
  rfl

theorem getAt_length (A B : List T) (x : T) (i : Int) (hi : i = A.length) :
    getAt (A ++ x :: B) i = some x := by
  subst hi
  rw [getAt_nat, List.getElem?_append_right (le_refl _)]
  simp

theorem set_length (A B : List T) (x y : T) : (A ++ x :: B).set A.length y = A ++ y :: B := by
  induction A with
  | nil => rfl
  | cons a A ih => simp [ih]

theorem swapAt_same (A B : List T) (x : T) (i : Int) (hi : i = A.length) :
    swapAt (A ++ x :: B) i i = some (A ++ x :: B) := by
  unfold swapAt
  rw [getAt_length A B x i hi]
  subst hi
  simp only [Int.toNat_ofNat]
  rw [set_length, set_length]

theorem swapAt_apart (A B C : List T) (x y : T) (i j : Int) (hi : i = A.length)
    (hj : j = A.length + 1 + B.length) :
    swapAt (A ++ x :: (B ++ y :: C)) i j = some (A ++ y :: (B ++ x :: C)) := by
  have e1 : A ++ x :: (B ++ y :: C) = (A ++ x :: B) ++ y :: C := by simp
  have hj1 : j = ((A ++ x :: B).length : Nat) := by
    rw [hj]; simp; omega
  unfold swapAt
  rw [getAt_length A _ x i hi, e1, getAt_length (A ++ x :: B) C y j hj1]
  subst hi
  simp only [Int.toNat_ofNat]
  have hjn : j.toNat = (A ++ y :: B).length := by
    rw [hj]; simp; omega
  rw [← e1, set_length, hjn]
  have e2 : A ++ y :: (B ++ y :: C) = (A ++ y :: B) ++ y :: C := by simp
  rw [e2, set_length]
  simp

end sliceLemmas

section partitionLemmas

variable {T : Type}

theorem partitionLoop_spec (less : T → T → Bool) (pivot : T) (pre post : List T) :
    ∀ (U L G : List T) (i j hi : Int), i = (pre.length : Int) + L.length →
      j = (pre.length : Int) + L.length + G.length → hi = j + U.length →
      (∀ x ∈ L, less x pivot = true) → (∀ x ∈ G, less x pivot = false) →
      ∃ L1 G1, partitionLoop less pivot hi U.length
          (pre ++ (L ++ (G ++ (U ++ pivot :: post)))) i j =
            some (pre ++ (L1 ++ (G1 ++ pivot :: post)), (pre.length : Int) + L1.length) ∧
        (L1 ++ G1).Perm (L ++ (G ++ U)) ∧ (∀ x ∈ L1, less x pivot = true) ∧
        (∀ x ∈ G1, less x pivot = false) := by
  intro U
  induction U with
  | nil =>
    intro L G i j hi hi1 hj hhi hL hG
    refine ⟨L, G, ?_, by simp, hL, hG⟩
    simp only [List.length_nil, partitionLoop]
    rw [if_neg (by simp at hhi; omega)]
    simp [hi1]
  | cons u U ih =>
    intro L G i j hi hi1 hj hhi hL hG
    have hlt : j < hi := by simp at hhi; omega
    have hget : getAt (pre ++ (L ++ (G ++ (u :: U ++ pivot :: post)))) j = some u := by
      have e : pre ++ (L ++ (G ++ (u :: U ++ pivot :: post))) =
          (pre ++ (L ++ G)) ++ u :: (U ++ pivot :: post) := by simp
      rw [e]
      exact getAt_length _ _ u j (by rw [hj]; simp; omega)
    simp only [List.length_cons, partitionLoop]
    rw [if_pos hlt, hget]
    simp only []
    cases hu : less u pivot with
    | true =>
      simp only [if_true]
      cases G with
      | nil =>
        have hij : j = i := by rw [hj, hi1]; simp
        have hsw : swapAt (pre ++ (L ++ ([] ++ (u :: U ++ pivot :: post)))) i j =
            some (pre ++ ((L ++ [u]) ++ ([] ++ (U ++ pivot :: post)))) := by
          have e : pre ++ (L ++ ([] ++ (u :: U ++ pivot :: post))) =
              (pre ++ L) ++ u :: (U ++ pivot :: post) := by simp
          rw [hij, e, swapAt_same _ _ u i (by rw [hi1]; simp)]
          simp
        rw [hsw]
        simp only []
        obtain ⟨L1, G1, h1, h2, h3, h4⟩ := ih (L ++ [u]) [] (i + 1) (j + 1) hi
          (by rw [hi1]; simp; omega) (by rw [hj]; simp; omega) (by simp at hhi ⊢; omega)
          (by intro x hx; rcases List.mem_append.1 hx with h | h
              · exact hL x h
              · simp at h; rw [h]; exact hu)
          (by simp)
        refine ⟨L1, G1, h1, h2.trans ?_, h3, h4⟩
        simp
      | cons g G =>
        have hsw : swapAt (pre ++ (L ++ (g :: G ++ (u :: U ++ pivot :: post)))) i j =
            some (pre ++ ((L ++ [u]) ++ ((G ++ [g]) ++ (U ++ pivot :: post)))) := by
          have e : pre ++ (L ++ (g :: G ++ (u :: U ++ pivot :: post))) =
              (pre ++ L) ++ g :: (G ++ u :: (U ++ pivot :: post)) := by simp
          rw [e, swapAt_apart (pre ++ L) G _ g u i j (by rw [hi1]; simp)
            (by rw [hj]; simp; omega)]
          simp
        rw [hsw]
        simp only []
        obtain ⟨L1, G1, h1, h2, h3, h4⟩ := ih (L ++ [u]) (G ++ [g]) (i + 1) (j + 1) hi
          (by rw [hi1]; simp; omega) (by rw [hj]; simp; omega) (by simp at hhi ⊢; omega)
          (by intro x hx; rcases List.mem_append.1 hx with h | h
              · exact hL x h
              · simp at h; rw [h]; exact hu)
          (by intro x hx; rcases List.mem_append.1 hx with h | h
              · exact hG x (List.mem_cons_of_mem g h)
              · simp at h; rw [h]; exact hG g (List.mem_cons_self g G))
        refine ⟨L1, G1, h1, h2.trans ?_, h3, h4⟩
        simp only [List.append_assoc, List.singleton_append, List.cons_append]
        refine List.Perm.append_left L ?_
        have p1 : (u :: (G ++ g :: U)).Perm (g :: (G ++ u :: U)) := by
          have q1 : (G ++ g :: U).Perm (g :: (G ++ U)) := List.perm_middle
          have q2 : (G ++ u :: U).Perm (u :: (G ++ U)) := List.perm_middle
          exact ((q1.cons u).trans (List.Perm.swap g u _)).trans (q2.symm.cons g)
        exact p1
    | false =>
      simp only [Bool.false_eq_true, if_false]
      obtain ⟨L1, G1, h1, h2, h3, h4⟩ := ih L (G ++ [u]) i (j + 1) hi hi1
        (by rw [hj]; simp; omega) (by simp at hhi ⊢; omega) hL
        (by intro x hx; rcases List.mem_append.1 hx with h | h
            · exact hG x h
            · simp at h; rw [h]; exact hu)
      refine ⟨L1, G1, ?_, h2.trans (by simp), h3, h4⟩
      rw [← h1]
      simp

end partitionLemmas

end algorithms

namespace algorithms

section quickSortLemmas

variable {T : Type}

theorem partition_spec (less : T → T → Bool) (pre seg post : List T) (pivot : T)
    (lo hi : Int) (hlo : lo = pre.length) (hhi : hi = (pre.length : Int) + seg.length) :
    ∃ L R, partition (pre ++ (seg ++ pivot :: post)) lo hi less =
        some (pre ++ (L ++ pivot :: (R ++ post)), (pre.length : Int) + L.length) ∧
      (L ++ R).Perm seg ∧ (∀ x ∈ L, less x pivot = true) ∧
      (∀ x ∈ R, less x pivot = false) := by
  have hget : getAt (pre ++ (seg ++ pivot :: post)) hi = some pivot := by
    have e : pre ++ (seg ++ pivot :: post) = (pre ++ seg) ++ pivot :: post := by simp
    rw [e]
    exact getAt_length _ _ pivot hi (by rw [hhi]; simp)
  obtain ⟨L1, G1, h1, h2, h3, h4⟩ := partitionLoop_spec less pivot pre post seg [] [] lo lo hi
    (by rw [hlo]; simp) (by rw [hlo]; simp) (by rw [hhi, hlo]) (by simp) (by simp)
  have hfuel : (hi - lo).toNat = seg.length := by rw [hhi, hlo]; omega
  simp only [List.nil_append] at h1 h2
  unfold partition
  rw [hget]
  simp only []
  rw [hfuel, h1]
  simp only []
  have hlen : L1.length + G1.length = seg.length := by
    have := h2.length_eq
    simpa using this
  cases G1 with
  | nil =>
    have hh : hi = (pre.length : Int) + L1.length := by
      simp at hlen; rw [hhi]; omega
    refine ⟨L1, [], ?_, by simpa using h2, h3, by simp⟩
    have e : pre ++ (L1 ++ ([] ++ pivot :: post)) = (pre ++ L1) ++ pivot :: post := by simp
    rw [e, hh, swapAt_same _ _ pivot _ (by simp)]
    simp
  | cons g G =>
    refine ⟨L1, G ++ [g], ?_, ?_, h3, ?_⟩
    · have e : pre ++ (L1 ++ (g :: G ++ pivot :: post)) =
          (pre ++ L1) ++ g :: (G ++ pivot :: post) := by simp
      rw [e, swapAt_apart (pre ++ L1) G post g pivot _ hi (by simp)
        (by simp at hlen ⊢; rw [hhi]; omega)]
      simp
    · refine List.Perm.trans ?_ h2
      exact List.Perm.append_left L1 (List.perm_append_singleton g G)
    · intro x hx
      rcases List.mem_append.1 hx with h | h
      · exact h4 x (List.mem_cons_of_mem g h)
      · simp at h; rw [h]; exact h4 g (List.mem_cons_self g G)

theorem chain_short (R : T → T → Prop) (l : List T) (h : l.length ≤ 1) : l.Chain' R := by
  match l, h with
  | [], _ => exact List.chain'_nil
  | [a], _ => exact List.chain'_singleton a

theorem chain_around_pivot (less : T → T → Bool)
    (hasym : ∀ a b, less a b = true → less b a = false) (L R : List T) (pivot : T)
    (hL : L.Chain' (fun a b => less b a = false)) (hR : R.Chain' (fun a b => less b a = false))
    (hl : ∀ x ∈ L, less x pivot = true) (hr : ∀ x ∈ R, less x pivot = false) :
    (L ++ pivot :: R).Chain' (fun a b => less b a = false) := by
  refine List.Chain'.append hL (List.Chain'.cons' hR ?_) ?_
  · intro y hy
    exact hr y (List.mem_of_mem_head? hy)
  · intro x hx y hy
    simp only [List.head?_cons, Option.mem_def, Option.some.injEq] at hy
    subst hy
    exact hasym x _ (hl x (List.mem_of_mem_getLast? hx))

theorem quickSort_spec (less : T → T → Bool) :
    ∀ (fuel : Nat) (pre seg post : List T) (lo hi : Int), lo = pre.length →
      hi = (pre.length : Int) + seg.length - 1 → seg.length ≤ fuel →
      ∃ out, quickSort less fuel (pre ++ (seg ++ post)) lo hi = some (pre ++ (out ++ post)) ∧
        out.Perm seg ∧
        ((∀ a b, less a b = true → less b a = false) →
          out.Chain' (fun a b => less b a = false)) := by
  intro fuel
  induction fuel with
  | zero =>
    intro pre seg post lo hi hlo hhi hf
    have hs : seg = [] := List.length_eq_zero.1 (by omega)
    subst hs
    refine ⟨[], ?_, List.Perm.refl _, fun _ => List.chain'_nil⟩
    simp only [quickSort]
    rw [if_neg (by simp at hhi; omega)]
  | succ fuel ih =>
    intro pre seg post lo hi hlo hhi hf
    simp only [quickSort]
    by_cases hlt : lo < hi
    · rw [if_pos hlt]
      rcases List.eq_nil_or_concat seg with hs | ⟨seg0, pivot, hs⟩
      · subst hs; simp at hhi; omega
      · rw [List.concat_eq_append] at hs
        subst hs
        have hlen0 : (seg0 ++ [pivot]).length = seg0.length + 1 := by simp
        obtain ⟨L, R, hp, hperm, hl, hr⟩ := partition_spec less pre seg0 post pivot lo hi hlo
          (by rw [hhi, hlen0]; push_cast; omega)
        have e : pre ++ ((seg0 ++ [pivot]) ++ post) = pre ++ (seg0 ++ pivot :: post) := by simp
        rw [e, hp]
        simp only []
        have hLR : L.length + R.length = seg0.length := by
          have := hperm.length_eq
          simpa using this
        have hfinal : ∀ L1 R1 : List T, L1.Perm L → R1.Perm R →
            (L1 ++ pivot :: R1).Perm (seg0 ++ [pivot]) := by
          intro L1 R1 p1 p2
          have q1 : (L1 ++ pivot :: R1).Perm (pivot :: (L1 ++ R1)) := List.perm_middle
          have q2 : (L1 ++ R1).Perm seg0 := (p1.append p2).trans hperm
          exact (q1.trans (q2.cons pivot)).trans (List.perm_append_singleton pivot seg0).symm
        have hchain : ∀ L1 R1 : List T, L1.Perm L → R1.Perm R →
            ((∀ a b, less a b = true → less b a = false) →
              L1.Chain' (fun a b => less b a = false)) →
            ((∀ a b, less a b = true → less b a = false) →
              R1.Chain' (fun a b => less b a = false)) →
            (∀ a b, less a b = true → less b a = false) →
            (L1 ++ pivot :: R1).Chain' (fun a b => less b a = false) := by
          intro L1 R1 p1 p2 c1 c2 hasym
          exact chain_around_pivot less hasym L1 R1 pivot (c1 hasym) (c2 hasym)
            (fun x hx => hl x (p1.subset hx)) (fun x hx => hr x (p2.subset hx))
        split_ifs with hside
        · obtain ⟨L1, h1, p1, c1⟩ := ih pre L (pivot :: (R ++ post)) lo
            ((pre.length : Int) + L.length - 1) hlo rfl (by omega)
          rw [h1]
          simp only []
          have e2 : pre ++ (L1 ++ pivot :: (R ++ post)) = (pre ++ (L1 ++ [pivot])) ++ (R ++ post) := by
            simp
          obtain ⟨R1, h2, p2, c2⟩ := ih (pre ++ (L1 ++ [pivot])) R post
            ((pre.length : Int) + L.length + 1) hi
            (by have := p1.length_eq; simp; omega)
            (by have := p1.length_eq; rw [hhi, hlen0]; simp; omega) (by omega)
          rw [e2, h2]
          refine ⟨L1 ++ pivot :: R1, by simp, hfinal L1 R1 p1 p2, hchain L1 R1 p1 p2 c1 c2⟩
        · have e1 : pre ++ (L ++ pivot :: (R ++ post)) = (pre ++ (L ++ [pivot])) ++ (R ++ post) := by
            simp
          obtain ⟨R1, h1, p1, c1⟩ := ih (pre ++ (L ++ [pivot])) R post
            ((pre.length : Int) + L.length + 1) hi (by simp; omega)
            (by rw [hhi, hlen0]; simp; omega) (by omega)
          rw [e1, h1]
          simp only []
          have e2 : (pre ++ (L ++ [pivot])) ++ (R1 ++ post) = pre ++ (L ++ (pivot :: (R1 ++ post))) := by
            simp
          obtain ⟨L1, h2, p2, c2⟩ := ih pre L (pivot :: (R1 ++ post)) lo
            ((pre.length : Int) + L.length - 1) hlo rfl (by omega)
          rw [e2, h2]
          refine ⟨L1 ++ pivot :: R1, by simp, hfinal L1 R1 p2 p1, hchain L1 R1 p2 p1 c2 c1⟩
    · rw [if_neg hlt]
      exact ⟨seg, rfl, List.Perm.refl _, fun _ => chain_short _ seg (by omega)⟩

theorem QuickSort_spec (less : T → T → Bool) (arr : List T) :
    ∃ out, QuickSort arr less = some out ∧ out.Perm arr ∧
      ((∀ a b, less a b = true → less b a = false) →
        out.Chain' (fun a b => less b a = false)) := by
  unfold QuickSort
  split_ifs with h
  · exact ⟨arr, rfl, List.Perm.refl _, fun _ => chain_short _ arr (by omega)⟩
  · obtain ⟨out, h1, h2, h3⟩ := quickSort_spec less arr.length [] arr [] 0
      ((arr.length : Int) - 1) rfl (by simp) (le_refl _)
    simp only [List.nil_append, List.append_nil] at h1
    exact ⟨out, h1, h2, h3⟩

theorem chain_getElem? (R : T → T → Prop) (l : List T) (h : l.Chain' R) (i : Nat) (a b : T)
    (ha : l[i]? = some a) (hb : l[i + 1]? = some b) : R a b := by
  induction l generalizing i with
  | nil => simp at ha
  | cons x l ih =>
    cases l with
    | nil => simp at hb
    | cons y l =>
      rw [List.chain'_cons] at h
      cases i with
      | zero =>
        simp at ha hb
        rw [← ha, ← hb]
        exact h.1
      | succ i =>
        rw [List.getElem?_cons_succ] at ha hb
        exact ih h.2 i ha hb

end quickSortLemmas

end algorithms

namespace algorithms

/-- C18: QuickSort sorts.  For every slice and every strict weak ordering
`less`, `QuickSort` returns and afterwards there is no index `i >= 1` with
`less(arr[i], arr[i-1])`. -/
theorem quicksort_sorts {T : Type} (arr : List T) (less : T → T → Bool)
    (hsw : queue.StrictWeakOrder less) :
    ∃ out, QuickSort arr less = some out ∧
      ∀ (i : Nat) (a b : T), 1 ≤ i → out[i]? = some a → out[i - 1]? = some b →
        less a b = false := by
  obtain ⟨out, h1, _, h3⟩ := QuickSort_spec less arr
  refine ⟨out, h1, fun i a b hi ha hb => ?_⟩
  have hc := h3 (fun a b h => hsw.asymm h)
  have hi1 : i - 1 + 1 = i := by omega
  exact chain_getElem? _ out hc (i - 1) b a hb (by rw [hi1]; exact ha)

/-- Witness for C18: `<` and `>` on the integers 3, 1, 4, 1, 5, 9, 2, 6. -/
theorem quicksort_sorts_witness :
    QuickSort [3, 1, 4, 1, 5, 9, 2, 6] queue.intLess = some [1, 1, 2, 3, 4, 5, 6, 9] ∧
      QuickSort [3, 1, 4, 1, 5, 9, 2, 6] (fun a b : Int => decide (a > b)) =
        some [9, 6, 5, 4, 3, 2, 1, 1] ∧
      ∃ out, QuickSort [3, 1, 4, 1, 5, 9, 2, 6] queue.intLess = some out ∧
        ∀ (i : Nat) (a b : Int), 1 ≤ i → out[i]? = some a → out[i - 1]? = some b →
          queue.intLess a b = false :=
  ⟨by decide, by decide, quicksort_sorts [3, 1, 4, 1, 5, 9, 2, 6] queue.intLess
    queue.intLess_swo⟩

/-- C19: QuickSort permutes.  For every slice and every function `less`,
`QuickSort` returns a slice of the same length that is a permutation of the
input; with the total order `<` on integers it is the ascending sort of the
input. -/
theorem quicksort_permutes {T : Type} (arr : List T) (less : T → T → Bool) :
    (∃ out, QuickSort arr less = some out ∧ out.length = arr.length ∧ out.Perm arr) ∧
      ∀ xs : List Int,
        QuickSort xs queue.intLess = some (xs.insertionSort (fun a b => a ≤ b)) := by
  constructor
  · obtain ⟨out, h1, h2, _⟩ := QuickSort_spec less arr
    exact ⟨out, h1, h2.length_eq, h2⟩
  · intro xs
    obtain ⟨out, h1, h2, h3⟩ := QuickSort_spec queue.intLess xs
    rw [h1]
    have hc := h3 (fun a b h => queue.intLess_swo.asymm h)
    have hc2 : out.Chain' (fun a b : Int => a ≤ b) :=
      hc.imp (fun {a b} h => by simpa [queue.intLess] using h)
    have hs : out.Sorted (fun a b : Int => a ≤ b) := List.chain'_iff_pairwise.1 hc2
    exact congrArg some (List.eq_of_perm_of_sorted
      (h2.trans (List.perm_insertionSort _ xs).symm) hs (List.sorted_insertionSort _ xs))

/-- Witness for C19: 5, 2, 5, 2, 5 becomes 2, 2, 5, 5, 5, also under an
ordering that is not one (`less` constantly true) the elements are kept. -/
theorem quicksort_permutes_witness :
    QuickSort [5, 2, 5, 2, 5] queue.intLess = some [2, 2, 5, 5, 5] ∧
      (∃ out, QuickSort [5, 2, 5, 2, 5] (fun _ _ : Int => true) = some out ∧
        out.length = 5 ∧ out.Perm [5, 2, 5, 2, 5]) :=
  ⟨by decide, (quicksort_permutes [5, 2, 5, 2, 5] (fun _ _ : Int => true)).1⟩

end algorithms

namespace algorithms

section searchLemmas

variable {T : Type} {cmp : T → T → Int}

theorem cmp_le_lt_trans (hc : tree.TotalCmp cmp) {a b c : T} (h1 : cmp a b ≤ 0)
    (h2 : cmp b c < 0) : cmp a c < 0 := by
  rcases lt_or_eq_of_le h1 with h | h
  · exact hc.trans a b c h h2
  · exact (hc.eq_congr a b c h).2 h2

theorem cmp_lt_le_trans (hc : tree.TotalCmp cmp) {a b c : T} (h1 : cmp a b < 0)
    (h2 : cmp b c ≤ 0) : cmp a c < 0 := by
  rcases lt_or_eq_of_le h2 with h | h
  · exact hc.trans a b c h1 h
  · exact (hc.lt_congr_right a h).1 h1

theorem pairwise_getElem? (R : T → T → Prop) (l : List T) (h : l.Pairwise R) (i j : Nat)
    (a b : T) (hij : i < j) (ha : l[i]? = some a) (hb : l[j]? = some b) : R a b := by
  obtain ⟨hi, ea⟩ := List.getElem?_eq_some.1 ha
  obtain ⟨hj, eb⟩ := List.getElem?_eq_some.1 hb
  rw [← ea, ← eb]
  exact List.pairwise_iff_getElem.1 h i j hi hj hij

theorem getAt_in_range (arr : List T) (i : Int) (h0 : 0 ≤ i) (h1 : i < arr.length) :
    ∃ x, getAt arr i = some x ∧ arr[i.toNat]? = some x := by
  have hlt : i.toNat < arr.length := by omega
  refine ⟨arr[i.toNat], ?_, List.getElem?_eq_getElem hlt⟩
  unfold getAt
  rw [if_neg (by omega)]
  exact List.getElem?_eq_getElem hlt

theorem searchLoop_spec (hc : tree.TotalCmp cmp) (arr : List T) (target : T)
    (hs : arr.Pairwise (fun a b => cmp a b ≤ 0)) :
    ∀ (fuel : Nat) (lo hi : Int), 0 ≤ lo → hi < arr.length → hi - lo + 1 ≤ fuel →
      (∀ (k : Nat) (x : T), arr[k]? = some x → cmp x target = 0 → lo ≤ k ∧ (k : Int) ≤ hi) →
      ∃ r, searchLoop arr target cmp fuel lo hi = some r ∧
        ((r = -1 ∧ ∀ (k : Nat) (x : T), arr[k]? = some x → cmp x target ≠ 0) ∨
          (0 ≤ r ∧ r < arr.length ∧ ∃ x, arr[r.toNat]? = some x ∧ cmp x target = 0)) := by
  intro fuel
  induction fuel with
  | zero =>
    intro lo hi hlo hhi hf hinv
    refine ⟨-1, ?_, Or.inl ⟨rfl, fun k x hk h0 => ?_⟩⟩
    · simp only [searchLoop]
      rw [if_neg (by omega)]
    · have := hinv k x hk h0
      omega
  | succ fuel ih =>
    intro lo hi hlo hhi hf hinv
    simp only [searchLoop]
    by_cases hle : lo ≤ hi
    · rw [if_pos hle]
      have hdiv : (hi - lo).tdiv 2 = (hi - lo) / 2 :=
        Int.tdiv_eq_ediv (by omega) (by omega)
      rw [hdiv]
      generalize hmid : lo + (hi - lo) / 2 = mid
      have hm1 : lo ≤ mid := by omega
      have hm2 : mid ≤ hi := by omega
      obtain ⟨x, hx, hx2⟩ := getAt_in_range arr mid (by omega) (by omega)
      rw [hx]
      simp only []
      by_cases h0 : cmp x target = 0
      · rw [if_pos h0]
        exact ⟨mid, rfl, Or.inr ⟨by omega, by omega, x, hx2, h0⟩⟩
      · rw [if_neg h0]
        by_cases hneg : cmp x target < 0
        · rw [if_pos hneg]
          apply ih (mid + 1) hi (by omega) hhi (by omega)
          intro k y hk hy
          have hk1 := hinv k y hk hy
          refine ⟨?_, hk1.2⟩
          by_contra hcon
          have hkm : k ≤ mid.toNat := by omega
          have hle2 : cmp y x ≤ 0 := by
            rcases Nat.lt_or_eq_of_le hkm with hlt | heq
            · exact pairwise_getElem? _ arr hs k mid.toNat y x hlt hk hx2
            · rw [heq, hx2] at hk
              have : x = y := by simpa using hk
              rw [← this, hc.refl x]
          have := cmp_le_lt_trans hc hle2 hneg
          omega
        · rw [if_neg hneg]
          apply ih lo (mid - 1) hlo (by omega) (by omega)
          intro k y hk hy
          have hk1 := hinv k y hk hy
          refine ⟨hk1.1, ?_⟩
          by_contra hcon
          have hkm : mid.toNat ≤ k := by omega
          have hle2 : cmp x y ≤ 0 := by
            rcases Nat.lt_or_eq_of_le hkm with hlt | heq
            · exact pairwise_getElem? _ arr hs mid.toNat k x y hlt hx2 hk
            · rw [← heq, hx2] at hk
              have : x = y := by simpa using hk
              rw [← this, hc.refl x]
          have hpos : 0 < cmp x target := by omega
          have h1 : cmp target x < 0 := (hc.antisymm target x).2 hpos
          have h2 := cmp_lt_le_trans hc h1 hle2
          have h3 := (hc.antisymm target y).1 h2
          omega
    · rw [if_neg hle]
      refine ⟨-1, rfl, Or.inl ⟨rfl, fun k x hk h0 => ?_⟩⟩
      have := hinv k x hk h0
      omega

end searchLemmas

/-- C20: BinarySearch on sorted input.  For a slice sorted ascending under a
total-order comparator and any target, `BinarySearch` returns; if some
element compares EQUAL to the target the result is an index `i` with
`0 <= i < len(arr)` and `cmp(arr[i], target) == 0`, and it is the index of
every such element when the elements are strictly ascending; if no element
compares EQUAL, the result is -1. -/
theorem binary_search_sorted {T : Type} (arr : List T) (target : T) (cmp : T → T → Int)
    (hc : tree.TotalCmp cmp) (hs : arr.Pairwise (fun a b => cmp a b ≤ 0)) :
    ∃ r, BinarySearch arr target cmp = some r ∧
      ((∃ (k : Nat) (x : T), arr[k]? = some x ∧ cmp x target = 0) →
        0 ≤ r ∧ r < arr.length ∧ ∃ x, arr[r.toNat]? = some x ∧ cmp x target = 0) ∧
      ((∀ (k : Nat) (x : T), arr[k]? = some x → cmp x target ≠ 0) → r = -1) ∧
      (arr.Pairwise (fun a b => cmp a b < 0) →
        ∀ (k : Nat) (x : T), arr[k]? = some x → cmp x target = 0 → r = k) := by
  obtain ⟨r, h1, h2⟩ := searchLoop_spec hc arr target hs arr.length 0
    ((arr.length : Int) - 1) (le_refl _) (by omega) (by omega) (by
      intro k x hk _
      have := (List.getElem?_eq_some.1 hk).1
      omega)
  refine ⟨r, h1, ?_, ?_, ?_⟩
  · rintro ⟨k, x, hk, hx⟩
    rcases h2 with ⟨_, hno⟩ | h
    · exact absurd hx (hno k x hk)
    · exact h
  · intro hno
    rcases h2 with ⟨hr, _⟩ | ⟨_, _, x, hx, h0⟩
    · exact hr
    · exact absurd h0 (hno _ x hx)
  · intro hstrict k x hk hx
    rcases h2 with ⟨_, hno⟩ | ⟨hr0, hr1, y, hy, h0⟩
    · exact absurd hx (hno k x hk)
    · have hxy : cmp x y = 0 := hc.eq_trans hx (hc.eq_symm h0)
      have hyx : cmp y x = 0 := hc.eq_symm hxy
      rcases Nat.lt_trichotomy k r.toNat with hlt | heq | hgt
      · have := pairwise_getElem? _ arr hstrict k r.toNat x y hlt hk hy
        omega
      · omega
      · have := pairwise_getElem? _ arr hstrict r.toNat k y x hgt hy hk
        omega

/-- Witness for C20: the duplicate and not-found scenarios of the tests. -/
theorem binary_search_sorted_witness :
    BinarySearch [1, 2, 2, 2, 3, 4, 5] 2 tree.intCmp = some 3 ∧
      BinarySearch [1, 3, 5, 7, 9] 4 tree.intCmp = some (-1) ∧
      BinarySearch [0, 2, 4, 6, 8] 6 tree.intCmp = some 3 ∧
      ∃ r, BinarySearch [0, 2, 4, 6, 8] 6 tree.intCmp = some r ∧
        ((∃ (k : Nat) (x : Int), [0, 2, 4, 6, 8][k]? = some x ∧ tree.intCmp x 6 = 0) →
          0 ≤ r ∧ r < ([0, 2, 4, 6, 8] : List Int).length ∧
            ∃ x, [0, 2, 4, 6, 8][r.toNat]? = some x ∧ tree.intCmp x 6 = 0) ∧
        ((∀ (k : Nat) (x : Int), [0, 2, 4, 6, 8][k]? = some x → tree.intCmp x 6 ≠ 0) →
          r = -1) ∧
        (([0, 2, 4, 6, 8] : List Int).Pairwise (fun a b => tree.intCmp a b < 0) →
          ∀ (k : Nat) (x : Int), [0, 2, 4, 6, 8][k]? = some x → tree.intCmp x 6 = 0 →
            r = k) :=
  ⟨by decide, by decide, by decide,
    binary_search_sorted [0, 2, 4, 6, 8] 6 tree.intCmp tree.intCmp_total (by decide)⟩

end algorithms

/-! ## Properties of the queue in memory -/

namespace store

section memLemmas

variable {T : Type}

theorem view_of_obj (m : Mem T) (p : Nat) (o : Obj T) (h : m.objs[p]? = some o) :
    m.view p = { data := (m.cells o.data).take o.data.len, less := o.less } := by
  unfold Mem.view
  rw [h]

theorem view_congr (m m1 : Mem T) (q : Nat) (h1 : m1.objs[q]? = m.objs[q]?)
    (h2 : ∀ o, m.objs[q]? = some o → m1.cells o.data = m.cells o.data) :
    m1.view q = m.view q := by
  unfold Mem.view
  rw [h1]
  cases ho : m.objs[q]? with
  | none => rfl
  | some o => simp only [h2 o ho]

theorem cells_of_arr (m : Mem T) (s : Slice) (a : Nat) (hs : s.arr = some a) :
    m.cells s = (m.arrays[a]?).getD [] := by
  unfold Mem.cells
  rw [hs]

theorem cells_of_nil (m : Mem T) (s : Slice) (hs : s.arr = none) : m.cells s = [] := by
  unfold Mem.cells
  rw [hs]

/-- Cells of a slice are the same in two memories that agree on its array. -/
theorem cells_congr (m m1 : Mem T) (s : Slice)
    (h : ∀ a, s.arr = some a → m1.arrays[a]? = m.arrays[a]?) : m1.cells s = m.cells s := by
  unfold Mem.cells
  cases hs : s.arr with
  | none => rfl
  | some a => simp only [h a hs]

/-- Writing the backing array owned by object `p`, keeping its size. -/
theorem setArray_step (m : Mem T) (p a : Nat) (o : Obj T) (cs : List T) (hinv : Inv m)
    (ho : m.objs[p]? = some o) (ha : o.data.arr = some a)
    (hlen : cs.length = (m.cells o.data).length) :
    Inv (m.setArray a cs) ∧ (m.setArray a cs).objs = m.objs ∧
      (m.setArray a cs).cells o.data = cs ∧
      (m.setArray a cs).arrays.length = m.arrays.length ∧
      ∀ q, q ≠ p → (m.setArray a cs).view q = m.view q := by
  obtain ⟨i1, i2, i3⟩ := hinv
  have halt : a < m.arrays.length := i2 p o a ho ha
  have hcells : (m.setArray a cs).cells o.data = cs := by
    rw [cells_of_arr _ _ a ha]
    simp [Mem.setArray, halt]
  have hother : ∀ (q : Nat) (o2 : Obj T), q ≠ p → m.objs[q]? = some o2 →
      (m.setArray a cs).cells o2.data = m.cells o2.data := by
    intro q o2 hq ho2
    apply cells_congr
    intro a2 ha2
    have hne : a ≠ a2 := by
      intro e
      exact i3 p q o o2 a (fun e2 => hq e2.symm) ho ho2 ha (by rw [e]; exact ha2)
    simp only [Mem.setArray]
    exact List.getElem?_set_ne hne
  refine ⟨⟨?_, ?_, ?_⟩, rfl, hcells, by simp [Mem.setArray], ?_⟩
  · intro q o2 ho2
    by_cases hq : q = p
    · subst hq
      have e : o2 = o := by
        have h : m.objs[q]? = some o2 := ho2
        rw [ho] at h
        exact (Option.some.inj h).symm
      rw [e, hcells, hlen]
      exact i1 q o ho
    · rw [hother q o2 hq ho2]
      exact i1 q o2 ho2
  · intro q o2 a2 ho2 ha2
    simp only [Mem.setArray, List.length_set]
    exact i2 q o2 a2 ho2 ha2
  · intro q1 q2 o1 o2 a2 hne h1 h2 h3
    exact i3 q1 q2 o1 o2 a2 hne h1 h2 h3
  · intro q hq
    exact view_congr m (m.setArray a cs) q rfl (fun o2 ho2 => hother q o2 hq ho2)

/-- Replacing the slice header of object `p` by a slice over an array that no
other object uses (or by the nil slice). -/
theorem setData_step (m : Mem T) (p : Nat) (o : Obj T) (s : Slice) (hinv : Inv m)
    (ho : m.objs[p]? = some o)
    (hs : ∀ a, s.arr = some a → a < m.arrays.length ∧
      ∀ (q : Nat) (o2 : Obj T), q ≠ p → m.objs[q]? = some o2 → o2.data.arr ≠ some a)
    (hlen : s.len ≤ (m.cells s).length) :
    Inv (m.setData p s) ∧ (m.setData p s).objs.length = m.objs.length ∧
      (m.setData p s).arrays = m.arrays ∧
      (m.setData p s).view p = { data := (m.cells s).take s.len, less := o.less } ∧
      ∀ q, q ≠ p → (m.setData p s).view q = m.view q := by
  obtain ⟨i1, i2, i3⟩ := hinv
  have hp : p < m.objs.length := (List.getElem?_eq_some.1 ho).1
  have hobjs : (m.setData p s).objs = m.objs.set p { data := s, less := o.less } := by
    simp [Mem.setData, ho]
  have harr : (m.setData p s).arrays = m.arrays := by
    simp [Mem.setData, ho]
  have hcells : ∀ s2 : Slice, (m.setData p s).cells s2 = m.cells s2 := by
    intro s2
    apply cells_congr
    intro a _
    rw [harr]
  have hself : (m.setData p s).objs[p]? = some { data := s, less := o.less } := by
    rw [hobjs]
    exact List.getElem?_set_self hp
  have hoth : ∀ q, q ≠ p → (m.setData p s).objs[q]? = m.objs[q]? := by
    intro q hq
    rw [hobjs]
    exact List.getElem?_set_ne (fun e => hq e.symm)
  refine ⟨⟨?_, ?_, ?_⟩, by rw [hobjs, List.length_set], harr, ?_, ?_⟩
  · intro q o2 ho2
    rw [hcells]
    by_cases hq : q = p
    · subst hq
      rw [hself] at ho2
      have e := Option.some.inj ho2
      rw [← e]
      exact hlen
    · rw [hoth q hq] at ho2
      exact i1 q o2 ho2
  · intro q o2 a2 ho2 ha2
    rw [harr]
    by_cases hq : q = p
    · subst hq
      rw [hself] at ho2
      have e := Option.some.inj ho2
      rw [← e] at ha2
      exact (hs a2 ha2).1
    · rw [hoth q hq] at ho2
      exact i2 q o2 a2 ho2 ha2
  · intro q1 q2 o1 o2 a2 hne h1 h2 h3
    by_cases hq1 : q1 = p
    · subst hq1
      rw [hself] at h1
      have e := Option.some.inj h1
      rw [← e] at h3
      rw [hoth q2 (fun e2 => hne e2.symm)] at h2
      exact (hs a2 h3).2 q2 o2 (fun e2 => hne e2.symm) h2
    · rw [hoth q1 hq1] at h1
      by_cases hq2 : q2 = p
      · subst hq2
        rw [hself] at h2
        have e := Option.some.inj h2
        rw [← e]
        intro h4
        exact (hs a2 h4).2 q1 o1 hne h1 h3
      · rw [hoth q2 hq2] at h2
        exact i3 q1 q2 o1 o2 a2 hne h1 h2 h3
  · rw [view_of_obj _ p _ hself, hcells]
  · intro q hq
    exact view_congr m (m.setData p s) q (hoth q hq) (fun o2 _ => hcells o2.data)

/-- The slice conditions of `setData_step` for a slice over the array the
object already has. -/
theorem own_array (m : Mem T) (p : Nat) (o : Obj T) (s : Slice) (hinv : Inv m)
    (ho : m.objs[p]? = some o) (hs : s.arr = o.data.arr ∨ s.arr = none) :
    ∀ a, s.arr = some a → a < m.arrays.length ∧
      ∀ (q : Nat) (o2 : Obj T), q ≠ p → m.objs[q]? = some o2 → o2.data.arr ≠ some a := by
  intro a ha
  rcases hs with h | h
  · rw [h] at ha
    exact ⟨hinv.2.1 p o a ho ha, fun q o2 hq ho2 =>
      hinv.2.2 p q o o2 a (fun e => hq e.symm) ho ho2 ha⟩
  · rw [h] at ha
    exact Option.noConfusion ha

/-- Allocating a backing array changes no object. -/
theorem alloc_step (m : Mem T) (cs : List T) (hinv : Inv m) :
    Inv (m.alloc cs) ∧ (m.alloc cs).objs = m.objs ∧
      (m.alloc cs).arrays.length = m.arrays.length + 1 ∧
      (∀ s : Slice, s.arr = some m.arrays.length → (m.alloc cs).cells s = cs) ∧
      (∀ (q : Nat) (o : Obj T), m.objs[q]? = some o → o.data.arr ≠ some m.arrays.length) ∧
      ∀ q, (m.alloc cs).view q = m.view q := by
  obtain ⟨i1, i2, i3⟩ := hinv
  have hold : ∀ (q : Nat) (o : Obj T), m.objs[q]? = some o →
      (m.alloc cs).cells o.data = m.cells o.data := by
    intro q o ho
    apply cells_congr
    intro a ha
    simp only [Mem.alloc]
    exact List.getElem?_append_left (i2 q o a ho ha)
  refine ⟨⟨?_, ?_, ?_⟩, rfl, by simp [Mem.alloc], ?_, ?_, ?_⟩
  · intro q o ho
    rw [hold q o ho]
    exact i1 q o ho
  · intro q o a ho ha
    have := i2 q o a ho ha
    simp only [Mem.alloc, List.length_append, List.length_singleton]
    omega
  · exact i3
  · intro s hs
    rw [cells_of_arr _ _ _ hs]
    simp [Mem.alloc]
  · intro q o ho ha
    have := i2 q o _ ho ha
    omega
  · intro q
    exact view_congr m (m.alloc cs) q rfl (fun o ho => hold q o ho)

/-- Allocating a `genericHeap` object over an array that no object uses (or
over the nil slice). -/
theorem allocObj_step (m : Mem T) (o : Obj T) (hinv : Inv m)
    (hs : ∀ a, o.data.arr = some a → a < m.arrays.length ∧
      ∀ (q : Nat) (o2 : Obj T), m.objs[q]? = some o2 → o2.data.arr ≠ some a)
    (hlen : o.data.len ≤ (m.cells o.data).length) :
    Inv (m.allocObj o) ∧ (m.allocObj o).objs.length = m.objs.length + 1 ∧
      (m.allocObj o).arrays = m.arrays ∧
      (m.allocObj o).view m.objs.length =
        { data := (m.cells o.data).take o.data.len, less := o.less } ∧
      ∀ q, q ≠ m.objs.length → (m.allocObj o).view q = m.view q := by
  obtain ⟨i1, i2, i3⟩ := hinv
  have hcells : ∀ s2 : Slice, (m.allocObj o).cells s2 = m.cells s2 := fun s2 => rfl
  have hnew : (m.allocObj o).objs[m.objs.length]? = some o := by
    simp [Mem.allocObj]
  have hold : ∀ q, q ≠ m.objs.length → (m.allocObj o).objs[q]? = m.objs[q]? := by
    intro q hq
    simp only [Mem.allocObj]
    by_cases hlt : q < m.objs.length
    · exact List.getElem?_append_left hlt
    · rw [List.getElem?_eq_none (by simp; omega), List.getElem?_eq_none (by omega)]
  refine ⟨⟨?_, ?_, ?_⟩, by simp [Mem.allocObj], rfl, ?_, ?_⟩
  · intro q o2 ho2
    rw [hcells]
    by_cases hq : q = m.objs.length
    · subst hq
      rw [hnew] at ho2
      rw [← Option.some.inj ho2]
      exact hlen
    · rw [hold q hq] at ho2
      exact i1 q o2 ho2
  · intro q o2 a ho2 ha
    show a < m.arrays.length
    by_cases hq : q = m.objs.length
    · subst hq
      rw [hnew] at ho2
      rw [← Option.some.inj ho2] at ha
      exact (hs a ha).1
    · rw [hold q hq] at ho2
      exact i2 q o2 a ho2 ha
  · intro q1 q2 o1 o2 a hne h1 h2 h3
    by_cases hq1 : q1 = m.objs.length
    · subst hq1
      rw [hnew] at h1
      rw [← Option.some.inj h1] at h3
      rw [hold q2 (fun e => hne e.symm)] at h2
      exact (hs a h3).2 q2 o2 h2
    · rw [hold q1 hq1] at h1
      by_cases hq2 : q2 = m.objs.length
      · subst hq2
        rw [hnew] at h2
        rw [← Option.some.inj h2]
        intro h4
        exact (hs a h4).2 q1 o1 h1 h3
      · rw [hold q2 hq2] at h2
        exact i3 q1 q2 o1 o2 a hne h1 h2 h3
  · rw [view_of_obj _ _ _ hnew, hcells]
  · intro q hq
    exact view_congr m (m.allocObj o) q (hold q hq) (fun o2 _ => hcells o2.data)

end memLemmas

end store
namespace store

section stepLemmas

variable {T : Type}

theorem Step.refl (m : Mem T) (p : Nat) (hinv : Inv m) : Step m m p (m.view p) :=
  ⟨hinv, rfl, rfl, fun _ _ => rfl⟩

theorem Step.trans {m m1 m2 : Mem T} {p : Nat} {h1 h2 : queue.genericHeap T}
    (s1 : Step m m1 p h1) (s2 : Step m1 m2 p h2) : Step m m2 p h2 :=
  ⟨s2.1, s2.2.1.trans s1.2.1, s2.2.2.1, fun q hq => (s2.2.2.2 q hq).trans (s1.2.2.2 q hq)⟩

theorem obj_of_lt (m : Mem T) (p : Nat) (hp : p < m.objs.length) :
    ∃ o, m.objs[p]? = some o :=
  ⟨_, List.getElem?_eq_getElem hp⟩

theorem view_length (m : Mem T) (p : Nat) (o : Obj T) (hinv : Inv m)
    (ho : m.objs[p]? = some o) : (m.view p).data.length = o.data.len := by
  rw [view_of_obj m p o ho]
  simp only [List.length_take]
  have := hinv.1 p o ho
  omega

theorem take_set_succ (cs : List T) (n : Nat) (x : T) (h : n < cs.length) :
    (cs.set n x).take (n + 1) = cs.take n ++ [x] := by
  rw [List.take_succ, List.set_take, List.set_eq_of_length_le (by simp),
    List.getElem?_set_self h]
  rfl

theorem gSwap_step (m : Mem T) (p i j : Nat) (hinv : Inv m) (hp : p < m.objs.length) :
    Step m (gSwap m p i j) p ((m.view p).Swap i j) := by
  obtain ⟨o, ho⟩ := obj_of_lt m p hp
  have hv := view_of_obj m p o ho
  unfold gSwap queue.genericHeap.Swap
  rw [ho, hv]
  simp only []
  cases ha : o.data.arr with
  | none =>
    simp only []
    have hc : m.cells o.data = [] := cells_of_nil m _ ha
    rw [hc]
    simp only [List.take_nil, List.getElem?_nil]
    have := Step.refl m p hinv
    rw [hv, hc] at this
    simpa using this
  | some a =>
    simp only []
    cases hx : ((m.cells o.data).take o.data.len)[i]? with
    | none =>
      simp only []
      have := Step.refl m p hinv
      rw [hv] at this
      exact this
    | some x =>
      cases hy : ((m.cells o.data).take o.data.len)[j]? with
      | none =>
        simp only []
        have := Step.refl m p hinv
        rw [hv] at this
        exact this
      | some y =>
        simp only []
        obtain ⟨s1, s2, s3, _, s5⟩ := setArray_step m p a o
          (((m.cells o.data).set i y).set j x) hinv ho ha (by simp)
        refine ⟨s1, by rw [s2], ?_, s5⟩
        rw [view_of_obj _ p o (by rw [s2]; exact ho), s3, List.set_take, List.set_take]

theorem upLoop_step (fuel : Nat) (m : Mem T) (p j : Nat) (hinv : Inv m)
    (hp : p < m.objs.length) :
    Step m (upLoop fuel m p j) p (heap.upLoop fuel (m.view p) j) := by
  induction fuel generalizing m j with
  | zero => exact Step.refl m p hinv
  | succ fuel ih =>
    unfold upLoop heap.upLoop
    simp only [gLess]
    split_ifs with hstop
    · exact Step.refl m p hinv
    · have s1 := gSwap_step m p ((j - 1) / 2) j hinv hp
      have s2 := ih (gSwap m p ((j - 1) / 2) j) ((j - 1) / 2) s1.1 (by rw [s1.2.1]; exact hp)
      rw [s1.2.2.1] at s2
      exact s1.trans s2

theorem downLoop_step (fuel : Nat) (m : Mem T) (p i n : Nat) (hinv : Inv m)
    (hp : p < m.objs.length) :
    Step m (downLoop fuel m p i n).1 p (heap.downLoop fuel (m.view p) i n).1 := by
  induction fuel generalizing m i with
  | zero => exact Step.refl m p hinv
  | succ fuel ih =>
    unfold downLoop heap.downLoop
    simp only [gLess]
    split_ifs with hc hsel hstop hstop
    · exact Step.refl m p hinv
    · exact Step.refl m p hinv
    · have s1 := gSwap_step m p i (2 * i + 1 + 1) hinv hp
      have s2 := ih (gSwap m p i (2 * i + 1 + 1)) (2 * i + 1 + 1) s1.1
        (by rw [s1.2.1]; exact hp)
      rw [s1.2.2.1] at s2
      exact s1.trans s2
    · exact Step.refl m p hinv
    · have s1 := gSwap_step m p i (2 * i + 1) hinv hp
      have s2 := ih (gSwap m p i (2 * i + 1)) (2 * i + 1) s1.1 (by rw [s1.2.1]; exact hp)
      rw [s1.2.2.1] at s2
      exact s1.trans s2

theorem gPush_step [Inhabited T] (m : Mem T) (p : Nat) (x : T) (hinv : Inv m)
    (hp : p < m.objs.length) : Step m (gPush m p x) p ((m.view p).Push x) := by
  obtain ⟨o, ho⟩ := obj_of_lt m p hp
  have hv := view_of_obj m p o ho
  have hle := hinv.1 p o ho
  unfold gPush queue.genericHeap.Push
  rw [ho, hv]
  simp only []
  split_ifs with hcap
  · cases ha : o.data.arr with
    | none =>
      rw [cells_of_nil m _ ha] at hcap
      simp at hcap
    | some a =>
      simp only []
      obtain ⟨s1, s2, s3, _, s5⟩ := setArray_step m p a o
        ((m.cells o.data).set o.data.len x) hinv ho ha (by simp)
      have ho1 : (m.setArray a ((m.cells o.data).set o.data.len x)).objs[p]? = some o := by
        rw [s2]; exact ho
      have hc0 : (m.setArray a ((m.cells o.data).set o.data.len x)).cells
          { arr := some a, len := o.data.len + 1 } =
          (m.setArray a ((m.cells o.data).set o.data.len x)).cells o.data := by
        simp only [Mem.cells, ha]
      have hc1 := hc0.trans s3
      obtain ⟨t1, t2, _, t4, t5⟩ := setData_step _ p o { arr := some a, len := o.data.len + 1 }
        s1 ho1 (own_array _ p o _ s1 ho1 (Or.inl ha.symm))
        (by rw [hc1]; simp; omega)
      refine ⟨t1, by rw [t2, s2], ?_, fun q hq => (t5 q hq).trans (s5 q hq)⟩
      rw [t4, hc1, take_set_succ _ _ _ hcap]
  · have hlen : o.data.len = (m.cells o.data).length := by omega
    obtain ⟨s1, s2, s3, s4, s5, s6⟩ := alloc_step m ((m.cells o.data).take o.data.len ++
      x :: List.replicate (m.spare (o.data.len + 1)) default) hinv
    have ho1 : (m.alloc ((m.cells o.data).take o.data.len ++
        x :: List.replicate (m.spare (o.data.len + 1)) default)).objs[p]? = some o := by
      rw [s2]; exact ho
    have hc1 := s4 { arr := some m.arrays.length, len := o.data.len + 1 } rfl
    obtain ⟨t1, t2, _, t4, t5⟩ := setData_step _ p o
      { arr := some m.arrays.length, len := o.data.len + 1 } s1 ho1
      (by
        intro a ha
        have e : m.arrays.length = a := Option.some.inj ha
        subst e
        refine ⟨by rw [s3]; omega, fun q o2 _ ho2 => ?_⟩
        rw [s2] at ho2
        exact s5 q o2 ho2)
      (by rw [hc1]; simp; omega)
    refine ⟨t1, by rw [t2, s2], ?_, fun q hq => (t5 q hq).trans (s6 q)⟩
    rw [t4, hc1]
    have e1 : ((m.cells o.data).take o.data.len).length = o.data.len := by simp; omega
    have e2 : (((m.cells o.data).take o.data.len ++ [x]) ++
        List.replicate (m.spare (o.data.len + 1)) default).take (o.data.len + 1) =
        (m.cells o.data).take o.data.len ++ [x] :=
      List.take_left' (by simp; omega)
    simp only [List.append_assoc, List.singleton_append] at e2
    rw [e2]

theorem gPop_step (m : Mem T) (p : Nat) (hinv : Inv m) (hp : p < m.objs.length) :
    (gPop m p).1 = (m.view p).Pop.1 ∧ Step m (gPop m p).2 p (m.view p).Pop.2 := by
  obtain ⟨o, ho⟩ := obj_of_lt m p hp
  have hv := view_of_obj m p o ho
  have hle := hinv.1 p o ho
  have hl : ((m.cells o.data).take o.data.len).length = o.data.len := by simp; omega
  unfold gPop queue.genericHeap.Pop
  rw [ho, hv]
  simp only [hl]
  refine ⟨by first | rfl | trivial, ?_⟩
  have hc : m.cells { arr := o.data.arr, len := o.data.len - 1 } = m.cells o.data := rfl
  obtain ⟨t1, t2, _, t4, t5⟩ := setData_step m p o { arr := o.data.arr, len := o.data.len - 1 }
    hinv ho (own_array m p o _ hinv ho (Or.inl rfl)) (by rw [hc]; simp; omega)
  refine ⟨t1, t2, ?_, t5⟩
  rw [t4, hc, List.take_take]
  simp only
  rw [Nat.min_eq_left (by omega)]

theorem hPush_step [Inhabited T] (m : Mem T) (p : Nat) (x : T) (hinv : Inv m)
    (hp : p < m.objs.length) : Step m (hPush m p x) p (heap.Push (m.view p) x) := by
  have s1 := gPush_step m p x hinv hp
  unfold hPush heap.Push heap.up
  simp only [gLen]
  have s2 := upLoop_step ((gPush m p x).view p).Len.pred.succ (gPush m p x) p
    (((gPush m p x).view p).Len - 1) s1.1 (by rw [s1.2.1]; exact hp)
  rw [s1.2.2.1] at s2 ⊢
  exact s1.trans s2

theorem hPop_step (m : Mem T) (p : Nat) (hinv : Inv m) (hp : p < m.objs.length) :
    (hPop m p).1 = (heap.Pop (m.view p)).1 ∧
      Step m (hPop m p).2 p (heap.Pop (m.view p)).2 := by
  unfold hPop heap.Pop heap.down
  simp only [gLen]
  have s1 := gSwap_step m p 0 ((m.view p).Len - 1) hinv hp
  have s2 := downLoop_step ((m.view p).Len - 1) (gSwap m p 0 ((m.view p).Len - 1)) p 0
    ((m.view p).Len - 1) s1.1 (by rw [s1.2.1]; exact hp)
  rw [s1.2.2.1] at s2
  have s12 := s1.trans s2
  have s3 := gPop_step _ p s12.1 (by rw [s12.2.1]; exact hp)
  rw [s12.2.2.1] at s3
  exact ⟨s3.1, s12.trans s3.2⟩

end stepLemmas

end store
namespace store

section pqLemmas

variable {T : Type}

theorem push_step [Inhabited T] (m : Mem T) (pq : PQ) (v : T) (hinv : Inv m)
    (hp : pq.h < m.objs.length) :
    Step m (pq.Push m v) pq.h (queue.PriorityQueue.Push { h := m.view pq.h } v).h :=
  hPush_step m pq.h v hinv hp

theorem pop_step [Inhabited T] (m : Mem T) (pq : PQ) (hinv : Inv m)
    (hp : pq.h < m.objs.length) :
    (pq.Pop m).1 = (queue.PriorityQueue.Pop { h := m.view pq.h }).1 ∧
      Step m (pq.Pop m).2 pq.h (queue.PriorityQueue.Pop { h := m.view pq.h }).2.h := by
  obtain ⟨h1, h2⟩ := hPop_step m pq.h hinv hp
  unfold PQ.Pop queue.PriorityQueue.Pop
  simp only [gLen]
  split_ifs with hlen
  · exact ⟨rfl, Step.refl m pq.h hinv⟩
  · rcases hr : hPop m pq.h with ⟨r1, r2⟩
    rcases hv : heap.Pop (m.view pq.h) with ⟨v1, v2⟩
    rw [hr, hv] at h1 h2
    simp only at h1 h2
    subst h1
    cases r1 with
    | none => exact ⟨rfl, h2⟩
    | some v => exact ⟨rfl, h2⟩

theorem clear_step (m : Mem T) (pq : PQ) (hinv : Inv m) (hp : pq.h < m.objs.length) :
    Step m (pq.Clear m) pq.h (queue.PriorityQueue.Clear { h := m.view pq.h }).h := by
  obtain ⟨o, ho⟩ := obj_of_lt m pq.h hp
  obtain ⟨t1, t2, _, t4, t5⟩ := setData_step m pq.h o { arr := none, len := 0 } hinv ho
    (fun a ha => Option.noConfusion ha) (Nat.zero_le _)
  refine ⟨t1, t2, ?_, t5⟩
  unfold PQ.Clear
  rw [t4, view_of_obj m pq.h o ho]
  simp [queue.PriorityQueue.Clear]

theorem call_step [Inhabited T] (m : Mem T) (pq : PQ) (c : Call T) (hinv : Inv m)
    (hp : pq.h < m.objs.length) :
    Step m (pq.step m c) pq.h (stepValue { h := m.view pq.h } c).h := by
  cases c with
  | push v => exact push_step m pq v hinv hp
  | pop => exact (pop_step m pq hinv hp).2
  | clear => exact clear_step m pq hinv hp

theorem run_step [Inhabited T] (calls : List (Call T)) (m : Mem T) (pq : PQ) (hinv : Inv m)
    (hp : pq.h < m.objs.length) :
    Step m (pq.run m calls) pq.h (calls.foldl stepValue { h := m.view pq.h }).h := by
  induction calls generalizing m with
  | nil => exact Step.refl m pq.h hinv
  | cons c calls ih =>
    have s1 := call_step m pq c hinv hp
    have s2 := ih (pq.step m c) s1.1 (by rw [s1.2.1]; exact hp)
    rw [s1.2.2.1] at s2
    exact s1.trans s2

theorem popAll_refines [Inhabited T] (fuel : Nat) (m : Mem T) (pq : PQ) (hinv : Inv m)
    (hp : pq.h < m.objs.length) :
    (pq.popAll fuel m).1 = (queue.popAll fuel { h := m.view pq.h }).1 := by
  induction fuel generalizing m with
  | zero => rfl
  | succ fuel ih =>
    obtain ⟨h1, h2⟩ := pop_step m pq hinv hp
    unfold PQ.popAll queue.popAll
    rcases hr : pq.Pop m with ⟨⟨v, b⟩, m1⟩
    rcases hv : queue.PriorityQueue.Pop { h := m.view pq.h } with ⟨⟨w, b2⟩, q1⟩
    rw [hr, hv] at h1 h2
    simp only at h1 h2
    have e1 : v = w := congrArg Prod.fst h1
    have e2 : b = b2 := congrArg Prod.snd h1
    subst e1 e2
    cases b with
    | false => rfl
    | true =>
      simp only []
      rw [ih m1 h2.1 (by rw [h2.2.1]; exact hp), h2.2.2.1]

theorem new_step (m : Mem T) (less : T → T → Bool) (hinv : Inv m) :
    Inv (NewPriorityQueue m less).1 ∧ (NewPriorityQueue m less).2.h = m.objs.length ∧
      (NewPriorityQueue m less).1.objs.length = m.objs.length + 1 ∧
      (NewPriorityQueue m less).1.view m.objs.length = { data := [], less := less } ∧
      ∀ q, q ≠ m.objs.length → (NewPriorityQueue m less).1.view q = m.view q := by
  obtain ⟨t1, t2, _, t4, t5⟩ := allocObj_step m { data := { arr := none, len := 0 }, less := less }
    hinv (fun a ha => Option.noConfusion ha) (Nat.zero_le _)
  exact ⟨t1, rfl, t2, by rw [NewPriorityQueue, t4]; simp, t5⟩

theorem clone_step [Inhabited T] (m : Mem T) (pq : PQ) (hinv : Inv m)
    (hp : pq.h < m.objs.length) :
    Inv (pq.Clone m).1 ∧ (pq.Clone m).2.h = m.objs.length ∧
      (pq.Clone m).1.objs.length = m.objs.length + 1 ∧
      (pq.Clone m).1.view (pq.Clone m).2.h = m.view pq.h ∧
      ∀ q, q ≠ m.objs.length → (pq.Clone m).1.view q = m.view q := by
  obtain ⟨o, ho⟩ := obj_of_lt m pq.h hp
  have hle := hinv.1 pq.h o ho
  have hcopy : ((m.cells o.data).take o.data.len).take
        (min (List.replicate o.data.len (default : T)).length
          ((m.cells o.data).take o.data.len).length) ++
      (List.replicate o.data.len (default : T)).drop
        (min (List.replicate o.data.len (default : T)).length
          ((m.cells o.data).take o.data.len).length) =
      (m.cells o.data).take o.data.len := by
    have e : min (List.replicate o.data.len (default : T)).length
        ((m.cells o.data).take o.data.len).length = o.data.len := by
      simp; omega
    rw [e, List.take_take, Nat.min_self, List.drop_eq_nil_of_le (by simp), List.append_nil]
  unfold PQ.Clone
  rw [ho]
  simp only []
  rw [hcopy]
  obtain ⟨s1, s2, s3, s4, s5, s6⟩ := alloc_step m ((m.cells o.data).take o.data.len) hinv
  have hc1 := s4 { arr := some m.arrays.length, len := o.data.len } rfl
  have hlen1 : (m.alloc ((m.cells o.data).take o.data.len)).objs.length = m.objs.length := by
    rw [s2]
  obtain ⟨t1, t2, _, t4, t5⟩ := allocObj_step (m.alloc ((m.cells o.data).take o.data.len))
    { data := { arr := some m.arrays.length, len := o.data.len }, less := o.less } s1
    (by
      intro a ha
      have e : m.arrays.length = a := Option.some.inj ha
      subst e
      refine ⟨by rw [s3]; omega, fun q o2 ho2 => ?_⟩
      rw [s2] at ho2
      exact s5 q o2 ho2)
    (by rw [hc1]; simp; omega)
  rw [hlen1] at t2 t4 t5
  refine ⟨t1, trivial, t2, ?_, fun q hq => (t5 q hq).trans (s6 q)⟩
  rw [t4, hc1, view_of_obj m pq.h o ho, List.take_take, Nat.min_self]

theorem emptyMem_inv (T : Type) : Inv (emptyMem T) := by
  refine ⟨?_, ?_, ?_⟩ <;> intro p <;> simp [emptyMem]

theorem pushAll_step [Inhabited T] (items : List T) (m : Mem T) (pq : PQ) (hinv : Inv m)
    (hp : pq.h < m.objs.length) :
    Inv (items.foldl (fun m1 item => pq.Push m1 item) m) ∧
      (items.foldl (fun m1 item => pq.Push m1 item) m).objs.length = m.objs.length := by
  induction items generalizing m with
  | nil => exact ⟨hinv, rfl⟩
  | cons x items ih =>
    have s1 := push_step m pq x hinv hp
    obtain ⟨h1, h2⟩ := ih (pq.Push m x) s1.1 (by rw [s1.2.1]; exact hp)
    exact ⟨h1, h2.trans s1.2.1⟩

theorem fromSlice_inv [Inhabited T] (m : Mem T) (items : List T) (less : T → T → Bool)
    (hinv : Inv m) :
    Inv (PriorityQueueFromSlice m items less).1 ∧
      (PriorityQueueFromSlice m items less).2.h <
        (PriorityQueueFromSlice m items less).1.objs.length := by
  obtain ⟨n1, n2, n3, _, _⟩ := new_step m less hinv
  obtain ⟨h1, h2⟩ := pushAll_step items (NewPriorityQueue m less).1 (NewPriorityQueue m less).2
    n1 (by rw [n2, n3]; omega)
  refine ⟨h1, ?_⟩
  show (NewPriorityQueue m less).2.h < _
  unfold PriorityQueueFromSlice
  simp only
  rw [h2, n2, n3]
  omega

end pqLemmas

/-- C16: Clone independence.  For every queue `q` in a well-formed memory,
`q.Clone()` is a different object that reads as the same element sequence
with the same ordering function, so both pop the same sequence of values;
any sequence of `Push`/`Pop`/`Clear` calls on the clone leaves `q`'s `Len()`,
`Peek()` and pop sequence as they were, and the same calls on `q` leave the
clone's as they were. -/
theorem clone_independence {T : Type} [Inhabited T] (m : Mem T) (q : PQ) (hinv : Inv m)
    (hq : q.h < m.objs.length) (calls : List (Call T)) (fuel : Nat) :
    (q.Clone m).2.h ≠ q.h ∧ (q.Clone m).1.view (q.Clone m).2.h = m.view q.h ∧
      (q.Clone m).1.view q.h = m.view q.h ∧
      ((q.Clone m).2.popAll fuel (q.Clone m).1).1 = (q.popAll fuel (q.Clone m).1).1 ∧
      (q.Len ((q.Clone m).2.run (q.Clone m).1 calls) = q.Len m ∧
        q.Peek ((q.Clone m).2.run (q.Clone m).1 calls) = q.Peek m ∧
        (q.popAll fuel ((q.Clone m).2.run (q.Clone m).1 calls)).1 = (q.popAll fuel m).1) ∧
      ((q.Clone m).2.Len (q.run (q.Clone m).1 calls) = q.Len m ∧
        (q.Clone m).2.Peek (q.run (q.Clone m).1 calls) = q.Peek m ∧
        ((q.Clone m).2.popAll fuel (q.run (q.Clone m).1 calls)).1 = (q.popAll fuel m).1) := by
  obtain ⟨c1, c2, c3, c4, c5⟩ := clone_step m q hinv hq
  have hne : (q.Clone m).2.h ≠ q.h := by rw [c2]; omega
  have hqc : q.h < (q.Clone m).1.objs.length := by rw [c3]; omega
  have hcc : (q.Clone m).2.h < (q.Clone m).1.objs.length := by rw [c2, c3]; omega
  have hvq : (q.Clone m).1.view q.h = m.view q.h := c5 q.h (by omega)
  have r1 := run_step calls (q.Clone m).1 (q.Clone m).2 c1 hcc
  have r2 := run_step calls (q.Clone m).1 q c1 hqc
  have f1 : ((q.Clone m).2.run (q.Clone m).1 calls).view q.h = m.view q.h :=
    (r1.2.2.2 q.h (fun e => hne e.symm)).trans hvq
  have f2 : (q.run (q.Clone m).1 calls).view (q.Clone m).2.h = m.view q.h :=
    (r2.2.2.2 _ hne).trans c4
  refine ⟨hne, c4, hvq, ?_, ⟨?_, ?_, ?_⟩, ⟨?_, ?_, ?_⟩⟩
  · rw [popAll_refines fuel _ _ c1 hcc, popAll_refines fuel _ _ c1 hqc, c4, hvq]
  · simp only [PQ.Len, gLen, f1]
  · simp only [PQ.Peek, f1]
  · rw [popAll_refines fuel _ _ r1.1 (by rw [r1.2.1]; exact hqc),
      popAll_refines fuel _ _ hinv hq, f1]
  · simp only [PQ.Len, gLen, f2]
  · simp only [PQ.Peek, f2]
  · rw [popAll_refines fuel _ _ r2.1 (by rw [r2.2.1]; exact hcc),
      popAll_refines fuel _ _ hinv hq, f2]

/-- Witness for C16: the scenario of the tests, a queue of 1, 2, 3 whose clone
gets 999 pushed: the original still has three elements and pops 1, 2, 3. -/
theorem clone_independence_witness :
    PQ.Len ((PQ.Clone (PriorityQueueFromSlice (emptyMem Int) [1, 2, 3] queue.intLess).1
        (PriorityQueueFromSlice (emptyMem Int) [1, 2, 3] queue.intLess).2).2.run
      (PQ.Clone (PriorityQueueFromSlice (emptyMem Int) [1, 2, 3] queue.intLess).1
        (PriorityQueueFromSlice (emptyMem Int) [1, 2, 3] queue.intLess).2).1 [Call.push 999])
      (PQ.Clone (PriorityQueueFromSlice (emptyMem Int) [1, 2, 3] queue.intLess).1
        (PriorityQueueFromSlice (emptyMem Int) [1, 2, 3] queue.intLess).2).2 = 4 ∧
    PQ.Len ((PQ.Clone (PriorityQueueFromSlice (emptyMem Int) [1, 2, 3] queue.intLess).1
        (PriorityQueueFromSlice (emptyMem Int) [1, 2, 3] queue.intLess).2).2.run
      (PQ.Clone (PriorityQueueFromSlice (emptyMem Int) [1, 2, 3] queue.intLess).1
        (PriorityQueueFromSlice (emptyMem Int) [1, 2, 3] queue.intLess).2).1 [Call.push 999])
      (PriorityQueueFromSlice (emptyMem Int) [1, 2, 3] queue.intLess).2 = 3 ∧
    (PQ.popAll (PriorityQueueFromSlice (emptyMem Int) [1, 2, 3] queue.intLess).2 3
      ((PQ.Clone (PriorityQueueFromSlice (emptyMem Int) [1, 2, 3] queue.intLess).1
        (PriorityQueueFromSlice (emptyMem Int) [1, 2, 3] queue.intLess).2).2.run
      (PQ.Clone (PriorityQueueFromSlice (emptyMem Int) [1, 2, 3] queue.intLess).1
        (PriorityQueueFromSlice (emptyMem Int) [1, 2, 3] queue.intLess).2).1
        [Call.push 999])).1 = [1, 2, 3] :=
  have h := clone_independence (PriorityQueueFromSlice (emptyMem Int) [1, 2, 3] queue.intLess).1
    (PriorityQueueFromSlice (emptyMem Int) [1, 2, 3] queue.intLess).2
    (fromSlice_inv (emptyMem Int) [1, 2, 3] queue.intLess (emptyMem_inv Int)).1
    (fromSlice_inv (emptyMem Int) [1, 2, 3] queue.intLess (emptyMem_inv Int)).2
    [Call.push 999] 3
  ⟨by decide, h.2.2.2.2.1.1.trans (by decide), h.2.2.2.2.1.2.2.trans (by decide)⟩

end store

namespace algorithms

section fuelLemmas

variable {T : Type}

/-- The bound on the nesting of `quickSort` is never the reason for its
result: a result obtained with some bound is obtained with any larger one. -/
theorem quickSort_fuel (less : T → T → Bool) :
    ∀ (f : Nat) (a : List T) (lo hi : Int) (r : List T),
      quickSort less f a lo hi = some r → quickSort less (f + 1) a lo hi = some r := by
  intro f
  induction f with
  | zero =>
    intro a lo hi r h
    simp only [quickSort] at h ⊢
    split_ifs at h ⊢ with hlt
    exact h
  | succ f ih =>
    intro a lo hi r h
    rw [quickSort] at h ⊢
    split_ifs at h ⊢ with hlt
    · cases hp : partition a lo hi less with
      | none => simp [hp] at h
      | some pr =>
        obtain ⟨a1, p⟩ := pr
        simp only [hp] at h ⊢
        split_ifs at h ⊢ with hside
        · cases h1 : quickSort less f a1 lo (p - 1) with
          | none => simp [h1] at h
          | some a2 =>
            simp only [h1] at h
            rw [ih _ _ _ _ h1]
            exact ih _ _ _ _ h
        · cases h1 : quickSort less f a1 (p + 1) hi with
          | none => simp [h1] at h
          | some a2 =>
            simp only [h1] at h
            rw [ih _ _ _ _ h1]
            exact ih _ _ _ _ h
    · exact h

/-- The bound on the iterations of the search loop is never the reason for
its result. -/
theorem searchLoop_fuel (arr : List T) (target : T) (cmp : T → T → Int) :
    ∀ (f : Nat) (lo hi : Int) (r : Int),
      searchLoop arr target cmp f lo hi = some r →
        searchLoop arr target cmp (f + 1) lo hi = some r := by
  intro f
  induction f with
  | zero =>
    intro lo hi r h
    simp only [searchLoop] at h ⊢
    split_ifs at h ⊢ with hle
    exact h
  | succ f ih =>
    intro lo hi r h
    rw [searchLoop] at h ⊢
    split_ifs at h ⊢ with hle
    · cases hx : getAt arr (lo + (hi - lo).tdiv 2) with
      | none => simp [hx] at h
      | some x =>
        simp only [hx] at h ⊢
        split_ifs at h ⊢ with h0 hneg
        · exact h
        · exact ih _ _ _ h
        · exact ih _ _ _ h
    · exact h

end fuelLemmas

end algorithms

namespace queue

/-- Witness for C13: three pushes and four pops, the last on an empty queue:
the lengths are 1, 2, 3, 2, 1, 0, 0 and the fourth pop is not counted. -/
theorem len_is_pushes_minus_pops_witness :
    (runCount intLess [PQOp.push 1, PQOp.push 2, PQOp.push 3, PQOp.pop, PQOp.pop, PQOp.pop,
        PQOp.pop]).2 = (3, 3) ∧
      ((runOps intLess ([PQOp.push 1, PQOp.push 2, PQOp.push 3, PQOp.pop, PQOp.pop, PQOp.pop,
        PQOp.pop].take 4)).Len : Int) = 2 ∧
      ((runOps intLess ([PQOp.push 1, PQOp.push 2, PQOp.push 3, PQOp.pop, PQOp.pop, PQOp.pop,
        PQOp.pop].take 7)).Len : Int) = 0 :=
  have h := (len_is_pushes_minus_pops intLess [PQOp.push 1, PQOp.push 2, PQOp.push 3,
    PQOp.pop, PQOp.pop, PQOp.pop, PQOp.pop]).2
  ⟨by decide, (h 4).trans (by decide), (h 7).trans (by decide)⟩

end queue

/-! ## Binary search on arbitrary input -/

namespace algorithms

section totalLemmas

variable {T : Type}

/-- Without any assumption on the slice or the comparator, the loop started
inside the slice returns, and what it returns is -1 or an index whose element
compares EQUAL to the target. -/
theorem searchLoop_total (arr : List T) (target : T) (cmp : T → T → Int) :
    ∀ (fuel : Nat) (lo hi : Int), 0 ≤ lo → hi < arr.length → hi - lo + 1 ≤ fuel →
      ∃ r, searchLoop arr target cmp fuel lo hi = some r ∧
        (r = -1 ∨
          (0 ≤ r ∧ r < arr.length ∧ ∃ x, arr[r.toNat]? = some x ∧ cmp x target = 0)) := by
  intro fuel
  induction fuel with
  | zero =>
    intro lo hi hlo hhi hf
    refine ⟨-1, ?_, Or.inl rfl⟩
    simp only [searchLoop]
    rw [if_neg (by omega)]
  | succ fuel ih =>
    intro lo hi hlo hhi hf
    simp only [searchLoop]
    by_cases hle : lo ≤ hi
    · rw [if_pos hle]
      have hdiv : (hi - lo).tdiv 2 = (hi - lo) / 2 :=
        Int.tdiv_eq_ediv (by omega) (by omega)
      rw [hdiv]
      generalize hmid : lo + (hi - lo) / 2 = mid
      have hm1 : lo ≤ mid := by omega
      have hm2 : mid ≤ hi := by omega
      obtain ⟨x, hx, hx2⟩ := getAt_in_range arr mid (by omega) (by omega)
      rw [hx]
      simp only []
      by_cases h0 : cmp x target = 0
      · rw [if_pos h0]
        exact ⟨mid, rfl, Or.inr ⟨by omega, by omega, x, hx2, h0⟩⟩
      · rw [if_neg h0]
        by_cases hneg : cmp x target < 0
        · rw [if_pos hneg]
          exact ih (mid + 1) hi (by omega) hhi (by omega)
        · rw [if_neg hneg]
          exact ih lo (mid - 1) hlo (by omega) (by omega)
    · rw [if_neg hle]
      exact ⟨-1, rfl, Or.inl rfl⟩

/-- Every index the loop reads lies inside the slice. -/
theorem searchReads_in_range (arr : List T) (target : T) (cmp : T → T → Int) :
    ∀ (fuel : Nat) (lo hi : Int), 0 ≤ lo → hi < arr.length →
      ∀ i ∈ searchReads arr target cmp fuel lo hi, 0 ≤ i ∧ i < arr.length := by
  intro fuel
  induction fuel with
  | zero =>
    intro lo hi _ _ i hi2
    simp [searchReads] at hi2
  | succ fuel ih =>
    intro lo hi hlo hhi i hmem
    simp only [searchReads] at hmem
    by_cases hle : lo ≤ hi
    · rw [if_pos hle] at hmem
      have hdiv : (hi - lo).tdiv 2 = (hi - lo) / 2 :=
        Int.tdiv_eq_ediv (by omega) (by omega)
      rw [hdiv] at hmem
      generalize hmid : lo + (hi - lo) / 2 = mid at hmem
      have hm1 : lo ≤ mid := by omega
      have hm2 : mid ≤ hi := by omega
      rcases List.mem_cons.1 hmem with rfl | hrest
      · omega
      · obtain ⟨x, hx, _⟩ := getAt_in_range arr mid (by omega) (by omega)
        rw [hx] at hrest
        simp only [] at hrest
        by_cases h0 : cmp x target = 0
        · rw [if_pos h0] at hrest
          simp at hrest
        · rw [if_neg h0] at hrest
          by_cases hneg : cmp x target < 0
          · rw [if_pos hneg] at hrest
            exact ih (mid + 1) hi (by omega) hhi i hrest
          · rw [if_neg hneg] at hrest
            exact ih lo (mid - 1) hlo (by omega) i hrest
    · rw [if_neg hle] at hmem
      simp at hmem

end totalLemmas

/-- C21: BinarySearch is total and sound on any input.  For every slice
(the empty one included, sorted or not), every target and every comparator,
`BinarySearch` returns a result, so no read fell outside the slice; every
index `mid` it reads satisfies `0 <= mid < len(arr)`; a result other than -1
is an index `i` with `0 <= i < len(arr)` and `cmp(arr[i], target) == 0`; and
on the empty slice the result is -1. -/
theorem binary_search_total_and_sound {T : Type} (arr : List T) (target : T)
    (cmp : T → T → Int) :
    (∃ r, BinarySearch arr target cmp = some r ∧
      (r = -1 ∨
        (0 ≤ r ∧ r < arr.length ∧ ∃ x, arr[r.toNat]? = some x ∧ cmp x target = 0))) ∧
    (∀ i ∈ BinarySearchReads arr target cmp, 0 ≤ i ∧ i < arr.length) ∧
    BinarySearch ([] : List T) target cmp = some (-1) :=
  ⟨searchLoop_total arr target cmp arr.length 0 ((arr.length : Int) - 1) (le_refl _)
      (by omega) (by omega),
    searchReads_in_range arr target cmp arr.length 0 ((arr.length : Int) - 1) (le_refl _)
      (by omega),
    rfl⟩

/-- An unsorted slice: the search for 4 in `[5, 1, 4]` reads the indices 1 and
2 and returns 2; the search for 5 reads the same indices and returns -1. -/
theorem binary_search_total_and_sound_witness :
    BinarySearch [5, 1, 4] 4 tree.intCmp = some 2 ∧
      BinarySearchReads [5, 1, 4] 4 tree.intCmp = [1, 2] ∧
      BinarySearch [5, 1, 4] 5 tree.intCmp = some (-1) ∧
      ((∃ r, BinarySearch [5, 1, 4] 5 tree.intCmp = some r ∧
        (r = -1 ∨
          (0 ≤ r ∧ r < ([5, 1, 4] : List Int).length ∧
            ∃ x, [5, 1, 4][r.toNat]? = some x ∧ tree.intCmp x 5 = 0))) ∧
      (∀ i ∈ BinarySearchReads [5, 1, 4] 5 tree.intCmp,
        0 ≤ i ∧ i < ([5, 1, 4] : List Int).length) ∧
      BinarySearch ([] : List Int) 5 tree.intCmp = some (-1)) :=
  ⟨by decide, by decide, by decide, binary_search_total_and_sound [5, 1, 4] 5 tree.intCmp⟩

end algorithms

/-! ## Properties of the stack -/

namespace stack

section stackLemmas

variable {T : Type} [Inhabited T]

theorem pop_empty (s : Stack T) (h : s.data = []) : s.Pop = ((default, false), s) := by
  unfold Stack.Pop
  rw [dif_pos (by simp [h])]

theorem pop_append (l : List T) (v : T) :
    (Stack.mk (l ++ [v])).Pop = ((v, true), Stack.mk l) := by
  unfold Stack.Pop
  rw [dif_neg (by simp)]
  simp

theorem peek_append (l : List T) (v : T) : (Stack.mk (l ++ [v])).Peek = (v, true) := by
  unfold Stack.Peek
  rw [dif_neg (by simp)]
  simp

/-- Popping a stack until it is empty gives its elements from the top down. -/
theorem popAll_reverse (l : List T) :
    ∀ (fuel : Nat), l.length ≤ fuel → popAll fuel (Stack.mk l) = (l.reverse, Stack.mk []) := by
  induction l using List.reverseRecOn with
  | nil =>
    intro fuel _
    cases fuel with
    | zero => rfl
    | succ n => simp only [popAll]; rw [pop_empty _ rfl]; rfl
  | append_singleton l v ih =>
    intro fuel hf
    cases fuel with
    | zero => simp at hf
    | succ n =>
      simp only [popAll]
      rw [pop_append]
      simp only []
      rw [ih n (by simp at hf; omega)]
      simp

end stackLemmas

/-- C24: Stack is last-in first-out.  For every stack `s` and value `v`,
`Push(v)` followed by `Pop()` returns `(v, true)` and leaves `ToSlice()` (and
the stack) as it was before the `Push`.  For every slice `items`,
`FromSlice(items)` has `ToSlice()` equal to `items`, popping it until empty
returns the elements of `items` in reverse order, after which `Pop` returns
`(zero, false)`, and when `items` ends with `x` the top reported by `Peek`
is `x`. -/
theorem stack_lifo {T : Type} [Inhabited T] (s : Stack T) (v : T) (items : List T) (x : T) :
    ((s.Push v).Pop.1 = (v, true) ∧ (s.Push v).Pop.2.ToSlice = s.ToSlice ∧
      (s.Push v).Pop.2 = s) ∧
    ((FromSlice items).ToSlice = items ∧
      (popAll items.length (FromSlice items)).1 = items.reverse ∧
      (popAll items.length (FromSlice items)).2.ToSlice = [] ∧
      (popAll items.length (FromSlice items)).2.Pop.1 = (default, false) ∧
      (FromSlice (items ++ [x])).Peek = (x, true)) := by
  refine ⟨?_, rfl, ?_, ?_, ?_, ?_⟩
  · cases s with
    | mk l =>
      simp only [Stack.Push]
      rw [pop_append]
      exact ⟨rfl, rfl, rfl⟩
  · simp only [FromSlice]
    rw [popAll_reverse items _ (le_refl _)]
  · simp only [FromSlice]
    rw [popAll_reverse items _ (le_refl _)]
    rfl
  · simp only [FromSlice]
    rw [popAll_reverse items _ (le_refl _), pop_empty _ rfl]
  · simp only [FromSlice]
    exact peek_append items x

/-- The scenario of TestPushPop and TestFromSlice: pushes of 1, 2, 3 pop as
3, 2, 1, and the stack built from `[1, 2, 3]` pops in the same order. -/
theorem stack_lifo_witness :
    (popAll 4 (((New.Push 1).Push 2).Push (3 : Int))).1 = [3, 2, 1] ∧
      (popAll 3 (FromSlice [1, 2, (3 : Int)])).1 = [3, 2, 1] ∧
      (((FromSlice [1, 2, (3 : Int)]).Push 7).Pop.1 = (7, true) ∧
        ((FromSlice [1, 2, (3 : Int)]).Push 7).Pop.2.ToSlice = [1, 2, 3] ∧
        ((FromSlice [1, 2, (3 : Int)]).Push 7).Pop.2 = FromSlice [1, 2, 3]) :=
  ⟨by decide, by decide, (stack_lifo (FromSlice [1, 2, (3 : Int)]) 7 [] 0).1⟩

end stack

/-! ## Properties of Filter -/

namespace collections

section filterLemmas

variable {T : Type}

/-- The loop of `Filter` appends the matching elements, in order, to what
`out` held. -/
theorem foldl_filter (pred : T → Bool) (l : List T) :
    ∀ (init : List T),
      l.foldl (fun out v => if pred v then out ++ [v] else out) init =
        init ++ l.filter pred := by
  induction l with
  | nil => intro init; simp
  | cons a t ih =>
    intro init
    simp only [List.foldl_cons]
    rw [ih]
    by_cases h : pred a = true
    · rw [if_pos h, List.filter_cons_of_pos h]
      simp
    · rw [if_neg h, List.filter_cons_of_neg h]

theorem filter_eq (input : List T) (pred : T → Bool) : Filter input pred = input.filter pred := by
  unfold Filter
  rw [foldl_filter, List.nil_append]

theorem take_set_next (cs : List T) (n : Nat) (x : T) (h : n < cs.length) :
    (cs.set n x).take (n + 1) = cs.take n ++ [x] := by
  rw [List.take_succ, List.set_take, List.set_eq_of_length_le (by simp),
    List.getElem?_set_self h]
  rfl

theorem read_length (mem : List (List T)) (s : Slice) (h : s.Valid mem) :
    (s.read mem).length = s.len := by
  cases s with
  | mk arr off len cap =>
    cases arr with
    | none =>
      have : len = 0 := h
      simp [Slice.read, this]
    | some a =>
      have h1 : off + len ≤ ((mem[a]?).getD []).length := h.1
      simp only [Slice.read, List.length_take, List.length_drop]
      omega

theorem read_frame (mem : List (List T)) (cells : List T) (s : Slice) (h : s.Valid mem) :
    s.read (mem ++ [cells]) = s.read mem := by
  cases s with
  | mk arr off len cap =>
    cases arr with
    | none => rfl
    | some a =>
      have h1 : a < mem.length := h.2
      simp only [Slice.read]
      rw [List.getElem?_append_left h1]

variable [Inhabited T]

/-- The state of the loop of `Filter` after `i` iterations: one new array,
whose first cells hold the matching elements among the first `i` of the
input. -/
theorem filterLoop_spec (spare : Nat → Nat) (mem : List (List T)) (input : Slice)
    (pred : T → Bool) (hv : input.Valid mem) :
    ∀ (i : Nat), i ≤ input.len →
      ∃ (cells : List T) (k : Nat),
        (List.range i).foldl (filterStep spare input pred) (makeAt mem input.len) =
            (mem ++ [cells], { arr := some mem.length, off := 0, len := k, cap := input.len }) ∧
        cells.length = input.len ∧ k ≤ i ∧
        cells.take k = ((input.read mem).take i).filter pred := by
  intro i
  induction i with
  | zero =>
    intro _
    exact ⟨List.replicate input.len default, 0, rfl, by simp, le_refl _, by simp⟩
  | succ i ih =>
    intro hi
    obtain ⟨cells, k, hst, hlen, hk, htake⟩ := ih (by omega)
    rw [List.range_succ, List.foldl_append, hst]
    simp only [List.foldl_cons, List.foldl_nil, filterStep]
    rw [read_frame mem cells input hv]
    have hil : i < (input.read mem).length := by rw [read_length mem input hv]; omega
    obtain ⟨v, hvi⟩ : ∃ v, (input.read mem)[i]? = some v := ⟨_, List.getElem?_eq_getElem hil⟩
    rw [hvi]
    simp only []
    have hnext : (input.read mem).take (i + 1) = (input.read mem).take i ++ [v] := by
      rw [List.take_succ, hvi]
      rfl
    by_cases hp : pred v = true
    · rw [if_pos hp]
      refine ⟨cells.set k v, k + 1, ?_, by simp [hlen], by omega, ?_⟩
      · simp only [appendAt]
        rw [if_pos (by omega)]
        simp only [Nat.zero_add]
        rw [List.getElem?_concat_length, List.set_append_right _ _ (le_refl _)]
        simp
      · rw [take_set_next cells k v (by omega), htake, hnext, List.filter_append]
        simp [hp]
    · rw [if_neg hp]
      refine ⟨cells, k, rfl, hlen, by omega, ?_⟩
      rw [htake, hnext, List.filter_append]
      simp [hp]

/-- `Filter` in memory allocates one array, returns the filtered elements in
it, and writes no array that existed before. -/
theorem filterAt_spec (spare : Nat → Nat) (mem : List (List T)) (input : Slice)
    (pred : T → Bool) (hv : input.Valid mem) :
    (FilterAt spare mem input pred).2.read (FilterAt spare mem input pred).1 =
        (input.read mem).filter pred ∧
      input.read (FilterAt spare mem input pred).1 = input.read mem ∧
      ∀ (a : Nat), a < mem.length → (FilterAt spare mem input pred).1[a]? = mem[a]? := by
  obtain ⟨cells, k, hst, hlen, hk, htake⟩ :=
    filterLoop_spec spare mem input pred hv input.len (le_refl _)
  unfold FilterAt
  rw [hst]
  refine ⟨?_, read_frame mem cells input hv, fun a ha => List.getElem?_append_left ha⟩
  have hr : Slice.read (mem ++ [cells])
      { arr := some mem.length, off := 0, len := k, cap := input.len } = cells.take k := by
    simp only [Slice.read]
    rw [List.getElem?_concat_length]
    simp
  rw [hr, htake, List.take_of_length_le (by rw [read_length mem input hv])]

end filterLemmas

/-- C29: Filter keeps exactly the matching elements in order.  For every
slice `in` and predicate `pred`, `Filter(in, pred)` equals the list filter of
`in` by `pred`: a subsequence of `in` whose members are exactly the elements
`v` of `in` with `pred(v)` true.  Run in a memory of backing arrays on a
valid slice header, `Filter` returns a slice that reads as the filter of the
input, and every backing array that existed before the call is unchanged, so
the input slice reads the same after the call as before. -/
theorem filter_keeps_matching_in_order {T : Type} [Inhabited T] (input : List T)
    (pred : T → Bool) (spare : Nat → Nat) (mem : List (List T)) (s : Slice)
    (hs : s.Valid mem) :
    (Filter input pred = input.filter pred ∧ (Filter input pred).Sublist input ∧
      ∀ v, v ∈ Filter input pred ↔ (v ∈ input ∧ pred v = true)) ∧
    ((FilterAt spare mem s pred).2.read (FilterAt spare mem s pred).1 =
        Filter (s.read mem) pred ∧
      s.read (FilterAt spare mem s pred).1 = s.read mem ∧
      ∀ (a : Nat), a < mem.length → (FilterAt spare mem s pred).1[a]? = mem[a]?) := by
  refine ⟨⟨filter_eq input pred, ?_, fun v => ?_⟩, ?_⟩
  · rw [filter_eq]
    exact List.filter_sublist input
  · rw [filter_eq, List.mem_filter]
  · rw [filter_eq]
    exact filterAt_spec spare mem s pred hs

/-- The scenarios "filter even numbers" of TestFilter and
TestFilterPreservesOrder; in memory, filtering the slice `a[1:5]` of the array
`a = [9, 1, 2, 3, 4, 9]`. -/
theorem filter_keeps_matching_in_order_witness :
    Filter [1, 2, 3, 4, 5, (6 : Int)] (fun x => decide (x % 2 = 0)) = [2, 4, 6] ∧
      Filter [5, 3, 8, 1, 9, 2, (7 : Int)] (fun x => decide (x > 4)) = [5, 8, 9, 7] ∧
      (Slice.mk (some 0) 1 4 5).Valid [[9, 1, 2, 3, 4, (9 : Int)]] ∧
      ((FilterAt (fun _ => 0) [[9, 1, 2, 3, 4, (9 : Int)]] (Slice.mk (some 0) 1 4 5)
            (fun x => decide (x % 2 = 0))).2.read
          (FilterAt (fun _ => 0) [[9, 1, 2, 3, 4, (9 : Int)]] (Slice.mk (some 0) 1 4 5)
            (fun x => decide (x % 2 = 0))).1 =
        Filter ((Slice.mk (some 0) 1 4 5).read [[9, 1, 2, 3, 4, (9 : Int)]])
          (fun x => decide (x % 2 = 0)) ∧
      (Slice.mk (some 0) 1 4 5).read
          (FilterAt (fun _ => 0) [[9, 1, 2, 3, 4, (9 : Int)]] (Slice.mk (some 0) 1 4 5)
            (fun x => decide (x % 2 = 0))).1 =
        (Slice.mk (some 0) 1 4 5).read [[9, 1, 2, 3, 4, (9 : Int)]] ∧
      ∀ (a : Nat), a < [[9, 1, 2, 3, 4, (9 : Int)]].length →
        (FilterAt (fun _ => 0) [[9, 1, 2, 3, 4, (9 : Int)]] (Slice.mk (some 0) 1 4 5)
            (fun x => decide (x % 2 = 0))).1[a]? = [[9, 1, 2, 3, 4, (9 : Int)]][a]?) :=
  ⟨by decide, by decide, ⟨by decide, by decide⟩,
    (filter_keeps_matching_in_order [1, 2, 3, 4, 5, (6 : Int)] (fun x => decide (x % 2 = 0))
      (fun _ => 0) [[9, 1, 2, 3, 4, (9 : Int)]] (Slice.mk (some 0) 1 4 5)
      ⟨by decide, by decide⟩).2⟩

end collections

/-! ## Properties of the ring buffers -/

namespace queue

section ringLemmas

variable {T : Type}

/-- In the range the ring buffers use it, Go's remainder wraps around once. -/
theorem goMod_wrap (x n : Int) (hn : 0 < n) (h0 : 0 ≤ x) (h1 : x < 2 * n) :
    goMod x n = some (if x < n then x else x - n) := by
  unfold goMod
  rw [if_neg (by omega)]
  by_cases h : x < n
  · rw [if_pos h, Int.tmod_eq_of_lt h0 h]
  · rw [if_neg h, Int.tmod_eq_emod h0 (by omega)]
    have e : x = (x - n) + 1 * n := by omega
    rw [e, Int.add_mul_emod_self, Int.emod_eq_of_lt (by omega) (by omega)]
    simp

theorem setAt_in_range (a : List T) (i : Int) (x : T) (h0 : 0 ≤ i) (h1 : i < a.length) :
    setAt a i x = some (a.set i.toNat x) := by
  unfold setAt
  rw [if_neg (by omega)]

theorem getAt_of_getElem? (a : List T) (i : Int) (x : T) (h0 : 0 ≤ i)
    (h : a[i.toNat]? = some x) : algorithms.getAt a i = some x := by
  unfold algorithms.getAt
  rw [if_neg (by omega)]
  exact h

theorem getElem?_set_other (a : List T) (i j : Nat) (x : T) (h : i ≠ j) :
    (a.set i x)[j]? = a[j]? := by
  rw [List.getElem?_set]
  rw [if_neg h]

/-- The copy loop started at `i` with room in `dst` completes: `dst` keeps
its length and its cells outside `[i, size)`, and cell `j` in that range
receives the element `j` places after `head`, wrapping around. -/
theorem ringCopy_spec (buf : List T) (head size : Int) (hn : 0 < buf.length)
    (hh0 : 0 ≤ head) (hh1 : head < buf.length) (hs : size ≤ buf.length) :
    ∀ (fuel : Nat) (i : Int) (dst : List T), 0 ≤ i → size - i ≤ fuel → size ≤ dst.length →
      ∃ dst', ringCopy buf head size fuel i dst = some dst' ∧ dst'.length = dst.length ∧
        (∀ (j : Nat), (j : Int) < i → dst'[j]? = dst[j]?) ∧
        (∀ (j : Nat), i ≤ (j : Int) → (j : Int) < size →
          dst'[j]? = buf[(if head + j < buf.length then head + j
            else head + j - buf.length).toNat]?) ∧
        (∀ (j : Nat), size ≤ (j : Int) → dst'[j]? = dst[j]?) := by
  intro fuel
  induction fuel with
  | zero =>
    intro i dst hi hf hd
    refine ⟨dst, ?_, rfl, fun _ _ => rfl, fun j h1 h2 => ?_, fun _ _ => rfl⟩
    · simp only [ringCopy]
      rw [if_neg (by omega)]
    · omega
  | succ fuel ih =>
    intro i dst hi hf hd
    simp only [ringCopy]
    by_cases hlt : i < size
    · rw [if_pos hlt, goMod_wrap (head + i) buf.length (by omega) (by omega) (by omega)]
      simp only []
      generalize hw : (if head + i < (buf.length : Int) then head + i
        else head + i - buf.length) = w
      have hw0 : 0 ≤ w := by rw [← hw]; split_ifs <;> omega
      have hw1 : w < buf.length := by rw [← hw]; split_ifs <;> omega
      obtain ⟨x, hx, hx2⟩ := algorithms.getAt_in_range buf w hw0 hw1
      rw [hx]
      simp only []
      rw [setAt_in_range dst i x hi (by omega)]
      simp only []
      obtain ⟨dst', h1, h2, h3, h4, h5⟩ := ih (i + 1) (dst.set i.toNat x) (by omega) (by omega)
        (by rw [List.length_set]; exact hd)
      refine ⟨dst', h1, by rw [h2, List.length_set], fun j hj => ?_, fun j hj1 hj2 => ?_,
        fun j hj => ?_⟩
      · rw [h3 j (by omega), getElem?_set_other _ _ _ _ (by omega)]
      · by_cases hji : (j : Int) = i
        · rw [h3 j (by omega)]
          have e : i.toNat = j := by omega
          rw [e, List.getElem?_set_self (by omega)]
          have e2 : (if head + (j : Int) < (buf.length : Int) then head + (j : Int)
              else head + (j : Int) - buf.length) = w := by rw [hji]; exact hw
          rw [e2, hx2]
        · exact h4 j (by omega) hj2
      · rw [h5 j hj, getElem?_set_other _ _ _ _ (by omega)]
    · rw [if_neg hlt]
      refine ⟨dst, rfl, rfl, fun _ _ => rfl, fun j h1 h2 => ?_, fun _ _ => rfl⟩
      omega

end ringLemmas

end queue
namespace queue

theorem newDeque_rep {T : Type} : (NewDeque : Deque T).Rep [] := by
  refine ⟨rfl, by simp [NewDeque], fun _ => ⟨rfl, rfl⟩, fun h => ?_, fun i hi => ?_⟩
  · simp [NewDeque] at h
  · simp at hi

theorem clear_rep {T : Type} (d : Deque T) : d.Clear.Rep [] := newDeque_rep

section dequeLemmas

variable {T : Type} [Inhabited T]

/-- `growIfNeeded` completes, keeps the list represented and leaves a free cell. -/
theorem growIfNeeded_spec (d : Deque T) (l : List T) (h : d.Rep l) :
    ∃ d1, d.growIfNeeded = some d1 ∧ d1.Rep l ∧ d1.size < d1.buf.length := by
  obtain ⟨hsz, hle, hzero, hpos, hel⟩ := h
  unfold Deque.growIfNeeded
  by_cases h0 : d.buf.length = 0
  · rw [if_pos h0]
    have hl : l.length = 0 := by omega
    refine ⟨_, rfl, ⟨hsz, ?_, ?_, ?_, ?_⟩, ?_⟩
    · simp only [List.length_singleton]; omega
    · intro hc
      simp at hc
    · intro _
      have := hzero h0
      simp only [List.length_singleton]
      omega
    · intro i hi
      omega
    · simp only [List.length_singleton]; omega
  · rw [if_neg h0]
    by_cases h1 : d.size < d.buf.length
    · rw [if_pos h1]
      exact ⟨d, rfl, ⟨hsz, hle, hzero, hpos, hel⟩, h1⟩
    · rw [if_neg h1]
      have hn : 0 < d.buf.length := Nat.pos_of_ne_zero h0
      obtain ⟨hh0, hh1, ht0, ht1, ht⟩ := hpos hn
      have hmk : (makeSlice (d.size * 2) : Option (List T)) =
          some (List.replicate (d.size * 2).toNat default) := by
        unfold makeSlice
        rw [if_neg (by omega)]
      rw [hmk]
      simp only []
      obtain ⟨nb, hc, hlen, _, hcopy, _⟩ := ringCopy_spec d.buf d.head d.size hn hh0 hh1 hle
        d.size.toNat 0 (List.replicate (d.size * 2).toNat default) (le_refl _) (by omega)
        (by rw [List.length_replicate]; omega)
      rw [hc]
      simp only []
      rw [List.length_replicate] at hlen
      refine ⟨_, rfl, ⟨hsz, ?_, ?_, ?_, ?_⟩, ?_⟩
      · simp only [hlen]; omega
      · intro hc0
        simp only [hlen] at hc0
        omega
      · intro _
        simp only [hlen]
        omega
      · intro i hi
        simp only [hlen]
        have e : (if (0 : Int) + (i : Int) < (((d.size * 2).toNat : Nat) : Int) then
            (0 : Int) + (i : Int) else 0 + (i : Int) - (((d.size * 2).toNat : Nat) : Int)).toNat
              = i := by
          rw [if_pos (by omega)]
          omega
        rw [e, hcopy i (by omega) (by omega)]
        exact hel i hi
      · simp only [hlen]
        omega

theorem pushFront_spec (d : Deque T) (l : List T) (v : T) (h : d.Rep l) :
    ∃ d', d.PushFront v = some d' ∧ d'.Rep (v :: l) := by
  obtain ⟨d1, hg, ⟨hsz, hle, hzero, hpos, hel⟩, hfree⟩ := growIfNeeded_spec d l h
  have hn : 0 < d1.buf.length := by omega
  obtain ⟨hh0, hh1, ht0, ht1, ht⟩ := hpos hn
  unfold Deque.PushFront
  rw [hg]
  simp only []
  rw [goMod_wrap _ _ (by omega) (by omega) (by omega)]
  simp only []
  generalize hw : (if d1.head - 1 + (d1.buf.length : Int) < (d1.buf.length : Int) then
    d1.head - 1 + (d1.buf.length : Int) else d1.head - 1 + d1.buf.length - d1.buf.length) = w
  have hw0 : 0 ≤ w := by rw [← hw]; split_ifs <;> omega
  have hw1 : w < d1.buf.length := by rw [← hw]; split_ifs <;> omega
  have hwv : (d1.head = 0 ∧ w = d1.buf.length - 1) ∨ (0 < d1.head ∧ w = d1.head - 1) := by
    rw [← hw]; split_ifs <;> omega
  rw [setAt_in_range _ _ _ hw0 hw1]
  simp only []
  refine ⟨_, rfl, ?_, ?_, ?_, ?_, ?_⟩
  · simp only [List.length_cons]; omega
  · simp only [List.length_set]; omega
  · intro hc
    simp only [List.length_set] at hc
    omega
  · intro _
    simp only [List.length_set]
    omega
  · intro i hi
    simp only [List.length_set]
    cases i with
    | zero =>
      have e : (if w + ((0 : Nat) : Int) < (d1.buf.length : Int) then w + ((0 : Nat) : Int)
          else w + ((0 : Nat) : Int) - d1.buf.length).toNat = w.toNat := by
        rw [if_pos (by omega)]
        simp
      rw [e, List.getElem?_set_self (by omega)]
      simp
    | succ j =>
      have hj : j < l.length := by simpa using hi
      have hold := hel j hj
      generalize ho : (if d1.head + (j : Int) < (d1.buf.length : Int) then d1.head + (j : Int)
        else d1.head + (j : Int) - d1.buf.length) = o at hold
      have e : (if w + ((j + 1 : Nat) : Int) < (d1.buf.length : Int) then
          w + ((j + 1 : Nat) : Int) else w + ((j + 1 : Nat) : Int) - d1.buf.length) = o := by
        rw [← ho]; split_ifs <;> omega
      have hne : w.toNat ≠ o.toNat := by
        rw [← ho]; split_ifs <;> omega
      rw [e, getElem?_set_other _ _ _ _ hne, hold]
      simp

theorem pushBack_spec (d : Deque T) (l : List T) (v : T) (h : d.Rep l) :
    ∃ d', d.PushBack v = some d' ∧ d'.Rep (l ++ [v]) := by
  obtain ⟨d1, hg, ⟨hsz, hle, hzero, hpos, hel⟩, hfree⟩ := growIfNeeded_spec d l h
  have hn : 0 < d1.buf.length := by omega
  obtain ⟨hh0, hh1, ht0, ht1, ht⟩ := hpos hn
  unfold Deque.PushBack
  rw [hg]
  simp only []
  rw [setAt_in_range _ _ _ ht0 ht1]
  simp only [List.length_set]
  rw [goMod_wrap _ _ (by omega) (by omega) (by omega)]
  simp only []
  generalize hw : (if d1.tail + 1 < (d1.buf.length : Int) then d1.tail + 1
    else d1.tail + 1 - d1.buf.length) = w
  have hwv : (d1.tail + 1 < d1.buf.length ∧ w = d1.tail + 1) ∨
      (d1.tail + 1 = d1.buf.length ∧ w = 0) := by
    rw [← hw]; split_ifs <;> omega
  refine ⟨_, rfl, ?_, ?_, ?_, ?_, ?_⟩
  · simp only [List.length_append, List.length_singleton]; omega
  · simp only [List.length_set]; omega
  · intro hc
    simp only [List.length_set] at hc
    omega
  · intro _
    simp only [List.length_set]
    omega
  · intro i hi
    simp only [List.length_set]
    simp only [List.length_append, List.length_singleton] at hi
    generalize ho : (if d1.head + (i : Int) < (d1.buf.length : Int) then d1.head + (i : Int)
      else d1.head + (i : Int) - d1.buf.length) = o
    by_cases hil : i < l.length
    · have hold := hel i hil
      rw [ho] at hold
      have hne : d1.tail.toNat ≠ o.toNat := by
        rw [← ho]; split_ifs <;> omega
      rw [getElem?_set_other _ _ _ _ hne, hold, List.getElem?_append_left hil]
    · have hie : i = l.length := by omega
      have e : o.toNat = d1.tail.toNat := by
        rw [← ho]; split_ifs <;> omega
      rw [e, List.getElem?_set_self (by omega), hie, List.getElem?_concat_length]

theorem popFront_spec (d : Deque T) (l : List T) (h : d.Rep l) :
    ∃ d', d.PopFront = some (match l with
        | [] => (default, false)
        | x :: _ => (x, true), d') ∧ d'.Rep l.tail := by
  obtain ⟨hsz, hle, hzero, hpos, hel⟩ := h
  unfold Deque.PopFront
  cases l with
  | nil =>
    rw [if_pos (by simpa using hsz)]
    exact ⟨d, rfl, hsz, hle, hzero, hpos, hel⟩
  | cons x t =>
    simp only [List.length_cons] at hsz
    rw [if_neg (by omega)]
    have hn : 0 < d.buf.length := by omega
    obtain ⟨hh0, hh1, ht0, ht1, ht⟩ := hpos hn
    have h0 := hel 0 (by simp)
    have e0 : (if d.head + ((0 : Nat) : Int) < (d.buf.length : Int) then
        d.head + ((0 : Nat) : Int) else d.head + ((0 : Nat) : Int) - d.buf.length).toNat =
          d.head.toNat := by
      rw [if_pos (by omega)]
      simp
    rw [e0] at h0
    rw [getAt_of_getElem? d.buf d.head x hh0 (by rw [h0]; simp)]
    simp only []
    rw [setAt_in_range _ _ _ hh0 hh1]
    simp only [List.length_set]
    rw [goMod_wrap _ _ (by omega) (by omega) (by omega)]
    simp only []
    generalize hw : (if d.head + 1 < (d.buf.length : Int) then d.head + 1
      else d.head + 1 - d.buf.length) = w
    have hwv : (d.head + 1 < d.buf.length ∧ w = d.head + 1) ∨
        (d.head + 1 = d.buf.length ∧ w = 0) := by
      rw [← hw]; split_ifs <;> omega
    refine ⟨_, rfl, ?_, ?_, ?_, ?_, ?_⟩
    · simp only [List.tail_cons]; omega
    · simp only [List.length_set]; omega
    · intro hc
      simp only [List.length_set] at hc
      omega
    · intro _
      simp only [List.length_set]
      omega
    · intro i hi
      simp only [List.length_set, List.tail_cons] at hi ⊢
      have hold := hel (i + 1) (by simp; omega)
      generalize ho : (if d.head + ((i + 1 : Nat) : Int) < (d.buf.length : Int) then
        d.head + ((i + 1 : Nat) : Int) else d.head + ((i + 1 : Nat) : Int) - d.buf.length) = o
        at hold
      have e : (if w + (i : Int) < (d.buf.length : Int) then w + (i : Int)
          else w + (i : Int) - d.buf.length) = o := by
        rw [← ho]; split_ifs <;> omega
      have hne : d.head.toNat ≠ o.toNat := by
        rw [← ho]; split_ifs <;> omega
      rw [e, getElem?_set_other _ _ _ _ hne, hold]
      simp

theorem popBack_spec (d : Deque T) (l : List T) (h : d.Rep l) :
    ∃ d', d.PopBack = some (match l.getLast? with
        | none => (default, false)
        | some x => (x, true), d') ∧ d'.Rep l.dropLast := by
  obtain ⟨hsz, hle, hzero, hpos, hel⟩ := h
  unfold Deque.PopBack
  rcases List.eq_nil_or_concat l with rfl | ⟨t, x, hl⟩
  · rw [if_pos (by simpa using hsz)]
    exact ⟨d, rfl, hsz, hle, hzero, hpos, hel⟩
  · rw [List.concat_eq_append] at hl
    subst hl
    simp only [List.length_append, List.length_singleton] at hsz
    rw [if_neg (by omega)]
    have hn : 0 < d.buf.length := by omega
    obtain ⟨hh0, hh1, ht0, ht1, ht⟩ := hpos hn
    rw [goMod_wrap _ _ (by omega) (by omega) (by omega)]
    simp only []
    generalize hw : (if d.tail - 1 + (d.buf.length : Int) < (d.buf.length : Int) then
      d.tail - 1 + (d.buf.length : Int) else d.tail - 1 + d.buf.length - d.buf.length) = w
    have hw0 : 0 ≤ w := by rw [← hw]; split_ifs <;> omega
    have hw1 : w < d.buf.length := by rw [← hw]; split_ifs <;> omega
    have hwv : (d.tail = 0 ∧ w = d.buf.length - 1) ∨ (0 < d.tail ∧ w = d.tail - 1) := by
      rw [← hw]; split_ifs <;> omega
    have hlast := hel t.length (by simp)
    generalize ho : (if d.head + (t.length : Int) < (d.buf.length : Int) then
      d.head + (t.length : Int) else d.head + (t.length : Int) - d.buf.length) = o at hlast
    have eo : o = w := by
      rw [← ho]; split_ifs <;> omega
    rw [eo, List.getElem?_concat_length] at hlast
    rw [getAt_of_getElem? d.buf w x hw0 hlast]
    simp only []
    rw [setAt_in_range _ _ _ hw0 hw1]
    have hgl : (t ++ [x]).getLast? = some x := by simp
    have hdl : (t ++ [x]).dropLast = t := by simp
    rw [hgl, hdl]
    simp only []
    refine ⟨_, rfl, ?_, ?_, ?_, ?_, ?_⟩
    · simp only []; omega
    · simp only [List.length_set]; omega
    · intro hc
      simp only [List.length_set] at hc
      omega
    · intro _
      simp only [List.length_set]
      omega
    · intro i hi
      simp only [List.length_set]
      have hold := hel i (by simp; omega)
      generalize ho2 : (if d.head + (i : Int) < (d.buf.length : Int) then d.head + (i : Int)
        else d.head + (i : Int) - d.buf.length) = o2 at hold
      have hne : w.toNat ≠ o2.toNat := by
        rw [← ho2]; split_ifs <;> omega
      rw [getElem?_set_other _ _ _ _ hne, hold, List.getElem?_append_left hi]

theorem toSlice_spec (d : Deque T) (l : List T) (h : d.Rep l) : d.ToSlice = some l := by
  obtain ⟨hsz, hle, hzero, hpos, hel⟩ := h
  unfold Deque.ToSlice
  have hmk : (makeSlice d.size : Option (List T)) =
      some (List.replicate d.size.toNat default) := by
    unfold makeSlice
    rw [if_neg (by omega)]
  rw [hmk]
  simp only []
  by_cases hl : l.length = 0
  · have hs0 : d.size = 0 := by omega
    have hnil : l = [] := List.length_eq_zero.1 hl
    rw [hs0, hnil]
    simp [ringCopy]
  · have hn : 0 < d.buf.length := by omega
    obtain ⟨hh0, hh1, ht0, ht1, ht⟩ := hpos hn
    obtain ⟨out, hc, hlen, _, hcopy, _⟩ := ringCopy_spec d.buf d.head d.size hn hh0 hh1 hle
      d.size.toNat 0 (List.replicate d.size.toNat default) (le_refl _) (by omega)
      (by rw [List.length_replicate]; omega)
    rw [hc]
    rw [List.length_replicate] at hlen
    congr 1
    apply List.ext_getElem?
    intro j
    by_cases hj : j < l.length
    · rw [hcopy j (by omega) (by omega)]
      exact hel j hj
    · rw [List.getElem?_eq_none (by omega), List.getElem?_eq_none (by omega)]

end dequeLemmas

end queue
namespace queue

section runLemmas

variable {T : Type} [Inhabited T]

/-- Every call on a deque that represents `l` completes, returns what the
list model returns, and leaves a deque that represents the model's list. -/
theorem step_spec (d : Deque T) (l : List T) (op : DequeOp T) (h : d.Rep l) :
    ∃ d', d.step op = some ((listStep l op).1, d') ∧ d'.Rep (listStep l op).2 := by
  cases op with
  | pushFront v =>
    obtain ⟨d', h1, h2⟩ := pushFront_spec d l v h
    exact ⟨d', by simp only [Deque.step, h1]; rfl, h2⟩
  | pushBack v =>
    obtain ⟨d', h1, h2⟩ := pushBack_spec d l v h
    exact ⟨d', by simp only [Deque.step, h1]; rfl, h2⟩
  | popFront =>
    obtain ⟨d', h1, h2⟩ := popFront_spec d l h
    refine ⟨d', ?_, ?_⟩
    · simp only [Deque.step, h1]
      cases l <;> rfl
    · cases l with
      | nil => exact h2
      | cons x t => exact h2
  | popBack =>
    obtain ⟨d', h1, h2⟩ := popBack_spec d l h
    refine ⟨d', ?_, ?_⟩
    · simp only [Deque.step, h1, listStep]
      cases hl : l.getLast? <;> rfl
    · simp only [listStep]
      cases hl : l.getLast? with
      | none =>
        have : l = [] := List.getLast?_eq_none_iff.1 hl
        subst this
        exact h2
      | some x => exact h2
  | clear => exact ⟨d.Clear, rfl, clear_rep d⟩

theorem run_spec (ops : List (DequeOp T)) :
    ∀ (d : Deque T) (l : List T), d.Rep l →
      ∃ d', d.run ops = some ((listRun l ops).1, d') ∧ d'.Rep (listRun l ops).2 := by
  induction ops with
  | nil =>
    intro d l h
    exact ⟨d, rfl, h⟩
  | cons op rest ih =>
    intro d l h
    obtain ⟨d1, h1, h2⟩ := step_spec d l op h
    obtain ⟨d2, h3, h4⟩ := ih d1 _ h2
    refine ⟨d2, ?_, h4⟩
    simp only [Deque.run, h1, h3, listRun]

end runLemmas

/-- C22: Deque refines a list.  For every sequence of `PushFront`,
`PushBack`, `PopFront`, `PopBack` and `Clear` applied to a new (zero-value)
deque, no call panics, the calls return what the list model returns (a pop
returns `(x, true)` with `x` the first or last element of the list, or
`(zero, false)` on the empty list), and `ToSlice()` at the end equals the
list obtained by prepend, append, remove-first, remove-last and reset. -/
theorem deque_refines_list {T : Type} [Inhabited T] (ops : List (DequeOp T)) :
    ∃ d', (NewDeque : Deque T).run ops = some ((listRun [] ops).1, d') ∧
      d'.ToSlice = some (listRun [] ops).2 ∧ d'.Len = ((listRun [] ops).2.length : Int) := by
  obtain ⟨d', h1, h2⟩ := run_spec ops NewDeque [] newDeque_rep
  exact ⟨d', h1, toSlice_spec d' _ h2, h2.1⟩

/-- The scenario of TestMixedOperations, followed by pops at both ends. -/
theorem deque_refines_list_witness :
    ((NewDeque : Deque Int).run [.pushBack 1, .pushFront 2, .pushFront 3, .pushBack 4,
        .pushBack 5]).bind (fun r => r.2.ToSlice) = some [3, 2, 1, 4, 5] ∧
      ((NewDeque : Deque Int).run [.pushBack 1, .pushFront 2, .pushFront 3, .pushBack 4,
        .pushBack 5, .popFront, .popBack, .clear, .popFront]).map (fun r => r.1) =
          some [none, none, none, none, none, some (3, true), some (5, true), none,
            some (0, false)] ∧
      ∃ d', (NewDeque : Deque Int).run [.pushBack 1, .pushFront 2, .popBack] =
          some ((listRun [] [.pushBack 1, .pushFront 2, .popBack]).1, d') ∧
        d'.ToSlice = some (listRun [] [.pushBack 1, .pushFront 2, .popBack]).2 ∧
        d'.Len = ((listRun ([] : List Int) [.pushBack 1, .pushFront 2, .popBack]).2.length : Int) :=
  ⟨by decide, by decide, deque_refines_list [.pushBack 1, .pushFront 2, .popBack]⟩

section queueLemmas

variable {T : Type} [Inhabited T]

theorem queue_grow_sim (q : Queue T) :
    q.growIfNeeded.map Queue.toDeque = q.toDeque.growIfNeeded := by
  unfold Queue.growIfNeeded Deque.growIfNeeded Queue.toDeque
  simp only []
  by_cases h0 : q.buf.length = 0
  · rw [if_pos h0, if_pos h0]
    rfl
  · rw [if_neg h0, if_neg h0]
    by_cases h1 : q.size < q.buf.length
    · rw [if_pos h1, if_pos h1]
      rfl
    · rw [if_neg h1, if_neg h1]
      cases (makeSlice (q.size * 2) : Option (List T)) with
      | none => rfl
      | some nb =>
        simp only []
        cases ringCopy q.buf q.head q.size q.size.toNat 0 nb <;> rfl

theorem queue_step_sim (q : Queue T) (op : QueueOp T) :
    (q.step op).map (fun r => (r.1, r.2.toDeque)) = q.toDeque.step op.toDequeOp := by
  cases op with
  | enqueue v =>
    simp only [Queue.step, Deque.step, QueueOp.toDequeOp, Queue.Enqueue, Deque.PushBack]
    rw [← queue_grow_sim]
    cases q.growIfNeeded with
    | none => rfl
    | some q1 =>
      simp only [Option.map_some', Queue.toDeque]
      cases setAt q1.buf q1.tail v with
      | none => rfl
      | some b =>
        simp only []
        cases goMod (q1.tail + 1) b.length <;> rfl
  | dequeue =>
    simp only [Queue.step, Deque.step, QueueOp.toDequeOp, Queue.Dequeue, Deque.PopFront,
      Queue.toDeque]
    by_cases h0 : q.size = 0
    · rw [if_pos h0, if_pos h0]
      rfl
    · rw [if_neg h0, if_neg h0]
      cases algorithms.getAt q.buf q.head with
      | none => rfl
      | some x =>
        simp only []
        cases setAt q.buf q.head default with
        | none => rfl
        | some b =>
          simp only []
          cases goMod (q.head + 1) b.length <;> rfl
  | clear => rfl

theorem queue_toSlice_sim (q : Queue T) : q.ToSlice = q.toDeque.ToSlice := rfl

theorem fifoStep_eq (l : List T) (op : QueueOp T) : fifoStep l op = listStep l op.toDequeOp := by
  cases op <;> rfl

/-- Every call on a queue whose fields represent `l` completes, returns what
the list model returns, and leaves a queue that represents the model's list. -/
theorem queue_step_spec (q : Queue T) (l : List T) (op : QueueOp T) (h : q.toDeque.Rep l) :
    ∃ q', q.step op = some ((fifoStep l op).1, q') ∧ q'.toDeque.Rep (fifoStep l op).2 := by
  obtain ⟨d', h1, h2⟩ := step_spec q.toDeque l op.toDequeOp h
  rw [← queue_step_sim] at h1
  rw [fifoStep_eq]
  cases hq : q.step op with
  | none => rw [hq] at h1; simp at h1
  | some r =>
    rw [hq] at h1
    simp only [Option.map_some', Option.some.injEq, Prod.mk.injEq] at h1
    refine ⟨r.2, ?_, ?_⟩
    · rw [← h1.1]
    · rw [h1.2]
      exact h2

theorem queue_run_spec (ops : List (QueueOp T)) :
    ∀ (q : Queue T) (l : List T), q.toDeque.Rep l →
      ∃ q', q.run ops = some ((fifoRun l ops).1, q') ∧ q'.toDeque.Rep (fifoRun l ops).2 := by
  induction ops with
  | nil =>
    intro q l h
    exact ⟨q, rfl, h⟩
  | cons op rest ih =>
    intro q l h
    obtain ⟨q1, h1, h2⟩ := queue_step_spec q l op h
    obtain ⟨q2, h3, h4⟩ := ih q1 _ h2
    refine ⟨q2, ?_, h4⟩
    simp only [Queue.run, h1, h3, fifoRun]

end queueLemmas

/-- C23: Queue is first-in first-out.  For every sequence of `Enqueue`,
`Dequeue` and `Clear` applied to a new (zero-value) queue, no call panics,
each `Dequeue` returns what the list model returns (`(x, true)` with `x` the
oldest element not yet dequeued, or `(zero, false)` when empty), and
`ToSlice()` at the end equals the model's list, where `Enqueue` appends and
`Dequeue` removes the first element; growth of the buffer and wrap-around
of the indices are covered, the sequence being arbitrary. -/
theorem queue_is_fifo {T : Type} [Inhabited T] (ops : List (QueueOp T)) :
    ∃ q', (NewQueue : Queue T).run ops = some ((fifoRun [] ops).1, q') ∧
      q'.ToSlice = some (fifoRun [] ops).2 ∧ q'.Len = ((fifoRun [] ops).2.length : Int) := by
  obtain ⟨q', h1, h2⟩ := queue_run_spec ops NewQueue [] newDeque_rep
  exact ⟨q', h1, by rw [queue_toSlice_sim]; exact toSlice_spec _ _ h2, h2.1⟩

/-- A short version of TestQueueRingBufferWraparound and TestQueueGrowth:
three elements in, two out, three in (the buffer of four cells wraps around),
then one more (the buffer grows). -/
theorem queue_is_fifo_witness :
    ((NewQueue : Queue Int).run [.enqueue 0, .enqueue 1, .enqueue 2, .dequeue, .dequeue,
        .enqueue 3, .enqueue 4, .enqueue 5]).map (fun r => (r.2.ToSlice, r.2.head, r.2.tail,
          r.2.buf.length)) = some (some [2, 3, 4, 5], 2, 2, 4) ∧
      ((NewQueue : Queue Int).run [.enqueue 0, .enqueue 1, .enqueue 2, .dequeue, .dequeue,
        .enqueue 3, .enqueue 4, .enqueue 5, .enqueue 6, .dequeue]).map
          (fun r => (r.1.getLast?, r.2.ToSlice, r.2.buf.length)) =
        some (some (some (2, true)), some [3, 4, 5, 6], 8) ∧
      ∃ q', (NewQueue : Queue Int).run [.enqueue 7, .dequeue, .dequeue] =
          some ((fifoRun [] [.enqueue 7, .dequeue, .dequeue]).1, q') ∧
        q'.ToSlice = some (fifoRun [] [.enqueue 7, .dequeue, .dequeue]).2 ∧
        q'.Len = ((fifoRun ([] : List Int) [.enqueue 7, .dequeue, .dequeue]).2.length : Int) :=
  ⟨by decide, by decide, queue_is_fifo [.enqueue 7, .dequeue, .dequeue]⟩

end queue

/-! ## The ring-buffer invariant -/

namespace queue

/-- A deque that represents a list satisfies the invariant on the fields. -/
theorem ringInv_of_rep {T : Type} (d : Deque T) (l : List T) (h : d.Rep l) : d.RingInv := by
  obtain ⟨hsz, hle, hzero, hpos, _⟩ := h
  refine ⟨by omega, hle, fun hn => ?_⟩
  obtain ⟨hh0, hh1, ht0, ht1, ht⟩ := hpos hn
  refine ⟨hh0, hh1, ht0, ht1, ?_⟩
  rcases ht with ht | ht
  · rw [ht, Int.emod_eq_of_lt (by omega) (by omega)]
  · have e : d.head + d.size = (d.head + d.size - d.buf.length) + 1 * (d.buf.length : Int) := by
      omega
    rw [e, Int.add_mul_emod_self, Int.emod_eq_of_lt (by omega) (by omega)]
    exact ht

/-- The invariant on the fields does not constrain `tail` while the buffer is
empty, and `PushBack` writes at `tail` after `growIfNeeded` has made one
cell: the state with an empty buffer and `tail = 1` panics. -/
theorem pushBack_needs_tail_zero :
    (Deque.mk ([] : List Int) 0 1 0).RingInv ∧ (Deque.mk ([] : List Int) 0 1 0).PushBack 7 = none :=
  ⟨by decide, by decide⟩

section invLemmas

variable {T : Type} [Inhabited T]

/-- A state that satisfies the invariant, with `head` and `tail` at 0 while
the buffer is empty, represents a list. -/
theorem rep_of_ringInv (d : Deque T) (h : d.RingInv)
    (h0 : d.buf.length = 0 → d.head = 0 ∧ d.tail = 0) : ∃ l, d.Rep l := by
  obtain ⟨hs0, hle, hpos⟩ := h
  refine ⟨(List.range d.size.toNat).map (fun (i : Nat) =>
    (d.buf[(if d.head + (i : Int) < (d.buf.length : Int) then d.head + (i : Int)
      else d.head + (i : Int) - d.buf.length).toNat]?).getD default), ?_, hle, h0, ?_, ?_⟩
  · simp only [List.length_map, List.length_range]
    omega
  · intro hn
    obtain ⟨hh0, hh1, ht0, ht1, ht⟩ := hpos hn
    refine ⟨hh0, hh1, ht0, ht1, ?_⟩
    by_cases hlt : d.head + d.size < d.buf.length
    · left
      rw [ht, Int.emod_eq_of_lt (by omega) hlt]
    · right
      have e : d.head + d.size = (d.head + d.size - d.buf.length) + 1 * (d.buf.length : Int) := by
        omega
      rw [ht]
      conv => lhs; rw [e, Int.add_mul_emod_self, Int.emod_eq_of_lt (by omega) (by omega)]
  · intro i hi
    simp only [List.length_map, List.length_range] at hi
    have hn : 0 < d.buf.length := by omega
    obtain ⟨hh0, hh1, _, _, _⟩ := hpos hn
    rw [List.getElem?_map, List.getElem?_range hi]
    simp only [Option.map_some']
    generalize hw : (if d.head + (i : Int) < (d.buf.length : Int) then d.head + (i : Int)
      else d.head + (i : Int) - d.buf.length) = w
    have hw1 : w.toNat < d.buf.length := by
      rw [← hw]; split_ifs <;> omega
    rw [List.getElem?_eq_getElem hw1]
    rfl

/-- In a state that represents a list no operation panics. -/
theorem noPanic_of_rep (d : Deque T) (l : List T) (v : T) (h : d.Rep l) : d.NoPanic v := by
  obtain ⟨d1, h1, _⟩ := pushFront_spec d l v h
  obtain ⟨d2, h2, _⟩ := pushBack_spec d l v h
  obtain ⟨d3, h3, _⟩ := popFront_spec d l h
  obtain ⟨d4, h4, _⟩ := popBack_spec d l h
  have h7 := toSlice_spec d l h
  obtain ⟨hsz, hle, hzero, hpos, hel⟩ := h
  refine ⟨by rw [h1]; rfl, by rw [h2]; rfl, by rw [h3]; rfl, by rw [h4]; rfl, ?_, ?_,
    by rw [h7]; rfl⟩
  · unfold Deque.PeekFront
    by_cases hs : d.size = 0
    · rw [if_pos hs]
      rfl
    · rw [if_neg hs]
      have hn : 0 < d.buf.length := by omega
      obtain ⟨hh0, hh1, _, _, _⟩ := hpos hn
      obtain ⟨x, hx, _⟩ := algorithms.getAt_in_range d.buf d.head hh0 hh1
      rw [hx]
      rfl
  · unfold Deque.PeekBack
    by_cases hs : d.size = 0
    · rw [if_pos hs]
      rfl
    · rw [if_neg hs]
      have hn : 0 < d.buf.length := by omega
      obtain ⟨_, _, ht0, ht1, _⟩ := hpos hn
      rw [goMod_wrap _ _ (by omega) (by omega) (by omega)]
      simp only []
      generalize hw : (if d.tail - 1 + (d.buf.length : Int) < (d.buf.length : Int) then
        d.tail - 1 + (d.buf.length : Int) else d.tail - 1 + d.buf.length - d.buf.length) = w
      have hw0 : 0 ≤ w := by rw [← hw]; split_ifs <;> omega
      have hw1 : w < d.buf.length := by rw [← hw]; split_ifs <;> omega
      obtain ⟨x, hx, _⟩ := algorithms.getAt_in_range d.buf w hw0 hw1
      rw [hx]
      rfl

end invLemmas

/-- C38: Deque ring-buffer invariant and index safety.  Every sequence of
`PushFront`, `PushBack`, `PopFront`, `PopBack` and `Clear` applied to the
zero value completes, and the state `d` it leads to satisfies
`0 <= size <= len(buf)` and, when `len(buf) > 0`, `0 <= head < len(buf)`,
`0 <= tail < len(buf)` and `tail = (head + size) mod len(buf)`; `head` and
`tail` are 0 while `buf` is empty; and in `d` no operation (`PeekFront`,
`PeekBack` and `ToSlice` included) indexes `buf` out of range or takes a
remainder modulo zero.  More generally, in every state `e` that satisfies
the invariant with `head` and `tail` at 0 while `buf` is empty, no operation
panics. -/
theorem deque_ring_invariant_index_safety {T : Type} [Inhabited T] (ops : List (DequeOp T))
    (v : T) :
    (∃ rs d, (NewDeque : Deque T).run ops = some (rs, d) ∧ d.RingInv ∧
      (d.buf.length = 0 → d.head = 0 ∧ d.tail = 0) ∧ d.NoPanic v) ∧
    (∀ (e : Deque T), e.RingInv → (e.buf.length = 0 → e.head = 0 ∧ e.tail = 0) →
      e.NoPanic v) := by
  constructor
  · obtain ⟨d, h1, h2⟩ := run_spec ops NewDeque [] newDeque_rep
    exact ⟨_, d, h1, ringInv_of_rep d _ h2, h2.2.2.1, noPanic_of_rep d _ v h2⟩
  · intro e he h0
    obtain ⟨l, hl⟩ := rep_of_ringInv e he h0
    exact noPanic_of_rep e l v hl

/-- The scenario of TestDequeZeroValue and a wrap-around: the fields after
each sequence, the invariant on them, and a state given by its fields. -/
theorem deque_ring_invariant_index_safety_witness :
    ((NewDeque : Deque Int).run [.pushBack 1, .popFront]).map
        (fun r => (r.1, r.2.buf, r.2.head, r.2.tail, r.2.size)) =
        some ([none, some (1, true)], [0], 0, 0, 0) ∧
      ((NewDeque : Deque Int).run [.pushBack 1, .pushBack 2, .pushFront 3, .popBack,
        .popBack]).map (fun r => (r.2.buf, r.2.head, r.2.tail, r.2.size)) =
        some ([0, 0, 0, 3], 3, 0, 1) ∧
      (Deque.mk [0, 0, 0, (3 : Int)] 3 0 1).RingInv ∧
      (Deque.mk [0, 0, 0, (3 : Int)] 3 0 1).NoPanic 7 :=
  ⟨by decide, by decide, by decide,
    (deque_ring_invariant_index_safety ([] : List (DequeOp Int)) 7).2
      (Deque.mk [0, 0, 0, (3 : Int)] 3 0 1) (by decide) (by decide)⟩

end queue

/-! ## Positions in the tree: successor deletion, overwriting, degenerate shape -/

namespace tree

section positionLemmas

variable {K V : Type} {cmp : K → K → Int}

/-- The node where the descent stops has a key that compares EQUAL to `k`. -/
theorem target_eq (n : node K V) (k key : K) (val : V) (left right : node K V)
    (h : target cmp n k = node.mk key val left right) : cmp k key = 0 := by
  induction n with
  | nil => simp [target] at h
  | mk key0 val0 left0 right0 ihl ihr =>
    simp only [target] at h
    by_cases h1 : cmp k key0 < 0
    · rw [if_pos h1] at h
      exact ihl h
    · rw [if_neg h1] at h
      by_cases h2 : cmp k key0 > 0
      · rw [if_pos h2] at h
        exact ihr h
      · rw [if_neg h2] at h
        have e : key0 = key := by
          injection h
        rw [← e]
        omega

theorem IsBST_target (n : node K V) (k : K) (hb : IsBST cmp n) : IsBST cmp (target cmp n k) := by
  induction n with
  | nil => exact hb
  | mk key0 val0 left0 right0 ihl ihr =>
    obtain ⟨hl, hr, hbl, hbr⟩ := hb
    simp only [target]
    by_cases h1 : cmp k key0 < 0
    · rw [if_pos h1]
      exact ihl hbl
    · rw [if_neg h1]
      by_cases h2 : cmp k key0 > 0
      · rw [if_pos h2]
        exact ihr hbr
      · rw [if_neg h2]
        exact ⟨hl, hr, hbl, hbr⟩

/-- `deleteNode` rebuilds the search path and acts at the node where the
descent stops. -/
theorem deleteNode_graft (n : node K V) (k : K) :
    deleteNode n k cmp = graft cmp n k (deleteNode (target cmp n k) k cmp) := by
  induction n with
  | nil => rfl
  | mk key0 val0 left0 right0 ihl ihr =>
    simp only [target, graft]
    by_cases h1 : cmp k key0 < 0
    · rw [if_pos h1, if_pos h1]
      rw [← ihl]
      simp only [deleteNode]
      rw [if_pos h1]
    · rw [if_neg h1, if_neg h1]
      by_cases h2 : cmp k key0 > 0
      · rw [if_pos h2, if_pos h2]
        rw [← ihr]
        simp only [deleteNode]
        rw [if_neg h1, if_pos h2]
      · rw [if_neg h2, if_neg h2]

/-- `put` rebuilds the search path and acts at the node where the descent stops. -/
theorem put_graft (n : node K V) (k : K) (v : V) :
    put n k v cmp = graft cmp n k (put (target cmp n k) k v cmp) := by
  induction n with
  | nil => rfl
  | mk key0 val0 left0 right0 ihl ihr =>
    simp only [target, graft]
    by_cases h1 : cmp k key0 < 0
    · rw [if_pos h1, if_pos h1]
      rw [← ihl]
      simp only [put]
      rw [if_pos h1]
    · rw [if_neg h1, if_neg h1]
      by_cases h2 : cmp k key0 > 0
      · rw [if_pos h2, if_pos h2]
        rw [← ihr]
        simp only [put]
        rw [if_neg h1, if_pos h2]
      · rw [if_neg h2, if_neg h2]

/-- Replacing the subtree at the position of `k` changes the in-order list
only in the stretch that belongs to that subtree. -/
theorem inorder_graft (n : node K V) (k : K) :
    ∃ pre post, inorder n = pre ++ inorder (target cmp n k) ++ post ∧
      ∀ new, inorder (graft cmp n k new) = pre ++ inorder new ++ post := by
  induction n with
  | nil => exact ⟨[], [], by simp [target, inorder], fun new => by simp [graft]⟩
  | mk key0 val0 left0 right0 ihl ihr =>
    simp only [target, graft]
    by_cases h1 : cmp k key0 < 0
    · simp only [if_pos h1]
      obtain ⟨pre, post, e1, e2⟩ := ihl
      refine ⟨pre, post ++ (key0, val0) :: inorder right0, ?_, fun new => ?_⟩
      · simp only [inorder]
        rw [e1]
        simp
      · simp only [inorder]
        rw [e2 new]
        simp
    · simp only [if_neg h1]
      by_cases h2 : cmp k key0 > 0
      · simp only [if_pos h2]
        obtain ⟨pre, post, e1, e2⟩ := ihr
        refine ⟨inorder left0 ++ (key0, val0) :: pre, post, ?_, fun new => ?_⟩
        · simp only [inorder]
          rw [e1]
          simp
        · simp only [inorder]
          rw [e2 new]
          simp
      · simp only [if_neg h2]
        exact ⟨[], [], by simp, fun new => by simp⟩

/-- Replacing a subtree by one of the same shape and keys keeps the shape
and keys of the whole tree. -/
theorem skeleton_graft (n : node K V) (k : K) (new : node K V)
    (h : skeleton new = skeleton (target cmp n k)) :
    skeleton (graft cmp n k new) = skeleton n := by
  induction n with
  | nil => simpa [graft, target] using h
  | mk key0 val0 left0 right0 ihl ihr =>
    simp only [target] at h
    simp only [graft]
    by_cases h1 : cmp k key0 < 0
    · rw [if_pos h1] at h ⊢
      simp only [skeleton]
      rw [ihl h]
    · rw [if_neg h1] at h ⊢
      by_cases h2 : cmp k key0 > 0
      · rw [if_pos h2] at h ⊢
        simp only [skeleton]
        rw [ihr h]
      · rw [if_neg h2] at h ⊢
        exact h

/-- The leftmost node of a non-empty tree: its key is the first in order, and
removing it removes the first entry. -/
theorem removeMin_spec (key : K) (val : V) (left right : node K V) :
    ∃ sk sv sr, findMin (node.mk key val left right) = node.mk sk sv node.nil sr ∧
      inorder (node.mk key val left right) =
        (sk, sv) :: inorder (removeMin (node.mk key val left right)) := by
  induction left generalizing key val right with
  | nil => exact ⟨key, val, right, by simp [findMin], by simp [inorder, removeMin]⟩
  | mk lk lv ll lr ihl _ =>
    obtain ⟨sk, sv, sr, h1, h2⟩ := ihl lk lv lr
    refine ⟨sk, sv, sr, ?_, ?_⟩
    · rw [findMin]
      exact h1
    · simp only [removeMin]
      rw [inorder, h2]
      simp [inorder]

/-- In a tree that satisfies the invariant, deleting the key of the leftmost
node removes exactly that node. -/
theorem deleteNode_findMin (hc : TotalCmp cmp) (key : K) (val : V) (left right : node K V)
    (hb : IsBST cmp (node.mk key val left right)) (sk : K) (sv : V) (sl sr : node K V)
    (hm : findMin (node.mk key val left right) = node.mk sk sv sl sr) :
    deleteNode (node.mk key val left right) sk cmp = removeMin (node.mk key val left right) ∧
      sk ∈ keys (node.mk key val left right) := by
  induction left generalizing key val right with
  | nil =>
    simp only [findMin] at hm
    have e : key = sk := by injection hm
    subst e
    refine ⟨?_, by simp [keys, inorder]⟩
    simp only [deleteNode, removeMin]
    rw [if_neg (by rw [hc.refl]; omega), if_neg (by rw [hc.refl]; omega)]
    simp [node.isNil]
  | mk lk lv ll lr ihl _ =>
    obtain ⟨hl, hr, hbl, hbr⟩ := hb
    rw [findMin] at hm
    obtain ⟨h1, h2⟩ := ihl lk lv lr hbl hm
    have hlt : cmp sk key < 0 := hl sk h2
    refine ⟨?_, ?_⟩
    · simp only [deleteNode, removeMin]
      rw [if_pos hlt]
      exact congrArg (fun t => node.mk key val t right) h1
    · have e : keys (node.mk key val (node.mk lk lv ll lr) right) =
          keys (node.mk lk lv ll lr) ++ key :: keys right := by
        simp [keys, inorder]
      rw [e]
      exact List.mem_append_left _ h2

end positionLemmas

end tree

namespace tree

theorem height_chain {K V : Type} (kvs : List (K × V)) : height (chain kvs) = kvs.length := by
  induction kvs with
  | nil => rfl
  | cons e rest ih =>
    obtain ⟨k0, v0⟩ := e
    simp [chain, height, ih]

theorem noLeftChild_chain {K V : Type} (kvs : List (K × V)) : noLeftChild (chain kvs) = true := by
  induction kvs with
  | nil => rfl
  | cons e rest ih =>
    obtain ⟨k0, v0⟩ := e
    simp [chain, noLeftChild, node.isNil, ih]

theorem size_chain {K V : Type} (kvs : List (K × V)) : size (chain kvs) = kvs.length := by
  induction kvs with
  | nil => rfl
  | cons e rest ih =>
    obtain ⟨k0, v0⟩ := e
    simp [chain, size, ih]
    omega

theorem putAll_cmp {K V : Type} (ops : List (K × V)) :
    ∀ (t : BinaryTree K V), (putAll t ops).cmp = t.cmp := by
  induction ops with
  | nil => intro t; rfl
  | cons e rest ih =>
    intro t
    simp only [putAll, List.foldl_cons] at ih ⊢
    rw [ih]
    rfl

section claimLemmas

variable {K V : Type} {cmp : K → K → Int}

/-- `Get` finds a key exactly when the descent stops at a node, whose value
it returns. -/
theorem getLoop_target [Inhabited V] (n : node K V) (k : K) :
    getLoop cmp n k = match target cmp n k with
      | node.nil => (default, false)
      | node.mk _ val _ _ => (val, true) := by
  induction n with
  | nil => rfl
  | mk key0 val0 left0 right0 ihl ihr =>
    simp only [getLoop, target]
    by_cases h1 : cmp k key0 < 0
    · simp only [if_pos h1, if_neg (show ¬ cmp k key0 = 0 by omega)]
      exact ihl
    · by_cases h2 : cmp k key0 > 0
      · simp only [if_neg h1, if_pos h2, if_neg (show ¬ cmp k key0 = 0 by omega)]
        exact ihr
      · simp only [if_neg h1, if_neg h2, if_pos (show cmp k key0 = 0 by omega)]

/-- Putting a key that compares GREATER than all keys of a chain extends the
chain at the bottom. -/
theorem put_chain (kvs : List (K × V)) (k : K) (v : V) (h : ∀ e ∈ kvs, 0 < cmp k e.1) :
    put (chain kvs) k v cmp = chain (kvs ++ [(k, v)]) := by
  induction kvs with
  | nil => rfl
  | cons e rest ih =>
    obtain ⟨k0, v0⟩ := e
    have h0 : 0 < cmp k k0 := h (k0, v0) (List.mem_cons_self _ _)
    simp only [chain, put, List.cons_append]
    rw [if_neg (by omega), if_pos h0, ih (fun e he => h e (List.mem_cons_of_mem _ he))]
    rfl

theorem putAll_chain (hc : TotalCmp cmp) (ops : List (K × V)) :
    ∀ (pre : List (K × V)), ((pre ++ ops).map Prod.fst).Pairwise (fun a b => cmp a b < 0) →
      (putAll { root := chain pre, cmp := cmp } ops).root = chain (pre ++ ops) := by
  induction ops with
  | nil =>
    intro pre _
    simp [putAll]
  | cons e rest ih =>
    intro pre hp
    obtain ⟨k, v⟩ := e
    have hgt : ∀ e ∈ pre, 0 < cmp k e.1 := by
      intro e he
      have hp2 := hp
      rw [List.map_append, List.pairwise_append] at hp2
      have := hp2.2.2 e.1 (List.mem_map_of_mem _ he) k (by simp)
      exact (hc.antisymm e.1 k).1 this
    have hstep : (BinaryTree.mk (chain pre) cmp).Put k v =
        { root := chain (pre ++ [(k, v)]), cmp := cmp } := by
      simp only [BinaryTree.Put]
      rw [put_chain pre k v hgt]
    have := ih (pre ++ [(k, v)]) (by simpa using hp)
    simp only [putAll, List.foldl_cons] at this ⊢
    rw [hstep, this]
    simp

theorem getLoop_chain [Inhabited V] (hc : TotalCmp cmp) (kvs : List (K × V))
    (hp : (kvs.map Prod.fst).Pairwise (fun a b => cmp a b < 0)) :
    ∀ e ∈ kvs, getLoop cmp (chain kvs) e.1 = (e.2, true) := by
  induction kvs with
  | nil =>
    intro e he
    simp at he
  | cons e0 rest ih =>
    obtain ⟨k0, v0⟩ := e0
    intro e he
    simp only [List.map_cons, List.pairwise_cons] at hp
    simp only [chain, getLoop]
    rcases List.mem_cons.1 he with rfl | hr
    · rw [if_pos (hc.refl _)]
    · have hlt : cmp k0 e.1 < 0 := hp.1 e.1 (List.mem_map_of_mem _ hr)
      have hgt : 0 < cmp e.1 k0 := (hc.antisymm k0 e.1).1 hlt
      rw [if_neg (by omega), if_neg (by omega)]
      exact ih hp.2 e hr

end claimLemmas

/-- C32: Two-children deletion uses the in-order successor.  In a tree that
satisfies the BST invariant under a total-order comparator, let the descent
for `k` stop at a node `N` (key `key`, which compares EQUAL to `k`) that has
both children.  Then `Delete(k)` returns true, and the tree afterwards is the
old one with `N` replaced by a node that holds the key and value of the
leftmost node of the former right subtree, whose key compares LESS than
every other key there; its left subtree is the former left subtree, and its
right subtree is the former right subtree with exactly that leftmost node
removed.  Every node off that position is as it was. -/
theorem delete_two_children_uses_successor {K V : Type} [Inhabited V] (t : BinaryTree K V)
    (hc : TotalCmp t.cmp) (hb : IsBST t.cmp t.root) (k key : K) (val : V) (lk rk : K)
    (lv rv : V) (ll lr rl rr : node K V)
    (ht : target t.cmp t.root k =
      node.mk key val (node.mk lk lv ll lr) (node.mk rk rv rl rr)) :
    ∃ sk sv sr, findMin (node.mk rk rv rl rr) = node.mk sk sv node.nil sr ∧
      inorder (node.mk rk rv rl rr) = (sk, sv) :: inorder (removeMin (node.mk rk rv rl rr)) ∧
      (∀ x ∈ keys (removeMin (node.mk rk rv rl rr)), t.cmp sk x < 0) ∧
      (t.Delete k).1 = true ∧
      (t.Delete k).2.root = graft t.cmp t.root k
        (node.mk sk sv (node.mk lk lv ll lr) (removeMin (node.mk rk rv rl rr))) := by
  obtain ⟨sk, sv, sr, hm, hin⟩ := removeMin_spec rk rv rl rr
  have hbt := IsBST_target t.root k hb
  rw [ht] at hbt
  obtain ⟨_, _, _, hbr⟩ := hbt
  have h0 := target_eq t.root k key val _ _ ht
  have hdel := (deleteNode_findMin hc rk rv rl rr hbr sk sv node.nil sr hm).1
  have hcont : t.Contains k = true := by
    simp only [BinaryTree.Contains, BinaryTree.Get]
    rw [getLoop_target, ht]
  refine ⟨sk, sv, sr, hm, hin, ?_, ?_, ?_⟩
  · have hp := (IsBST_iff_pairwise hc _).1 hbr
    have hk : keys (node.mk rk rv rl rr) = sk :: keys (removeMin (node.mk rk rv rl rr)) := by
      simp only [keys]
      rw [hin]
      rfl
    rw [hk, List.pairwise_cons] at hp
    exact hp.1
  · simp [BinaryTree.Delete, hcont]
  · have hd : (t.Delete k).2.root = deleteNode t.root k t.cmp := by
      simp [BinaryTree.Delete, hcont]
    have hstep : deleteNode (node.mk key val (node.mk lk lv ll lr) (node.mk rk rv rl rr)) k
        t.cmp = node.mk sk sv (node.mk lk lv ll lr)
          (deleteNode (node.mk rk rv rl rr) sk t.cmp) := by
      rw [deleteNode]
      rw [if_neg (by omega), if_neg (by omega)]
      simp only [node.isNil, Bool.false_eq_true, if_false]
      rw [hm]
    rw [hd, deleteNode_graft, ht, hstep, hdel]

/-- The example of the claim: keys 5, 3, 7, 1, 4, 6, 9 put in this order, then
5 deleted; the root then holds 6, its left subtree is unchanged and 6 is gone
from the right subtree. -/
theorem delete_two_children_uses_successor_witness :
    (sampleTree.Delete 5).2.root =
        node.mk 6 "six"
          (node.mk 3 "three" (node.mk 1 "one" node.nil node.nil)
            (node.mk 4 "four" node.nil node.nil))
          (node.mk 7 "seven" node.nil (node.mk 9 "nine" node.nil node.nil)) ∧
      ∃ sk sv sr,
        findMin (node.mk 7 "seven" (node.mk 6 "six" node.nil node.nil)
            (node.mk 9 "nine" node.nil node.nil)) = node.mk sk sv node.nil sr ∧
          inorder (node.mk 7 "seven" (node.mk 6 "six" node.nil node.nil)
              (node.mk 9 "nine" node.nil node.nil)) =
            (sk, sv) :: inorder (removeMin (node.mk 7 "seven"
              (node.mk 6 "six" node.nil node.nil) (node.mk 9 "nine" node.nil node.nil))) ∧
          (∀ x ∈ keys (removeMin (node.mk 7 "seven" (node.mk 6 "six" node.nil node.nil)
              (node.mk 9 "nine" node.nil node.nil))), sampleTree.cmp sk x < 0) ∧
          (sampleTree.Delete 5).1 = true ∧
          (sampleTree.Delete 5).2.root = graft sampleTree.cmp sampleTree.root 5
            (node.mk sk sv
              (node.mk 3 "three" (node.mk 1 "one" node.nil node.nil)
                (node.mk 4 "four" node.nil node.nil))
              (removeMin (node.mk 7 "seven" (node.mk 6 "six" node.nil node.nil)
                (node.mk 9 "nine" node.nil node.nil)))) :=
  ⟨by decide,
    delete_two_children_uses_successor sampleTree intCmp_total sampleTree_isBST 5 5 "five"
      3 7 "three" "seven" (node.mk 1 "one" node.nil node.nil)
      (node.mk 4 "four" node.nil node.nil) (node.mk 6 "six" node.nil node.nil)
      (node.mk 9 "nine" node.nil node.nil) (by decide)⟩

/-- C33: Put never restructures for an existing key.  For every tree and key
`k` whose descent stops at a node `N` (stored key `key`, which compares EQUAL
to `k`; value `val`), the tree after `Put(k, v)` is the old one with `N`
replaced by a node with the same stored key `key`, the same children and the
value `v`: the shape and the key stored in every node are the same, and the
in-order entries are the same except that the entry `(key, val)` of `N` has
become `(key, v)`. -/
theorem put_existing_key_keeps_structure {K V : Type} (t : BinaryTree K V) (k key : K)
    (val v : V) (left right : node K V)
    (ht : target t.cmp t.root k = node.mk key val left right) :
    t.cmp k key = 0 ∧
    (t.Put k v).root = graft t.cmp t.root k (node.mk key v left right) ∧
    skeleton (t.Put k v).root = skeleton t.root ∧
    size (t.Put k v).root = size t.root ∧
    ∃ pre post, inorder t.root = pre ++ (key, val) :: post ∧
      inorder (t.Put k v).root = pre ++ (key, v) :: post := by
  have h0 := target_eq t.root k key val left right ht
  have hput : (t.Put k v).root = graft t.cmp t.root k (node.mk key v left right) := by
    simp only [BinaryTree.Put]
    rw [put_graft, ht]
    congr 1
    simp only [put]
    rw [if_neg (by omega), if_neg (by omega)]
  have hsk : skeleton (t.Put k v).root = skeleton t.root := by
    rw [hput]
    apply skeleton_graft
    rw [ht]
    rfl
  refine ⟨h0, hput, hsk, ?_, ?_⟩
  · rw [← size_skeleton, hsk, size_skeleton]
  · obtain ⟨pre, post, e1, e2⟩ := @inorder_graft K V t.cmp t.root k
    rw [ht] at e1
    refine ⟨pre ++ inorder left, inorder right ++ post, ?_, ?_⟩
    · rw [e1]
      simp [inorder]
    · rw [hput, e2]
      simp [inorder]

/-- The scenario of TestPutUpdate inside the tree of the tests, and a
comparator that looks at the first component only: putting the key `(5, 2)`
into a tree that stores the key `(5, 1)` keeps the stored key. -/
theorem put_existing_key_keeps_structure_witness :
    (sampleTree.Put 4 "FOUR").root =
        node.mk 5 "five"
          (node.mk 3 "three" (node.mk 1 "one" node.nil node.nil)
            (node.mk 4 "FOUR" node.nil node.nil))
          (node.mk 7 "seven" (node.mk 6 "six" node.nil node.nil)
            (node.mk 9 "nine" node.nil node.nil)) ∧
      (((NewBinaryTree (fun (a b : Int × Int) => intCmp a.1 b.1) :
          BinaryTree (Int × Int) String).Put (5, 1) "five").Put (5, 2) "FIVE").root =
        node.mk (5, 1) "FIVE" node.nil node.nil ∧
      skeleton (sampleTree.Put 4 "FOUR").root = skeleton sampleTree.root ∧
      size (sampleTree.Put 4 "FOUR").root = size sampleTree.root :=
  ⟨by decide, by decide,
    (put_existing_key_keeps_structure sampleTree 4 4 "four" "FOUR" node.nil node.nil
      (by decide)).2.2.1,
    (put_existing_key_keeps_structure sampleTree 4 4 "four" "FOUR" node.nil node.nil
      (by decide)).2.2.2.1⟩

/-- C34: No balancing.  Putting keys that are strictly ascending under a
total-order comparator into an empty tree, in that order, yields the
right-leaning chain of these entries: no node has a left child, the height
and the number of nodes equal the number of keys, and `Get` and `Contains`
find every inserted key with its value. -/
theorem ascending_puts_give_chain {K V : Type} [Inhabited V] (cmp : K → K → Int)
    (hc : TotalCmp cmp) (kvs : List (K × V))
    (hasc : (kvs.map Prod.fst).Pairwise (fun a b => cmp a b < 0)) :
    (putAll (NewBinaryTree cmp) kvs).root = chain kvs ∧
    noLeftChild (putAll (NewBinaryTree cmp) kvs).root = true ∧
    height (putAll (NewBinaryTree cmp) kvs).root = kvs.length ∧
    size (putAll (NewBinaryTree cmp) kvs).root = kvs.length ∧
    ∀ e ∈ kvs, (putAll (NewBinaryTree cmp) kvs).Get e.1 = (e.2, true) ∧
      (putAll (NewBinaryTree cmp) kvs).Contains e.1 = true := by
  have hroot : (putAll (NewBinaryTree cmp) kvs).root = chain kvs := by
    have := putAll_chain hc kvs [] (by simpa using hasc)
    simpa [NewBinaryTree, chain] using this
  have hcmp : (putAll (NewBinaryTree cmp) kvs).cmp = cmp := putAll_cmp kvs _
  have hget : ∀ e ∈ kvs, (putAll (NewBinaryTree cmp) kvs).Get e.1 = (e.2, true) := by
    intro e he
    simp only [BinaryTree.Get]
    rw [hroot, hcmp]
    exact getLoop_chain hc kvs hasc e he
  refine ⟨hroot, ?_, ?_, ?_, fun e he => ⟨hget e he, ?_⟩⟩
  · rw [hroot]
    exact noLeftChild_chain kvs
  · rw [hroot]
    exact height_chain kvs
  · rw [hroot]
    exact size_chain kvs
  · simp only [BinaryTree.Contains]
    rw [hget e he]

/-- The scenario of TestBalancedInsertion with five keys: 1 to 5 put in order. -/
theorem ascending_puts_give_chain_witness :
    (putAll (NewBinaryTree intCmp)
        [(1, "value"), (2, "value"), (3, "value"), (4, "value"), (5, "value")]).root =
      node.mk 1 "value" node.nil (node.mk 2 "value" node.nil (node.mk 3 "value" node.nil
        (node.mk 4 "value" node.nil (node.mk 5 "value" node.nil node.nil)))) ∧
      height (putAll (NewBinaryTree intCmp)
        [(1, "value"), (2, "value"), (3, "value"), (4, "value"), (5, "value")]).root =
        [(1, "value"), (2, "value"), (3, "value"), (4, "value"), ((5 : Int), "value")].length ∧
      height (putAll (NewBinaryTree intCmp)
        [(3, "value"), (2, "value"), (4, "value"), (1, "value"), (5, "value")]).root = 3 :=
  ⟨by decide,
    (ascending_puts_give_chain intCmp intCmp_total
      [(1, "value"), (2, "value"), (3, "value"), (4, "value"), (5, "value")]
      (by decide)).2.2.1,
    by decide⟩

end tree

/-! ## The child chosen by sift-down -/

namespace queue

section siftLemmas

variable {T : Type}

/-- The sift-down loop of the model does the round described by the spec. -/
theorem downLoop_round (fuel : Nat) (h : genericHeap T) (i n : Nat) :
    heap.downLoop (fuel + 1) h i n =
      match specSiftStep h i n with
      | none => (h, i)
      | some j => heap.downLoop fuel (h.Swap i j) j n := by
  rw [heap.downLoop]
  simp only [specSiftStep, specCandidate]
  by_cases h1 : 2 * i + 1 ≥ n
  · rw [if_pos h1, if_neg (by omega), if_neg (by omega)]
  · rw [if_neg h1]
    by_cases h2 : 2 * i + 2 < n
    · rw [if_pos h2]
      by_cases h3 : h.Less (2 * i + 2) (2 * i + 1) = true
      · have e : (2 * i + 1 + 1 < n ∧ h.Less (2 * i + 1 + 1) (2 * i + 1) = true) := ⟨h2, h3⟩
        rw [if_pos e, if_pos h3]
        by_cases h4 : h.Less (2 * i + 2) i = true
        · simp [h4]
        · simp [h4]
      · have e : ¬ (2 * i + 1 + 1 < n ∧ h.Less (2 * i + 1 + 1) (2 * i + 1) = true) :=
          fun c => h3 c.2
        rw [if_neg e, if_neg h3]
        by_cases h4 : h.Less (2 * i + 1) i = true
        · simp [h4]
        · simp [h4]
    · have e : ¬ (2 * i + 1 + 1 < n ∧ h.Less (2 * i + 1 + 1) (2 * i + 1) = true) :=
        fun c => h2 c.1
      rw [if_neg e, if_neg h2, if_pos (show 2 * i + 1 < n by omega)]
      by_cases h4 : h.Less (2 * i + 1) i = true
      · simp [h4]
      · simp [h4]

/-- Sift-down from index `i` leaves the elements before `i` where they are. -/
theorem downLoop_below (fuel : Nat) (h : genericHeap T) (i n : Nat) (hn : n ≤ h.data.length) :
    ∀ k, k < i → (heap.downLoop fuel h i n).1.data[k]? = h.data[k]? := by
  induction fuel generalizing h i with
  | zero => exact fun _ _ => rfl
  | succ fuel ih =>
    intro k hk
    rw [downLoop_round]
    cases hs : specSiftStep h i n with
    | none => rfl
    | some j =>
      simp only []
      have hj : (j = 2 * i + 1 ∨ j = 2 * i + 2) ∧ j < n := by
        simp only [specSiftStep, specCandidate] at hs
        split_ifs at hs <;> simp at hs <;> omega
      rw [ih (h.Swap i j) j (by rw [Swap_length]; exact hn) k (by omega),
        Swap_getElem? h _ _ k (by omega) (by omega)]
      have e1 : ¬ k = i := by omega
      have e2 : ¬ k = j := by omega
      simp only [swapIdx, if_neg e1, if_neg e2]

/-- With both children present the spec's round is decided by two calls of
`less`: one between the children, one between the candidate and the element. -/
theorem specSiftStep_two_children (h : genericHeap T) (i n : Nat) (x l r : T)
    (h2 : 2 * i + 2 < n) (hx : h.data[i]? = some x) (hl : h.data[2 * i + 1]? = some l)
    (hr : h.data[2 * i + 2]? = some r) :
    specCandidate h i n = some (if h.less r l = true then 2 * i + 2 else 2 * i + 1) ∧
      specSiftStep h i n =
        if h.less (if h.less r l = true then r else l) x = true then
          some (if h.less r l = true then 2 * i + 2 else 2 * i + 1)
        else none := by
  have hLrl : h.Less (2 * i + 2) (2 * i + 1) = h.less r l := by
    rw [Less_eq, hr, hl]
    rfl
  have hc : specCandidate h i n = some (if h.less r l = true then 2 * i + 2 else 2 * i + 1) := by
    simp only [specCandidate]
    rw [if_pos h2, hLrl]
    by_cases hrl : h.less r l = true
    · rw [if_pos hrl, if_pos hrl]
    · rw [if_neg hrl, if_neg hrl]
  refine ⟨hc, ?_⟩
  simp only [specSiftStep]
  rw [hc]
  simp only []
  by_cases hrl : h.less r l = true
  · simp only [if_pos hrl]
    rw [Less_eq, hr, hx]
    rfl
  · simp only [if_neg hrl]
    rw [Less_eq, hl, hx]
    rfl

/-- The element at the root after `Pop` on a heap of at least four elements:
the last element has been moved to the root and one round of sift-down has
put the chosen child there, if it is `less` than that element. -/
theorem heapPop_root (less : T → T → Bool) (x0 x1 x2 last : T) (mid : List T) :
    (heap.Pop { data := x0 :: x1 :: x2 :: mid ++ [last], less := less }).2.data[0]? =
      some (if less (if less x2 x1 = true then x2 else x1) last = true then
        (if less x2 x1 = true then x2 else x1) else last) := by
  have hlen : (x0 :: x1 :: x2 :: mid ++ [last]).length = mid.length + 4 := by simp
  have hlast : (x0 :: x1 :: x2 :: mid ++ [last])[mid.length + 3]? = some last := by
    have e : x0 :: x1 :: x2 :: mid ++ [last] = (x0 :: x1 :: x2 :: mid) ++ [last] := by simp
    have e2 : mid.length + 3 = (x0 :: x1 :: x2 :: mid).length := by simp
    rw [e, e2, List.getElem?_concat_length]
  generalize hh : ({ data := x0 :: x1 :: x2 :: mid ++ [last], less := less } :
    genericHeap T) = h
  have hd : h.data = x0 :: x1 :: x2 :: mid ++ [last] := by rw [← hh]
  have hl : h.less = less := by rw [← hh]
  have hn : h.data.length = mid.length + 4 := by rw [hd, hlen]
  unfold heap.Pop heap.down genericHeap.Pop
  simp only [genericHeap.Len]
  rw [hn]
  have e3 : mid.length + 4 - 1 = mid.length + 3 := by omega
  rw [e3]
  generalize hh1 : h.Swap 0 (mid.length + 3) = h1
  have h1len : h1.data.length = mid.length + 4 := by rw [← hh1, Swap_length, hn]
  have h1less : h1.less = less := by rw [← hh1, Swap_less, hl]
  have h1get : ∀ k, h1.data[k]? = h.data[swapIdx 0 (mid.length + 3) k]? := by
    intro k
    rw [← hh1]
    exact Swap_getElem? h 0 (mid.length + 3) k (by omega) (by omega)
  have g0 : h1.data[0]? = some last := by
    rw [h1get 0]
    simp only [swapIdx, if_true]
    rw [hd]
    exact hlast
  have g1 : h1.data[2 * 0 + 1]? = some x1 := by
    rw [h1get]
    simp only [swapIdx]
    rw [if_neg (by omega), if_neg (by omega), hd]
    rfl
  have g2 : h1.data[2 * 0 + 2]? = some x2 := by
    rw [h1get]
    simp only [swapIdx]
    rw [if_neg (by omega), if_neg (by omega), hd]
    simp
  obtain ⟨_, hstep⟩ := specSiftStep_two_children h1 0 (mid.length + 3) last x1 x2 (by omega)
    g0 g1 g2
  rw [h1less] at hstep
  have hloop := downLoop_round (mid.length + 2) h1 0 (mid.length + 3)
  have e4 : mid.length + 2 + 1 = mid.length + 3 := by omega
  rw [e4] at hloop
  have hl2 : ∀ (r : genericHeap T × Nat), r.1.data.length = mid.length + 4 →
      (List.take (r.1.data.length - 1) r.1.data)[0]? = r.1.data[0]? := by
    intro r hr
    rw [List.getElem?_take]
    rw [if_pos (by omega)]
  by_cases hq : less (if less x2 x1 = true then x2 else x1) last = true
  · rw [if_pos hq] at hstep ⊢
    rw [hstep] at hloop
    simp only [] at hloop
    generalize hj : (if less x2 x1 = true then 2 * 0 + 2 else 2 * 0 + 1) = j at hloop
    have hjv : (j = 1 ∨ j = 2) ∧ (j = 2 ↔ less x2 x1 = true) := by
      rw [← hj]
      split_ifs with c <;> simp [c]
    have hsl : (h1.Swap 0 j).data.length = mid.length + 4 := by rw [Swap_length, h1len]
    obtain ⟨_, hperm, _⟩ := downLoop_struct (mid.length + 2) (h1.Swap 0 j) j (mid.length + 3)
      (by omega)
    have hbelow := downLoop_below (mid.length + 2) (h1.Swap 0 j) j (mid.length + 3) (by omega)
      0 (by omega)
    rw [hloop, hl2 _ (by rw [hperm.length_eq, hsl]), hbelow,
      Swap_getElem? h1 0 j 0 (by omega) (by omega)]
    simp only [swapIdx, if_true]
    by_cases c : less x2 x1 = true
    · have : j = 2 := hjv.2.2 c
      rw [this, if_pos c]
      exact g2
    · have : j = 1 := by
        rcases hjv.1 with e | e
        · exact e
        · exact absurd (hjv.2.1 e) c
      rw [this, if_neg c]
      exact g1
  · rw [if_neg hq] at hstep ⊢
    rw [hstep] at hloop
    simp only [] at hloop
    rw [hloop, hl2 _ h1len]
    exact g0

end siftLemmas

/-- C35: Sift-down child choice.  In the sift-down loop of the heap, at an
element `x` (index `i`) with both children present (`l` at `2i + 1`, `r` at
`2i + 2`, both among the first `n` elements): the candidate is the right
child exactly when `less(r, l)` holds and the left child otherwise; the loop
swaps `x` with the candidate and goes on there exactly when
`less(candidate, x)` holds, and stops otherwise; so when both children are
`less` than `x` the swap is with the right child if `less(r, l)` and with the
left child if not, in particular when `less` prefers neither.  After `Pop` on
a queue of at least four elements the new top is accordingly the chosen child
of the old root, or the former last element if the child is not `less` than
it. -/
theorem sift_down_child_choice {T : Type} [Inhabited T] (h : genericHeap T) (fuel i n : Nat)
    (x l r : T) (h2 : 2 * i + 2 < n) (hn : n ≤ h.data.length) (hx : h.data[i]? = some x)
    (hl : h.data[2 * i + 1]? = some l) (hr : h.data[2 * i + 2]? = some r) (x0 last : T)
    (mid : List T) :
    specCandidate h i n = some (if h.less r l = true then 2 * i + 2 else 2 * i + 1) ∧
    (heap.downLoop (fuel + 1) h i n =
      if h.less (if h.less r l = true then r else l) x = true then
        heap.downLoop fuel (h.Swap i (if h.less r l = true then 2 * i + 2 else 2 * i + 1))
          (if h.less r l = true then 2 * i + 2 else 2 * i + 1) n
      else (h, i)) ∧
    ((h.Swap i (if h.less r l = true then 2 * i + 2 else 2 * i + 1)).data[i]? =
        some (if h.less r l = true then r else l) ∧
      (h.Swap i (if h.less r l = true then 2 * i + 2 else 2 * i + 1)).data[
        if h.less r l = true then 2 * i + 2 else 2 * i + 1]? = some x) ∧
    (h.less l x = true → h.less r x = true →
      specSiftStep h i n = some (if h.less r l = true then 2 * i + 2 else 2 * i + 1)) ∧
    ((PriorityQueue.mk { data := x0 :: l :: r :: mid ++ [last], less := h.less }).Pop.1 =
        (x0, true) ∧
      (PriorityQueue.mk { data := x0 :: l :: r :: mid ++ [last], less := h.less }).Pop.2.Peek =
        (if h.less (if h.less r l = true then r else l) last = true then
          (if h.less r l = true then r else l) else last, true)) := by
  obtain ⟨hc, hs⟩ := specSiftStep_two_children h i n x l r h2 hx hl hr
  have hi : i < h.data.length := by omega
  refine ⟨hc, ?_, ⟨?_, ?_⟩, ?_, ?_⟩
  · rw [downLoop_round, hs]
    by_cases hq : h.less (if h.less r l = true then r else l) x = true
    · rw [if_pos hq, if_pos hq]
    · rw [if_neg hq, if_neg hq]
  · rw [Swap_getElem? h _ _ i hi (by split_ifs <;> omega)]
    simp only [swapIdx, if_true]
    by_cases c : h.less r l = true
    · rw [if_pos c, if_pos c]
      exact hr
    · rw [if_neg c, if_neg c]
      exact hl
  · rw [Swap_getElem? h _ _ _ hi (by split_ifs <;> omega)]
    simp only [swapIdx]
    rw [if_neg (by split_ifs <;> omega)]
    simp only [if_true]
    exact hx
  · intro hlx hrx
    rw [hs]
    by_cases c : h.less r l = true
    · simp only [if_pos c]
      rw [if_pos hrx]
    · simp only [if_neg c]
      rw [if_pos hlx]
  · obtain ⟨v, p1, p2, _, _, p5⟩ := pq_pop_nonempty
      (PriorityQueue.mk { data := x0 :: l :: r :: mid ++ [last], less := h.less }) (by simp)
    have hv : v = x0 := by
      have p3 : some x0 = some v := p2
      injection p3 with p4
      exact p4.symm
    rw [p1, hv]
    refine ⟨rfl, ?_⟩
    have hroot := heapPop_root h.less x0 l r last mid
    simp only [PriorityQueue.Peek, genericHeap.Len]
    simp only [List.length_cons, List.length_append, List.length_singleton] at p5
    rw [if_neg (by rw [p5]; omega), hroot]

end queue

/-! ## QuickSort with equal keys and with arbitrary functions -/

namespace algorithms

theorem keyLess_swo : queue.StrictWeakOrder keyLess := by
  constructor
  · intro a; simp [keyLess]
  · intro a b c; simp only [keyLess, decide_eq_true_eq]; omega
  · intro a b c; simp only [keyLess, decide_eq_false_iff_not]; omega

section totalSortLemmas

variable {T : Type}

/-- A slice with a range `[lo, hi]` inside it splits into the part before
the range, the range without its last element, that element, and the part
after the range. -/
theorem split_range (a : List T) (lo hi : Int) (h0 : 0 ≤ lo) (hle : lo ≤ hi)
    (hhi : hi < a.length) :
    ∃ pre seg pivot post, a = pre ++ (seg ++ pivot :: post) ∧ lo = pre.length ∧
      hi = (pre.length : Int) + seg.length := by
  have h1 : (a.drop hi.toNat).length = a.length - hi.toNat := List.length_drop _ _
  cases hd : a.drop hi.toNat with
  | nil =>
    rw [hd] at h1
    simp only [List.length_nil] at h1
    omega
  | cons pivot post =>
    refine ⟨a.take lo.toNat, (a.take hi.toNat).drop lo.toNat, pivot, post, ?_, ?_, ?_⟩
    · rw [← hd, ← List.append_assoc]
      have e : a.take lo.toNat = (a.take hi.toNat).take lo.toNat := by
        rw [List.take_take]
        congr 1
        omega
      rw [e, List.take_append_drop, List.take_append_drop]
    · rw [List.length_take]
      omega
    · rw [List.length_take, List.length_drop, List.length_take]
      omega

theorem getAt_some_range (b : List T) (i : Int) (x : T) (h : getAt b i = some x) :
    0 ≤ i ∧ i < b.length := by
  unfold getAt at h
  by_cases hi : i < 0
  · rw [if_pos hi] at h
    exact absurd h (by simp)
  · rw [if_neg hi] at h
    have := (List.getElem?_eq_some.1 h).1
    omega

theorem swapAt_some_range (b c : List T) (i j : Int) (h : swapAt b i j = some c) :
    (0 ≤ i ∧ i < b.length) ∧ (0 ≤ j ∧ j < b.length) := by
  unfold swapAt at h
  cases hi : getAt b i with
  | none => rw [hi] at h; simp at h
  | some x =>
    cases hj : getAt b j with
    | none => rw [hi, hj] at h; simp at h
    | some y => exact ⟨getAt_some_range b i x hi, getAt_some_range b j y hj⟩

/-- For any function `less`, `partition` on a range inside the slice returns,
with an index inside the range. -/
theorem partition_total (a : List T) (lo hi : Int) (less : T → T → Bool) (h0 : 0 ≤ lo)
    (hle : lo ≤ hi) (hhi : hi < a.length) :
    ∃ a1 p, partition a lo hi less = some (a1, p) ∧ a1.Perm a ∧ lo ≤ p ∧ p ≤ hi := by
  obtain ⟨pre, seg, pivot, post, ha, hlo, hhi2⟩ := split_range a lo hi h0 hle hhi
  obtain ⟨L, R, h1, h2, _, _⟩ := partition_spec less pre seg post pivot lo hi hlo hhi2
  refine ⟨_, _, by rw [ha]; exact h1, ?_, by omega, ?_⟩
  · rw [ha]
    have e1 : (L ++ pivot :: (R ++ post)).Perm (seg ++ pivot :: post) := by
      have e2 : (L ++ pivot :: (R ++ post)).Perm (pivot :: ((L ++ R) ++ post)) := by
        simp only [List.append_assoc]
        exact List.perm_middle
      have e3 : (seg ++ pivot :: post).Perm (pivot :: (seg ++ post)) := List.perm_middle
      exact e2.trans (((h2.append_right post).cons pivot).trans e3.symm)
    exact e1.append_left pre
  · have := h2.length_eq
    simp only [List.length_append] at this
    omega

/-- For any function `less`, `quickSort` on a range inside the slice returns
when given as many nested iterations as the range has elements. -/
theorem quickSort_total (a : List T) (lo hi : Int) (less : T → T → Bool) (h0 : 0 ≤ lo)
    (hhi : hi < a.length) :
    ∃ out, quickSort less (hi - lo + 1).toNat a lo hi = some out ∧ out.Perm a := by
  by_cases hle : lo ≤ hi
  · obtain ⟨pre, seg, pivot, post, ha, hlo, hhi2⟩ := split_range a lo hi h0 hle hhi
    obtain ⟨out, h1, h2, _⟩ := quickSort_spec less (hi - lo + 1).toNat pre (seg ++ [pivot]) post
      lo hi hlo (by rw [hhi2]; simp; omega) (by simp; omega)
    have e : pre ++ (seg ++ [pivot] ++ post) = a := by rw [ha]; simp
    rw [e] at h1
    refine ⟨_, h1, ?_⟩
    rw [← e]
    exact (h2.append_right post).append_left pre
  · refine ⟨a, ?_, List.Perm.refl _⟩
    have e : (hi - lo + 1).toNat = 0 := by omega
    rw [e]
    simp only [quickSort]
    rw [if_neg (by omega)]

end totalSortLemmas

/-- C36: QuickSort is not guaranteed to be stable.  There are a slice and a
strict weak ordering `less` (items compared by key) with two different
elements `x` and `y`, neither `less` than the other, such that `x` comes
before `y` in the input and after `y` in what `QuickSort` returns, while the
result is sorted by key.  The two-element slice of items with equal keys is
such a slice. -/
theorem quicksort_not_stable :
    ∃ (arr out : List (Int × String)) (x y : Int × String),
      queue.StrictWeakOrder keyLess ∧ QuickSort arr keyLess = some out ∧ x ≠ y ∧
        keyLess x y = false ∧ keyLess y x = false ∧
        (∃ (i j : Nat), i < j ∧ arr[i]? = some x ∧ arr[j]? = some y) ∧
        (∃ (i j : Nat), i < j ∧ out[i]? = some y ∧ out[j]? = some x) ∧
        out.Pairwise (fun a b => keyLess b a = false) :=
  ⟨[(1, "a"), (1, "b")], [(1, "b"), (1, "a")], (1, "a"), (1, "b"), keyLess_swo, by decide,
    by decide, by decide, by decide, ⟨0, 1, by decide, by decide, by decide⟩,
    ⟨0, 1, by decide, by decide, by decide⟩, by decide⟩

/-- The slice of TestQuickSortStability: the items with key 1 and the items
with key 3 come out in the opposite order, and the keys are sorted. -/
theorem quicksort_not_stable_witness :
    QuickSort [(3, "a"), (1, "b"), (2, "c"), (1, "d"), (3, "e")] keyLess =
        some [(1, "d"), (1, "b"), (2, "c"), (3, "e"), (3, "a")] ∧
      ∃ (arr out : List (Int × String)) (x y : Int × String),
        queue.StrictWeakOrder keyLess ∧ QuickSort arr keyLess = some out ∧ x ≠ y ∧
          keyLess x y = false ∧ keyLess y x = false ∧
          (∃ (i j : Nat), i < j ∧ arr[i]? = some x ∧ arr[j]? = some y) ∧
          (∃ (i j : Nat), i < j ∧ out[i]? = some y ∧ out[j]? = some x) ∧
          out.Pairwise (fun a b => keyLess b a = false) :=
  ⟨by decide, quicksort_not_stable⟩

/-- C39: QuickSort is total for any less.  For every slice (the empty one
included) and every boolean function `less`, ordering or not, `QuickSort`
returns, which in this model means that it terminates and that no read or
write was outside `[0, len(arr))`: a read `getAt` or an exchange `swapAt`
gives a result only for indices in range.  For every slice `a` and range
`0 <= lo <= hi < len(a)`, `partition(a, lo, hi)` returns an index `p` with
`lo <= p <= hi`, so the ranges `[lo, p-1]` and `[p+1, hi]` are strictly
smaller than `[lo, hi]`, and `quickSort(a, lo, hi)` returns within
`hi - lo + 1` nested iterations. -/
theorem quicksort_total_for_any_less {T : Type} (arr : List T) (less : T → T → Bool)
    (a : List T) (lo hi : Int) (h0 : 0 ≤ lo) (hle : lo ≤ hi) (hhi : hi < a.length) :
    (∃ out, QuickSort arr less = some out ∧ out.length = arr.length) ∧
    QuickSort ([] : List T) less = some [] ∧
    (∃ a1 p, partition a lo hi less = some (a1, p) ∧ a1.length = a.length ∧
      lo ≤ p ∧ p ≤ hi ∧ (p - 1) - lo + 1 < hi - lo + 1 ∧ hi - (p + 1) + 1 < hi - lo + 1) ∧
    (∃ out, quickSort less (hi - lo + 1).toNat a lo hi = some out ∧
      out.length = a.length) ∧
    (∀ (b : List T) (i : Int) (x : T), getAt b i = some x → 0 ≤ i ∧ i < b.length) ∧
    (∀ (b c : List T) (i j : Int), swapAt b i j = some c →
      (0 ≤ i ∧ i < b.length) ∧ (0 ≤ j ∧ j < b.length)) := by
  refine ⟨?_, rfl, ?_, ?_, getAt_some_range, swapAt_some_range⟩
  · obtain ⟨out, h1, h2, _⟩ := QuickSort_spec less arr
    exact ⟨out, h1, h2.length_eq⟩
  · obtain ⟨a1, p, h1, h2, h3, h4⟩ := partition_total a lo hi less h0 hle hhi
    exact ⟨a1, p, h1, h2.length_eq, h3, h4, by omega, by omega⟩
  · obtain ⟨out, h1, h2⟩ := quickSort_total a lo hi less h0 hhi
    exact ⟨out, h1, h2.length_eq⟩

/-- Functions that are no orderings: always true, and "different".  The
partition of the range `[1, 3]` of `[3, 1, 2, 5, 4]` under the first returns
index 3. -/
theorem quicksort_total_for_any_less_witness :
    QuickSort [3, 1, 2, 5, 4] (fun (_ _ : Int) => true) = some [3, 1, 2, 5, 4] ∧
      QuickSort [3, 1, 2, 5, 4] (fun (a b : Int) => decide (a ≠ b)) = some [3, 1, 2, 5, 4] ∧
      partition [3, 1, 2, 5, 4] 1 3 (fun (_ _ : Int) => true) = some ([3, 1, 2, 5, 4], 3) ∧
      (∃ a1 p, partition [3, 1, 2, 5, 4] 1 3 (fun (_ _ : Int) => true) = some (a1, p) ∧
        a1.length = [3, 1, 2, 5, (4 : Int)].length ∧
        1 ≤ p ∧ p ≤ 3 ∧ (p - 1) - 1 + 1 < 3 - 1 + 1 ∧ 3 - (p + 1) + 1 < 3 - 1 + 1) :=
  ⟨by decide, by decide, by decide,
    (quicksort_total_for_any_less [3, 1, 2, 5, 4] (fun (_ _ : Int) => true) [3, 1, 2, 5, 4]
      1 3 (by decide) (by decide) (by decide)).2.2.1⟩

end algorithms

namespace queue

/-- Items compared by key: with the children `(2, "l")` and `(2, "r")` of the
root, of which `less` prefers neither, `Pop` brings the left child to the
top; with `(3, "l")` and `(2, "r")` it brings the right child there. -/
theorem sift_down_child_choice_witness :
    (PriorityQueue.mk (genericHeap.mk [(1, "top"), (2, "l"), (2, "r"), (5, "m"), (9, "x")]
        algorithms.keyLess)).Pop.2.Peek = ((2, "l"), true) ∧
      (PriorityQueue.mk (genericHeap.mk [(1, "top"), (3, "l"), (2, "r"), (5, "m"), (9, "x")]
        algorithms.keyLess)).Pop.2.Peek = ((2, "r"), true) ∧
      specCandidate (genericHeap.mk [(9, "x"), (2, "l"), (2, "r"), (5, "m")] algorithms.keyLess)
          0 4 =
        some (if (genericHeap.mk [(9, "x"), (2, "l"), (2, "r"), (5, "m")]
          algorithms.keyLess).less (2, "r") (2, "l") = true then 2 * 0 + 2 else 2 * 0 + 1) ∧
      specCandidate (genericHeap.mk [(9, "x"), (2, "l"), (2, "r"), (5, "m")] algorithms.keyLess)
          0 4 = some 1 :=
  ⟨by decide, by decide,
    (sift_down_child_choice
      (genericHeap.mk [(9, "x"), (2, "l"), (2, "r"), (5, "m")] algorithms.keyLess) 3 0 4
      (9, "x") (2, "l") (2, "r") (by decide) (by decide) (by decide) (by decide) (by decide)
      (1, "top") (9, "x") [(5, "m")]).1,
    by decide⟩

end queue

/-! ## Properties of Go maps -/

namespace gomap

section keyLemmas

variable {K : Type} [Key K]

/-- Keys that are `==` compare alike with every key, on the left. -/
theorem eq_congr_left {a b : K} (h : Key.eq a b = true) (c : K) : Key.eq a c = Key.eq b c := by
  cases hb : Key.eq b c with
  | true => exact Key.trans a b c h hb
  | false =>
    cases ha : Key.eq a c with
    | false => rfl
    | true =>
      have := Key.trans b a c (Key.symm a b h) ha
      rw [hb] at this
      exact absurd this (by simp)

/-- Keys that are `==` compare alike with every key, on the right. -/
theorem eq_congr_right {a b : K} (h : Key.eq a b = true) (c : K) : Key.eq c a = Key.eq c b := by
  cases hb : Key.eq c b with
  | true => exact Key.trans c b a hb (Key.symm a b h)
  | false =>
    cases ha : Key.eq c a with
    | false => rfl
    | true =>
      have := Key.trans c a b ha h
      rw [hb] at this
      exact absurd this (by simp)

/-- `==` read in the other direction. -/
theorem eq_comm_bool (a b : K) : Key.eq a b = Key.eq b a := by
  cases hb : Key.eq b a with
  | true => exact Key.symm b a hb
  | false =>
    cases ha : Key.eq a b with
    | false => rfl
    | true =>
      have := Key.symm a b ha
      rw [hb] at this
      exact absurd this (by simp)

/-- A key that is `==` to some key is `==` to itself. -/
theorem eq_self_of_eq_left {a b : K} (h : Key.eq a b = true) : Key.eq a a = true :=
  Key.trans a b a h (Key.symm a b h)

/-- A key that some key is `==` to is `==` to itself. -/
theorem eq_self_of_eq_right {a b : K} (h : Key.eq a b = true) : Key.eq b b = true :=
  Key.trans b a b (Key.symm a b h) h

end keyLemmas

/-- The entries of a map that is not nil. -/
theorem entries_some {K V : Type} (l : List (K × V)) : entries (some l) = l := rfl

section mapLemmas

variable {K V : Type} [Key K]

/-- A read finds an entry exactly when a stored key is `==` to the key read. -/
theorem get_isSome_iff (m : List (K × V)) (k : K) :
    (get m k).isSome = true ↔ ∃ j, j ∈ keys m ∧ Key.eq j k = true := by
  induction m with
  | nil => simp [get, keys]
  | cons e t ih =>
    obtain ⟨j, v⟩ := e
    by_cases h : Key.eq j k = true
    · simp only [get, if_pos h, Option.isSome_some, true_iff]
      exact ⟨j, by simp [keys], h⟩
    · simp only [get, if_neg h]
      rw [ih]
      constructor
      · rintro ⟨i, hi, he⟩
        exact ⟨i, by simp only [keys, List.map_cons, List.mem_cons] at hi ⊢; exact Or.inr hi, he⟩
      · rintro ⟨i, hi, he⟩
        simp only [keys, List.map_cons, List.mem_cons] at hi
        rcases hi with hi | hi
        · subst hi
          exact absurd he h
        · exact ⟨i, hi, he⟩

/-- Whether a read finds a key does not depend on the order of the entries. -/
theorem get_isSome_perm (m m' : List (K × V)) (h : m.Perm m') (k : K) :
    (get m k).isSome = (get m' k).isSome := by
  rw [Bool.eq_iff_iff, get_isSome_iff, get_isSome_iff]
  have hm : ∀ j, j ∈ keys m ↔ j ∈ keys m' := fun j => (h.map Prod.fst).mem_iff
  constructor
  · rintro ⟨j, hj, he⟩
    exact ⟨j, (hm j).1 hj, he⟩
  · rintro ⟨j, hj, he⟩
    exact ⟨j, (hm j).2 hj, he⟩

/-- A read finds nothing exactly when no stored key is `==` to the key read. -/
theorem get_eq_none_iff (m : List (K × V)) (k : K) :
    get m k = none ↔ ∀ j, j ∈ keys m → Key.eq j k = false := by
  rw [← Option.not_isSome_iff_eq_none, get_isSome_iff]
  constructor
  · intro h j hj
    cases he : Key.eq j k with
    | false => rfl
    | true => exact absurd ⟨j, hj, he⟩ h
  · rintro h ⟨j, hj, he⟩
    rw [h j hj] at he
    exact absurd he (by simp)

/-- A key that is not `==` to itself is never found. -/
theorem get_of_not_refl (m : List (K × V)) (k : K) (h : Key.eq k k = false) : get m k = none := by
  rw [get_eq_none_iff]
  intro j _
  cases he : Key.eq j k with
  | false => rfl
  | true =>
    rw [eq_self_of_eq_right he] at h
    exact absurd h (by simp)

/-- Keys that are `==` read the same entry. -/
theorem get_congr (m : List (K × V)) {a b : K} (h : Key.eq a b = true) : get m a = get m b := by
  induction m with
  | nil => rfl
  | cons e t ih =>
    obtain ⟨j, v⟩ := e
    simp only [get, eq_congr_right h j, ih]

/-- The read after an assignment. -/
theorem get_put (m : List (K × V)) (k k' : K) (v : V) :
    get (put m k v) k' = if Key.eq k k' = true then some v else get m k' := by
  induction m with
  | nil => simp [put, get]
  | cons e t ih =>
    obtain ⟨j, u⟩ := e
    by_cases hj : Key.eq j k = true
    · simp only [put, if_pos hj, get, eq_congr_left hj k']
      by_cases h : Key.eq k k' = true
      · simp [h]
      · simp [h]
    · simp only [put, if_neg hj, get, ih]
      by_cases h : Key.eq k k' = true
      · have : ¬ Key.eq j k' = true := by
          intro h'
          exact hj (Key.trans j k' k h' (Key.symm k k' h))
        simp [h, this]
      · simp [h]

/-- The read after a `delete`. -/
theorem get_delete (m : List (K × V)) (k k' : K) :
    get (delete m k) k' = if Key.eq k k' = true then none else get m k' := by
  induction m with
  | nil => simp [delete, get]
  | cons e t ih =>
    obtain ⟨j, u⟩ := e
    by_cases hj : Key.eq j k = true
    · simp only [delete, if_pos hj, get, eq_congr_left hj k', ih]
      by_cases h : Key.eq k k' = true
      · simp [h]
      · simp [h]
    · simp only [delete, if_neg hj, get, ih]
      by_cases h : Key.eq k k' = true
      · have : ¬ Key.eq j k' = true := by
          intro h'
          exact hj (Key.trans j k' k h' (Key.symm k k' h))
        simp [h, this]
      · simp [h]

/-- The read after a write through the value found at a key. -/
theorem get_update (m : List (K × V)) (k k' : K) (f : V → V) :
    get (update m k f) k' = if Key.eq k k' = true then (get m k').map f else get m k' := by
  induction m with
  | nil => simp [update, get]
  | cons e t ih =>
    obtain ⟨j, u⟩ := e
    by_cases hj : Key.eq j k = true
    · simp only [update, if_pos hj, get, eq_congr_left hj k']
      by_cases h : Key.eq k k' = true
      · simp [h]
      · simp [h]
    · simp only [update, if_neg hj, get, ih]
      by_cases h : Key.eq k k' = true
      · have : ¬ Key.eq j k' = true := by
          intro h'
          exact hj (Key.trans j k' k h' (Key.symm k k' h))
        simp [h, this]
      · simp [h]

/-- A write through a key keeps the keys. -/
theorem keys_update (m : List (K × V)) (k : K) (f : V → V) : keys (update m k f) = keys m := by
  induction m with
  | nil => rfl
  | cons e t ih =>
    obtain ⟨j, u⟩ := e
    by_cases hj : Key.eq j k = true
    · simp [update, hj, keys]
    · simp only [update, if_neg hj]
      simp only [keys, List.map_cons] at ih ⊢
      rw [ih]

/-- A key after an assignment was there before or is the key assigned. -/
theorem mem_keys_of_put (m : List (K × V)) (k j : K) (v : V) (h : j ∈ keys (put m k v)) :
    j ∈ keys m ∨ j = k := by
  induction m with
  | nil =>
    simp only [put, keys, List.map_cons, List.map_nil, List.mem_singleton] at h
    exact Or.inr h
  | cons e t ih =>
    obtain ⟨i, u⟩ := e
    by_cases hi : Key.eq i k = true
    · simp only [put, if_pos hi, keys, List.map_cons, List.mem_cons] at h ⊢
      rcases h with h | h
      · exact Or.inr h
      · exact Or.inl (Or.inr h)
    · simp only [put, if_neg hi, keys, List.map_cons, List.mem_cons] at h ⊢
      rcases h with h | h
      · exact Or.inl (Or.inl h)
      · rcases ih h with h' | h'
        · exact Or.inl (Or.inr h')
        · exact Or.inr h'

/-- The keys after a `delete` are among the keys before, in their order. -/
theorem keys_delete_sublist (m : List (K × V)) (k : K) :
    (keys (delete m k)).Sublist (keys m) := by
  induction m with
  | nil => exact List.Sublist.slnil
  | cons e t ih =>
    obtain ⟨i, u⟩ := e
    by_cases hi : Key.eq i k = true
    · simp only [delete, if_pos hi, keys, List.map_cons]
      exact List.Sublist.cons _ ih
    · simp only [delete, if_neg hi, keys, List.map_cons]
      exact List.Sublist.cons₂ _ ih

/-- An assignment keeps the keys pairwise different. -/
theorem pairwise_put (m : List (K × V)) (k : K) (v : V)
    (h : (keys m).Pairwise (fun a b => Key.eq a b = false)) :
    (keys (put m k v)).Pairwise (fun a b => Key.eq a b = false) := by
  induction m with
  | nil => simp [put, keys]
  | cons e t ih =>
    obtain ⟨i, u⟩ := e
    simp only [keys, List.map_cons, List.pairwise_cons] at h
    by_cases hi : Key.eq i k = true
    · simp only [put, if_pos hi, keys, List.map_cons, List.pairwise_cons]
      refine ⟨fun j hj => ?_, h.2⟩
      rw [← eq_congr_left hi j]
      exact h.1 j hj
    · simp only [put, if_neg hi, keys, List.map_cons, List.pairwise_cons]
      refine ⟨fun j hj => ?_, ih h.2⟩
      rcases mem_keys_of_put t k j v hj with hj' | hj'
      · exact h.1 j hj'
      · subst hj'
        simpa using hi

/-- An assignment with a key that can be hashed keeps the entries those of a map. -/
theorem wf_put (m : List (K × V)) (k : K) (v : V) (hk : Key.hashable k = true) (h : WF m) :
    WF (put m k v) := by
  refine ⟨fun j hj => ?_, pairwise_put m k v h.2⟩
  rcases mem_keys_of_put m k j v hj with hj' | hj'
  · exact h.1 j hj'
  · subst hj'
    exact hk

/-- A `delete` keeps the entries those of a map. -/
theorem wf_delete (m : List (K × V)) (k : K) (h : WF m) : WF (delete m k) :=
  ⟨fun j hj => h.1 j ((keys_delete_sublist m k).subset hj),
    h.2.sublist (keys_delete_sublist m k)⟩

/-- The empty map. -/
theorem wf_nil : WF ([] : List (K × V)) := by
  simp [WF, keys]

/-- An assignment adds an entry exactly when the key was not found. -/
theorem length_put (m : List (K × V)) (k : K) (v : V) :
    (put m k v).length = m.length + (if (get m k).isSome = true then 0 else 1) := by
  induction m with
  | nil => simp [put, get]
  | cons e t ih =>
    obtain ⟨i, u⟩ := e
    by_cases hi : Key.eq i k = true
    · simp [put, get, hi]
    · simp only [put, if_neg hi, get, List.length_cons, ih]
      omega

/-- An assignment leaves at least one entry. -/
theorem put_ne_nil (m : List (K × V)) (k : K) (v : V) : put m k v ≠ [] := by
  cases m with
  | nil => simp [put]
  | cons e t =>
    obtain ⟨i, u⟩ := e
    by_cases hi : Key.eq i k = true
    · simp [put, hi]
    · simp [put, hi]

/-- A `delete` of a key that is not found changes nothing. -/
theorem delete_of_not_found (m : List (K × V)) (k : K) (h : get m k = none) :
    delete m k = m := by
  induction m with
  | nil => rfl
  | cons e t ih =>
    obtain ⟨i, u⟩ := e
    by_cases hi : Key.eq i k = true
    · simp [get, hi] at h
    · simp only [get, if_neg hi] at h
      simp only [delete, if_neg hi, ih h]

/-- In a map, a `delete` removes one entry exactly when the key was found. -/
theorem length_delete (m : List (K × V)) (k : K)
    (h : (keys m).Pairwise (fun a b => Key.eq a b = false)) :
    (delete m k).length + (if (get m k).isSome = true then 1 else 0) = m.length := by
  induction m with
  | nil => simp [delete, get]
  | cons e t ih =>
    obtain ⟨i, u⟩ := e
    simp only [keys, List.map_cons, List.pairwise_cons] at h
    by_cases hi : Key.eq i k = true
    · have ht : get t k = none := by
        rw [get_eq_none_iff]
        intro j hj
        rw [← eq_congr_right hi j, eq_comm_bool]
        exact h.1 j hj
      simp [delete, get, hi, delete_of_not_found t k ht]
    · simp only [delete, if_neg hi, get, List.length_cons]
      have := ih h.2
      omega

/-- Two maps whose keys are `==` to themselves and that find the same keys
have the same number of entries. -/
theorem length_eq_of_same_members (m1 m2 : List (K × V))
    (h1 : (keys m1).Pairwise (fun a b => Key.eq a b = false))
    (h2 : (keys m2).Pairwise (fun a b => Key.eq a b = false))
    (r1 : ∀ k, k ∈ keys m1 → Key.eq k k = true) (r2 : ∀ k, k ∈ keys m2 → Key.eq k k = true)
    (h : ∀ x, (get m1 x).isSome = (get m2 x).isSome) : m1.length = m2.length := by
  induction m1 generalizing m2 with
  | nil =>
    cases m2 with
    | nil => rfl
    | cons e t =>
      obtain ⟨i, u⟩ := e
      have := h i
      simp [get, r2 i (by simp [keys])] at this
  | cons e t ih =>
    obtain ⟨i, u⟩ := e
    have hii : Key.eq i i = true := r1 i (by simp [keys])
    simp only [keys, List.map_cons, List.pairwise_cons] at h1
    have hfound : (get m2 i).isSome = true := by
      rw [← h i]
      simp [get, hii]
    have hlen := length_delete m2 i h2
    rw [if_pos hfound] at hlen
    have hrec : t.length = (delete m2 i).length := by
      apply ih (delete m2 i) h1.2 (h2.sublist (keys_delete_sublist m2 i))
        (fun k hk => r1 k (by simp only [keys, List.map_cons, List.mem_cons]; exact Or.inr hk))
        (fun k hk => r2 k ((keys_delete_sublist m2 i).subset hk))
      intro x
      rw [get_delete]
      have hx := h x
      simp only [get] at hx
      by_cases hix : Key.eq i x = true
      · rw [if_pos hix]
        have : get t x = none := by
          rw [get_eq_none_iff]
          intro j hj
          rw [← eq_congr_right hix j, eq_comm_bool]
          exact h1.1 j hj
        rw [this]
      · rw [if_neg hix]
        rw [if_neg hix] at hx
        exact hx
    simp only [List.length_cons]
    omega

/-- The read `m[k]` on a key that can be hashed. -/
theorem load_of_hashable (m : List (K × V)) (k : K) (h : Key.hashable k = true) :
    load m k = some (get m k) := by
  simp [load, h]

/-- The assignment `m[k] = v` on a key that can be hashed. -/
theorem store_of_hashable (m : List (K × V)) (k : K) (v : V) (h : Key.hashable k = true) :
    store m k v = some (put m k v) := by
  simp [store, h]

/-- The call `delete(m, k)` on a key that can be hashed. -/
theorem drop_of_hashable (m : List (K × V)) (k : K) (h : Key.hashable k = true) :
    drop m k = some (delete m k) := by
  simp [drop, h]

end mapLemmas

end gomap

/-! ## Properties of the hash set -/

namespace set

section setLemmas

variable {T : Type} [gomap.Key T]

/-- `Contains` on a value that can be hashed reports whether a read finds it. -/
theorem contains_of_hashable (s : HashSet T) (x : T) (h : gomap.Key.hashable x = true) :
    s.Contains x = some (gomap.get (gomap.entries s.m) x).isSome := by
  cases s with
  | mk m =>
    cases m with
    | none => rfl
    | some l => simp [HashSet.Contains, gomap.load, h, gomap.entries]

/-- `Contains` returns true exactly for a value that can be hashed and is found. -/
theorem contains_true_iff (s : HashSet T) (x : T) :
    s.Contains x = some true ↔
      (gomap.Key.hashable x = true ∧ (gomap.get (gomap.entries s.m) x).isSome = true) := by
  by_cases h : gomap.Key.hashable x = true
  · rw [contains_of_hashable s x h]
    simp [h]
  · cases s with
    | mk m =>
      cases m with
      | none => simp [HashSet.Contains, gomap.entries, gomap.get]
      | some l => simp [HashSet.Contains, gomap.load, h]

/-- `Contains` on a made map panics for a value that cannot be hashed. -/
theorem contains_of_unhashable (l : List (T × Unit)) (x : T)
    (h : gomap.Key.hashable x = false) : (HashSet.mk (some l)).Contains x = none := by
  simp [HashSet.Contains, gomap.load, h]

/-- `Contains` never finds a value that is not `==` to itself. -/
theorem contains_of_not_refl (s : HashSet T) (x : T) (hx : gomap.Key.hashable x = true)
    (h : gomap.Key.eq x x = false) : s.Contains x = some false := by
  rw [contains_of_hashable s x hx, gomap.get_of_not_refl _ x h]
  rfl

/-- A read finds a key exactly when one of the keys is `==` to it. -/
theorem any_keys (m : List (T × Unit)) (x : T) :
    (gomap.keys m).any (fun k => gomap.Key.eq k x) = (gomap.get m x).isSome := by
  rw [Bool.eq_iff_iff, List.any_eq_true, gomap.get_isSome_iff]

/-- The copy loop of `Clone` and `Union` over keys that can be hashed
returns; its result is a map that finds what `dst` found and the values
copied. -/
theorem copyLoop_spec (ks : List T) :
    ∀ (dst : List (T × Unit)), (∀ k, k ∈ ks → gomap.Key.hashable k = true) → gomap.WF dst →
      ∃ r, copyLoop ks dst = some r ∧ gomap.WF r ∧
        ∀ x, (gomap.get r x).isSome =
          ((gomap.get dst x).isSome || ks.any (fun k => gomap.Key.eq k x)) := by
  induction ks with
  | nil =>
    intro dst _ hd
    exact ⟨dst, rfl, hd, fun x => by simp⟩
  | cons k t ih =>
    intro dst hk hd
    have hkk : gomap.Key.hashable k = true := hk k (by simp)
    obtain ⟨r, hr, hw, hg⟩ := ih (gomap.put dst k ())
      (fun j hj => hk j (by simp [hj])) (gomap.wf_put dst k () hkk hd)
    refine ⟨r, ?_, hw, fun x => ?_⟩
    · simp only [copyLoop, gomap.store_of_hashable dst k () hkk]
      exact hr
    · rw [hg x, gomap.get_put]
      by_cases h : gomap.Key.eq k x = true
      · simp [h]
      · simp [h]

/-- The selecting loop of `Intersection` and `Difference` over keys that can be
hashed returns; its result is a map that finds what `res` found and the
selected values, its keys are those of `res` and selected ones, and it is
empty only if `res` was and nothing was selected. -/
theorem selectLoop_spec (other : Option (List (T × Unit))) (want : Bool) (ks : List T) :
    ∀ (res : List (T × Unit)), (∀ k, k ∈ ks → gomap.Key.hashable k = true) → gomap.WF res →
      ∃ r, selectLoop other want ks res = some r ∧ gomap.WF r ∧
        (∀ x, (gomap.get r x).isSome =
          ((gomap.get res x).isSome ||
            ks.any (fun k => ((gomap.get (gomap.entries other) k).isSome == want) &&
              gomap.Key.eq k x))) ∧
        (∀ j, j ∈ gomap.keys r → j ∈ gomap.keys res ∨
          (j ∈ ks ∧ (gomap.get (gomap.entries other) j).isSome = want)) ∧
        (r = [] ↔ (res = [] ∧
          ∀ k, k ∈ ks → ¬ (gomap.get (gomap.entries other) k).isSome = want)) := by
  induction ks with
  | nil =>
    intro res _ hd
    exact ⟨res, rfl, hd, fun x => by simp, fun j hj => Or.inl hj, by simp⟩
  | cons k t ih =>
    intro res hk hd
    have hkk : gomap.Key.hashable k = true := hk k (by simp)
    by_cases hw : (gomap.get (gomap.entries other) k).isSome = want
    · obtain ⟨r, hr, hwf, hg, hkeys, hnil⟩ := ih (gomap.put res k ())
        (fun j hj => hk j (by simp [hj])) (gomap.wf_put res k () hkk hd)
      refine ⟨r, ?_, hwf, fun x => ?_, fun j hj => ?_, ?_⟩
      · simp only [selectLoop, gomap.load_of_hashable _ k hkk, if_pos hw,
          gomap.store_of_hashable res k () hkk]
        exact hr
      · rw [hg x, gomap.get_put]
        by_cases h : gomap.Key.eq k x = true
        · simp [h, hw]
        · simp [h]
      · rcases hkeys j hj with h | h
        · rcases gomap.mem_keys_of_put res k j () h with h' | h'
          · exact Or.inl h'
          · subst h'
            exact Or.inr ⟨by simp, hw⟩
        · exact Or.inr ⟨by simp [h.1], h.2⟩
      · rw [hnil]
        constructor
        · rintro ⟨h, _⟩
          exact absurd h (gomap.put_ne_nil res k ())
        · rintro ⟨_, h⟩
          exact absurd hw (h k (by simp))
    · obtain ⟨r, hr, hwf, hg, hkeys, hnil⟩ := ih res (fun j hj => hk j (by simp [hj])) hd
      refine ⟨r, ?_, hwf, fun x => ?_, fun j hj => ?_, ?_⟩
      · simp only [selectLoop, gomap.load_of_hashable _ k hkk, if_neg hw]
        exact hr
      · rw [hg x]
        have : ((gomap.get (gomap.entries other) k).isSome == want) = false := by
          simpa using hw
        simp [this]
      · rcases hkeys j hj with h | h
        · exact Or.inl h
        · exact Or.inr ⟨by simp [h.1], h.2⟩
      · rw [hnil]
        constructor
        · rintro ⟨h1, h2⟩
          refine ⟨h1, fun j hj => ?_⟩
          simp only [List.mem_cons] at hj
          rcases hj with hj | hj
          · subst hj
            exact hw
          · exact h2 j hj
        · rintro ⟨h1, h2⟩
          exact ⟨h1, fun j hj => h2 j (by simp [hj])⟩

/-- Among the keys of a map, the ones found (or not) in another map and `==`
to `x`: there is one exactly when `x` is found in the first map and found (or
not) in the other. -/
theorem any_selected (m other : List (T × Unit)) (want : Bool) (x : T) :
    (gomap.keys m).any (fun k => ((gomap.get other k).isSome == want) && gomap.Key.eq k x) =
      ((gomap.get m x).isSome && ((gomap.get other x).isSome == want)) := by
  rw [Bool.eq_iff_iff, List.any_eq_true, Bool.and_eq_true, gomap.get_isSome_iff]
  constructor
  · rintro ⟨k, hk, he⟩
    rw [Bool.and_eq_true] at he
    refine ⟨⟨k, hk, he.2⟩, ?_⟩
    rw [← gomap.get_congr other he.2]
    exact he.1
  · rintro ⟨⟨k, hk, he⟩, hw⟩
    refine ⟨k, hk, ?_⟩
    rw [Bool.and_eq_true]
    refine ⟨?_, he⟩
    rw [gomap.get_congr other he]
    exact hw

/-- `Clone` of a set returns a set with a made map that finds the same values. -/
theorem clone_spec (s : HashSet T) (hs : s.WF) :
    ∃ c, s.Clone = some { m := some c } ∧ gomap.WF c ∧
      ∀ x, (gomap.get c x).isSome = (gomap.get (gomap.entries s.m) x).isSome := by
  obtain ⟨r, hr, hw, hg⟩ := copyLoop_spec (gomap.keys (gomap.entries s.m)) []
    (fun k hk => hs.1 k hk) gomap.wf_nil
  refine ⟨r, ?_, hw, fun x => ?_⟩
  · simp only [HashSet.Clone, New, gomap.entries]
    simp only [gomap.entries] at hr
    rw [hr]
  · rw [hg x, any_keys]
    simp [gomap.get]

/-- `Union` of two sets returns a set with a made map that finds the values
found in one of them. -/
theorem union_spec (a b : HashSet T) (ha : a.WF) (hb : b.WF) :
    ∃ r, Union a b = some { m := some r } ∧ gomap.WF r ∧
      ∀ x, (gomap.get r x).isSome =
        ((gomap.get (gomap.entries a.m) x).isSome || (gomap.get (gomap.entries b.m) x).isSome) := by
  obtain ⟨c, hc, hcw, hcg⟩ := clone_spec a ha
  obtain ⟨r, hr, hw, hg⟩ := copyLoop_spec (gomap.keys (gomap.entries b.m)) c
    (fun k hk => hb.1 k hk) hcw
  refine ⟨r, ?_, hw, fun x => ?_⟩
  · have he : gomap.entries (HashSet.mk (some c)).m = c := rfl
    simp only [Union, hc]
    rw [he, hr]
  · rw [hg x, any_keys, hcg x]

/-- `Intersection` returns a set with a made map; it finds the values found
in both sets, and each of its keys is `==` to itself. -/
theorem intersection_spec (a b : HashSet T) (ha : a.WF) (hb : b.WF) :
    ∃ r, Intersection a b = some { m := some r } ∧ gomap.WF r ∧
      (∀ x, (gomap.get r x).isSome =
        ((gomap.get (gomap.entries a.m) x).isSome && (gomap.get (gomap.entries b.m) x).isSome)) ∧
      (∀ k, k ∈ gomap.keys r → gomap.Key.eq k k = true) := by
  by_cases hlt : a.Len < b.Len
  · obtain ⟨r, hr, hw, hg, hkeys, _⟩ := selectLoop_spec b.m true
      (gomap.keys (gomap.entries a.m)) [] (fun k hk => ha.1 k hk) gomap.wf_nil
    refine ⟨r, ?_, hw, fun x => ?_, fun k hk => ?_⟩
    · simp only [Intersection, if_pos hlt, New, gomap.entries]
      simp only [gomap.entries] at hr
      rw [hr]
    · rw [hg x, any_selected]
      simp [gomap.get]
    · rcases hkeys k hk with h | h
      · simp [gomap.keys] at h
      · obtain ⟨j, _, hj⟩ := (gomap.get_isSome_iff _ k).1 h.2
        exact gomap.eq_self_of_eq_right hj
  · obtain ⟨r, hr, hw, hg, hkeys, _⟩ := selectLoop_spec a.m true
      (gomap.keys (gomap.entries b.m)) [] (fun k hk => hb.1 k hk) gomap.wf_nil
    refine ⟨r, ?_, hw, fun x => ?_, fun k hk => ?_⟩
    · simp only [Intersection, if_neg hlt, New, gomap.entries]
      simp only [gomap.entries] at hr
      rw [hr]
    · rw [hg x, any_selected, Bool.and_comm]
      simp [gomap.get]
    · rcases hkeys k hk with h | h
      · simp [gomap.keys] at h
      · obtain ⟨j, _, hj⟩ := (gomap.get_isSome_iff _ k).1 h.2
        exact gomap.eq_self_of_eq_right hj

/-- `Difference` returns a set with a made map; it finds the values found in
`a` and not in `b`, and it is empty exactly when every key of `a` is found in
`b`. -/
theorem difference_spec (a b : HashSet T) (ha : a.WF) :
    ∃ r, Difference a b = some { m := some r } ∧ gomap.WF r ∧
      (∀ x, (gomap.get r x).isSome =
        ((gomap.get (gomap.entries a.m) x).isSome &&
          !(gomap.get (gomap.entries b.m) x).isSome)) ∧
      (r = [] ↔ ∀ k, k ∈ gomap.keys (gomap.entries a.m) →
        (gomap.get (gomap.entries b.m) k).isSome = true) := by
  obtain ⟨r, hr, hw, hg, _, hnil⟩ := selectLoop_spec b.m false
    (gomap.keys (gomap.entries a.m)) [] (fun k hk => ha.1 k hk) gomap.wf_nil
  refine ⟨r, ?_, hw, fun x => ?_, ?_⟩
  · simp only [Difference, New, gomap.entries]
    simp only [gomap.entries] at hr
    rw [hr]
  · rw [hg x, any_selected]
    cases (gomap.get (gomap.entries b.m) x).isSome <;> simp [gomap.get]
  · rw [hnil]
    constructor
    · rintro ⟨_, h⟩ k hk
      cases hx : (gomap.get (gomap.entries b.m) k).isSome with
      | false => exact absurd hx (h k hk)
      | true => rfl
    · intro h
      exact ⟨rfl, fun k hk => by simp [h k hk]⟩

/-- The loop of `IsSubset` over keys that can be hashed returns whether all
of them are found in `b`. -/
theorem isSubsetLoop_spec (b : HashSet T) (ks : List T)
    (hk : ∀ k, k ∈ ks → gomap.Key.hashable k = true) :
    ∃ r, isSubsetLoop b ks = some r ∧
      (r = true ↔ ∀ k, k ∈ ks → (gomap.get (gomap.entries b.m) k).isSome = true) := by
  induction ks with
  | nil => exact ⟨true, rfl, by simp⟩
  | cons k t ih =>
    have hkk : gomap.Key.hashable k = true := hk k (by simp)
    by_cases hf : (gomap.get (gomap.entries b.m) k).isSome = true
    · obtain ⟨r, hr, hi⟩ := ih (fun j hj => hk j (by simp [hj]))
      refine ⟨r, ?_, ?_⟩
      · simp only [isSubsetLoop, gomap.load_of_hashable _ k hkk, hf]
        exact hr
      · rw [hi]
        constructor
        · intro h j hj
          simp only [List.mem_cons] at hj
          rcases hj with hj | hj
          · subst hj
            exact hf
          · exact h j hj
        · intro h j hj
          exact h j (by simp [hj])
    · refine ⟨false, ?_, ?_⟩
      · simp only [isSubsetLoop, gomap.load_of_hashable _ k hkk]
        simp [hf]
      · constructor
        · intro h
          exact absurd h (by simp)
        · intro h
          exact absurd (h k (by simp)) hf

/-- The set made by `New`, and the zero value, have the entries of a map. -/
theorem new_wf : (New : HashSet T).WF ∧ (HashSet.mk none : HashSet T).WF :=
  ⟨gomap.wf_nil, gomap.wf_nil⟩

/-- `Add` returns on a value that can be hashed: it reports whether the value
was not found, and the set afterwards has the entries of a map. -/
theorem add_spec (s : HashSet T) (v : T) (hv : gomap.Key.hashable v = true) (hs : s.WF) :
    ∃ s', s.Add v = some (!(gomap.get (gomap.entries s.m) v).isSome, s') ∧ s'.WF ∧
      s'.m = some (gomap.put (gomap.entries s.m) v ()) := by
  cases s with
  | mk m =>
    cases m with
    | none =>
      refine ⟨{ m := some (gomap.put [] v ()) }, ?_, gomap.wf_put [] v () hv gomap.wf_nil, rfl⟩
      simp [HashSet.Add, gomap.load, gomap.store, hv, gomap.entries]
    | some l =>
      refine ⟨{ m := some (gomap.put l v ()) }, ?_, gomap.wf_put l v () hv hs, rfl⟩
      simp [HashSet.Add, gomap.load, gomap.store, hv, gomap.entries]

/-- `FromSlice` returns on values that can be hashed, and the set has the
entries of a map. -/
theorem fromSliceLoop_wf (items : List T) :
    ∀ (hs : HashSet T), (∀ v, v ∈ items → gomap.Key.hashable v = true) → hs.WF →
      ∃ s, fromSliceLoop items hs = some s ∧ s.WF := by
  induction items with
  | nil =>
    intro hs _ hw
    exact ⟨hs, rfl, hw⟩
  | cons v t ih =>
    intro hs hv hw
    obtain ⟨s', h1, h2, _⟩ := add_spec hs v (hv v (by simp)) hw
    obtain ⟨s, h3, h4⟩ := ih s' (fun x hx => hv x (by simp [hx])) h2
    refine ⟨s, ?_, h4⟩
    simp only [fromSliceLoop, h1]
    exact h3

/-- What `Contains` and `Len` return does not depend on the order of the
entries, that is, on the order in which `range` visits them. -/
theorem contains_perm (l l' : List (T × Unit)) (h : l.Perm l') (x : T) :
    (HashSet.mk (some l)).Contains x = (HashSet.mk (some l')).Contains x ∧
      (HashSet.mk (some l)).Len = (HashSet.mk (some l')).Len := by
  refine ⟨?_, h.length_eq⟩
  by_cases hx : gomap.Key.hashable x = true
  · rw [contains_of_hashable _ x hx, contains_of_hashable _ x hx, gomap.entries_some,
      gomap.entries_some, gomap.get_isSome_perm l l' h x]
  · have hx' : gomap.Key.hashable x = false := by simpa using hx
    rw [contains_of_unhashable l x hx', contains_of_unhashable l' x hx']

/-- `Add` on a value that can be hashed returns true iff `Contains` returned
false before; afterwards `Contains` is true for the value if it is `==` to
itself, `Len` has grown by one if the call returned true and is unchanged
otherwise, and `Contains` is as before for every value the one added is not
`==` to. -/
theorem add_of_hashable (s : HashSet T) (v : T) (hv : gomap.Key.hashable v = true)
    (hs : s.WF) :
    ∃ c s', s.Contains v = some c ∧ s.Add v = some (!c, s') ∧ s'.WF ∧
      (gomap.Key.eq v v = true → s'.Contains v = some true) ∧
      s'.Len = s.Len + (if c = true then 0 else 1) ∧
      (∀ x, gomap.Key.hashable x = true → gomap.Key.eq v x = false →
        s'.Contains x = s.Contains x) := by
  obtain ⟨s', h1, h2, h3⟩ := add_spec s v hv hs
  refine ⟨_, s', contains_of_hashable s v hv, h1, h2, fun hr => ?_, ?_, fun x hx hvx => ?_⟩
  · rw [contains_of_hashable s' v hv, h3, gomap.entries_some, gomap.get_put, if_pos hr]
    rfl
  · simp only [HashSet.Len]
    rw [h3, gomap.entries_some, gomap.length_put]
  · rw [contains_of_hashable s' x hx, contains_of_hashable s x hx, h3, gomap.entries_some,
      gomap.get_put, if_neg (by simp [hvx])]

/-- `Remove` on a value that can be hashed returns what `Contains` returned
before; afterwards `Contains` is false for the value, `Len` has shrunk by one
if the call returned true and is unchanged otherwise, and `Contains` is as
before for every value the one removed is not `==` to. -/
theorem remove_of_hashable (s : HashSet T) (v : T) (hv : gomap.Key.hashable v = true)
    (hs : s.WF) :
    ∃ c s', s.Contains v = some c ∧ s.Remove v = some (c, s') ∧ s'.WF ∧
      s'.Contains v = some false ∧
      s'.Len + (if c = true then 1 else 0) = s.Len ∧
      (∀ x, gomap.Key.hashable x = true → gomap.Key.eq v x = false →
        s'.Contains x = s.Contains x) := by
  cases s with
  | mk m =>
    cases m with
    | none =>
      refine ⟨false, { m := none }, rfl, rfl, hs, rfl, rfl, fun _ _ _ => rfl⟩
    | some l =>
      refine ⟨_, { m := some (gomap.delete l v) }, contains_of_hashable _ v hv, ?_,
        gomap.wf_delete l v hs, ?_, ?_, fun x hx hvx => ?_⟩
      · simp [HashSet.Remove, gomap.load, gomap.drop, hv, gomap.entries]
      · rw [contains_of_hashable _ v hv, gomap.entries_some, gomap.get_delete]
        by_cases hr : gomap.Key.eq v v = true
        · rw [if_pos hr]
          rfl
        · rw [if_neg hr, gomap.get_of_not_refl l v (by simpa using hr)]
          rfl
      · simp only [HashSet.Len, gomap.entries_some]
        exact gomap.length_delete l v hs.2
      · rw [contains_of_hashable _ x hx, contains_of_hashable _ x hx, gomap.entries_some,
          gomap.entries_some, gomap.get_delete, if_neg (by simp [hvx])]

end setLemmas

end set

/-! ## Statements about the hash set -/

namespace set

/-- Storing what is already there changes nothing. -/
theorem set_same {A : Type} (l : List A) (i : Nat) (a : A) (h : l[i]? = some a) :
    l.set i a = l := by
  apply List.ext_getElem?
  intro n
  rw [List.getElem?_set]
  by_cases hn : i = n
  · subst hn
    rw [if_pos rfl, if_pos (List.getElem?_eq_some.1 h).1, h]
  · rw [if_neg hn]

/-- A valid reference reads the same after an allocation. -/
theorem read_append {T : Type} (mem : List (List (T × Unit))) (x : List (T × Unit)) (s : Ref)
    (h : s.Valid mem) : s.read (mem ++ [x]) = s.read mem := by
  cases s with
  | mk m =>
    cases m with
    | none => rfl
    | some p =>
      simp only [Ref.read]
      rw [List.getElem?_append_left (h p rfl)]

/-- The reference to a new object reads the object. -/
theorem read_new {T : Type} (mem : List (List (T × Unit))) (x : List (T × Unit)) :
    (Ref.mk (some mem.length)).read (mem ++ [x]) = { m := some x } := by
  simp only [Ref.read]
  rw [List.getElem?_concat_length]

section memLemmas

variable {T : Type} [gomap.Key T]

/-- The copy loop through one reference does to the object it points to what
the copy loop does to a map, and writes nothing else. -/
theorem copyLoopAt_eq (q : Nat) (ks : List T) :
    ∀ (mem : List (List (T × Unit))) (es : List (T × Unit)), mem[q]? = some es →
      copyLoopAt { m := some q } ks mem =
        match copyLoop ks es with
        | none => none
        | some es' => some (mem.set q es') := by
  induction ks with
  | nil =>
    intro mem es h
    simp only [copyLoopAt, copyLoop]
    rw [set_same mem q es h]
  | cons k t ih =>
    intro mem es h
    obtain ⟨hq, _⟩ := List.getElem?_eq_some.1 h
    cases hst : gomap.store es k () with
    | none => simp only [copyLoopAt, copyLoop, writeAt, h, hst]
    | some es' =>
      simp only [copyLoopAt, copyLoop, writeAt, h, hst]
      rw [ih (mem.set q es') es' (List.getElem?_set_self hq)]
      cases copyLoop t es' with
      | none => rfl
      | some r => simp only [List.set_set]

/-- `Clone` in memory allocates one object, holding the entries that the
copy loop makes of the values of the set. -/
theorem cloneAt_eq (mem : List (List (T × Unit))) (s : Ref) (h : s.Valid mem)
    (c : List (T × Unit))
    (hc : copyLoop (gomap.keys (gomap.entries (s.read mem).m)) [] = some c) :
    CloneAt mem s = some (mem ++ [c], { m := some mem.length }) := by
  simp only [CloneAt, NewAt]
  rw [read_append mem [] s h, copyLoopAt_eq mem.length _ (mem ++ [[]]) []
    (List.getElem?_concat_length mem []), hc]
  simp

/-- `Union` in memory allocates one object, holding the entries that the two
copy loops make, and writes no other object. -/
theorem unionAt_eq (mem : List (List (T × Unit))) (a b : Ref) (ha : a.Valid mem)
    (hb : b.Valid mem) (c r : List (T × Unit))
    (hc : copyLoop (gomap.keys (gomap.entries (a.read mem).m)) [] = some c)
    (hr : copyLoop (gomap.keys (gomap.entries (b.read mem).m)) c = some r) :
    UnionAt mem a b = some (mem ++ [r], { m := some mem.length }) := by
  simp only [UnionAt]
  rw [cloneAt_eq mem a ha c hc]
  simp only []
  rw [read_append mem c b hb, copyLoopAt_eq mem.length _ (mem ++ [c]) c
    (List.getElem?_concat_length mem c), hr]
  simp

/-- `Union` on values, from the results of its two copy loops. -/
theorem union_eq (a b : HashSet T) (c r : List (T × Unit))
    (hc : copyLoop (gomap.keys (gomap.entries a.m)) [] = some c)
    (hr : copyLoop (gomap.keys (gomap.entries b.m)) c = some r) :
    Union a b = some { m := some r } := by
  have he : gomap.entries (HashSet.mk (some c)).m = c := rfl
  have hn : gomap.entries (New : HashSet T).m = [] := rfl
  simp only [Union, HashSet.Clone]
  rw [hn, hc]
  simp only []
  rw [he, hr]

end memLemmas

/-- C25: Union.  For all sets `a` and `b` (a set whose map is nil included),
`Union(a, b)` returns a set such that, for every value `x`,
`Union(a, b).Contains(x)` returns true iff `a.Contains(x)` or `b.Contains(x)`
does; for a value that can be hashed the three calls return, and the first
result is the disjunction of the other two.  Run in a memory of map objects
on two valid references (nil, equal or different), `Union` returns a
reference to a new object that reads as the union of the two sets, and every
map object that existed before the call is unchanged, so `a` and `b` read the
same after the call as before. -/
theorem union_membership {T : Type} [gomap.Key T] (a b : HashSet T) (ha : a.WF) (hb : b.WF)
    (mem : List (List (T × Unit))) (ra rb : Ref) (hra : ra.Valid mem) (hrb : rb.Valid mem)
    (hma : (ra.read mem).WF) (hmb : (rb.read mem).WF) :
    (∃ r, Union a b = some r ∧ r.WF ∧
      (∀ x, r.Contains x = some true ↔ (a.Contains x = some true ∨ b.Contains x = some true)) ∧
      (∀ x, gomap.Key.hashable x = true →
        ∃ ca cb, a.Contains x = some ca ∧ b.Contains x = some cb ∧
          r.Contains x = some (ca || cb))) ∧
    (∃ mem' rr r, UnionAt mem ra rb = some (mem', rr) ∧
      Union (ra.read mem) (rb.read mem) = some r ∧ rr.read mem' = r ∧
      ra.read mem' = ra.read mem ∧ rb.read mem' = rb.read mem ∧
      ∀ (p : Nat), p < mem.length → mem'[p]? = mem[p]?) := by
  constructor
  · obtain ⟨r, hr, hw, hg⟩ := union_spec a b ha hb
    refine ⟨{ m := some r }, hr, hw, fun x => ?_, fun x hx => ?_⟩
    · rw [contains_true_iff, contains_true_iff, contains_true_iff]
      simp only [gomap.entries_some]
      rw [hg x, Bool.or_eq_true]
      constructor
      · rintro ⟨h1, h2 | h2⟩
        · exact Or.inl ⟨h1, h2⟩
        · exact Or.inr ⟨h1, h2⟩
      · rintro (⟨h1, h2⟩ | ⟨h1, h2⟩)
        · exact ⟨h1, Or.inl h2⟩
        · exact ⟨h1, Or.inr h2⟩
    · refine ⟨_, _, contains_of_hashable a x hx, contains_of_hashable b x hx, ?_⟩
      rw [contains_of_hashable _ x hx]
      exact congrArg some (hg x)
  · obtain ⟨c, hc, hcw, _⟩ := copyLoop_spec (gomap.keys (gomap.entries (ra.read mem).m)) []
      (fun k hk => hma.1 k hk) gomap.wf_nil
    obtain ⟨r, hr, _, _⟩ := copyLoop_spec (gomap.keys (gomap.entries (rb.read mem).m)) c
      (fun k hk => hmb.1 k hk) hcw
    refine ⟨mem ++ [r], { m := some mem.length }, { m := some r },
      unionAt_eq mem ra rb hra hrb c r hc hr, union_eq _ _ c r hc hr, read_new mem r,
      read_append mem r ra hra, read_append mem r rb hrb, fun p hp => ?_⟩
    exact List.getElem?_append_left hp

/-- The "some overlap" scenario of TestUnion, run also in a memory that holds
the maps of both sets; a union of sets that hold a NaN; and a union of sets
of `any`, asked for a slice. -/
theorem union_membership_witness :
    (Union (HashSet.mk (some [(gomap.float64.NaN, ()), (.num 1, ())]))
        (HashSet.mk (some [(gomap.float64.NaN, ())]))).map
      (fun r => (r.Len, r.Contains .NaN, r.Contains (.num 1))) =
        some (3, some false, some true) ∧
    (Union (HashSet.mk (some [(gomap.any.int 1, ())])) (HashSet.mk none)).map
      (fun r => (r.Len, r.Contains (.int 1), r.Contains (.slice [1]))) =
        some (1, some true, none) ∧
    ((∃ r, Union (HashSet.mk (some [((1 : Int), ()), (2, ()), (3, ())]))
          (HashSet.mk (some [((2 : Int), ()), (3, ()), (4, ())])) = some r ∧ r.WF ∧
        (∀ x, r.Contains x = some true ↔
          ((HashSet.mk (some [((1 : Int), ()), (2, ()), (3, ())])).Contains x = some true ∨
            (HashSet.mk (some [((2 : Int), ()), (3, ()), (4, ())])).Contains x = some true)) ∧
        (∀ x, gomap.Key.hashable x = true →
          ∃ ca cb, (HashSet.mk (some [((1 : Int), ()), (2, ()), (3, ())])).Contains x = some ca ∧
            (HashSet.mk (some [((2 : Int), ()), (3, ()), (4, ())])).Contains x = some cb ∧
            r.Contains x = some (ca || cb))) ∧
      (∃ mem' rr r,
        UnionAt [[((1 : Int), ()), (2, ()), (3, ())], [(2, ()), (3, ()), (4, ())]]
          (Ref.mk (some 0)) (Ref.mk (some 1)) = some (mem', rr) ∧
        Union ((Ref.mk (some 0)).read
            [[((1 : Int), ()), (2, ()), (3, ())], [(2, ()), (3, ()), (4, ())]])
          ((Ref.mk (some 1)).read
            [[((1 : Int), ()), (2, ()), (3, ())], [(2, ()), (3, ()), (4, ())]]) = some r ∧
        rr.read mem' = r ∧
        (Ref.mk (some 0)).read mem' = (Ref.mk (some 0)).read
          [[((1 : Int), ()), (2, ()), (3, ())], [(2, ()), (3, ()), (4, ())]] ∧
        (Ref.mk (some 1)).read mem' = (Ref.mk (some 1)).read
          [[((1 : Int), ()), (2, ()), (3, ())], [(2, ()), (3, ()), (4, ())]] ∧
        ∀ (p : Nat),
          p < [[((1 : Int), ()), (2, ()), (3, ())], [(2, ()), (3, ()), (4, ())]].length →
            mem'[p]? = [[((1 : Int), ()), (2, ()), (3, ())], [(2, ()), (3, ()), (4, ())]][p]?)) :=
  ⟨by decide, by decide,
    union_membership (HashSet.mk (some [((1 : Int), ()), (2, ()), (3, ())]))
      (HashSet.mk (some [((2 : Int), ()), (3, ()), (4, ())])) (by decide) (by decide)
      [[((1 : Int), ()), (2, ()), (3, ())], [(2, ()), (3, ()), (4, ())]]
      (Ref.mk (some 0)) (Ref.mk (some 1))
      (fun p h => by cases h; decide) (fun p h => by cases h; decide) (by decide) (by decide)⟩

/-- C26: Intersection.  For all sets `a` and `b`, `Intersection(a, b)` and
`Intersection(b, a)` return, whichever set the loop iterates over; for every
value `x`, `Intersection(a, b).Contains(x)` returns true iff `a.Contains(x)`
and `b.Contains(x)` do, and for a value that can be hashed the three calls
return and the first result is the conjunction of the other two;
`Intersection(a, b)` and `Intersection(b, a)` answer `Contains` alike and
have the same `Len()`. -/
theorem intersection_membership {T : Type} [gomap.Key T] (a b : HashSet T) (ha : a.WF)
    (hb : b.WF) :
    ∃ r r', Intersection a b = some r ∧ Intersection b a = some r' ∧
      (∀ x, r.Contains x = some true ↔ (a.Contains x = some true ∧ b.Contains x = some true)) ∧
      (∀ x, gomap.Key.hashable x = true →
        ∃ ca cb, a.Contains x = some ca ∧ b.Contains x = some cb ∧
          r.Contains x = some (ca && cb)) ∧
      (∀ x, r'.Contains x = r.Contains x) ∧ r.Len = r'.Len := by
  obtain ⟨r, hr, hw, hg, hrefl⟩ := intersection_spec a b ha hb
  obtain ⟨r', hr', hw', hg', hrefl'⟩ := intersection_spec b a hb ha
  have hsame : ∀ x, (gomap.get r x).isSome = (gomap.get r' x).isSome := by
    intro x
    rw [hg x, hg' x, Bool.and_comm]
  refine ⟨{ m := some r }, { m := some r' }, hr, hr', fun x => ?_, fun x hx => ?_, fun x => ?_, ?_⟩
  · rw [contains_true_iff, contains_true_iff, contains_true_iff]
    simp only [gomap.entries_some]
    rw [hg x, Bool.and_eq_true]
    constructor
    · rintro ⟨h1, h2, h3⟩
      exact ⟨⟨h1, h2⟩, ⟨h1, h3⟩⟩
    · rintro ⟨⟨h1, h2⟩, ⟨_, h3⟩⟩
      exact ⟨h1, h2, h3⟩
  · refine ⟨_, _, contains_of_hashable a x hx, contains_of_hashable b x hx, ?_⟩
    rw [contains_of_hashable _ x hx]
    exact congrArg some (hg x)
  · by_cases hx : gomap.Key.hashable x = true
    · rw [contains_of_hashable _ x hx, contains_of_hashable _ x hx]
      exact congrArg some (hsame x).symm
    · have hx' : gomap.Key.hashable x = false := by simpa using hx
      rw [contains_of_unhashable r' x hx', contains_of_unhashable r x hx']
  · exact gomap.length_eq_of_same_members r r' hw.2 hw'.2 hrefl hrefl' hsame

/-- The "some overlap" scenario of TestIntersection, sets of different sizes
in both argument orders, and sets that both hold a NaN. -/
theorem intersection_membership_witness :
    (Intersection (HashSet.mk (some [((1 : Int), ()), (2, ()), (3, ()), (5, ())]))
        (HashSet.mk (some [((3 : Int), ()), (2, ())]))).map
      (fun r => (r.Len, r.Contains 1, r.Contains 2, r.Contains 3)) =
        some (2, some false, some true, some true) ∧
    (Intersection (HashSet.mk (some [((3 : Int), ()), (2, ())]))
        (HashSet.mk (some [((1 : Int), ()), (2, ()), (3, ()), (5, ())]))).map
      (fun r => (r.Len, r.Contains 1, r.Contains 2, r.Contains 3)) =
        some (2, some false, some true, some true) ∧
    (Intersection (HashSet.mk (some [(gomap.float64.NaN, ()), (.num 1, ())]))
        (HashSet.mk (some [(gomap.float64.NaN, ()), (.num 1, ())]))).map
      (fun r => (r.Len, r.Contains .NaN, r.Contains (.num 1))) =
        some (1, some false, some true) ∧
    ∃ r r', Intersection (HashSet.mk (some [((1 : Int), ()), (2, ()), (3, ())]))
        (HashSet.mk (some [((2 : Int), ()), (3, ()), (4, ())])) = some r ∧
      Intersection (HashSet.mk (some [((2 : Int), ()), (3, ()), (4, ())]))
        (HashSet.mk (some [((1 : Int), ()), (2, ()), (3, ())])) = some r' ∧
      (∀ x, r.Contains x = some true ↔
        ((HashSet.mk (some [((1 : Int), ()), (2, ()), (3, ())])).Contains x = some true ∧
          (HashSet.mk (some [((2 : Int), ()), (3, ()), (4, ())])).Contains x = some true)) ∧
      (∀ x, gomap.Key.hashable x = true →
        ∃ ca cb, (HashSet.mk (some [((1 : Int), ()), (2, ()), (3, ())])).Contains x = some ca ∧
          (HashSet.mk (some [((2 : Int), ()), (3, ()), (4, ())])).Contains x = some cb ∧
          r.Contains x = some (ca && cb)) ∧
      (∀ x, r'.Contains x = r.Contains x) ∧ r.Len = r'.Len :=
  ⟨by decide, by decide, by decide,
    intersection_membership (HashSet.mk (some [((1 : Int), ()), (2, ()), (3, ())]))
      (HashSet.mk (some [((2 : Int), ()), (3, ()), (4, ())])) (by decide) (by decide)⟩

/-- C40: IsSubset agrees with Difference.  For all sets `a` and `b`,
`Difference(a, b)` and `IsSubset(a, b)` return; `IsSubset(a, b)` is true iff
`Difference(a, b)` is empty; for every value `x`,
`Difference(a, b).Contains(x)` returns true iff `a.Contains(x)` does and
`b.Contains(x)` does not, and for a value that can be hashed the three calls
return and the first result is the second and not the third; and
`IsSubset(a, b)` is true for every `b` when `a` is empty. -/
theorem subset_agrees_with_difference {T : Type} [gomap.Key T] (a b : HashSet T) (ha : a.WF) :
    ∃ d r, Difference a b = some d ∧ IsSubset a b = some r ∧
      (r = true ↔ d.IsEmpty = true) ∧
      (∀ x, d.Contains x = some true ↔
        (a.Contains x = some true ∧ ¬ b.Contains x = some true)) ∧
      (∀ x, gomap.Key.hashable x = true →
        ∃ ca cb, a.Contains x = some ca ∧ b.Contains x = some cb ∧
          d.Contains x = some (ca && !cb)) ∧
      (a.IsEmpty = true → r = true) := by
  obtain ⟨d, hd, _, hg, hnil⟩ := difference_spec a b ha
  obtain ⟨r, hr, hi⟩ := isSubsetLoop_spec b (gomap.keys (gomap.entries a.m))
    (fun k hk => ha.1 k hk)
  refine ⟨{ m := some d }, r, hd, hr, ?_, fun x => ?_, fun x hx => ?_, fun he => ?_⟩
  · rw [hi, ← hnil]
    simp [HashSet.IsEmpty, gomap.entries, List.length_eq_zero]
  · rw [contains_true_iff, contains_true_iff, contains_true_iff]
    simp only [gomap.entries_some]
    rw [hg x, Bool.and_eq_true]
    constructor
    · rintro ⟨h1, h2, h3⟩
      refine ⟨⟨h1, h2⟩, fun h => ?_⟩
      rw [h.2] at h3
      exact absurd h3 (by simp)
    · rintro ⟨⟨h1, h2⟩, h3⟩
      refine ⟨h1, h2, ?_⟩
      cases hb : (gomap.get (gomap.entries b.m) x).isSome with
      | false => rfl
      | true => exact absurd ⟨h1, hb⟩ h3
  · refine ⟨_, _, contains_of_hashable a x hx, contains_of_hashable b x hx, ?_⟩
    rw [contains_of_hashable _ x hx]
    exact congrArg some (hg x)
  · rw [hi]
    intro k hk
    have hl : (gomap.entries a.m).length = 0 := by
      simpa [HashSet.IsEmpty] using he
    rw [List.length_eq_zero] at hl
    rw [hl] at hk
    simp [gomap.keys] at hk

/-- Scenarios of TestDifference and TestIsSubset: `{1, 2}` is a subset of
`{1, 2, 3}` and the difference is empty; `{1, 2, 3}` minus `{2, 3, 4}` holds
1 only, so it is no subset; the zero-value set is a subset; and a set that
holds a NaN is no subset of itself, the difference holding one value. -/
theorem subset_agrees_with_difference_witness :
    IsSubset (HashSet.mk (some [((1 : Int), ()), (2, ())]))
        (HashSet.mk (some [((1 : Int), ()), (2, ()), (3, ())])) = some true ∧
      (Difference (HashSet.mk (some [((1 : Int), ()), (2, ())]))
        (HashSet.mk (some [((1 : Int), ()), (2, ()), (3, ())]))).map HashSet.IsEmpty =
          some true ∧
      IsSubset (HashSet.mk none) (HashSet.mk (some [((2 : Int), ()), (3, ()), (4, ())])) =
        some true ∧
      IsSubset (HashSet.mk (some [(gomap.float64.NaN, ())]))
        (HashSet.mk (some [(gomap.float64.NaN, ())])) = some false ∧
      (Difference (HashSet.mk (some [(gomap.float64.NaN, ())]))
        (HashSet.mk (some [(gomap.float64.NaN, ())]))).map
          (fun d => (d.Len, d.IsEmpty, d.Contains .NaN)) = some (1, false, some false) ∧
      ∃ d r, Difference (HashSet.mk (some [((1 : Int), ()), (2, ()), (3, ())]))
          (HashSet.mk (some [((2 : Int), ()), (3, ()), (4, ())])) = some d ∧
        IsSubset (HashSet.mk (some [((1 : Int), ()), (2, ()), (3, ())]))
          (HashSet.mk (some [((2 : Int), ()), (3, ()), (4, ())])) = some r ∧
        (r = true ↔ d.IsEmpty = true) ∧
        (∀ x, d.Contains x = some true ↔
          ((HashSet.mk (some [((1 : Int), ()), (2, ()), (3, ())])).Contains x = some true ∧
            ¬ (HashSet.mk (some [((2 : Int), ()), (3, ()), (4, ())])).Contains x = some true)) ∧
        (∀ x, gomap.Key.hashable x = true →
          ∃ ca cb, (HashSet.mk (some [((1 : Int), ()), (2, ()), (3, ())])).Contains x = some ca ∧
            (HashSet.mk (some [((2 : Int), ()), (3, ()), (4, ())])).Contains x = some cb ∧
            d.Contains x = some (ca && !cb)) ∧
        ((HashSet.mk (some [((1 : Int), ()), (2, ()), (3, ())])).IsEmpty = true → r = true) :=
  ⟨by decide, by decide, by decide, by decide, by decide,
    subset_agrees_with_difference (HashSet.mk (some [((1 : Int), ()), (2, ()), (3, ())]))
      (HashSet.mk (some [((2 : Int), ()), (3, ()), (4, ())])) (by decide)⟩

/-- C27 on a set of `float64` with a NaN: `Add(NaN)` on the set made by `New`
returns true and leaves one value, after which `Contains(NaN)` returns false;
a second `Add(NaN)` returns true again and leaves two values, and
`Remove(NaN)` returns false and removes nothing. -/
theorem add_nan_is_not_contained :
    ∃ s1 s2, (New : HashSet gomap.float64).Add .NaN = some (true, s1) ∧ s1.Len = 1 ∧
      s1.Contains .NaN = some false ∧
      s1.Add .NaN = some (true, s2) ∧ s2.Len = 2 ∧
      s2.Remove .NaN = some (false, s2) :=
  ⟨{ m := some [(.NaN, ())] }, { m := some [(.NaN, ()), (.NaN, ())] },
    by decide, by decide, by decide, by decide, by decide, by decide⟩

end set

/-! ## Properties of the dictionary -/

namespace collections

section dictLemmas

variable {K V : Type} [gomap.Key K] [Inhabited V]

/-- `Get` on a key that can be hashed returns the binding found, or the zero
value and false. -/
theorem get_of_hashable (d : Dictionary K V) (k : K) (hk : gomap.Key.hashable k = true) :
    d.Get k = some (match gomap.get (gomap.entries d.m) k with
      | some old => (old, true)
      | none => (default, false)) := by
  cases d with
  | mk m =>
    cases m with
    | none => rfl
    | some l =>
      simp only [Dictionary.Get, gomap.load, hk, if_true, gomap.entries]
      cases gomap.get l k <;> rfl

/-- `Put` on a key that can be hashed returns what `Get` returned before;
afterwards a key `==` to the key put is bound to the value put, and every
other key is bound as before. -/
theorem put_of_hashable (d : Dictionary K V) (k : K) (v : V)
    (hk : gomap.Key.hashable k = true) :
    ∃ r d', d.Get k = some r ∧ d.Put k v = some (r, d') ∧
      (∀ k', gomap.get (gomap.entries d'.m) k' =
        if gomap.Key.eq k k' = true then some v else gomap.get (gomap.entries d.m) k') ∧
      d'.Len = d.Len + (if r.2 = true then 0 else 1) := by
  refine ⟨_, { m := some (gomap.put (gomap.entries d.m) k v) }, get_of_hashable d k hk, ?_,
    fun k' => gomap.get_put _ k k' v, ?_⟩
  · cases d with
    | mk m =>
      cases m with
      | none => simp [Dictionary.Put, gomap.load, gomap.store, hk, gomap.entries, gomap.get]
      | some l =>
        simp only [Dictionary.Put, gomap.load, gomap.store, hk, if_true, gomap.entries]
  · simp only [Dictionary.Len, gomap.entries_some]
    rw [gomap.length_put]
    cases gomap.get (gomap.entries d.m) k <;> rfl

/-- `Delete` on a key that can be hashed returns what `Get` returned before;
afterwards a key `==` to the key deleted is not bound, and every other key is
bound as before. -/
theorem delete_of_hashable (d : Dictionary K V) (k : K) (hk : gomap.Key.hashable k = true) :
    ∃ r d', d.Get k = some r ∧ d.Delete k = some (r, d') ∧
      (∀ k', gomap.get (gomap.entries d'.m) k' =
        if gomap.Key.eq k k' = true then none else gomap.get (gomap.entries d.m) k') := by
  cases d with
  | mk m =>
    cases m with
    | none =>
      refine ⟨_, { m := none }, get_of_hashable _ k hk, rfl, fun k' => ?_⟩
      simp [gomap.entries, gomap.get]
    | some l =>
      refine ⟨_, { m := some (gomap.delete l k) }, get_of_hashable _ k hk, ?_,
        fun k' => gomap.get_delete l k k'⟩
      simp only [Dictionary.Delete, gomap.load, gomap.drop, hk, if_true, gomap.entries]

end dictLemmas

/-- C28 on a dictionary of `float64` keys with a NaN: `Put(NaN, 1)` on the
dictionary made by `New` returns `(0, false)`, after which `Get(NaN)` returns
`(0, false)`; a second `Put(NaN, 2)` returns `(0, false)` again and leaves two
entries, and `Delete(NaN)` returns `(0, false)` and removes nothing. -/
theorem put_nan_is_not_bound :
    ∃ d1 d2, (New : Dictionary gomap.float64 Int).Put .NaN 1 = some ((0, false), d1) ∧
      d1.Len = 1 ∧ d1.Get .NaN = some (0, false) ∧
      d1.Put .NaN 2 = some ((0, false), d2) ∧ d2.Len = 2 ∧
      d2.Delete .NaN = some ((0, false), d2) :=
  ⟨{ m := some [(.NaN, 1)] }, { m := some [(.NaN, 1), (.NaN, 2)] },
    by decide, by decide, by decide, by decide, by decide, by decide⟩

end collections

/-! ## Properties of the graph -/

namespace graph

section graphLemmas

variable {T W : Type} [gomap.Key T]

/-- The weight found is read in the entries found for the first vertex. -/
theorem weight_eq (g : Graph T W) (u v : T) :
    g.weight u v = gomap.get (gomap.entries (gomap.get g.adj u)) v := by
  unfold Graph.weight
  cases gomap.get g.adj u <;> rfl

/-- The read of an edge returns, for vertices that can be hashed, the weight found. -/
theorem edge_eq (g : Graph T W) (u v : T) :
    g.edge u v =
      if gomap.Key.hashable u = true ∧ gomap.Key.hashable v = true then some (g.weight u v)
      else none := by
  simp only [Graph.edge, Graph.Neighbors, gomap.load, weight_eq]
  by_cases hu : gomap.Key.hashable u = true
  · by_cases hv : gomap.Key.hashable v = true
    · simp [hu, hv]
    · simp [hu, hv]
  · simp [hu]

/-- No weight is found from a vertex that is not found. -/
theorem weight_of_not_found (g : Graph T W) (u v : T) (h : gomap.get g.adj u = none) :
    g.weight u v = none := by
  rw [weight_eq, h]
  rfl

/-- `AddVertex` returns for a vertex that can be hashed. -/
theorem addVertex_total (g : Graph T W) (v : T) (hv : gomap.Key.hashable v = true) :
    ∃ g', g.AddVertex v = some g' := by
  by_cases hf : (gomap.get g.adj v).isSome = true
  · exact ⟨g, by simp [Graph.AddVertex, gomap.load, gomap.store, hv, hf]⟩
  · simp [Graph.AddVertex, gomap.load, gomap.store, hv, hf]

/-- `AddVertex`, when it returns, keeps every weight and every vertex found;
the new key, if any, is the vertex, which is found afterwards if it is `==`
to itself. -/
theorem addVertex_spec (g g' : Graph T W) (v : T) (h : g.AddVertex v = some g') :
    gomap.Key.hashable v = true ∧ g'.directed = g.directed ∧
      (∀ x y, g'.weight x y = g.weight x y) ∧
      (∀ k, k ∈ gomap.keys g'.adj → k ∈ gomap.keys g.adj ∨ k = v) ∧
      (gomap.Key.eq v v = true → (gomap.get g'.adj v).isSome = true) ∧
      (∀ x, (gomap.get g.adj x).isSome = true → (gomap.get g'.adj x).isSome = true) := by
  by_cases hv : gomap.Key.hashable v = true
  · simp only [Graph.AddVertex, gomap.load, gomap.store, hv, if_true] at h
    by_cases hf : (gomap.get g.adj v).isSome = true
    · simp only [hf, Bool.not_true, Bool.false_eq_true, if_false, Option.some.injEq] at h
      subst h
      exact ⟨hv, rfl, fun _ _ => rfl, fun k hk => Or.inl hk, fun _ => hf, fun _ hx => hx⟩
    · have hn : gomap.get g.adj v = none := by
        simpa using hf
      simp only [hf, Bool.not_false, if_true, Option.some.injEq] at h
      subst h
      refine ⟨hv, rfl, fun x y => ?_, fun k hk => gomap.mem_keys_of_put g.adj v k [] hk,
        fun hr => ?_, fun x hx => ?_⟩
      · rw [weight_eq, weight_eq]
        simp only []
        rw [gomap.get_put]
        by_cases he : gomap.Key.eq v x = true
        · rw [if_pos he, ← gomap.get_congr g.adj he, hn]
          rfl
        · rw [if_neg he]
      · simp only []
        rw [gomap.get_put, if_pos hr]
        rfl
      · simp only []
        rw [gomap.get_put]
        by_cases he : gomap.Key.eq v x = true
        · rw [if_pos he]
          rfl
        · rw [if_neg he]
          exact hx
  · simp [Graph.AddVertex, gomap.load, hv] at h

/-- The assignment `g.adj[u][v] = w` returns when `u` is found and both
vertices can be hashed. -/
theorem setWeight_total (g : Graph T W) (u v : T) (w : W) (hu : gomap.Key.hashable u = true)
    (hv : gomap.Key.hashable v = true) (hf : (gomap.get g.adj u).isSome = true) :
    ∃ g', g.setWeight u v w = some g' := by
  obtain ⟨nb, hnb⟩ := Option.isSome_iff_exists.1 hf
  simp [Graph.setWeight, gomap.load, gomap.store, hu, hv, hnb]

/-- The assignment `g.adj[u][v] = w`, when it returns, sets the weight found
from a vertex `==` to `u` to a vertex `==` to `v`, and keeps every other
weight and the keys. -/
theorem setWeight_spec (g g' : Graph T W) (u v : T) (w : W) (h : g.setWeight u v w = some g') :
    g'.directed = g.directed ∧ gomap.keys g'.adj = gomap.keys g.adj ∧
      (∀ x y, g'.weight x y =
        if gomap.Key.eq u x = true ∧ gomap.Key.eq v y = true then some w else g.weight x y) := by
  by_cases hu : gomap.Key.hashable u = true
  · cases hg : gomap.get g.adj u with
    | none => simp [Graph.setWeight, gomap.load, hu, hg] at h
    | some nb =>
      by_cases hv : gomap.Key.hashable v = true
      · simp only [Graph.setWeight, gomap.load, gomap.store, hu, hv, hg, if_true,
          Option.some.injEq] at h
        subst h
        refine ⟨rfl, gomap.keys_update _ _ _, fun x y => ?_⟩
        rw [weight_eq, weight_eq]
        simp only []
        rw [gomap.get_update]
        by_cases he : gomap.Key.eq u x = true
        · rw [if_pos he, ← gomap.get_congr g.adj he, hg]
          simp only [Option.map_some', gomap.entries_some]
          rw [gomap.get_put]
          by_cases hy : gomap.Key.eq v y = true
          · rw [if_pos hy, if_pos ⟨he, hy⟩]
          · rw [if_neg hy, if_neg (fun h => hy h.2)]
        · rw [if_neg he, if_neg (fun h => he h.1)]
      · simp [Graph.setWeight, gomap.load, gomap.store, hu, hv, hg] at h
  · simp [Graph.setWeight, gomap.load, hu] at h

/-- The guarded `delete` of `RemoveEdge` returns for vertices that can be hashed. -/
theorem dropWeight_total (g : Graph T W) (u v : T) (hu : gomap.Key.hashable u = true)
    (hv : gomap.Key.hashable v = true) : ∃ g', g.dropWeight u v = some g' := by
  cases hg : gomap.get g.adj u with
  | none => exact ⟨g, by simp [Graph.dropWeight, gomap.load, hu, hg]⟩
  | some nb => simp [Graph.dropWeight, gomap.load, gomap.drop, hu, hv, hg]

/-- The guarded `delete` of `RemoveEdge`, when it returns, removes the weight
found from a vertex `==` to `u` to a vertex `==` to `v`, and keeps every
other weight and the keys. -/
theorem dropWeight_spec (g g' : Graph T W) (u v : T) (h : g.dropWeight u v = some g') :
    g'.directed = g.directed ∧ gomap.keys g'.adj = gomap.keys g.adj ∧
      (∀ x y, g'.weight x y =
        if gomap.Key.eq u x = true ∧ gomap.Key.eq v y = true then none else g.weight x y) := by
  by_cases hu : gomap.Key.hashable u = true
  · cases hg : gomap.get g.adj u with
    | none =>
      simp only [Graph.dropWeight, gomap.load, hu, hg, if_true, Option.some.injEq] at h
      subst h
      refine ⟨rfl, rfl, fun x y => ?_⟩
      by_cases he : gomap.Key.eq u x = true ∧ gomap.Key.eq v y = true
      · rw [if_pos he, weight_of_not_found]
        rw [← gomap.get_congr g.adj he.1]
        exact hg
      · rw [if_neg he]
    | some nb =>
      by_cases hv : gomap.Key.hashable v = true
      · simp only [Graph.dropWeight, gomap.load, gomap.drop, hu, hv, hg, if_true,
          Option.some.injEq] at h
        subst h
        refine ⟨rfl, gomap.keys_update _ _ _, fun x y => ?_⟩
        rw [weight_eq, weight_eq]
        simp only []
        rw [gomap.get_update]
        by_cases he : gomap.Key.eq u x = true
        · rw [if_pos he, ← gomap.get_congr g.adj he, hg]
          simp only [Option.map_some', gomap.entries_some]
          rw [gomap.get_delete]
          by_cases hy : gomap.Key.eq v y = true
          · rw [if_pos hy, if_pos ⟨he, hy⟩]
          · rw [if_neg hy, if_neg (fun h => hy h.2)]
        · rw [if_neg he, if_neg (fun h => he h.1)]
      · simp [Graph.dropWeight, gomap.load, gomap.drop, hu, hv, hg] at h
  · simp [Graph.dropWeight, gomap.load, hu] at h

/-- The `delete` in the loop of `RemoveVertex` returns for vertices that can
be hashed. -/
theorem forget_total (g : Graph T W) (vertex v : T) (hu : gomap.Key.hashable vertex = true)
    (hv : gomap.Key.hashable v = true) : ∃ g', g.forget vertex v = some g' := by
  cases hg : gomap.get g.adj vertex with
  | none => exact ⟨g, by simp [Graph.forget, gomap.load, gomap.drop, hu, hv, hg]⟩
  | some nb => simp [Graph.forget, gomap.load, gomap.drop, hu, hv, hg]

/-- The `delete` in the loop of `RemoveVertex`, when it returns, removes the
weight found from a vertex `==` to `vertex` to a vertex `==` to `v`, and
keeps every other weight and the keys. -/
theorem forget_spec (g g' : Graph T W) (vertex v : T) (h : g.forget vertex v = some g') :
    gomap.Key.hashable v = true ∧ g'.directed = g.directed ∧
      gomap.keys g'.adj = gomap.keys g.adj ∧
      (∀ x y, g'.weight x y =
        if gomap.Key.eq vertex x = true ∧ gomap.Key.eq v y = true then none
        else g.weight x y) := by
  by_cases hu : gomap.Key.hashable vertex = true
  · by_cases hv : gomap.Key.hashable v = true
    · cases hg : gomap.get g.adj vertex with
      | none =>
        simp only [Graph.forget, gomap.load, gomap.drop, hu, hv, hg, if_true,
          Option.some.injEq] at h
        subst h
        refine ⟨hv, rfl, rfl, fun x y => ?_⟩
        by_cases he : gomap.Key.eq vertex x = true ∧ gomap.Key.eq v y = true
        · rw [if_pos he, weight_of_not_found]
          rw [← gomap.get_congr g.adj he.1]
          exact hg
        · rw [if_neg he]
      | some nb =>
        simp only [Graph.forget, gomap.load, gomap.drop, hu, hv, hg, if_true,
          Option.some.injEq] at h
        subst h
        refine ⟨hv, rfl, gomap.keys_update _ _ _, fun x y => ?_⟩
        rw [weight_eq, weight_eq]
        simp only []
        rw [gomap.get_update]
        by_cases he : gomap.Key.eq vertex x = true
        · rw [if_pos he, ← gomap.get_congr g.adj he, hg]
          simp only [Option.map_some', gomap.entries_some]
          rw [gomap.get_delete]
          by_cases hy : gomap.Key.eq v y = true
          · rw [if_pos hy, if_pos ⟨he, hy⟩]
          · rw [if_neg hy, if_neg (fun h => hy h.2)]
        · rw [if_neg he, if_neg (fun h => he h.1)]
    · simp [Graph.forget, gomap.load, gomap.drop, hu, hv] at h
  · simp [Graph.forget, gomap.load, hu] at h

/-- The loop of `RemoveVertex` returns when the keys visited and the vertex
can be hashed. -/
theorem forgetLoop_total (v : T) (hv : gomap.Key.hashable v = true) (ks : List T) :
    ∀ (g : Graph T W), (∀ k, k ∈ ks → gomap.Key.hashable k = true) →
      ∃ g', Graph.forgetLoop v ks g = some g' := by
  induction ks with
  | nil =>
    intro g _
    exact ⟨g, rfl⟩
  | cons k t ih =>
    intro g hk
    obtain ⟨g1, h1⟩ := forget_total g k v (hk k (by simp)) hv
    obtain ⟨g2, h2⟩ := ih g1 (fun j hj => hk j (by simp [hj]))
    refine ⟨g2, ?_⟩
    simp only [Graph.forgetLoop, h1]
    exact h2

/-- The loop of `RemoveVertex`, when it returns, has removed the weights
found from a vertex `==` to a key visited to a vertex `==` to `v`, and has
kept every other weight and the keys. -/
theorem forgetLoop_spec (v : T) (ks : List T) :
    ∀ (g g' : Graph T W), Graph.forgetLoop v ks g = some g' →
      g'.directed = g.directed ∧ gomap.keys g'.adj = gomap.keys g.adj ∧
        (∀ x y, g'.weight x y =
          if (∃ k, k ∈ ks ∧ gomap.Key.eq k x = true) ∧ gomap.Key.eq v y = true then none
          else g.weight x y) := by
  induction ks with
  | nil =>
    intro g g' h
    simp only [Graph.forgetLoop, Option.some.injEq] at h
    subst h
    refine ⟨rfl, rfl, fun x y => ?_⟩
    rw [if_neg]
    rintro ⟨⟨k, hk, _⟩, _⟩
    simp at hk
  | cons k t ih =>
    intro g g' h
    cases h1 : g.forget k v with
    | none => simp [Graph.forgetLoop, h1] at h
    | some g1 =>
      simp only [Graph.forgetLoop, h1] at h
      obtain ⟨_, hd1, hk1, hw1⟩ := forget_spec g g1 k v h1
      obtain ⟨hd2, hk2, hw2⟩ := ih g1 g' h
      refine ⟨hd2.trans hd1, hk2.trans hk1, fun x y => ?_⟩
      rw [hw2 x y, hw1 x y]
      have hex : (∃ j, j ∈ k :: t ∧ gomap.Key.eq j x = true) ↔
          (gomap.Key.eq k x = true ∨ ∃ j, j ∈ t ∧ gomap.Key.eq j x = true) := by
        constructor
        · rintro ⟨j, hj, hjx⟩
          simp only [List.mem_cons] at hj
          rcases hj with hj | hj
          · subst hj
            exact Or.inl hjx
          · exact Or.inr ⟨j, hj, hjx⟩
        · rintro (h | ⟨j, hj, hjx⟩)
          · exact ⟨k, by simp, h⟩
          · exact ⟨j, by simp [hj], hjx⟩
      by_cases hy : gomap.Key.eq v y = true
      · by_cases hkx : gomap.Key.eq k x = true
        · by_cases ht : ∃ j, j ∈ t ∧ gomap.Key.eq j x = true
          · rw [if_pos ⟨ht, hy⟩, if_pos ⟨hex.2 (Or.inl hkx), hy⟩]
          · rw [if_neg (fun h => ht h.1), if_pos ⟨hkx, hy⟩, if_pos ⟨hex.2 (Or.inl hkx), hy⟩]
        · by_cases ht : ∃ j, j ∈ t ∧ gomap.Key.eq j x = true
          · rw [if_pos ⟨ht, hy⟩, if_pos ⟨hex.2 (Or.inr ht), hy⟩]
          · rw [if_neg (fun h => ht h.1), if_neg (fun h => hkx h.1), if_neg]
            rintro ⟨h, _⟩
            rcases hex.1 h with h | h
            · exact hkx h
            · exact ht h
      · rw [if_neg (fun h => hy h.2), if_neg (fun h => hy h.2), if_neg (fun h => hy h.2)]

/-- `RemoveVertex` returns when the keys of `adj` and the vertex can be hashed. -/
theorem removeVertex_total (g : Graph T W) (v : T) (hv : gomap.Key.hashable v = true)
    (hk : ∀ k, k ∈ gomap.keys g.adj → gomap.Key.hashable k = true) :
    ∃ g', g.RemoveVertex v = some g' := by
  obtain ⟨g1, h1⟩ := forgetLoop_total v hv (gomap.keys g.adj) g hk
  simp [Graph.RemoveVertex, h1, gomap.drop, hv]

/-- `RemoveVertex`, when it returns, has removed the weights found from or
to a vertex `==` to `v`, and has kept every other weight; its keys are among
those before, and none of them is `==` to `v`. -/
theorem removeVertex_spec (g g' : Graph T W) (v : T) (h : g.RemoveVertex v = some g') :
    g'.directed = g.directed ∧
      (∀ k, k ∈ gomap.keys g'.adj → k ∈ gomap.keys g.adj ∧ gomap.Key.eq k v = false) ∧
      (∀ x y, g'.weight x y =
        if gomap.Key.eq v x = true ∨ gomap.Key.eq v y = true then none else g.weight x y) := by
  cases h1 : Graph.forgetLoop v (gomap.keys g.adj) g with
  | none => simp [Graph.RemoveVertex, h1] at h
  | some g1 =>
    obtain ⟨hd1, hk1, hw1⟩ := forgetLoop_spec v (gomap.keys g.adj) g g1 h1
    by_cases hv : gomap.Key.hashable v = true
    · simp only [Graph.RemoveVertex, h1, gomap.drop, hv, if_true, Option.some.injEq] at h
      subst h
      refine ⟨hd1, fun k hk => ?_, fun x y => ?_⟩
      · simp only [] at hk
        refine ⟨?_, ?_⟩
        · rw [← hk1]
          exact (gomap.keys_delete_sublist g1.adj v).subset hk
        · cases he : gomap.Key.eq k v with
          | false => rfl
          | true =>
            have hf : (gomap.get (gomap.delete g1.adj v) k).isSome = true :=
              (gomap.get_isSome_iff _ k).2 ⟨k, hk, gomap.eq_self_of_eq_left he⟩
            rw [gomap.get_delete, if_pos (gomap.Key.symm k v he)] at hf
            exact absurd hf (by simp)
      · rw [weight_eq]
        simp only []
        rw [gomap.get_delete]
        by_cases hx : gomap.Key.eq v x = true
        · rw [if_pos hx, if_pos (Or.inl hx)]
          rfl
        · rw [if_neg hx, ← weight_eq, hw1 x y]
          by_cases hy : gomap.Key.eq v y = true
          · rw [if_pos (Or.inr hy)]
            by_cases hf : ∃ k, k ∈ gomap.keys g.adj ∧ gomap.Key.eq k x = true
            · rw [if_pos ⟨hf, hy⟩]
            · rw [if_neg (fun h => hf h.1), weight_of_not_found]
              rw [← Option.not_isSome_iff_eq_none, gomap.get_isSome_iff]
              exact hf
          · rw [if_neg (fun h => hy h.2), if_neg]
            rintro (h | h)
            · exact hx h
            · exact hy h
    · simp [Graph.RemoveVertex, h1, gomap.drop, hv] at h

/-- `RemoveEdge` returns for vertices that can be hashed. -/
theorem removeEdge_total (g : Graph T W) (u v : T) (hu : gomap.Key.hashable u = true)
    (hv : gomap.Key.hashable v = true) : ∃ g', g.RemoveEdge u v = some g' := by
  obtain ⟨g1, h1⟩ := dropWeight_total g u v hu hv
  by_cases hd : g1.directed = true
  · exact ⟨g1, by simp [Graph.RemoveEdge, h1, hd]⟩
  · obtain ⟨g2, h2⟩ := dropWeight_total g1 v u hv hu
    exact ⟨g2, by simp [Graph.RemoveEdge, h1, hd, h2]⟩

/-- `AddEdge` returns for vertices that can be hashed and are `==` to
themselves. -/
theorem addEdge_total (g : Graph T W) (u v : T) (w : W) (hu : gomap.Key.hashable u = true)
    (hv : gomap.Key.hashable v = true) (ru : gomap.Key.eq u u = true)
    (rv : gomap.Key.eq v v = true) : ∃ g', g.AddEdge u v w = some g' := by
  obtain ⟨g1, h1⟩ := addVertex_total g u hu
  obtain ⟨g2, h2⟩ := addVertex_total g1 v hv
  obtain ⟨_, _, _, _, hf1, _⟩ := addVertex_spec g g1 u h1
  obtain ⟨_, _, _, _, hf2, hk2⟩ := addVertex_spec g1 g2 v h2
  obtain ⟨g3, h3⟩ := setWeight_total g2 u v w hu hv (hk2 u (hf1 ru))
  obtain ⟨_, hk3, _⟩ := setWeight_spec g2 g3 u v w h3
  by_cases hd : g3.directed = true
  · exact ⟨g3, by simp [Graph.AddEdge, h1, h2, h3, hd]⟩
  · have hf3 : (gomap.get g3.adj v).isSome = true := by
      rw [gomap.get_isSome_iff, hk3, ← gomap.get_isSome_iff]
      exact hf2 rv
    obtain ⟨g4, h4⟩ := setWeight_total g3 v u w hv hu hf3
    exact ⟨g4, by simp [Graph.AddEdge, h1, h2, h3, hd, h4]⟩

/-- `AddEdge`, when it returns, sets the weight found from a vertex `==` to
`u` to a vertex `==` to `v`, in an undirected graph also the weight found in
the other direction, and keeps every other weight. -/
theorem addEdge_spec (g g' : Graph T W) (u v : T) (w : W) (h : g.AddEdge u v w = some g') :
    g'.directed = g.directed ∧
      (∀ x y, g'.weight x y =
        if (gomap.Key.eq u x = true ∧ gomap.Key.eq v y = true) ∨
            (g.directed = false ∧ gomap.Key.eq v x = true ∧ gomap.Key.eq u y = true)
        then some w else g.weight x y) := by
  simp only [Graph.AddEdge] at h
  cases h1 : g.AddVertex u with
  | none => simp [h1] at h
  | some g1 =>
    cases h2 : g1.AddVertex v with
    | none => simp [h1, h2] at h
    | some g2 =>
      cases h3 : g2.setWeight u v w with
      | none => simp [h1, h2, h3] at h
      | some g3 =>
        obtain ⟨_, hd1, hw1, _, _, _⟩ := addVertex_spec g g1 u h1
        obtain ⟨_, hd2, hw2, _, _, _⟩ := addVertex_spec g1 g2 v h2
        obtain ⟨hd3, _, hw3⟩ := setWeight_spec g2 g3 u v w h3
        have hd3' : g3.directed = g.directed := by rw [hd3, hd2, hd1]
        simp only [h1, h2, h3] at h
        by_cases hd : g.directed = true
        · rw [hd3', hd] at h
          simp only [Bool.not_true, Bool.false_eq_true, if_false, Option.some.injEq] at h
          subst h
          refine ⟨hd3', fun x y => ?_⟩
          rw [hw3, hw2, hw1]
          by_cases a : gomap.Key.eq u x = true ∧ gomap.Key.eq v y = true
          · rw [if_pos a, if_pos (Or.inl a)]
          · rw [if_neg a, if_neg]
            rintro (h | h)
            · exact a h
            · rw [hd] at h
              exact absurd h.1 (by simp)
        · have hd' : g.directed = false := by simpa using hd
          rw [hd3', hd'] at h
          simp only [Bool.not_false, if_true] at h
          obtain ⟨hd4, _, hw4⟩ := setWeight_spec g3 g' v u w h
          refine ⟨hd4.trans hd3', fun x y => ?_⟩
          rw [hw4, hw3, hw2, hw1]
          by_cases a : gomap.Key.eq u x = true ∧ gomap.Key.eq v y = true
          · by_cases b : gomap.Key.eq v x = true ∧ gomap.Key.eq u y = true
            · rw [if_pos b, if_pos (Or.inl a)]
            · rw [if_neg b, if_pos a, if_pos (Or.inl a)]
          · by_cases b : gomap.Key.eq v x = true ∧ gomap.Key.eq u y = true
            · rw [if_pos b, if_pos (Or.inr ⟨hd', b⟩)]
            · rw [if_neg b, if_neg a, if_neg]
              rintro (h | h)
              · exact a h
              · exact b h.2

/-- The graph is undirected, the weights found are the same in both
directions, and the keys of `adj` can be hashed. -/
theorem step_symmetric (g g' : Graph T W) (op : GraphOp T W) (h : g.step op = some g')
    (hd : g.directed = false) (hs : ∀ u v, g.weight u v = g.weight v u)
    (hk : ∀ k, k ∈ gomap.keys g.adj → gomap.Key.hashable k = true) :
    g'.directed = false ∧ (∀ u v, g'.weight u v = g'.weight v u) ∧
      (∀ k, k ∈ gomap.keys g'.adj → gomap.Key.hashable k = true) := by
  cases op with
  | addVertex v =>
    obtain ⟨hv, hd1, hw1, hk1, _, _⟩ := addVertex_spec g g' v h
    refine ⟨hd1.trans hd, fun x y => ?_, fun k hk' => ?_⟩
    · rw [hw1, hw1, hs]
    · rcases hk1 k hk' with h' | h'
      · exact hk k h'
      · subst h'
        exact hv
  | addEdge u v w =>
    simp only [Graph.step, Graph.AddEdge] at h
    cases h1 : g.AddVertex u with
    | none => simp [h1] at h
    | some g1 =>
      cases h2 : g1.AddVertex v with
      | none => simp [h1, h2] at h
      | some g2 =>
        cases h3 : g2.setWeight u v w with
        | none => simp [h1, h2, h3] at h
        | some g3 =>
          obtain ⟨hu, hd1, hw1, hk1, _, _⟩ := addVertex_spec g g1 u h1
          obtain ⟨hv, hd2, hw2, hk2, _, _⟩ := addVertex_spec g1 g2 v h2
          obtain ⟨hd3, hk3, hw3⟩ := setWeight_spec g2 g3 u v w h3
          have hd3' : g3.directed = false := by rw [hd3, hd2, hd1, hd]
          simp only [h1, h2, h3, hd3', Bool.not_false, if_true] at h
          obtain ⟨hd4, hk4, hw4⟩ := setWeight_spec g3 g' v u w h
          refine ⟨hd4.trans hd3', fun x y => ?_, fun k hk' => ?_⟩
          · rw [hw4, hw4, hw3, hw3, hw2, hw2, hw1, hw1, hs x y]
            by_cases a1 : gomap.Key.eq v x = true ∧ gomap.Key.eq u y = true
            · rw [if_pos a1]
              by_cases a2 : gomap.Key.eq v y = true ∧ gomap.Key.eq u x = true
              · rw [if_pos a2]
              · rw [if_neg a2, if_pos ⟨a1.2, a1.1⟩]
            · rw [if_neg a1]
              by_cases a2 : gomap.Key.eq v y = true ∧ gomap.Key.eq u x = true
              · rw [if_pos a2, if_pos ⟨a2.2, a2.1⟩]
              · rw [if_neg a2, if_neg (fun h => a2 ⟨h.2, h.1⟩), if_neg (fun h => a1 ⟨h.2, h.1⟩)]
          · rw [hk4, hk3] at hk'
            rcases hk2 k hk' with h' | h'
            · rcases hk1 k h' with h'' | h''
              · exact hk k h''
              · subst h''
                exact hu
            · subst h'
              exact hv
  | removeEdge u v =>
    simp only [Graph.step, Graph.RemoveEdge] at h
    cases h1 : g.dropWeight u v with
    | none => simp [h1] at h
    | some g1 =>
      obtain ⟨hd1, hk1, hw1⟩ := dropWeight_spec g g1 u v h1
      have hd1' : g1.directed = false := by rw [hd1, hd]
      simp only [h1, hd1', Bool.not_false, if_true] at h
      obtain ⟨hd2, hk2, hw2⟩ := dropWeight_spec g1 g' v u h
      refine ⟨hd2.trans hd1', fun x y => ?_, fun k hk' => ?_⟩
      · rw [hw2, hw2, hw1, hw1, hs x y]
        by_cases a1 : gomap.Key.eq v x = true ∧ gomap.Key.eq u y = true
        · rw [if_pos a1]
          by_cases a2 : gomap.Key.eq v y = true ∧ gomap.Key.eq u x = true
          · rw [if_pos a2]
          · rw [if_neg a2, if_pos ⟨a1.2, a1.1⟩]
        · rw [if_neg a1]
          by_cases a2 : gomap.Key.eq v y = true ∧ gomap.Key.eq u x = true
          · rw [if_pos a2, if_pos ⟨a2.2, a2.1⟩]
          · rw [if_neg a2, if_neg (fun h => a2 ⟨h.2, h.1⟩), if_neg (fun h => a1 ⟨h.2, h.1⟩)]
      · rw [hk2, hk1] at hk'
        exact hk k hk'
  | removeVertex v =>
    obtain ⟨hd1, hk1, hw1⟩ := removeVertex_spec g g' v h
    refine ⟨hd1.trans hd, fun x y => ?_, fun k hk' => hk k (hk1 k hk').1⟩
    rw [hw1, hw1, hs x y]
    by_cases a : gomap.Key.eq v x = true ∨ gomap.Key.eq v y = true
    · rw [if_pos a, if_pos (Or.symm a)]
    · rw [if_neg a, if_neg (fun h => a (Or.symm h))]

/-- A call with plain arguments returns on a graph whose keys can be hashed. -/
theorem step_total (g : Graph T W) (op : GraphOp T W) (hp : op.plain = true)
    (hk : ∀ k, k ∈ gomap.keys g.adj → gomap.Key.hashable k = true) :
    ∃ g', g.step op = some g' := by
  cases op with
  | addVertex v => exact addVertex_total g v hp
  | addEdge u v w =>
    simp only [GraphOp.plain, Bool.and_eq_true] at hp
    exact addEdge_total g u v w hp.1.1.1 hp.1.1.2 hp.1.2 hp.2
  | removeEdge u v =>
    simp only [GraphOp.plain, Bool.and_eq_true] at hp
    exact removeEdge_total g u v hp.1 hp.2
  | removeVertex v => exact removeVertex_total g v hp hk

/-- Every run that returns keeps a graph undirected and its weights the same
in both directions. -/
theorem run_symmetric (ops : List (GraphOp T W)) :
    ∀ (g g' : Graph T W), g.run ops = some g' → g.directed = false →
      (∀ u v, g.weight u v = g.weight v u) →
      (∀ k, k ∈ gomap.keys g.adj → gomap.Key.hashable k = true) →
      g'.directed = false ∧ (∀ u v, g'.weight u v = g'.weight v u) := by
  induction ops with
  | nil =>
    intro g g' h hd hs _
    simp only [Graph.run, Option.some.injEq] at h
    subst h
    exact ⟨hd, hs⟩
  | cons op rest ih =>
    intro g g' h hd hs hk
    cases h1 : g.step op with
    | none => simp [Graph.run, h1] at h
    | some g1 =>
      simp only [Graph.run, h1] at h
      obtain ⟨hd1, hs1, hk1⟩ := step_symmetric g g1 op h1 hd hs hk
      exact ih g1 g' h hd1 hs1 hk1

/-- Every run of calls with plain arguments on an undirected graph with
symmetric weights returns. -/
theorem run_total (ops : List (GraphOp T W)) :
    ∀ (g : Graph T W), (∀ op, op ∈ ops → op.plain = true) → g.directed = false →
      (∀ u v, g.weight u v = g.weight v u) →
      (∀ k, k ∈ gomap.keys g.adj → gomap.Key.hashable k = true) →
      ∃ g', g.run ops = some g' := by
  induction ops with
  | nil =>
    intro g _ _ _ _
    exact ⟨g, rfl⟩
  | cons op rest ih =>
    intro g hp hd hs hk
    obtain ⟨g1, h1⟩ := step_total g op (hp op (by simp)) hk
    obtain ⟨hd1, hs1, hk1⟩ := step_symmetric g g1 op h1 hd hs hk
    obtain ⟨g2, h2⟩ := ih g1 (fun o ho => hp o (by simp [ho])) hd1 hs1 hk1
    refine ⟨g2, ?_⟩
    simp only [Graph.run, h1]
    exact h2

end graphLemmas

/-- C37: Undirected symmetry invariant.  In every graph that a sequence of
`AddVertex`, `AddEdge`, `RemoveEdge` and `RemoveVertex` applied to
`New(false)` leads to, which is undirected, for all vertices `u` and `v` the
read of the edge `u->v` and the read of the edge `v->u` give the same result:
one is present iff the other is, and then both carry the same weight.  Such a
sequence runs to its end whenever its arguments can be hashed and the
endpoints of the edges it adds are `==` to themselves. -/
theorem undirected_symmetry {T W : Type} [gomap.Key T] (ops : List (GraphOp T W)) :
    (∀ g, (New false : Graph T W).run ops = some g →
      g.directed = false ∧ ∀ u v, g.edge u v = g.edge v u) ∧
    ((∀ op, op ∈ ops → op.plain = true) → ∃ g, (New false : Graph T W).run ops = some g) := by
  have h0 : ∀ u v, (New false : Graph T W).weight u v = (New false : Graph T W).weight v u :=
    fun _ _ => rfl
  have hk0 : ∀ k, k ∈ gomap.keys (New false : Graph T W).adj → gomap.Key.hashable k = true := by
    intro k hk
    simp [New, gomap.keys] at hk
  refine ⟨fun g h => ?_, fun hp => run_total ops (New false) hp rfl h0 hk0⟩
  obtain ⟨hd, hs⟩ := run_symmetric ops (New false) g h rfl h0 hk0
  refine ⟨hd, fun u v => ?_⟩
  rw [edge_eq, edge_eq, hs u v]
  by_cases hu : gomap.Key.hashable u = true ∧ gomap.Key.hashable v = true
  · rw [if_pos hu, if_pos ⟨hu.2, hu.1⟩]
  · rw [if_neg hu, if_neg (fun h => hu ⟨h.2, h.1⟩)]

/-- The scenarios of TestUndirectedSymmetry and TestRemoveEdgeUndirected:
edge 1-2 with weight 5, then more calls; and a run with a NaN vertex. -/
theorem undirected_symmetry_witness :
    ((New false : Graph Int Int).run [.addEdge 1 2 5]).map
        (fun g => (g.edge 1 2, g.edge 2 1)) = some (some (some 5), some (some 5)) ∧
      ((New false : Graph Int Int).run [.addEdge 1 2 5, .addEdge 2 3 7, .addEdge 2 1 6,
        .removeEdge 3 2, .addVertex 4]).map
          (fun g => (g.edge 1 2, g.edge 2 1, g.edge 2 3, g.edge 3 2)) =
        some (some (some 6), some (some 6), some none, some none) ∧
      ((New false : Graph Int Int).run [.addEdge 1 2 5, .addEdge 2 3 7, .addEdge 2 1 6,
        .removeEdge 3 2, .addVertex 4]).map (fun g => g.Vertices.card) = some 4 ∧
      (New false : Graph gomap.float64 Int).run [.addEdge (.num 1) .NaN 2] = none ∧
      (∃ g, (New false : Graph Int Int).run [.addEdge 1 2 5, .removeVertex 1] = some g ∧
        g.directed = false ∧ ∀ u v, g.edge u v = g.edge v u) ∧
      ∃ g, (New false : Graph gomap.float64 Int).run
        [.addVertex .NaN, .addEdge (.num 1) (.num 2) 5, .removeVertex .NaN] = some g ∧
        g.directed = false ∧ ∀ u v, g.edge u v = g.edge v u :=
  ⟨by decide, by decide, by decide, by decide,
    ((undirected_symmetry [GraphOp.addEdge (1 : Int) 2 (5 : Int), .removeVertex 1]).2
      (by decide)).imp
      (fun g h => ⟨h, (undirected_symmetry [.addEdge 1 2 5, .removeVertex 1]).1 g h⟩),
    ⟨_, rfl, (undirected_symmetry
      [GraphOp.addVertex gomap.float64.NaN, .addEdge (.num 1) (.num 2) (5 : Int),
        .removeVertex .NaN]).1 _ rfl⟩⟩

/-- C30 on a graph of `float64` with a NaN: on the directed graph made by
`New`, `AddEdge(NaN, 1, 2)` panics; on the undirected one `AddEdge(1, NaN, 2)`
panics; and on the directed one `AddEdge(1, NaN, 2)` returns, but the read of
`Neighbors(1)[NaN]` finds no weight. -/
theorem add_edge_nan_panics :
    (New true : Graph gomap.float64 gomap.float64).AddEdge .NaN (.num 1) (.num 2) = none ∧
      (New false : Graph gomap.float64 gomap.float64).AddEdge (.num 1) .NaN (.num 2) = none ∧
      ∃ g, (New true : Graph gomap.float64 gomap.float64).AddEdge (.num 1) .NaN (.num 2) =
          some g ∧ g.edge (.num 1) .NaN = some none :=
  ⟨by decide, by decide, ⟨_, rfl, by decide⟩⟩

/-- C31 on a graph of `float64` with a NaN: after `AddVertex(NaN)` on the
directed graph made by `New`, `RemoveVertex(NaN)` returns and leaves the
graph as it was, so that `Vertices()` still holds the NaN. -/
theorem remove_vertex_nan_stays :
    ∃ g, (New true : Graph gomap.float64 gomap.float64).AddVertex .NaN = some g ∧
      g.RemoveVertex .NaN = some g ∧ g.Vertices = {gomap.float64.NaN} ∧
      g.Vertices.card = 1 :=
  ⟨{ directed := true, adj := [(.NaN, [])] }, by decide, by decide, rfl, rfl⟩

end graph
